import Mathlib

/-!
uThread: a shallow embedding of the user-level thread scheduler

The development follows `Thread.cpp`, `Scheduler.cpp` and `uthreads.cpp`.

Modelling conventions.

* `Thread*` values are addresses (`Nat`) into an explicit heap of `Thread`
  objects.  `new` hands out an address that was never used before, `delete`
  removes the object from the heap.  Dereferencing an address that is not in
  the heap, `std::list::front` on an empty list and `std::map::at` on a missing
  key are undefined behaviour or an uncaught exception in the source; the model
  returns `none` there.
* `std::map<int, T>` is an association list kept sorted by key, `std::set<int>`
  a sorted list; `insert` keeps an existing key, as in the standard library.
* C++ `int` is `Int`.  The one sum of two `int`s that takes a caller-supplied
  operand, `total_quantum_counter + num_quants` in `sleepCurrentThread`, is
  taken modulo 2^32 into the range of a 32-bit `int` (`wrapInt`), as the
  target computes it.  The counters that grow by one per quantum or per spawn
  are not wrapped: they would need 2^31 events to leave the range.
* A context switch (`sigsetjmp` / `siglongjmp`) transfers control only; the
  scheduler tables after the switch are what the model returns.  The direct
  call of `saveRunStatus` returns 0, so the switch branch is the one taken.
* Signal masking carries no scheduler data and is left out; a timer expiry is
  the operation `timerHandler`.  Of the interval timer the model keeps the
  one way `setitimer` fails on scheduler data: `timer_data` holds `quant_len`
  in `it_value.tv_usec`, and the call is rejected with `EINVAL` when that value
  is outside 0..999999 (`timerRejects`); `runTimer` then prints a system error
  and exits, which the model renders as `none`.  `sigaction` is assumed to
  succeed.
* `MAX_THREAD_NUM` is declared in `uthreads.h`, which is not part of the
  sources at hand; it is a parameter of `addNewThread` and `uthread_spawn`.
-/

namespace UThread

/-! ## Thread.h / Thread.cpp -/

/-- Thread states, `enum State` of `Thread.h`. -/
inductive State where
  | READY
  | RUNNING
  | BLOCKED
  | SLEEPING
  | TERMINATED
deriving DecidableEq, Repr

/-- The scheduler-visible fields of `class Thread`: `id`, `state`,
`total_run_time`.  The saved context and the stack are not modelled. -/
structure Thread where
  id : Int
  state : State
  total_run_time : Int
deriving DecidableEq, Repr

/-- The id allocator `Thread::Thread_ID_Maker`: the set of released ids
(ascending) and the high-water mark. -/
structure Thread_ID_Maker where
  available_ids : List Int
  last_id : Int
deriving DecidableEq, Repr

/-- Insertion into a `std::set<int>` (sorted, no duplicates). -/
def setInsert (x : Int) : List Int → List Int
  | [] => [x]
  | y :: ys =>
    if x < y then x :: y :: ys
    else if x = y then y :: ys
    else y :: setInsert x ys

/-- The constructor `Thread_ID_Maker()`: `last_id = -1`, no released ids. -/
def Thread_ID_Maker.new : Thread_ID_Maker :=
  { available_ids := [], last_id := -1 }

/-- `Thread_ID_Maker::getNewID`.  The source reads `*lowest` after erasing it;
the model returns the value the iterator pointed to. -/
def Thread_ID_Maker.getNewID (m : Thread_ID_Maker) : Int × Thread_ID_Maker :=
  match m.available_ids with
  | [] => (m.last_id + 1, { m with last_id := m.last_id + 1 })
  | lowest :: rest =>
    if lowest < m.last_id then
      (lowest, { m with available_ids := rest })
    else
      (m.last_id + 1, { available_ids := [], last_id := m.last_id + 1 })

/-- `Thread_ID_Maker::addIDtoList`. -/
def Thread_ID_Maker.addIDtoList (m : Thread_ID_Maker) (eliminated : Int) : Thread_ID_Maker :=
  if eliminated ∈ m.available_ids then m
  else if eliminated = m.last_id then { m with last_id := m.last_id - 1 }
  else { m with available_ids := setInsert eliminated m.available_ids }

/-! ## Containers -/

/-- Lookup in a `std::map<int, β>` (`find` / `count` / `at`). -/
def mfind {β : Type} : List (Int × β) → Int → Option β
  | [], _ => none
  | (k, v) :: m, x => if k = x then some v else mfind m x

/-- Placement of a new entry at its position in key order. -/
def mplace {β : Type} (k : Int) (v : β) : List (Int × β) → List (Int × β)
  | [] => [(k, v)]
  | (k1, v1) :: m =>
    if k < k1 then (k, v) :: (k1, v1) :: m
    else (k1, v1) :: mplace k v m

/-- `std::map::insert`: an existing key keeps its value, a new key is placed
in key order. -/
def minsert {β : Type} (k : Int) (v : β) (m : List (Int × β)) : List (Int × β) :=
  if (mfind m k).isSome then m else mplace k v m

/-- `std::map::erase(key)`. -/
def merase {β : Type} : List (Int × β) → Int → List (Int × β)
  | [], _ => []
  | (k, v) :: m, x => if k = x then merase m x else (k, v) :: merase m x

/-- Dereference of a `Thread*`. -/
def hfind : List (Nat × Thread) → Nat → Option Thread
  | [], _ => none
  | (a, t) :: h, p => if a = p then some t else hfind h p

/-- Overwrite the object at address `p` (the one `hfind` returns). -/
def hset : List (Nat × Thread) → Nat → Thread → List (Nat × Thread)
  | [], _, _ => []
  | (a, t) :: h, p, u => if a = p then (a, u) :: h else (a, t) :: hset h p u

/-- The value a 32-bit two's-complement `int` holds for the mathematical
integer `x`: `x` itself when it lies in -2147483648..2147483647, and `x`
shifted by a multiple of 2^32 into that range otherwise. -/
def wrapInt (x : Int) : Int :=
  (x + 2147483648) % 4294967296 - 2147483648

/-- Remove the object at address `p` from the heap (`delete`). -/
def hdel : List (Nat × Thread) → Nat → List (Nat × Thread)
  | [], _ => []
  | (a, t) :: h, p => if a = p then hdel h p else (a, t) :: hdel h p

/-- `std::list::remove(value)`: every element equal to `p` goes. -/
def lremove : List Nat → Nat → List Nat
  | [], _ => []
  | a :: l, p => if a = p then lremove l p else a :: lremove l p

/-! ## Scheduler.h: the process state -/

/-- The `Scheduler` object together with the heap of `Thread` objects and the
static `Thread::threadIdMaker`. -/
structure World where
  heap : List (Nat × Thread)
  next_addr : Nat
  threadIdMaker : Thread_ID_Maker
  running : Nat
  ready : List Nat
  blocked : List (Int × Nat)
  sleeping : List (Int × Int)
  threads : List (Int × Nat)
  quant_len : Int
  total_quantum_counter : Int
  next_sleep_check : Int
  terminated : Option Nat
deriving DecidableEq, Repr

/-- `new Thread(entry_point)`: a fresh id from the allocator, state `READY`,
run time 0.  Returns the address of the new object. -/
def World.newThread (w : World) : Nat × World :=
  let r := w.threadIdMaker.getNewID
  (w.next_addr,
    { w with
      heap := w.heap ++ [(w.next_addr, { id := r.1, state := State.READY, total_run_time := 0 })]
      next_addr := w.next_addr + 1
      threadIdMaker := r.2 })

/-- `delete thread`: `Thread::~Thread` releases the id when it is not 0. -/
def World.deleteThread (w : World) (p : Nat) : Option World :=
  match hfind w.heap p with
  | none => none
  | some t =>
    some { w with
      heap := hdel w.heap p
      threadIdMaker := if t.id ≠ 0 then w.threadIdMaker.addIDtoList t.id else w.threadIdMaker }

/-- `Thread::removeID`. -/
def World.removeID (w : World) (p : Nat) : Option World :=
  match hfind w.heap p with
  | none => none
  | some t => some { w with threadIdMaker := w.threadIdMaker.addIDtoList t.id }

/-- `Thread::setState`. -/
def World.setState (w : World) (p : Nat) (st : State) : Option World :=
  match hfind w.heap p with
  | none => none
  | some t => some { w with heap := hset w.heap p { t with state := st } }

/-- `Thread::incrementQuantumAmount`. -/
def World.incrementQuantumAmount (w : World) (p : Nat) : Option World :=
  match hfind w.heap p with
  | none => none
  | some t => some { w with heap := hset w.heap p { t with total_run_time := t.total_run_time + 1 } }

/-! ## Scheduler.cpp -/

/-- `Scheduler::getThreadByID`. -/
def World.getThreadByID (w : World) (id : Int) : Option Nat :=
  mfind w.threads id

/-- `Scheduler::setReady`. -/
def World.setReady (w : World) (p : Nat) : Option World :=
  match w.setState p State.READY with
  | none => none
  | some w1 => some { w1 with ready := w1.ready ++ [p] }

/-- `Scheduler::unblockThread`. -/
def World.unblockThread (w : World) (p : Nat) : Option World :=
  match hfind w.heap p with
  | none => none
  | some t =>
    if t.state ≠ State.BLOCKED then some w
    else if (mfind w.sleeping t.id).isSome then w.setState p State.SLEEPING
    else World.setReady { w with blocked := merase w.blocked t.id } p

/-- The loop of `Scheduler::handleSleeping`, over the entries of the sleeping
map from the iterator position on.  `next_check` is the local of that name. -/
def World.handleSleepingLoop : List (Int × Int) → Int → World → Option (Int × World)
  | [], next_check, w => some (next_check, w)
  | (id, deadline) :: rest, next_check, w =>
    if deadline = w.next_sleep_check then
      let w1 := { w with sleeping := merase w.sleeping id }
      match mfind w1.blocked id with
      | none => none
      | some p =>
        match hfind w1.heap p with
        | none => none
        | some t =>
          if t.state = State.SLEEPING then
            match w1.setState p State.BLOCKED with
            | none => none
            | some w2 =>
              match w2.unblockThread p with
              | none => none
              | some w3 => World.handleSleepingLoop rest next_check w3
          else World.handleSleepingLoop rest next_check w1
    else
      World.handleSleepingLoop rest
        (if next_check = 0 ∨ deadline < next_check then deadline else next_check) w

/-- `Scheduler::handleSleeping`. -/
def World.handleSleeping (w : World) : Option World :=
  match World.handleSleepingLoop w.sleeping 0 w with
  | none => none
  | some (next_check, w1) => some { w1 with next_sleep_check := next_check }

/-- The call `setitimer(ITIMER_VIRTUAL, &timer_data, nullptr)` fails: with
`timer_data = {0, 0, 0, quant_len}` the field `it_value.tv_usec` is `quant_len`,
which `setitimer` rejects (`EINVAL`) outside 0..999999. -/
def timerRejects (quant_len : Int) : Prop :=
  quant_len < 0 ∨ 999999 < quant_len

instance (quant_len : Int) : Decidable (timerRejects quant_len) := by
  unfold timerRejects; infer_instance

/-- `Scheduler::runTimer`.  When `setitimer` fails the source prints a system
error, deletes the scheduler and calls `exit(1)`: the result is `none`. -/
def World.runTimer (w : World) : Option World :=
  match w.incrementQuantumAmount w.running with
  | none => none
  | some w1 =>
    let w2 := { w1 with total_quantum_counter := w1.total_quantum_counter + 1 }
    match (if w2.total_quantum_counter = w2.next_sleep_check then w2.handleSleeping
           else some w2) with
    | none => none
    | some w3 => if timerRejects w3.quant_len then none else some w3

/-- `Scheduler::runThread`. -/
def World.runThread (w : World) (p : Nat) : Option World :=
  match w.setState p State.RUNNING with
  | none => none
  | some w1 => World.runTimer { w1 with running := p }

/-- `Scheduler::runNextThread`. -/
def World.runNextThread (w : World) : Option World :=
  match w.ready with
  | [] => none
  | next_in_line :: rest => World.runThread { w with ready := rest } next_in_line

/-- `Scheduler::addNewThread`; the result 0 is the error code. -/
def World.addNewThread (MAX_THREAD_NUM : Nat) (w : World) (p : Nat) : Option (Int × World) :=
  if w.threads.length = MAX_THREAD_NUM then some (0, w)
  else
    match hfind w.heap p with
    | none => none
    | some t =>
      match World.setReady { w with threads := minsert t.id p w.threads } p with
      | none => none
      | some w1 => some (t.id, w1)

/-- `Scheduler::blockThread`. -/
def World.blockThread (w : World) (p : Nat) : Option World :=
  match hfind w.heap p with
  | none => none
  | some t =>
    match (if t.state ≠ State.SLEEPING ∨ (mfind w.blocked t.id).isSome
           then w.setState p State.BLOCKED else some w) with
    | none => none
    | some w1 =>
      let w2 := { w1 with blocked := minsert t.id p w1.blocked }
      if w2.running = p then w2.runNextThread
      else some { w2 with ready := lremove w2.ready p }

/-- `Scheduler::sleepCurrentThread`.  The sum is a sum of two `int`s. -/
def World.sleepCurrentThread (w : World) (num_quants : Int) : Option World :=
  let wake_up_time := wrapInt (w.total_quantum_counter + num_quants)
  let w1 :=
    if w.next_sleep_check = 0 ∨ wake_up_time < w.next_sleep_check
    then { w with next_sleep_check := wake_up_time } else w
  match hfind w1.heap w1.running with
  | none => none
  | some t =>
    match World.setState { w1 with sleeping := minsert t.id wake_up_time w1.sleeping }
        w1.running State.SLEEPING with
    | none => none
    | some w2 => w2.blockThread w2.running

/-- `Scheduler::removeThread` for a non-null argument. -/
def World.removeThread (w : World) (p : Nat) : Option World :=
  match hfind w.heap p with
  | none => none
  | some t =>
    some { w with
      ready := lremove w.ready p
      blocked := merase w.blocked t.id
      sleeping := merase w.sleeping t.id
      threads := merase w.threads t.id }

/-- The reaping step at the head of the self-termination branch of
`Scheduler::terminateThread`. -/
def World.reapBeforeTerminate (w : World) : Option World :=
  match w.terminated with
  | none => some w
  | some q =>
    if q ≠ w.running then
      match w.removeThread q with
      | none => none
      | some w1 => w1.deleteThread q
    else some w

/-- `Scheduler::terminateThread`. -/
def World.terminateThread (w : World) (p : Nat) : Option World :=
  match hfind w.heap p, hfind w.heap w.running with
  | some t, some r =>
    if t.id = r.id then
      match w.reapBeforeTerminate with
      | none => none
      | some w1 =>
        match World.setState { w1 with terminated := some w1.running } w1.running State.TERMINATED with
        | none => none
        | some w2 =>
          match w2.removeThread p with
          | none => none
          | some w3 =>
            match w3.removeID p with
            | none => none
            | some w4 => w4.runNextThread
    else
      match w.removeThread p with
      | none => none
      | some w1 => w1.deleteThread p
  | _, _ => none

/-- `Scheduler::timerHandler`. -/
def World.timerHandler (w : World) : Option World :=
  match (match w.terminated with
         | none => some w
         | some q =>
           match w.deleteThread q with
           | none => none
           | some w1 => some { w1 with terminated := none }) with
  | none => none
  | some w1 =>
    match w1.setReady w1.running with
    | none => none
    | some w2 => w2.runNextThread

/-- The constructor `Scheduler::Scheduler`, run on the freshly initialised
static id allocator. -/
def World.init (quantum_length : Int) : Option World :=
  let r := Thread_ID_Maker.new.getNewID
  World.runTimer
    { heap := [(0, { id := r.1, state := State.RUNNING, total_run_time := 0 })]
      next_addr := 1
      threadIdMaker := r.2
      running := 0
      ready := []
      blocked := []
      sleeping := []
      threads := minsert 0 0 []
      quant_len := quantum_length
      total_quantum_counter := 0
      next_sleep_check := 0
      terminated := none }

/-! ## uthreads.cpp: the public operations

Every operation returns its `int` result and the state it leaves.  For a call
that switches away from the caller the state is the one at the start of the
next thread's quantum and the result is what the caller receives once it is
resumed.  `none` stands for undefined behaviour, an uncaught exception or
process exit. -/

/-- `uthread_init`: the value returned and the `scheduler` pointer it leaves
(`none` in the second component is the null pointer).  The result is `none`
when the constructor exits the process. -/
def uthread_init (quantum_usecs : Int) : Option (Int × Option World) :=
  if quantum_usecs ≤ 0 then some (-1, none)
  else
    match World.init quantum_usecs with
    | none => none
    | some w => some (0, some w)

/-- `uthread_spawn`; `entry_point` tells whether the entry point is non-null. -/
def uthread_spawn (MAX_THREAD_NUM : Nat) (entry_point : Bool) (w : World) : Option (Int × World) :=
  if entry_point = false then some (-1, w)
  else
    let r := w.newThread
    match World.addNewThread MAX_THREAD_NUM r.2 r.1 with
    | none => none
    | some (res, w1) =>
      if res = 0 then some (-1, w1)
      else
        match hfind w1.heap r.1 with
        | none => none
        | some t => some (t.id, w1)

/-- `uthread_terminate`; `terminate(0)` exits the process. -/
def uthread_terminate (tid : Int) (w : World) : Option (Int × World) :=
  if tid = 0 then none
  else
    match w.getThreadByID tid with
    | none => some (-1, w)
    | some p =>
      match w.terminateThread p with
      | none => none
      | some w1 => some (0, w1)

/-- `uthread_block`. -/
def uthread_block (tid : Int) (w : World) : Option (Int × World) :=
  if tid = 0 then some (-1, w)
  else
    match w.getThreadByID tid with
    | none => some (-1, w)
    | some p =>
      match hfind w.heap p with
      | none => none
      | some t =>
        if t.state = State.TERMINATED then some (-1, w)
        else
          match w.blockThread p with
          | none => none
          | some w1 => some (0, w1)

/-- `uthread_resume`. -/
def uthread_resume (tid : Int) (w : World) : Option (Int × World) :=
  match w.getThreadByID tid with
  | none => some (-1, w)
  | some p =>
    match hfind w.heap p with
    | none => none
    | some t =>
      if t.state = State.TERMINATED then some (-1, w)
      else
        match w.unblockThread p with
        | none => none
        | some w1 => some (0, w1)

/-- `uthread_sleep`. -/
def uthread_sleep (num_quantums : Int) (w : World) : Option (Int × World) :=
  match hfind w.heap w.running with
  | none => none
  | some t =>
    if t.id = 0 then some (-1, w)
    else
      match w.sleepCurrentThread num_quantums with
      | none => none
      | some w1 => some (0, w1)

/-- `uthread_get_tid`. -/
def uthread_get_tid (w : World) : Option Int :=
  match hfind w.heap w.running with
  | none => none
  | some t => some t.id

/-- `uthread_get_total_quantums`. -/
def uthread_get_total_quantums (w : World) : Int :=
  w.total_quantum_counter

/-- `uthread_get_quantums`. -/
def uthread_get_quantums (tid : Int) (w : World) : Option Int :=
  match w.getThreadByID tid with
  | none => some (-1)
  | some p =>
    match hfind w.heap p with
    | none => none
    | some t => if t.state = State.TERMINATED then some (-1) else some t.total_run_time

/-! ## Executions -/

/-- One event of an execution: a public call made by the running thread, or
the expiry of the quantum timer. -/
inductive Op where
  | spawn
  | block (tid : Int)
  | resume (tid : Int)
  | sleep (num_quantums : Int)
  | terminate (tid : Int)
  | timer
deriving DecidableEq, Repr

/-- The effect of one event: the value returned (0 for a timer expiry) and the
state left. -/
def step (MAX_THREAD_NUM : Nat) (w : World) : Op → Option (Int × World)
  | Op.spawn => uthread_spawn MAX_THREAD_NUM true w
  | Op.block tid => uthread_block tid w
  | Op.resume tid => uthread_resume tid w
  | Op.sleep n => uthread_sleep n w
  | Op.terminate tid => uthread_terminate tid w
  | Op.timer =>
    match w.timerHandler with
    | none => none
    | some w1 => some (0, w1)

/-- Run a sequence of events, collecting the returned values. -/
def run (MAX_THREAD_NUM : Nat) : List Op → World → Option (List Int × World)
  | [], w => some ([], w)
  | op :: ops, w =>
    match step MAX_THREAD_NUM w op with
    | none => none
    | some (r, w1) =>
      match run MAX_THREAD_NUM ops w1 with
      | none => none
      | some (rs, w2) => some (r :: rs, w2)

/-- The state a successful `uthread_init quantum_usecs` leaves. -/
def initWorld (quantum_usecs : Int) : World :=
  { heap := [(0, { id := 0, state := State.RUNNING, total_run_time := 1 })]
    next_addr := 1
    threadIdMaker := { available_ids := [], last_id := 0 }
    running := 0
    ready := []
    blocked := []
    sleeping := []
    threads := [(0, 0)]
    quant_len := quantum_usecs
    total_quantum_counter := 1
    next_sleep_check := 0
    terminated := none }

/-- The state of the thread at address `p`, if the object exists. -/
def World.stateOf (w : World) (p : Nat) : Option State :=
  (hfind w.heap p).map Thread.state

/-- The quantum counter of the thread at address `p`, if the object exists. -/
def World.runTimeOf (w : World) (p : Nat) : Option Int :=
  (hfind w.heap p).map Thread.total_run_time

/-- The id of the thread at address `p`, if the object exists. -/
def World.idOf (w : World) (p : Nat) : Option Int :=
  (hfind w.heap p).map Thread.id

/-! ## The id allocator in isolation -/

/-- A call on the id allocator: `allocate` is `getNewID`, `release` is
`addIDtoList`. -/
inductive AllocOp where
  | allocate
  | release (id : Int)
deriving DecidableEq, Repr

/-- Run a sequence of allocator calls; the ids returned by the `allocate`
calls are listed in call order. -/
def runAlloc : List AllocOp → Thread_ID_Maker → List Int × Thread_ID_Maker
  | [], m => ([], m)
  | AllocOp.allocate :: ops, m =>
    ((m.getNewID).1 :: (runAlloc ops (m.getNewID).2).1, (runAlloc ops (m.getNewID).2).2)
  | AllocOp.release id :: ops, m => runAlloc ops (m.addIDtoList id)

/-! ## Concrete executions used as examples -/

/-- The state reached from `uthread_init 1` by the events `ops`, with
`MAX_THREAD_NUM = 100` (the initial state again if the execution fails). -/
def worldAfter (ops : List Op) : World :=
  match run 100 ops (initWorld 1) with
  | some r => r.2
  | none => initWorld 1

/-- Main spawns thread 1, which runs and terminates itself; main spawns again
(id 1 is reissued) and is preempted, so the deferred reap happens while the
second thread 1 is alive. -/
def reapTrace : List Op :=
  [Op.spawn, Op.timer, Op.terminate 1, Op.spawn, Op.timer]

/-- After `reapTrace` the running thread (address 2, id 1) spawns and gets id 1
once more (address 3); two timer expiries later the thread at address 3 runs
and calls `sleep 3` at counter 6, and one more timer expiry gives the processor
to main at counter 8.  Two live threads carry id 1: the one at address 2 is
READY and is the one the thread index holds under id 1; the one at address 3 is
SLEEPING with deadline 9 and is the one the blocked set holds under id 1. -/
def twinTrace : List Op :=
  reapTrace ++ [Op.spawn, Op.timer, Op.timer, Op.sleep 3, Op.timer]

/-- The shape of every state reached from `uthread_init` by `k` successful
spawns and nothing else: ids 1..k are indexed, the allocator's mark is `k`,
main is running. -/
def SpawnedOnly (k : Nat) (w : World) : Prop :=
  w.threadIdMaker = { available_ids := [], last_id := k } ∧
  w.threads.length = k + 1 ∧
  (∀ e ∈ w.threads, e.1 ≤ (k : Int)) ∧
  (∀ e ∈ w.heap, e.1 < w.next_addr) ∧
  (∀ j : Int, 1 ≤ j → j ≤ k →
    ∃ p t, mfind w.threads j = some p ∧ hfind w.heap p = some t ∧ t.id = j) ∧
  (∃ r, hfind w.heap w.running = some r ∧ r.id = 0)

/-- The states `w` and `w1` differ only by a wake-up of the threads `woken`:
these were SLEEPING and are READY at the tail of the ready queue, in that
order; the blocked set lost their ids and the sleeping map lost entries at
most; every other thread and every counter is as before. -/
structure Woke (w w1 : World) (woken : List Nat) : Prop where
  ready_eq : w1.ready = w.ready ++ woken
  heap_other : ∀ q, q ∉ woken → hfind w1.heap q = hfind w.heap q
  heap_woken : ∀ q ∈ woken, ∃ t, hfind w.heap q = some t ∧ t.state = State.SLEEPING ∧
    hfind w1.heap q = some { t with state := State.READY }
  blocked_keep : ∀ k, (∀ q ∈ woken, ∀ t, hfind w.heap q = some t → t.id ≠ k) →
    mfind w1.blocked k = mfind w.blocked k
  blocked_sub : ∀ k v, mfind w1.blocked k = some v → mfind w.blocked k = some v
  sleeping_sub : ∀ e, e ∈ w1.sleeping → e ∈ w.sleeping
  running_eq : w1.running = w.running
  total_eq : w1.total_quantum_counter = w.total_quantum_counter
  check_eq : w1.next_sleep_check = w.next_sleep_check
  threads_eq : w1.threads = w.threads
  terminated_eq : w1.terminated = w.terminated
  maker_eq : w1.threadIdMaker = w.threadIdMaker
  addr_eq : w1.next_addr = w.next_addr
  quant_eq : w1.quant_len = w.quant_len
  blocked_gone : ∀ q ∈ woken, ∀ t, hfind w.heap q = some t → mfind w1.blocked t.id = none

/-- The state in which the thread at `h` (object `th`) has just been given the
processor with `rest` left in the ready queue, before the wake scan. -/
def World.switchTo (w : World) (h : Nat) (th : Thread) (rest : List Nat) : World :=
  { w with
    ready := rest
    heap := hset w.heap h
      { th with state := State.RUNNING, total_run_time := th.total_run_time + 1 }
    running := h
    total_quantum_counter := w.total_quantum_counter + 1 }

/-- What the wake scan relies on: the sleeping map has one entry per key, every
sleeping id is a key of the blocked set, and every entry of the blocked set
points to a live thread stored under its own id. -/
def WakeReady (w : World) : Prop :=
  (w.sleeping.map Prod.fst).Nodup ∧
  (∀ e ∈ w.sleeping, (mfind w.blocked e.1).isSome) ∧
  (∀ e ∈ w.blocked, (hfind w.heap e.2).map Thread.id = some e.1)

instance (w : World) : Decidable (WakeReady w) := by
  unfold WakeReady; infer_instance

/-- A consistent scheduler state, as far as a switch is concerned: the running
thread is a live object in state RUNNING and the only one in that state, the
ready threads are live objects, the running thread is not in the ready queue, a thread awaiting its
deferred reap is a live object outside the running slot, the ready queue and
the blocked set, the wake scan can run, and the quantum length is one that
`setitimer` accepts (as it is once the constructor has returned). -/
def Consistent (w : World) : Prop :=
  w.stateOf w.running = some State.RUNNING ∧
  (∀ p ∈ w.ready, (hfind w.heap p).isSome) ∧
  w.running ∉ w.ready ∧
  (∀ e ∈ w.heap, e.2.state = State.RUNNING → e.1 = w.running) ∧
  (∀ q ∈ w.terminated,
    (hfind w.heap q).isSome ∧ q ≠ w.running ∧ q ∉ w.ready ∧ ∀ e ∈ w.blocked, e.2 ≠ q) ∧
  WakeReady w ∧
  ¬ timerRejects w.quant_len

instance (w : World) : Decidable (Consistent w) := by
  unfold Consistent; infer_instance

/-- The result `w1` of a voluntary switch made by the running thread of `w`
when the ready queue of `w` is `h :: rest`: `h` runs and is the only thread in
state RUNNING; the ready queue is `rest` followed by the threads `woken` by the
wake scan of this quantum start; the caller is in the ready queue only if
`selfWake` holds; each woken thread is READY and either is the caller (under
`selfWake`) or was SLEEPING, in the blocked set, with a deadline equal to the
new counter value; the quantum counter of `h` and the total-quantum counter
are one more than in `w`. -/
def VoluntarySwitch (w : World) (h : Nat) (rest : List Nat) (selfWake : Prop)
    (w1 : World) (woken : List Nat) : Prop :=
  w1.running = h ∧
  (∀ p t, hfind w1.heap p = some t → (t.state = State.RUNNING ↔ p = h)) ∧
  w1.ready = rest ++ woken ∧
  (w.running ∈ w1.ready → selfWake) ∧
  (∀ x ∈ woken, w1.stateOf x = some State.READY ∧
    ((x = w.running ∧ selfWake) ∨
     (x ≠ w.running ∧ w.stateOf x = some State.SLEEPING ∧
       ∃ id, (id, w.total_quantum_counter + 1) ∈ w.sleeping ∧ mfind w.blocked id = some x))) ∧
  (∃ n, w.runTimeOf h = some n ∧ w1.runTimeOf h = some (n + 1)) ∧
  w1.total_quantum_counter = w.total_quantum_counter + 1

/-- Thread 2 runs, main is ready, thread 1 sleeps until quantum 4; the counter
is 3. -/
def wakeWorld : World :=
  worldAfter [Op.spawn, Op.spawn, Op.timer, Op.sleep 2]

/-- The thread object at address `p`, with id `i` and state `st`, is guarded:
it is the only live object with id `i`, the allocator regards `i` as taken,
the thread index and the blocked set hold `p` under `i` and under no other
key, and `p` is neither awaiting a deferred reap nor in the ready queue. -/
structure Guarded (st : State) (i : Int) (p : Nat) (w : World) : Prop where
  obj : ∃ t, hfind w.heap p = some t ∧ t.id = i ∧ t.state = st
  unique : ∀ q t, hfind w.heap q = some t → t.id = i → q = p
  mark : i ≤ w.threadIdMaker.last_id
  not_free : i ∉ w.threadIdMaker.available_ids
  fresh : p < w.next_addr
  indexed : mfind w.threads i = some p
  index_own : ∀ k, mfind w.threads k = some p → k = i
  blocked_own : ∀ k, mfind w.blocked k = some p → k = i
  in_blocked : mfind w.blocked i = some p
  not_reaped : w.terminated ≠ some p
  not_ready : p ∉ w.ready

/-- The sleep of thread `i` with deadline `d` is pending: the sleeping map
holds `d` for `i`, and `next_sleep_check` lies above the counter, at or below
`d` and at or below every stored deadline, so that the wake scan will run at
`d`. -/
structure Pending (i d : Int) (w : World) : Prop where
  entry : mfind w.sleeping i = some d
  entry_only : ∀ e ∈ w.sleeping, e.1 = i → e.2 = d
  counter_nonneg : 0 ≤ w.total_quantum_counter
  check_pos : w.total_quantum_counter < w.next_sleep_check
  check_le : w.next_sleep_check ≤ d
  check_min : ∀ e ∈ w.sleeping, w.next_sleep_check ≤ e.2

/-- The sleeping map has no entry for id `i`. -/
def Absent (i : Int) (w : World) : Prop :=
  ∀ e ∈ w.sleeping, e.1 ≠ i

/-- The states after each event of an execution, in order. -/
def trace (MAX_THREAD_NUM : Nat) : List Op → World → Option (List World)
  | [], _ => some []
  | op :: ops, w =>
    match step MAX_THREAD_NUM w op with
    | none => none
    | some (_, w1) =>
      match trace MAX_THREAD_NUM ops w1 with
      | none => none
      | some ws => some (w1 :: ws)

/-- The event `op`, made in state `w`, is not a `sleep` that goes wrong: if it
is `sleep m` then `m ≥ 1` and the wake-up time `total_quantum_counter + m` does
not exceed the largest `int`, 2147483647 (so the sum of the two `int`s in
`sleepCurrentThread` does not overflow and lies above the counter). -/
def SleepFits (w : World) : Op → Prop
  | Op.sleep m => 1 ≤ m ∧ w.total_quantum_counter + m ≤ 2147483647
  | _ => True

instance (w : World) (op : Op) : Decidable (SleepFits w op) := by
  cases op <;> unfold SleepFits <;> infer_instance

/-- The events that leave a guarded thread with id `i` and state `st` alone:
no `terminate` of `i`, a `block` of `i` only when the thread is BLOCKED
already, a `resume` of `i` only when it is not BLOCKED. -/
def Allowed (st : State) (i : Int) (op : Op) : Prop :=
  op ≠ Op.terminate i ∧ (op = Op.block i → st = State.BLOCKED) ∧
  (op = Op.resume i → st ≠ State.BLOCKED)

/-- From `w` to `v` the counter, `next_sleep_check`, the running thread and the
sleeping-map entry of `i` are kept, and the sleeping map gained nothing. -/
structure ClockKeep (i : Int) (w v : World) : Prop where
  total_eq : v.total_quantum_counter = w.total_quantum_counter
  check_eq : v.next_sleep_check = w.next_sleep_check
  running_eq : v.running = w.running
  entry_eq : mfind v.sleeping i = mfind w.sleeping i
  sub : ∀ e ∈ v.sleeping, e ∈ w.sleeping

/-- How the part of an event before a possible switch changes the sleep
bookkeeping seen from thread `i`: nothing relevant changes, or the event is a
`sleep n` by a thread with another id `k`. -/
def PreClock (i : Int) (op : Op) (w v : World) : Prop :=
  ClockKeep i w v ∨
  ∃ n k, op = Op.sleep n ∧ k ≠ i ∧
    v.total_quantum_counter = w.total_quantum_counter ∧
    v.running = w.running ∧
    v.next_sleep_check
      = (if w.next_sleep_check = 0 ∨ wrapInt (w.total_quantum_counter + n) < w.next_sleep_check
         then wrapInt (w.total_quantum_counter + n) else w.next_sleep_check) ∧
    v.sleeping = minsert k (wrapInt (w.total_quantum_counter + n)) w.sleeping

/-- The running thread of `w`, with id `i`, is in good standing before a call
of `sleep`: it is the only live object with id `i`, `i` is taken in the
allocator, the thread is indexed under `i` only, it is not in the blocked set,
the sleeping map, the deferred-reap slot or the ready queue, and
`next_sleep_check` is sound: 0 with an empty sleeping map, or above the
counter and at most every stored deadline. -/
def SleepCaller (i : Int) (w : World) : Prop :=
  (∀ e ∈ w.heap, e.2.id = i → e.1 = w.running) ∧
  i ≤ w.threadIdMaker.last_id ∧
  i ∉ w.threadIdMaker.available_ids ∧
  w.running < w.next_addr ∧
  mfind w.threads i = some w.running ∧
  (∀ e ∈ w.threads, e.2 = w.running → e.1 = i) ∧
  (∀ e ∈ w.blocked, e.1 ≠ i ∧ e.2 ≠ w.running) ∧
  (∀ e ∈ w.sleeping, e.1 ≠ i) ∧
  w.terminated ≠ some w.running ∧
  w.running ∉ w.ready ∧
  0 ≤ w.total_quantum_counter ∧
  ((w.next_sleep_check = 0 ∧ w.sleeping = []) ∨
   (w.total_quantum_counter < w.next_sleep_check ∧
     ∀ e ∈ w.sleeping, w.next_sleep_check ≤ e.2))

instance (i : Int) (w : World) : Decidable (SleepCaller i w) := by
  unfold SleepCaller; infer_instance

/-- The thread at `p` with id `i` is asleep with deadline `d` in `w`: the
checkable form of `Guarded State.SLEEPING i p w`, `w.running ≠ p` and
`Pending i d w`. -/
def Sleeper (i : Int) (p : Nat) (d : Int) (w : World) : Prop :=
  (hfind w.heap p).map (fun t => (t.id, t.state)) = some (i, State.SLEEPING) ∧
  (∀ e ∈ w.heap, e.2.id = i → e.1 = p) ∧
  i ≤ w.threadIdMaker.last_id ∧
  i ∉ w.threadIdMaker.available_ids ∧
  p < w.next_addr ∧
  mfind w.threads i = some p ∧
  (∀ e ∈ w.threads, e.2 = p → e.1 = i) ∧
  (∀ e ∈ w.blocked, e.2 = p → e.1 = i) ∧
  mfind w.blocked i = some p ∧
  w.terminated ≠ some p ∧
  p ∉ w.ready ∧
  w.running ≠ p ∧
  mfind w.sleeping i = some d ∧
  (∀ e ∈ w.sleeping, e.1 = i → e.2 = d) ∧
  0 ≤ w.total_quantum_counter ∧
  w.total_quantum_counter < w.next_sleep_check ∧
  w.next_sleep_check ≤ d ∧
  (∀ e ∈ w.sleeping, w.next_sleep_check ≤ e.2)

instance (i : Int) (p : Nat) (d : Int) (w : World) : Decidable (Sleeper i p d w) := by
  unfold Sleeper; infer_instance

/-- Thread `p` (id `i`) is asleep with deadline `d`: SLEEPING, not running, not
in the ready queue, in the sleeping map and the blocked set. -/
def AsleepAt (p : Nat) (i d : Int) (b : World) : Prop :=
  b.stateOf p = some State.SLEEPING ∧ b.running ≠ p ∧ p ∉ b.ready ∧
  mfind b.sleeping i = some d ∧ mfind b.blocked i = some p

/-- Thread `p` (id `i`) has been woken: READY, in the ready queue, gone from
the sleeping map and the blocked set. -/
def WokenAt (p : Nat) (i : Int) (b : World) : Prop :=
  b.stateOf p = some State.READY ∧ p ∈ b.ready ∧
  mfind b.sleeping i = none ∧ mfind b.blocked i = none

/-- The event that took `a` to `b` appended thread `p` to the ready queue: the
queue of `b` is `rest ++ woken`, where `rest` is a subsequence of the queue of
`a` followed by the thread that was running in `a` (the threads that were
queued already, in their old order), `p` is not in `rest`, and `woken` are the
threads the event has woken, `p` among them: each is READY in `b` and was
SLEEPING in `a`, or is the thread that was running in `a` (the caller of a
`sleep 1`). -/
def AppendedAt (p : Nat) (a b : World) : Prop :=
  ∃ rest woken, b.ready = rest ++ woken ∧
    List.Sublist rest (a.ready ++ [a.running]) ∧ p ∉ rest ∧ p ∈ woken ∧
    ∀ x ∈ woken, b.stateOf x = some State.READY ∧
      (x = a.running ∨ a.stateOf x = some State.SLEEPING)

/-- From `w` to `v` the running thread is as before, the ready queue only lost
threads, and no thread other than `q` changed its state (thread objects may
have been deleted). -/
structure Thinned (q : Nat) (w v : World) : Prop where
  running_eq : v.running = w.running
  ready_sub : List.Sublist v.ready w.ready
  states : ∀ x, x ≠ q → ∀ s, v.stateOf x = some s → w.stateOf x = some s

/-- Thread `p` (id `i`) is held by an explicit block: BLOCKED, in the blocked
set, not in the ready queue, not running. -/
def HeldAt (p : Nat) (i : Int) (b : World) : Prop :=
  b.stateOf p = some State.BLOCKED ∧ mfind b.blocked i = some p ∧
  p ∉ b.ready ∧ b.running ≠ p

/-- The states after each event of `ops` from `w` with `MAX_THREAD_NUM = 100`
(no states if the execution fails). -/
def tracedFrom (ops : List Op) (w : World) : List World :=
  (trace 100 ops w).getD []

/-- The state with main and two spawned threads (ids 1 and 2, addresses 1 and
2) in which the thread at address `phase` runs and the two others are READY in
rotation order; `a`, `b`, `c` are the quantum counters of main, thread 1 and
thread 2 and `n` is the total-quantum counter. -/
def rrWorld (q : Int) (phase : Nat) (a b c n : Int) : World :=
  { heap := [(0, { id := 0, state := if phase = 0 then State.RUNNING else State.READY,
                   total_run_time := a }),
             (1, { id := 1, state := if phase = 1 then State.RUNNING else State.READY,
                   total_run_time := b }),
             (2, { id := 2, state := if phase = 2 then State.RUNNING else State.READY,
                   total_run_time := c })]
    next_addr := 3
    threadIdMaker := { available_ids := [], last_id := 2 }
    running := phase
    ready := if phase = 0 then [1, 2] else if phase = 1 then [2, 0] else [0, 1]
    blocked := []
    sleeping := []
    threads := [(0, 0), (1, 1), (2, 2)]
    quant_len := q
    total_quantum_counter := n
    next_sleep_check := 0
    terminated := none }

/-- The state after `init q`, two spawns and `k` timer expiries. -/
def rotation (q : Int) (k : Nat) : World :=
  rrWorld q (k % 3) ((1 + k / 3 : Nat) : Int) (((k + 2) / 3 : Nat) : Int)
    (((k + 1) / 3 : Nat) : Int) ((k + 1 : Nat) : Int)

/-- The part of `Scheduler::blockThread` before the test `running == thread`:
the state change and the insertion into the blocked set. -/
def World.blockThreadEntry (w : World) (p : Nat) : Option World :=
  match hfind w.heap p with
  | none => none
  | some t =>
    match (if t.state ≠ State.SLEEPING ∨ (mfind w.blocked t.id).isSome
           then w.setState p State.BLOCKED else some w) with
    | none => none
    | some w1 => some { w1 with blocked := minsert t.id p w1.blocked }

/-- The part of `Scheduler::sleepCurrentThread` before the call of
`blockThread`. -/
def World.sleepEntry (w : World) (num_quants : Int) : Option World :=
  let wake_up_time := wrapInt (w.total_quantum_counter + num_quants)
  let w1 :=
    if w.next_sleep_check = 0 ∨ wake_up_time < w.next_sleep_check
    then { w with next_sleep_check := wake_up_time } else w
  match hfind w1.heap w1.running with
  | none => none
  | some t =>
    World.setState { w1 with sleeping := minsert t.id wake_up_time w1.sleeping }
      w1.running State.SLEEPING

/-- The self-termination branch of `Scheduler::terminateThread` before its
call of `runNextThread`; `none` when the other branch is taken. -/
def World.terminateEntry (w : World) (p : Nat) : Option World :=
  match hfind w.heap p, hfind w.heap w.running with
  | some t, some r =>
    if t.id = r.id then
      match w.reapBeforeTerminate with
      | none => none
      | some w1 =>
        match World.setState { w1 with terminated := some w1.running } w1.running State.TERMINATED with
        | none => none
        | some w2 =>
          match w2.removeThread p with
          | none => none
          | some w3 => w3.removeID p
    else none
  | _, _ => none

/-- The part of `Scheduler::timerHandler` before its call of
`runNextThread`. -/
def World.timerEntry (w : World) : Option World :=
  match (match w.terminated with
         | none => some w
         | some q =>
           match w.deleteThread q with
           | none => none
           | some w1 => some { w1 with terminated := none }) with
  | none => none
  | some w1 => w1.setReady w1.running

/-- The state in which `runNextThread` is called during the event `op`, when
the event reaches such a call: the timer handler, a block of the running
thread, a sleep, a self-termination. -/
def switchPoint (w : World) : Op → Option World
  | Op.spawn => none
  | Op.resume _ => none
  | Op.block tid =>
    if tid = 0 then none
    else
      match w.getThreadByID tid with
      | none => none
      | some p =>
        match hfind w.heap p with
        | none => none
        | some t =>
          if t.state = State.TERMINATED then none
          else
            match w.blockThreadEntry p with
            | none => none
            | some v => if v.running = p then some v else none
  | Op.sleep n =>
    match hfind w.heap w.running with
    | none => none
    | some t =>
      if t.id = 0 then none
      else
        match w.sleepEntry n with
        | none => none
        | some w2 =>
          match w2.blockThreadEntry w2.running with
          | none => none
          | some v => if v.running = w2.running then some v else none
  | Op.terminate tid =>
    if tid = 0 then none
    else
      match w.getThreadByID tid with
      | none => none
      | some p => w.terminateEntry p
  | Op.timer => w.timerEntry

/-- From `w` to `v` only thread states and scheduling tables changed: every
thread object keeps its id and quantum counter, the index, the allocator, the
deferred-reap slot, the counter and the running thread are as before, the
ready queue and the blocked set gained at most the thread `p`, and no thread
became TERMINATED. -/
structure Quiet (p : Nat) (w v : World) : Prop where
  ids : ∀ q, v.idOf q = w.idOf q
  times : ∀ q, v.runTimeOf q = w.runTimeOf q
  threads_eq : v.threads = w.threads
  maker_eq : v.threadIdMaker = w.threadIdMaker
  addr_eq : v.next_addr = w.next_addr
  terminated_eq : v.terminated = w.terminated
  total_eq : v.total_quantum_counter = w.total_quantum_counter
  running_eq : v.running = w.running
  ready_sub : ∀ x ∈ v.ready, x ∈ w.ready ∨ x = p
  blocked_sub : ∀ k x, mfind v.blocked k = some x → mfind w.blocked k = some x ∨ x = p
  states : ∀ q, v.stateOf q = some State.TERMINATED → w.stateOf q = some State.TERMINATED

/-- The state `w1` is `v` after `runNextThread`: the head of the ready queue of
`v` runs and its quantum counter and the total-quantum counter went up by one;
the ready queue is the rest followed by threads taken from the blocked set;
the blocked set and the sleeping map gained nothing;
ids, the other quantum counters, the index, the allocator and the
deferred-reap slot are as before, and no thread became TERMINATED. -/
structure Switched (v w1 : World) : Prop where
  head : ∃ rest, v.ready = w1.running :: rest ∧
    (∀ x ∈ rest, x ∈ w1.ready) ∧
    (∀ x ∈ w1.ready, x ∈ rest ∨ ∃ k, mfind v.blocked k = some x)
  ids : ∀ q, w1.idOf q = v.idOf q
  time_head : ∃ n, v.runTimeOf w1.running = some n ∧ w1.runTimeOf w1.running = some (n + 1)
  time_other : ∀ q, q ≠ w1.running → w1.runTimeOf q = v.runTimeOf q
  threads_eq : w1.threads = v.threads
  maker_eq : w1.threadIdMaker = v.threadIdMaker
  addr_eq : w1.next_addr = v.next_addr
  terminated_eq : w1.terminated = v.terminated
  total_eq : w1.total_quantum_counter = v.total_quantum_counter + 1
  blocked_sub : ∀ k x, mfind w1.blocked k = some x → mfind v.blocked k = some x
  states : ∀ q, w1.stateOf q = some State.TERMINATED → v.stateOf q = some State.TERMINATED
  sleeping_sub : ∀ e ∈ w1.sleeping, e ∈ v.sleeping

/-- The main thread is in place: the object at address 0 is live and has id 0,
no other live object has id 0, the index holds address 0 under no key but 0,
the deferred-reap slot does not hold it, the allocator never hands out id 0
and every live object lies below `next_addr`. -/
structure MainAlive (w : World) : Prop where
  main : w.idOf 0 = some 0
  only : ∀ q, w.idOf q = some 0 → q = 0
  idx : ∀ k x, mfind w.threads k = some x → k ≠ 0 → x ≠ 0
  reap : w.terminated ≠ some 0
  mark : 0 ≤ w.threadIdMaker.last_id
  free : (0 : Int) ∉ w.threadIdMaker.available_ids
  fresh : ∀ q, (w.idOf q).isSome → q < w.next_addr

/-- The sum of `get_quantums` over the ids in the thread index (0 for an id
whose lookup faults). -/
def quantumSum (w : World) : Int :=
  (w.threads.map (fun e => (uthread_get_quantums e.1 w).getD 0)).sum

/-- The sum of the quantum counters of the thread objects the index points
to. -/
def timeSum (w : World) : Int :=
  (w.threads.map (fun e => (w.runTimeOf e.2).getD 0)).sum

/-- The accounting invariant of executions without `terminate`: the counter is
the sum of the indexed threads' quantum counters; the index has one entry per
id and per thread, each a live object; the running thread, the ready threads
and the blocked threads are indexed; live objects lie below `next_addr`; the
indexed ids are at most the allocator's mark, no id has been released, no
thread awaits a reap and none is TERMINATED. -/
structure Accounted (w : World) : Prop where
  total : w.total_quantum_counter = timeSum w
  nodup : (w.threads.map Prod.snd).Nodup
  keys_nodup : (w.threads.map Prod.fst).Nodup
  running : w.running ∈ w.threads.map Prod.snd
  ready : ∀ x ∈ w.ready, x ∈ w.threads.map Prod.snd
  blocked : ∀ k x, mfind w.blocked k = some x → x ∈ w.threads.map Prod.snd
  live : ∀ e ∈ w.threads, (w.idOf e.2).isSome
  fresh : ∀ q, (w.idOf q).isSome → q < w.next_addr
  keys : ∀ e ∈ w.threads, e.1 ≤ w.threadIdMaker.last_id
  no_free : w.threadIdMaker.available_ids = []
  no_reap : w.terminated = none
  no_dead : ∀ q, w.stateOf q ≠ some State.TERMINATED

/-- From `w` to `v` the sleep bookkeeping only lost entries: the counter and
`next_sleep_check` are as before, the sleeping map gained nothing and keeps one
entry per key, and every key still in the sleeping map that was a key of the
blocked set still is one. -/
structure Calm (w v : World) : Prop where
  total_eq : v.total_quantum_counter = w.total_quantum_counter
  check_eq : v.next_sleep_check = w.next_sleep_check
  sleeping_sub : ∀ e ∈ v.sleeping, e ∈ w.sleeping
  keys_nodup : (w.sleeping.map Prod.fst).Nodup → (v.sleeping.map Prod.fst).Nodup
  blocked_keep : ∀ e ∈ v.sleeping, (mfind w.blocked e.1).isSome → (mfind v.blocked e.1).isSome

/-- The state `v` in which a `sleep n` made in `w` calls `runNextThread`: the
counter is as before, `next_sleep_check` is the new deadline when it was 0 or
above it, the sleeping map got the `insert` of the new deadline under a key
that is a key of the blocked set, and the blocked set lost no key. -/
structure SleepPre (n : Int) (w v : World) : Prop where
  total_eq : v.total_quantum_counter = w.total_quantum_counter
  check_eq : v.next_sleep_check
    = (if w.next_sleep_check = 0 ∨ wrapInt (w.total_quantum_counter + n) < w.next_sleep_check
       then wrapInt (w.total_quantum_counter + n) else w.next_sleep_check)
  sleeping_eq : ∃ k, v.sleeping = minsert k (wrapInt (w.total_quantum_counter + n)) w.sleeping ∧
    (mfind v.blocked k).isSome
  blocked_keep : ∀ j, (mfind w.blocked j).isSome → (mfind v.blocked j).isSome

/-- The sleeping map has one entry per id and every id in it is a key of the
blocked set. -/
def SleepKeys (w : World) : Prop :=
  (w.sleeping.map Prod.fst).Nodup ∧ ∀ e ∈ w.sleeping, (mfind w.blocked e.1).isSome

instance (w : World) : Decidable (SleepKeys w) := by
  unfold SleepKeys; infer_instance

/-- The wake clock is sound: the counter is not negative and
`next_sleep_check` is 0 with an empty sleeping map, or it lies above the
counter and at or below every stored deadline. -/
def ClockSound (w : World) : Prop :=
  0 ≤ w.total_quantum_counter ∧
  ((w.next_sleep_check = 0 ∧ w.sleeping = []) ∨
   (w.total_quantum_counter < w.next_sleep_check ∧
     ∀ e ∈ w.sleeping, w.next_sleep_check ≤ e.2))

instance (w : World) : Decidable (ClockSound w) := by
  unfold ClockSound; infer_instance

/-- The wake clock is stuck: `next_sleep_check` is not 0 and the counter has
reached or passed it, so the test `total_quantum_counter == next_sleep_check`
of `runTimer` fails from now on. -/
def StuckClock (w : World) : Prop :=
  w.next_sleep_check ≠ 0 ∧ w.next_sleep_check ≤ w.total_quantum_counter

instance (w : World) : Decidable (StuckClock w) := by
  unfold StuckClock; infer_instance

/-- The traversal of `Scheduler::handleSleeping` (the same as
`World.handleSleepingLoop`), recording the lookups `blocked->at(id)` it
makes: the result is `false` exactly when the traversal reaches a due entry
whose id is not a key of the blocked set, where `at` throws.  A traversal
that stops for another reason made only lookups that found their key. -/
def World.scanLookups : List (Int × Int) → World → Bool
  | [], _ => true
  | (id, deadline) :: rest, w =>
    if deadline = w.next_sleep_check then
      let w1 := { w with sleeping := merase w.sleeping id }
      match mfind w1.blocked id with
      | none => false
      | some p =>
        match hfind w1.heap p with
        | none => true
        | some t =>
          if t.state = State.SLEEPING then
            match w1.setState p State.BLOCKED with
            | none => true
            | some w2 =>
              match w2.unblockThread p with
              | none => true
              | some w3 => World.scanLookups rest w3
          else World.scanLookups rest w1
    else
      World.scanLookups rest w

/-- The scheduler is orderly: the running thread is in state RUNNING, the
threads in the ready queue are live objects in state READY and none occurs
twice, every live object lies below `next_addr`, and a thread awaiting its
deferred reap is in state TERMINATED. -/
def Orderly (w : World) : Prop :=
  w.stateOf w.running = some State.RUNNING ∧
  (∀ x ∈ w.ready, w.stateOf x = some State.READY) ∧
  w.ready.Nodup ∧
  (∀ e ∈ w.heap, e.1 < w.next_addr) ∧
  (∀ q ∈ w.terminated, w.stateOf q = some State.TERMINATED)

instance (w : World) : Decidable (Orderly w) := by
  unfold Orderly; infer_instance

/-- The part of `Orderly` that also holds in the state in which
`runNextThread` is called, where the outgoing thread has left state RUNNING
already. -/
structure Tidy (w : World) : Prop where
  ready_states : ∀ x ∈ w.ready, w.stateOf x = some State.READY
  nodup : w.ready.Nodup
  fresh : ∀ x t, hfind w.heap x = some t → x < w.next_addr
  reap : ∀ q, w.terminated = some q → w.stateOf q = some State.TERMINATED

/-- The thread at address `p` is asleep: it is a live object in state
SLEEPING, or BLOCKED by a `block` that came during its sleep, and the sleeping
map has an entry for its id. -/
def Asleep (p : Nat) (w : World) : Prop :=
  ∃ t ∈ hfind w.heap p,
    (t.state = State.SLEEPING ∨ t.state = State.BLOCKED) ∧ (mfind w.sleeping t.id).isSome

instance (p : Nat) (w : World) : Decidable (Asleep p w) := by
  unfold Asleep; infer_instance

/-- The thread at address `p` is parked: asleep, not running and not in the
ready queue. -/
def Parked (p : Nat) (w : World) : Prop :=
  Asleep p w ∧ w.running ≠ p ∧ p ∉ w.ready

instance (p : Nat) (w : World) : Decidable (Parked p w) := by
  unfold Parked; infer_instance

/-- The sleeping map matches the thread states, as it does in executions
without `terminate`: live thread objects have distinct ids, all at most the
allocator's mark; no id has been released and no thread awaits a reap; a
thread whose id has an entry in the sleeping map is SLEEPING or BLOCKED; the
keys of the sleeping map are at most the mark. -/
structure Matched (w : World) : Prop where
  ids_le : ∀ p t, hfind w.heap p = some t → t.id ≤ w.threadIdMaker.last_id
  ids_inj : ∀ p q t u, hfind w.heap p = some t → hfind w.heap q = some u → t.id = u.id → p = q
  no_free : w.threadIdMaker.available_ids = []
  no_reap : w.terminated = none
  entries : ∀ p t, hfind w.heap p = some t → (mfind w.sleeping t.id).isSome →
    t.state = State.SLEEPING ∨ t.state = State.BLOCKED
  keys_le : ∀ e ∈ w.sleeping, e.1 ≤ w.threadIdMaker.last_id

/-- The wake clock is exact: `next_sleep_check` is 0 and the sleeping map is
empty, or `next_sleep_check` lies above the counter and is the least deadline
stored in the sleeping map. -/
def ClockExact (w : World) : Prop :=
  (w.next_sleep_check = 0 ∧ w.sleeping = []) ∨
  (w.total_quantum_counter < w.next_sleep_check ∧
    (∃ e ∈ w.sleeping, e.2 = w.next_sleep_check) ∧
    ∀ e ∈ w.sleeping, w.next_sleep_check ≤ e.2)

instance (w : World) : Decidable (ClockExact w) := by
  unfold ClockExact; infer_instance

/-- `next_sleep_check` is the least stored deadline: it is 0 and the sleeping
map is empty, or it is not 0, some entry of the sleeping map has it as its
deadline and no entry has a smaller one. -/
def ClockLeast (w : World) : Prop :=
  (w.next_sleep_check = 0 ∧ w.sleeping = []) ∨
  (w.next_sleep_check ≠ 0 ∧
    (∃ e ∈ w.sleeping, e.2 = w.next_sleep_check) ∧
    ∀ e ∈ w.sleeping, w.next_sleep_check ≤ e.2)

instance (w : World) : Decidable (ClockLeast w) := by
  unfold ClockLeast; infer_instance

/-- The event `op`, made in state `w`, is not a `sleep` with a non-positive
argument: if it is `sleep m` then `m ≥ 1`; `m` and the counter, being values
of type `int`, are at most 2147483647. -/
def SleepPositive (w : World) : Op → Prop
  | Op.sleep m => 1 ≤ m ∧ m ≤ 2147483647 ∧ w.total_quantum_counter ≤ 2147483647
  | _ => True

instance (w : World) (op : Op) : Decidable (SleepPositive w op) := by
  cases op <;> unfold SleepPositive <;> infer_instance

/-- The invariant of executions without `terminate` in which every `sleep`
has a positive argument: the scheduler is orderly, the sleeping map matches
the thread states and has one entry per key, the counter is not negative and
`next_sleep_check` is the least stored deadline. -/
structure Settled (w : World) : Prop where
  tidy : Tidy w
  runs : w.stateOf w.running = some State.RUNNING
  matched : Matched w
  keys : (w.sleeping.map Prod.fst).Nodup
  nonneg : 0 ≤ w.total_quantum_counter
  least : ClockLeast w

/-! ## Lemmas on the containers -/

theorem hfind_hset (h : List (Nat × Thread)) (p q : Nat) (u : Thread) :
    hfind (hset h p u) q = if q = p then (hfind h p).map (fun _ => u) else hfind h q := by
  induction h with
  | nil => simp [hset, hfind]
  | cons e h ih =>
    obtain ⟨a, t⟩ := e
    by_cases hap : a = p
    · subst hap
      by_cases hq : q = a
      · subst hq; simp [hset, hfind]
      · have : ¬ a = q := fun h => hq h.symm
        simp [hset, hfind, hq, this]
    · by_cases hq : q = p
      · subst hq; simp [hset, hfind, hap, ih]
      · by_cases haq : a = q
        · simp [hset, hfind, hap, hq, haq]
        · simp [hset, hfind, hap, hq, haq, ih]

theorem hfind_hset_same (h : List (Nat × Thread)) (p : Nat) (t u : Thread)
    (ht : hfind h p = some t) : hfind (hset h p u) p = some u := by
  simp [hfind_hset, ht]

theorem hfind_hset_ne (h : List (Nat × Thread)) (p q : Nat) (u : Thread) (hq : q ≠ p) :
    hfind (hset h p u) q = hfind h q := by
  simp [hfind_hset, hq]

theorem hset_hset (h : List (Nat × Thread)) (p : Nat) (u v : Thread) :
    hset (hset h p u) p v = hset h p v := by
  induction h with
  | nil => simp [hset]
  | cons e h ih =>
    obtain ⟨a, t⟩ := e
    by_cases hap : a = p
    · simp [hset, hap]
    · simp [hset, hap, ih]

theorem hset_self (h : List (Nat × Thread)) (p : Nat) (t : Thread)
    (ht : hfind h p = some t) : hset h p t = h := by
  induction h with
  | nil => simp [hfind] at ht
  | cons e h ih =>
    obtain ⟨a, t1⟩ := e
    by_cases hap : a = p
    · simp [hfind, hap] at ht
      simp [hset, hap, ht]
    · simp [hfind, hap] at ht
      simp [hset, hap, ih ht]

theorem hfind_hdel (h : List (Nat × Thread)) (p q : Nat) :
    hfind (hdel h p) q = if q = p then none else hfind h q := by
  induction h with
  | nil => simp [hdel, hfind]
  | cons e h ih =>
    obtain ⟨a, t⟩ := e
    by_cases hap : a = p
    · by_cases hq : q = p
      · subst hap; subst hq; simpa [hdel] using ih
      · have : ¬ p = q := fun h => hq h.symm
        simp [hdel, hfind, hap, ih, hq, this]
    · by_cases hq : q = p
      · subst hq; simp [hdel, hfind, hap, ih]
      · by_cases haq : a = q
        · simp [hdel, hfind, hap, hq, haq]
        · simp [hdel, hfind, hap, hq, haq, ih]

theorem hfind_append (h : List (Nat × Thread)) (a q : Nat) (t : Thread) :
    hfind (h ++ [(a, t)]) q
      = match hfind h q with
        | some u => some u
        | none => if a = q then some t else none := by
  induction h with
  | nil => simp [hfind]
  | cons e h ih =>
    obtain ⟨b, u⟩ := e
    by_cases hb : b = q
    · simp [hfind, hb]
    · simp [hfind, hb, ih]

theorem hfind_mem (h : List (Nat × Thread)) (p : Nat) (t : Thread)
    (ht : hfind h p = some t) : (p, t) ∈ h := by
  induction h with
  | nil => simp [hfind] at ht
  | cons e h ih =>
    obtain ⟨a, t1⟩ := e
    by_cases hap : a = p
    · simp [hfind, hap] at ht
      simp [hap, ht]
    · simp [hfind, hap] at ht
      simp [ih ht]

theorem hfind_none_of_lt (h : List (Nat × Thread)) (n : Nat)
    (hn : ∀ e ∈ h, e.1 < n) : hfind h n = none := by
  induction h with
  | nil => simp [hfind]
  | cons e h ih =>
    obtain ⟨a, t⟩ := e
    have ha : a < n := hn (a, t) (by simp)
    have : ¬ a = n := by omega
    simp [hfind, this]
    exact ih (fun e he => hn e (by simp [he]))

theorem mem_hset (h : List (Nat × Thread)) (p : Nat) (u : Thread) (e : Nat × Thread)
    (he : e ∈ hset h p u) : e ∈ h ∨ e = (p, u) := by
  induction h with
  | nil => simp [hset] at he
  | cons e1 h ih =>
    obtain ⟨a, t⟩ := e1
    by_cases hap : a = p
    · simp [hset, hap] at he
      rcases he with he | he
      · exact Or.inr he
      · exact Or.inl (by simp [he])
    · simp [hset, hap] at he
      rcases he with he | he
      · exact Or.inl (by simp [he])
      · rcases ih he with h1 | h1
        · exact Or.inl (by simp [h1])
        · exact Or.inr h1

theorem mem_hdel (h : List (Nat × Thread)) (p : Nat) (e : Nat × Thread) :
    e ∈ hdel h p ↔ e ∈ h ∧ e.1 ≠ p := by
  induction h with
  | nil => simp [hdel]
  | cons e1 h ih =>
    obtain ⟨a, t⟩ := e1
    by_cases hap : a = p
    · simp only [hdel, hap, if_true, ih, List.mem_cons]
      constructor
      · intro h1; exact ⟨Or.inr h1.1, h1.2⟩
      · rintro ⟨h1 | h1, h2⟩
        · exact absurd (by simp [h1]) h2
        · exact ⟨h1, h2⟩
    · simp only [hdel, hap, if_false, ih, List.mem_cons]
      constructor
      · rintro (h1 | h1)
        · exact ⟨Or.inl h1, by simp [h1, hap]⟩
        · exact ⟨Or.inr h1.1, h1.2⟩
      · rintro ⟨h1 | h1, h2⟩
        · exact Or.inl h1
        · exact Or.inr ⟨h1, h2⟩

theorem mfind_mplace {β : Type} (m : List (Int × β)) (k x : Int) (v : β)
    (hk : mfind m k = none) :
    mfind (mplace k v m) x = if x = k then some v else mfind m x := by
  induction m with
  | nil =>
    by_cases hx : x = k
    · simp [mplace, mfind, hx]
    · have : ¬ k = x := fun h => hx h.symm
      simp [mplace, mfind, hx, this]
  | cons e m ih =>
    obtain ⟨k1, v1⟩ := e
    have hk1 : ¬ k1 = k := by
      intro h; simp [mfind, h] at hk
    have hk2 : mfind m k = none := by
      simpa [mfind, hk1] using hk
    by_cases hlt : k < k1
    · by_cases hx : x = k
      · simp [mplace, hlt, mfind, hx]
      · have : ¬ k = x := fun h => hx h.symm
        simp [mplace, hlt, mfind, hx, this]
    · by_cases hx : x = k
      · subst hx
        simp [mplace, hlt, mfind, hk1, ih hk2]
      · by_cases h1 : k1 = x
        · subst h1
          simp [mplace, hlt, mfind, hx]
        · simp [mplace, hlt, mfind, h1, hx, ih hk2]

theorem mfind_minsert {β : Type} (m : List (Int × β)) (k x : Int) (v : β) :
    mfind (minsert k v m) x
      = if x = k then (match mfind m k with
                      | some u => some u
                      | none => some v)
        else mfind m x := by
  unfold minsert
  cases hk : mfind m k with
  | none =>
    simp [mfind_mplace m k x v hk]
  | some u =>
    by_cases hx : x = k
    · simp [hx, hk]
    · simp [hx]

theorem mfind_merase {β : Type} (m : List (Int × β)) (k x : Int) :
    mfind (merase m k) x = if x = k then none else mfind m x := by
  induction m with
  | nil => simp [merase, mfind]
  | cons e m ih =>
    obtain ⟨k1, v1⟩ := e
    by_cases h1 : k1 = k
    · by_cases hx : x = k
      · subst h1; subst hx; simpa [merase] using ih
      · have : ¬ k = x := fun h => hx h.symm
        simp [merase, mfind, h1, ih, hx, this]
    · by_cases hx : x = k
      · subst hx; simp [merase, mfind, h1, ih]
      · by_cases h2 : k1 = x
        · simp [merase, mfind, h1, hx, h2]
        · simp [merase, mfind, h1, hx, h2, ih]

theorem mem_merase {β : Type} (m : List (Int × β)) (k : Int) (e : Int × β) :
    e ∈ merase m k ↔ e ∈ m ∧ e.1 ≠ k := by
  induction m with
  | nil => simp [merase]
  | cons e1 m ih =>
    obtain ⟨k1, v1⟩ := e1
    by_cases h1 : k1 = k
    · simp only [merase, h1, if_true, ih, List.mem_cons]
      constructor
      · intro h; exact ⟨Or.inr h.1, h.2⟩
      · rintro ⟨h | h, h2⟩
        · exact absurd (by simp [h]) h2
        · exact ⟨h, h2⟩
    · simp only [merase, h1, if_false, ih, List.mem_cons]
      constructor
      · rintro (h | h)
        · exact ⟨Or.inl h, by simp [h, h1]⟩
        · exact ⟨Or.inr h.1, h.2⟩
      · rintro ⟨h | h, h2⟩
        · exact Or.inl h
        · exact Or.inr ⟨h, h2⟩

theorem mem_mplace {β : Type} (m : List (Int × β)) (k : Int) (v : β) (e : Int × β) :
    e ∈ mplace k v m ↔ e = (k, v) ∨ e ∈ m := by
  induction m with
  | nil => simp [mplace]
  | cons e1 m ih =>
    obtain ⟨k1, v1⟩ := e1
    by_cases hlt : k < k1
    · simp [mplace, hlt]
    · simp [mplace, hlt, ih]
      tauto

theorem mem_minsert {β : Type} (m : List (Int × β)) (k : Int) (v : β) (e : Int × β)
    (he : e ∈ minsert k v m) : e = (k, v) ∨ e ∈ m := by
  unfold minsert at he
  split at he
  · exact Or.inr he
  · exact (mem_mplace m k v e).1 he

theorem mem_minsert_of_mem {β : Type} (m : List (Int × β)) (k : Int) (v : β) (e : Int × β)
    (he : e ∈ m) : e ∈ minsert k v m := by
  unfold minsert
  split
  · exact he
  · exact (mem_mplace m k v e).2 (Or.inr he)

theorem mfind_mem {β : Type} (m : List (Int × β)) (k : Int) (v : β)
    (h : mfind m k = some v) : (k, v) ∈ m := by
  induction m with
  | nil => simp [mfind] at h
  | cons e m ih =>
    obtain ⟨k1, v1⟩ := e
    by_cases h1 : k1 = k
    · simp [mfind, h1] at h
      simp [h1, h]
    · simp [mfind, h1] at h
      simp [ih h]

theorem mfind_none_iff {β : Type} (m : List (Int × β)) (k : Int) :
    mfind m k = none ↔ ∀ e ∈ m, e.1 ≠ k := by
  induction m with
  | nil => simp [mfind]
  | cons e m ih =>
    obtain ⟨k1, v1⟩ := e
    by_cases h1 : k1 = k
    · simp [mfind, h1]
    · simp [mfind, h1, ih]

theorem merase_of_none {β : Type} (m : List (Int × β)) (k : Int)
    (h : mfind m k = none) : merase m k = m := by
  induction m with
  | nil => simp [merase]
  | cons e m ih =>
    obtain ⟨k1, v1⟩ := e
    by_cases h1 : k1 = k
    · simp [mfind, h1] at h
    · simp [mfind, h1] at h
      simp [merase, h1, ih h]

theorem merase_mplace {β : Type} (m : List (Int × β)) (k : Int) (v : β) :
    merase (mplace k v m) k = merase m k := by
  induction m with
  | nil => simp [mplace, merase]
  | cons e m ih =>
    obtain ⟨k1, v1⟩ := e
    by_cases hlt : k < k1
    · simp [mplace, hlt, merase]
    · by_cases h1 : k1 = k
      · simp [mplace, hlt, merase, h1, ih]
      · simp [mplace, hlt, merase, h1, ih]

theorem merase_length_lt {β : Type} (m : List (Int × β)) (k : Int) (v : β)
    (h : mfind m k = some v) : (merase m k).length < m.length := by
  induction m with
  | nil => simp [mfind] at h
  | cons e m ih =>
    obtain ⟨k1, v1⟩ := e
    have hle : ∀ (l : List (Int × β)), (merase l k).length ≤ l.length := by
      intro l
      induction l with
      | nil => simp [merase]
      | cons e2 l ih2 =>
        obtain ⟨k2, v2⟩ := e2
        by_cases h2 : k2 = k
        · simp [merase, h2]; omega
        · simp [merase, h2]; omega
    by_cases h1 : k1 = k
    · simp [merase, h1]
      have := hle m
      omega
    · simp [mfind, h1] at h
      simp [merase, h1]
      exact ih h

theorem lremove_eq_filter (l : List Nat) (p : Nat) :
    lremove l p = l.filter (fun a => decide (a ≠ p)) := by
  induction l with
  | nil => simp [lremove]
  | cons a l ih =>
    by_cases h : a = p
    · simp [lremove, h, ih]
    · simp [lremove, h, ih]

theorem mem_lremove (l : List Nat) (p a : Nat) :
    a ∈ lremove l p ↔ a ∈ l ∧ a ≠ p := by
  simp [lremove_eq_filter]

theorem lremove_of_not_mem (l : List Nat) (p : Nat) (h : p ∉ l) : lremove l p = l := by
  induction l with
  | nil => simp [lremove]
  | cons a l ih =>
    have h1 : ¬ a = p := by
      intro h2; exact h (by simp [h2])
    have h3 : p ∉ l := by
      intro h2; exact h (by simp [h2])
    simp [lremove, h1, ih h3]

/-! ## Block and resume -/

/-- C5 (counterexample): the main thread can be READY in the queue, and
`block` of it returns -1 rather than 0.  A READY thread other than main can
also be missing from the thread index: after spawn, spawn, a timer expiry,
`terminate 1` by thread 1, a spawn by thread 2 (the new thread, address 3, gets
id 1) and `terminate 2` by thread 2, whose reap of the old thread 1 erases the
index entry of id 1, the thread at address 3 is READY in the queue with no
entry in the blocked set or the sleeping map, and `block 1` returns -1.  And
the blocked set and the sleeping map can hold entries under the id of a READY
thread: after `twinTrace` the thread at address 2 is READY, not running, and
the one the index holds under id 1, while the entries of id 1 belong to the
sleeping thread at address 3; `block 1` and `resume 1` return 0 and leave the
thread at address 2 SLEEPING and out of the ready queue. -/
theorem block_ready_main_rejected :
    (run 100 [Op.spawn, Op.timer] (initWorld 1)
        = some ([1, 0], worldAfter [Op.spawn, Op.timer]) ∧
      (worldAfter [Op.spawn, Op.timer]).ready = [0] ∧
      (worldAfter [Op.spawn, Op.timer]).running = 1 ∧
      hfind (worldAfter [Op.spawn, Op.timer]).heap 0
        = some { id := 0, state := State.READY, total_run_time := 1 } ∧
      uthread_block 0 (worldAfter [Op.spawn, Op.timer])
        = some (-1, worldAfter [Op.spawn, Op.timer])) ∧
    ((run 100 [Op.spawn, Op.spawn, Op.timer, Op.terminate 1, Op.spawn, Op.terminate 2]
        (initWorld 1)).map Prod.fst = some [1, 2, 0, 0, 1, 0] ∧
      (worldAfter [Op.spawn, Op.spawn, Op.timer, Op.terminate 1, Op.spawn,
        Op.terminate 2]).running = 0 ∧
      (worldAfter [Op.spawn, Op.spawn, Op.timer, Op.terminate 1, Op.spawn,
        Op.terminate 2]).ready = [3] ∧
      hfind (worldAfter [Op.spawn, Op.spawn, Op.timer, Op.terminate 1, Op.spawn,
        Op.terminate 2]).heap 3 = some { id := 1, state := State.READY, total_run_time := 0 } ∧
      (worldAfter [Op.spawn, Op.spawn, Op.timer, Op.terminate 1, Op.spawn,
        Op.terminate 2]).blocked = [] ∧
      (worldAfter [Op.spawn, Op.spawn, Op.timer, Op.terminate 1, Op.spawn,
        Op.terminate 2]).sleeping = [] ∧
      (worldAfter [Op.spawn, Op.spawn, Op.timer, Op.terminate 1, Op.spawn,
        Op.terminate 2]).getThreadByID 1 = none ∧
      uthread_block 1 (worldAfter [Op.spawn, Op.spawn, Op.timer, Op.terminate 1, Op.spawn,
          Op.terminate 2])
        = some (-1, worldAfter [Op.spawn, Op.spawn, Op.timer, Op.terminate 1, Op.spawn,
          Op.terminate 2])) ∧
    ((worldAfter twinTrace).running = 0 ∧
      (worldAfter twinTrace).ready = [2] ∧
      hfind (worldAfter twinTrace).heap 2
        = some { id := 1, state := State.READY, total_run_time := 2 } ∧
      (worldAfter twinTrace).getThreadByID 1 = some 2 ∧
      (worldAfter twinTrace).blocked = [(1, 3)] ∧
      (worldAfter twinTrace).sleeping = [(1, 9)] ∧
      (run 100 [Op.block 1, Op.resume 1] (worldAfter twinTrace)).map
          (fun r => (r.1, r.2.stateOf 2, r.2.ready))
        = some ([0, 0], some State.SLEEPING, [])) :=
  ⟨by decide, by decide, by decide⟩

/-- C5 (amended): for a thread other than main that is READY, is the thread
the index holds under its id, is not the running thread and has no entry in
the blocked set or the sleeping map, `block` then `resume` both return 0 and
give back the original state except that the thread now stands at the tail of
the ready queue. -/
theorem block_resume_ready (w : World) (tid : Int) (p : Nat) (t : Thread)
    (hmain : tid ≠ 0)
    (hidx : w.getThreadByID tid = some p)
    (hheap : hfind w.heap p = some t)
    (hid : t.id = tid)
    (hst : t.state = State.READY)
    (hrun : w.running ≠ p)
    (hbl : mfind w.blocked tid = none)
    (hsl : mfind w.sleeping tid = none) :
    ∃ w1, uthread_block tid w = some (0, w1) ∧
      w1.stateOf p = some State.BLOCKED ∧ p ∉ w1.ready ∧
      uthread_resume tid w1
        = some (0, { w with ready := w.ready.filter (fun a => decide (a ≠ p)) ++ [p] }) := by
  subst hid
  have hne : ¬ (State.READY = State.SLEEPING) := by decide
  refine ⟨{ w with heap := hset w.heap p { t with state := State.BLOCKED }
                   blocked := minsert t.id p w.blocked
                   ready := lremove w.ready p }, ?_, ?_, ?_, ?_⟩
  · simp [uthread_block, hmain, hidx, hheap, hst, World.blockThread, World.setState, hrun]
  · simp [World.stateOf, hfind_hset, hheap]
  · simp [mem_lremove]
  · have h1 : merase (minsert t.id p w.blocked) t.id = w.blocked := by
      simp [minsert, hbl, merase_mplace, merase_of_none]
    have h2 : hset w.heap p { t with state := State.READY } = w.heap := by
      have : ({ t with state := State.READY } : Thread) = t := by
        cases t; simp_all
      rw [this]; exact hset_self _ _ _ hheap
    have hidx2 : mfind w.threads t.id = some p := hidx
    simp [uthread_resume, World.getThreadByID, World.unblockThread, World.setReady,
      World.setState, hfind_hset, hheap, hsl, hset_hset, h1, h2, lremove_eq_filter, hidx2]

/-- C5 (witness): thread 2, READY behind the running thread 1. -/
theorem block_resume_ready_witness :
    ∃ w1, uthread_block 2 (worldAfter [Op.spawn, Op.spawn, Op.timer]) = some (0, w1) ∧
      w1.stateOf 2 = some State.BLOCKED ∧ 2 ∉ w1.ready ∧
      uthread_resume 2 w1
        = some (0, { worldAfter [Op.spawn, Op.spawn, Op.timer] with
            ready := (worldAfter [Op.spawn, Op.spawn, Op.timer]).ready.filter
              (fun a => decide (a ≠ 2)) ++ [2] }) :=
  block_resume_ready (worldAfter [Op.spawn, Op.spawn, Op.timer]) 2 2
    { id := 2, state := State.READY, total_run_time := 0 }
    (by decide) (by decide) (by decide) (by decide) (by decide) (by decide) (by decide)
    (by decide)

/-- C6 (failing input): in the state after `twinTrace` main runs at counter 8
and two live threads carry id 1.  The thread at address 3 is SLEEPING with
deadline 9, has the entry of id 1 in the sleeping map and in the blocked set,
and is neither running nor in the ready queue; the thread index holds the
thread at address 2, READY in the queue, under id 1.  `block 1` followed by
`resume 1` both return 0 and do not lead back to the state before the block:
they act on the thread at address 2, which is taken out of the ready queue and
ends in state SLEEPING. -/
theorem block_resume_of_sleeper_hits_namesake :
    (run 100 twinTrace (initWorld 1)).map Prod.fst = some [1, 0, 0, 1, 0, 1, 0, 0, 0, 0] ∧
    (worldAfter twinTrace).running = 0 ∧
    (worldAfter twinTrace).ready = [2] ∧
    (worldAfter twinTrace).idOf 3 = some 1 ∧
    (worldAfter twinTrace).stateOf 3 = some State.SLEEPING ∧
    (worldAfter twinTrace).sleeping = [(1, 9)] ∧
    (worldAfter twinTrace).blocked = [(1, 3)] ∧
    (worldAfter twinTrace).total_quantum_counter = 8 ∧
    (worldAfter twinTrace).idOf 2 = some 1 ∧
    (worldAfter twinTrace).stateOf 2 = some State.READY ∧
    (worldAfter twinTrace).getThreadByID 1 = some 2 ∧
    (run 100 [Op.block 1, Op.resume 1] (worldAfter twinTrace)).map
        (fun r => (r.1, r.2.stateOf 2, r.2.stateOf 3, r.2.ready))
      = some ([0, 0], some State.SLEEPING, some State.SLEEPING, []) ∧
    (run 100 [Op.block 1, Op.resume 1] (worldAfter twinTrace)).map
        (fun r => (r.2.blocked, r.2.sleeping, decide (r.2 = worldAfter twinTrace)))
      = some ([(1, 3)], [(1, 9)], false) :=
  ⟨by decide, by decide, by decide, by decide, by decide, by decide, by decide, by decide,
    by decide, by decide, by decide, by decide, by decide⟩

/-- For a thread that is SLEEPING with deadline `d` and is the thread that the
index and the blocked set hold under its id (an entry in the sleeping map,
state SLEEPING, neither running nor ready), `resume` returns 0 and changes
nothing, and `block` followed by `resume` leads back to exactly the state
before the block. -/
theorem resume_keeps_sleep (w : World) (tid : Int) (p : Nat) (t : Thread) (d : Int)
    (hidx : w.getThreadByID tid = some p)
    (hheap : hfind w.heap p = some t)
    (hid : t.id = tid)
    (hst : t.state = State.SLEEPING)
    (hsl : mfind w.sleeping tid = some d)
    (hbl : mfind w.blocked tid = some p)
    (hrun : w.running ≠ p)
    (hready : p ∉ w.ready) :
    uthread_resume tid w = some (0, w) ∧
      ∃ r w1, uthread_block tid w = some (r, w1) ∧ (tid ≠ 0 → r = 0) ∧
        uthread_resume tid w1 = some (0, w) ∧
        (match uthread_resume tid w1 with
         | some (_, w2) =>
           w2.stateOf p = some State.SLEEPING ∧ mfind w2.sleeping tid = some d ∧ p ∉ w2.ready
         | none => False) := by
  subst hid
  have hidx2 : mfind w.threads t.id = some p := hidx
  have hres : uthread_resume t.id w = some (0, w) := by
    simp [uthread_resume, World.getThreadByID, hidx2, hheap, hst, World.unblockThread]
  refine ⟨hres, ?_⟩
  by_cases h0 : t.id = 0
  · refine ⟨-1, w, ?_, ?_, hres, ?_⟩
    · simp [uthread_block, h0]
    · intro h; exact absurd h0 h
    · rw [hres]
      simp [World.stateOf, hheap, hst, hsl, hready]
  · have h2 : hset w.heap p { t with state := State.SLEEPING } = w.heap := by
      have : ({ t with state := State.SLEEPING } : Thread) = t := by
        cases t; simp_all
      rw [this]; exact hset_self _ _ _ hheap
    have hres2 : uthread_resume t.id
        { w with heap := hset w.heap p { t with state := State.BLOCKED }
                 blocked := minsert t.id p w.blocked
                 ready := lremove w.ready p } = some (0, w) := by
      simp [uthread_resume, World.getThreadByID, World.unblockThread,
        World.setState, hfind_hset, hheap, hsl, hset_hset, h2, hidx2, minsert, hbl,
        lremove_of_not_mem _ _ hready]
    refine ⟨0, _, ?_, ?_, hres2, ?_⟩
    · simp [uthread_block, h0, hidx2, World.getThreadByID, hheap, hst, World.blockThread,
        World.setState, hrun, hbl]
    · intro _; rfl
    · rw [hres2]
      simp [World.stateOf, hheap, hst, hsl, hready]

/-- Thread 1 asleep until quantum 7 while thread 2 runs: `resume 1` changes
nothing and `block 1` followed by `resume 1` restores the state. -/
theorem resume_keeps_sleep_witness :
    uthread_resume 1 (worldAfter [Op.spawn, Op.spawn, Op.timer, Op.sleep 5])
        = some (0, worldAfter [Op.spawn, Op.spawn, Op.timer, Op.sleep 5]) ∧
      ∃ r w1, uthread_block 1 (worldAfter [Op.spawn, Op.spawn, Op.timer, Op.sleep 5])
          = some (r, w1) ∧ ((1 : Int) ≠ 0 → r = 0) ∧
        uthread_resume 1 w1
          = some (0, worldAfter [Op.spawn, Op.spawn, Op.timer, Op.sleep 5]) ∧
        (match uthread_resume 1 w1 with
         | some (_, w2) =>
           w2.stateOf 1 = some State.SLEEPING ∧ mfind w2.sleeping 1 = some 7 ∧ 1 ∉ w2.ready
         | none => False) :=
  resume_keeps_sleep (worldAfter [Op.spawn, Op.spawn, Op.timer, Op.sleep 5]) 1 1
    { id := 1, state := State.SLEEPING, total_run_time := 1 } 7
    (by decide) (by decide) (by decide) (by decide) (by decide) (by decide) (by decide)
    (by decide)

/-! ## Thread ids -/

/-- C8 (the code at the failing input): ids 0..3 are allocated, 2 and then 3
are released, and the next allocation returns 3 although 2 is free. -/
theorem getNewID_skips_lowest_free_id :
    runAlloc [AllocOp.allocate, AllocOp.allocate, AllocOp.allocate, AllocOp.allocate,
        AllocOp.release 2, AllocOp.release 3, AllocOp.allocate] Thread_ID_Maker.new
      = ([0, 1, 2, 3, 3], { available_ids := [], last_id := 3 }) := by
  decide

/-- C7 (the code at the failing input): after `reapTrace` the running thread
is a live thread with id 1, and `spawn` returns 1 again; two live threads then
carry id 1. -/
theorem spawn_reissues_live_id :
    (run 100 reapTrace (initWorld 1)).map Prod.fst = some [1, 0, 0, 1, 0] ∧
      uthread_get_tid (worldAfter reapTrace) = some 1 ∧
      (worldAfter reapTrace).stateOf (worldAfter reapTrace).running = some State.RUNNING ∧
      (uthread_spawn 100 true (worldAfter reapTrace)).map Prod.fst = some 1 ∧
      (worldAfter (reapTrace ++ [Op.spawn])).running = 2 ∧
      (worldAfter (reapTrace ++ [Op.spawn])).ready = [0, 3] ∧
      (worldAfter (reapTrace ++ [Op.spawn])).idOf 2 = some 1 ∧
      (worldAfter (reapTrace ++ [Op.spawn])).idOf 3 = some 1 := by
  decide

/-- C10 (the code at the failing input): in the state after `reapTrace` the
thread index holds 2 threads; `spawn` returns 1 and appends the new thread
(address 3, quantum counter 0, never run) to the ready queue, but
`get_quantums 1` is 1, the counter of the older thread 1. -/
theorem spawn_get_quantums_not_zero :
    (worldAfter reapTrace).threads.length = 2 ∧
      (uthread_spawn 100 true (worldAfter reapTrace)).map Prod.fst = some 1 ∧
      (worldAfter (reapTrace ++ [Op.spawn])).ready = (worldAfter reapTrace).ready ++ [3] ∧
      hfind (worldAfter (reapTrace ++ [Op.spawn])).heap 3
        = some { id := 1, state := State.READY, total_run_time := 0 } ∧
      (worldAfter (reapTrace ++ [Op.spawn])).threads = [(0, 0), (1, 2)] ∧
      uthread_get_quantums 1 (worldAfter (reapTrace ++ [Op.spawn])) = some 1 := by
  decide

/-! ## Spawning and id reuse -/

theorem length_mplace {β : Type} (m : List (Int × β)) (k : Int) (v : β) :
    (mplace k v m).length = m.length + 1 := by
  induction m with
  | nil => simp [mplace]
  | cons e m ih =>
    obtain ⟨k1, v1⟩ := e
    by_cases hlt : k < k1
    · simp [mplace, hlt]
    · simp [mplace, hlt, ih]

theorem init_eq (q : Int) :
    World.init q = if timerRejects q then none else some (initWorld q) := by
  by_cases h : timerRejects q
  · simp [World.init, World.runTimer, World.incrementQuantumAmount, hfind, hset,
      Thread_ID_Maker.new, Thread_ID_Maker.getNewID, minsert, mfind, mplace, h]
  · simp [World.init, World.runTimer, World.incrementQuantumAmount, hfind, hset,
      Thread_ID_Maker.new, Thread_ID_Maker.getNewID, minsert, mfind, mplace, initWorld, h]

theorem uthread_init_eq (q : Int) (hq : 0 < q) (hq2 : q ≤ 999999) :
    uthread_init q = some (0, some (initWorld q)) := by
  have h : ¬ q ≤ 0 := by omega
  have h2 : ¬ timerRejects q := by
    unfold timerRejects
    omega
  simp [uthread_init, h, init_eq, h2]

/-- A call of `uthread_init` that returns 0 was made with a quantum length in
1..999999 and leaves the initial state. -/
theorem uthread_init_some {q : Int} {w0 : World}
    (h : uthread_init q = some (0, some w0)) : 0 < q ∧ q ≤ 999999 ∧ w0 = initWorld q := by
  by_cases hq : q ≤ 0
  · simp [uthread_init, hq] at h
  · by_cases h2 : timerRejects q
    · simp [uthread_init, hq, init_eq, h2] at h
    · simp [uthread_init, hq, init_eq, h2] at h
      unfold timerRejects at h2
      exact ⟨by omega, by omega, h.symm⟩

theorem uthread_spawn_eq (M : Nat) (w : World)
    (hlen : w.threads.length ≠ M)
    (hfresh : hfind w.heap w.next_addr = none)
    (hid : (w.threadIdMaker.getNewID).1 ≠ 0) :
    uthread_spawn M true w = some ((w.threadIdMaker.getNewID).1,
      { w with
        heap := w.heap ++ [(w.next_addr,
          { id := (w.threadIdMaker.getNewID).1, state := State.READY, total_run_time := 0 })]
        next_addr := w.next_addr + 1
        threadIdMaker := (w.threadIdMaker.getNewID).2
        threads := minsert (w.threadIdMaker.getNewID).1 w.next_addr w.threads
        ready := w.ready ++ [w.next_addr] }) := by
  have h1 : hfind (w.heap ++ [(w.next_addr,
      ({ id := (w.threadIdMaker.getNewID).1, state := State.READY, total_run_time := 0 } : Thread))])
        w.next_addr
      = some { id := (w.threadIdMaker.getNewID).1, state := State.READY, total_run_time := 0 } := by
    rw [hfind_append, hfresh]; simp
  simp [uthread_spawn, World.newThread, World.addNewThread, hlen, h1, World.setReady,
    World.setState, hset_self _ _ _ h1, hid]


theorem spawnedOnly_init (q : Int) : SpawnedOnly 0 (initWorld q) := by
  refine ⟨rfl, rfl, ?_, ?_, ?_, ?_⟩
  · intro e he; simp [initWorld] at he; simp [he]
  · intro e he; simp [initWorld] at he; simp [he, initWorld]
  · intro j h1 h2; exfalso; simp at h2; omega
  · exact ⟨_, rfl, rfl⟩

theorem spawnedOnly_spawn (M k : Nat) (w : World) (h : SpawnedOnly k w) (hk : k + 1 ≠ M) :
    ∃ w1, uthread_spawn M true w = some ((k : Int) + 1, w1) ∧ SpawnedOnly (k + 1) w1 := by
  obtain ⟨hm, hlen, hkeys, hfresh, hidx, r, hr, hr0⟩ := h
  have hnew : (w.threadIdMaker.getNewID) = ((k : Int) + 1, { available_ids := [], last_id := (k : Int) + 1 }) := by
    simp [hm, Thread_ID_Maker.getNewID]
  have hf : hfind w.heap w.next_addr = none := hfind_none_of_lt _ _ hfresh
  have hnone : mfind w.threads ((k : Int) + 1) = none := by
    rw [mfind_none_iff]
    intro e he
    have := hkeys e he
    omega
  have hsp := uthread_spawn_eq M w (by omega) hf (by rw [hnew]; simp; omega)
  rw [hnew] at hsp
  refine ⟨_, hsp, ?_⟩
  refine ⟨by simp, ?_, ?_, ?_, ?_, ?_⟩
  · simp [minsert, hnone, length_mplace, hlen]
  · intro e he
    rcases mem_minsert _ _ _ _ he with h1 | h1
    · simp [h1]
    · have := hkeys e h1
      push_cast
      omega
  · intro e he
    simp at he
    rcases he with h1 | h1
    · have := hfresh e h1
      show e.1 < w.next_addr + 1
      omega
    · simp [h1]
  · intro j h1 h2
    by_cases hj : j = (k : Int) + 1
    · refine ⟨w.next_addr, { id := (k : Int) + 1, state := State.READY, total_run_time := 0 }, ?_, ?_, ?_⟩
      · simp [mfind_minsert, hj, hnone]
      · simp [hfind_append, hf]
      · simp [hj]
    · have h3 : j ≤ (k : Int) := by push_cast at h2; omega
      obtain ⟨p, t, hp, ht, hid⟩ := hidx j h1 h3
      refine ⟨p, t, ?_, ?_, hid⟩
      · simp [mfind_minsert, hj, hp]
      · simp [hfind_append, ht]
  · refine ⟨r, ?_, hr0⟩
    simp [hfind_append, hr]

theorem run_spawns (M : Nat) (n : Nat) : ∀ (k : Nat) (w : World), SpawnedOnly k w → k + n < M →
    ∃ w1, run M (List.replicate n Op.spawn) w
        = some ((List.range n).map (fun (a : Nat) => (k : Int) + 1 + (a : Int)), w1) ∧
      SpawnedOnly (k + n) w1 := by
  induction n with
  | zero =>
    intro k w h _
    exact ⟨w, by simp [run], h⟩
  | succ n ih =>
    intro k w h hlt
    obtain ⟨w1, hs, h1⟩ := spawnedOnly_spawn M k w h (by omega)
    obtain ⟨w2, hr, h2⟩ := ih (k + 1) w1 h1 (by omega)
    refine ⟨w2, ?_, ?_⟩
    · simp only [List.replicate_succ, run, step, hs, hr]
      simp only [List.range_succ_eq_map, List.map_cons, List.map_map]
      congr 2
      simp
      intro a _
      ring
    · have : k + (n + 1) = k + 1 + n := by omega
      rw [this]; exact h2

theorem run_append (M : Nat) (a b : List Op) : ∀ (w : World) (ra : List Int) (w1 : World)
    (rb : List Int) (w2 : World),
    run M a w = some (ra, w1) → run M b w1 = some (rb, w2) →
    run M (a ++ b) w = some (ra ++ rb, w2) := by
  induction a with
  | nil =>
    intro w ra w1 rb w2 h1 h2
    simp [run] at h1
    obtain ⟨rfl, rfl⟩ := h1
    simpa using h2
  | cons op a ih =>
    intro w ra w1 rb w2 h1 h2
    simp only [run] at h1
    cases hs : step M w op with
    | none => simp [hs] at h1
    | some r =>
      obtain ⟨r0, w0⟩ := r
      simp only [hs] at h1
      cases hr : run M a w0 with
      | none => simp [hr] at h1
      | some rr =>
        obtain ⟨rs, w3⟩ := rr
        simp only [hr, Option.some.injEq, Prod.mk.injEq] at h1
        obtain ⟨rfl, rfl⟩ := h1
        have := ih w0 rs w3 rb w2 hr h2
        simp [run, hs, this]

theorem terminate_other_spawn (M k : Nat) (j : Int) (w : World) (h : SpawnedOnly k w)
    (hkM : k < M) (hj1 : 1 ≤ j) (hjk : j ≤ (k : Int)) :
    ∃ w1 w2, uthread_terminate j w = some (0, w1) ∧ uthread_spawn M true w1 = some (j, w2) := by
  obtain ⟨hm, hlen, hkeys, hfresh, hidx, r, hr, hr0⟩ := h
  obtain ⟨p, t, hp, ht, hid⟩ := hidx j hj1 hjk
  have hj0 : j ≠ 0 := by omega
  have hne : ¬ t.id = r.id := by rw [hid, hr0]; exact hj0
  have hne0 : ¬ t.id = 0 := by rw [hid]; exact hj0
  have hterm : uthread_terminate j w = some (0,
      { w with
        ready := lremove w.ready p
        blocked := merase w.blocked t.id
        sleeping := merase w.sleeping t.id
        threads := merase w.threads t.id
        heap := hdel w.heap p
        threadIdMaker := w.threadIdMaker.addIDtoList t.id }) := by
    have hp2 : mfind w.threads j = some p := hp
    simp [uthread_terminate, hj0, World.getThreadByID, hp2, World.terminateThread, ht, hr, hne,
      World.removeThread, World.deleteThread, hne0]
  have hlen2 : (merase w.threads t.id).length ≠ M := by
    have := merase_length_lt w.threads t.id p (by rw [hid]; exact hp)
    omega
  have hf : hfind (hdel w.heap p) w.next_addr = none := by
    apply hfind_none_of_lt
    intro e he
    exact hfresh e ((mem_hdel _ _ _).1 he).1
  have hnew : ((w.threadIdMaker.addIDtoList t.id).getNewID).1 = j := by
    rw [hm, hid]
    by_cases hjk2 : j = (k : Int)
    · simp [Thread_ID_Maker.addIDtoList, hjk2, Thread_ID_Maker.getNewID]
    · have : j < (k : Int) := by omega
      simp [Thread_ID_Maker.addIDtoList, hjk2, Thread_ID_Maker.getNewID, setInsert, this]
  have hsp := uthread_spawn_eq M
      { w with
        ready := lremove w.ready p
        blocked := merase w.blocked t.id
        sleeping := merase w.sleeping t.id
        threads := merase w.threads t.id
        heap := hdel w.heap p
        threadIdMaker := w.threadIdMaker.addIDtoList t.id } hlen2 hf (by rw [hnew]; exact hj0)
  simp only [hnew] at hsp
  exact ⟨_, _, hterm, hsp⟩


/-- C9: after an `init` that has returned 0, the first `k` spawns
(`1 ≤ k < MAX_THREAD_NUM`) return 1, 2, ..., k in that order; when main then
terminates thread `j` (`1 ≤ j ≤ k`), which returns 0, the next spawn returns
`j`. -/
theorem id_reuse_after_terminate (M k : Nat) (j q : Int) (w0 : World)
    (hinit : uthread_init q = some (0, some w0))
    (_hk1 : 1 ≤ k) (hkM : k < M) (hj1 : 1 ≤ j) (hjk : j ≤ (k : Int)) :
    ∃ w, run M (List.replicate k Op.spawn ++ [Op.terminate j, Op.spawn]) w0
        = some ((List.range k).map (fun (a : Nat) => (a : Int) + 1) ++ [0, j], w) := by
  obtain ⟨_, _, rfl⟩ := uthread_init_some hinit
  obtain ⟨w1, hr, h1⟩ := run_spawns M k 0 (initWorld q) (spawnedOnly_init q) (by omega)
  obtain ⟨w2, w3, ht, hs⟩ := terminate_other_spawn M (0 + k) j w1 h1 (by omega) hj1
    (by push_cast; omega)
  refine ⟨w3, ?_⟩
  have h2 : run M [Op.terminate j, Op.spawn] w1 = some ([0, j], w3) := by
    simp [run, step, ht, hs]
  have h3 := run_append M _ _ _ _ _ _ _ hr h2
  have h4 : (List.range k).map (fun (a : Nat) => ((0 : Nat) : Int) + 1 + (a : Int))
      = (List.range k).map (fun (a : Nat) => (a : Int) + 1) := by
    apply List.map_congr_left
    intro a _
    push_cast
    ring
  rw [h4] at h3
  exact h3

/-- C9 (witness): the case of the specification, `k = 3` and `j = 2`, after
`init 1`. -/
theorem id_reuse_after_terminate_witness :
    uthread_init 1 = some (0, some (initWorld 1)) ∧
    1 ≤ 3 ∧ 3 < 100 ∧ (1 : Int) ≤ 2 ∧ (2 : Int) ≤ ((3 : Nat) : Int) ∧
    ∃ w, run 100 (List.replicate 3 Op.spawn ++ [Op.terminate 2, Op.spawn]) (initWorld 1)
        = some ((List.range 3).map (fun (a : Nat) => (a : Int) + 1) ++ [0, 2], w) :=
  ⟨by decide, by decide, by decide, by decide, by decide,
    id_reuse_after_terminate 100 3 2 1 (initWorld 1) (by decide) (by decide) (by decide)
      (by decide) (by decide)⟩

/-! ## The wake scan -/

theorem Woke.refl (w : World) : Woke w w [] := by
  constructor <;> simp

theorem Woke.trans {a b c : World} {l1 l2 : List Nat} (h1 : Woke a b l1) (h2 : Woke b c l2) :
    Woke a c (l1 ++ l2) := by
  have hdisj : ∀ q ∈ l1, q ∉ l2 := by
    intro q hq1 hq2
    obtain ⟨t, _, _, hb⟩ := h1.heap_woken q hq1
    obtain ⟨t2, hb2, hs2, _⟩ := h2.heap_woken q hq2
    rw [hb] at hb2
    simp at hb2
    rw [← hb2] at hs2
    simp at hs2
  constructor
  · rw [h2.ready_eq, h1.ready_eq, List.append_assoc]
  · intro q hq
    simp at hq
    rw [h2.heap_other q hq.2, h1.heap_other q hq.1]
  · intro q hq
    simp at hq
    rcases hq with hq | hq
    · obtain ⟨t, ha, hs, hb⟩ := h1.heap_woken q hq
      exact ⟨t, ha, hs, by rw [h2.heap_other q (hdisj q hq), hb]⟩
    · by_cases hq1 : q ∈ l1
      · exact absurd hq (hdisj q hq1)
      · obtain ⟨t, hb, hs, hc⟩ := h2.heap_woken q hq
        exact ⟨t, by rw [← h1.heap_other q hq1, hb], hs, hc⟩
  · intro k hk
    rw [h2.blocked_keep k, h1.blocked_keep k]
    · intro q hq t ht
      exact hk q (by simp [hq]) t ht
    · intro q hq t ht
      by_cases hq1 : q ∈ l1
      · exact absurd hq (hdisj q hq1)
      · rw [h1.heap_other q hq1] at ht
        exact hk q (by simp [hq]) t ht
  · intro k v hv
    exact h1.blocked_sub k v (h2.blocked_sub k v hv)
  · intro e he
    exact h1.sleeping_sub e (h2.sleeping_sub e he)
  · rw [h2.running_eq, h1.running_eq]
  · rw [h2.total_eq, h1.total_eq]
  · rw [h2.check_eq, h1.check_eq]
  · rw [h2.threads_eq, h1.threads_eq]
  · rw [h2.terminated_eq, h1.terminated_eq]
  · rw [h2.maker_eq, h1.maker_eq]
  · rw [h2.addr_eq, h1.addr_eq]
  · rw [h2.quant_eq, h1.quant_eq]
  · intro q hq t ht
    simp at hq
    rcases hq with hq | hq
    · have hb := h1.blocked_gone q hq t ht
      cases hc : mfind c.blocked t.id with
      | none => rfl
      | some v =>
        have := h2.blocked_sub _ _ hc
        rw [hb] at this
        simp at this
    · by_cases hq1 : q ∈ l1
      · exact absurd hq (hdisj q hq1)
      · rw [← h1.heap_other q hq1] at ht
        exact h2.blocked_gone q hq t ht

/-- Erasing an entry of the sleeping map is a wake-up of nobody. -/
theorem Woke.erase_sleeping (w : World) (id : Int) :
    Woke w { w with sleeping := merase w.sleeping id } [] := by
  constructor <;> simp
  intro a b h
  exact ((mem_merase _ _ _).1 h).1

/-- One wake-up: a SLEEPING thread found in the blocked set is set BLOCKED
and passed to `unblockThread`. -/
theorem Woke.wake_one (w : World) (p : Nat) (t : Thread) (w2 w3 : World)
    (ht : hfind w.heap p = some t) (hs : t.state = State.SLEEPING)
    (h2 : w.setState p State.BLOCKED = some w2) (h3 : w2.unblockThread p = some w3) :
    (Woke w w3 [] ∧ (mfind w.sleeping t.id).isSome) ∨
    (Woke w w3 [p] ∧ mfind w.sleeping t.id = none ∧ w3.blocked = merase w.blocked t.id) := by
  simp [World.setState, ht] at h2
  subst h2
  simp [World.unblockThread, hfind_hset, ht] at h3
  by_cases hsl : (mfind w.sleeping t.id).isSome
  · left
    simp [hsl, World.setState, hfind_hset, ht, hset_hset] at h3
    subst h3
    have hself : ({ t with state := State.SLEEPING } : Thread) = t := by
      cases t; simp_all
    refine ⟨?_, hsl⟩
    constructor <;> simp
    intro q
    rw [hself, hset_self _ _ _ ht]
  · right
    simp [hsl, World.setReady, World.setState, hfind_hset, ht, hset_hset] at h3
    subst h3
    have hnone : mfind w.sleeping t.id = none := by
      cases h : mfind w.sleeping t.id with
      | none => rfl
      | some v => simp [h] at hsl
    refine ⟨?_, hnone, rfl⟩
    constructor <;> simp
    · intro q hq
      simp [hfind_hset, hq]
    · exact ⟨t, ht, hs, by simp [hfind_hset, ht]⟩
    · intro k hk
      have := hk t ht
      have hne : ¬ k = t.id := fun h => this h.symm
      simp [mfind_merase, hne]
    · intro k v hv
      rw [mfind_merase] at hv
      split at hv
      · simp at hv
      · exact hv
    · intro t1 ht1
      rw [ht] at ht1
      simp at ht1
      rw [← ht1]
      simp [mfind_merase]

theorem handleSleepingLoop_woke (l : List (Int × Int)) :
    ∀ (nc : Int) (w : World) (nc1 : Int) (w1 : World),
      World.handleSleepingLoop l nc w = some (nc1, w1) →
      ∃ woken, Woke w w1 woken ∧
        ∀ q ∈ woken, ∃ id, (id, w.next_sleep_check) ∈ l ∧ mfind w.blocked id = some q := by
  induction l with
  | nil =>
    intro nc w nc1 w1 h
    simp [World.handleSleepingLoop] at h
    obtain ⟨_, rfl⟩ := h
    exact ⟨[], Woke.refl w, by simp⟩
  | cons e rest ih =>
    intro nc w nc1 w1 h
    obtain ⟨id, d⟩ := e
    simp only [World.handleSleepingLoop] at h
    by_cases hd : d = w.next_sleep_check
    · simp only [hd, if_true] at h
      cases hb : mfind w.blocked id with
      | none => simp [hb] at h
      | some p =>
        simp only [hb] at h
        cases ht : hfind w.heap p with
        | none => simp [ht] at h
        | some t =>
          simp only [ht] at h
          have he := Woke.erase_sleeping w id
          by_cases hs : t.state = State.SLEEPING
          · simp only [hs, if_true] at h
            cases h2 : World.setState { w with sleeping := merase w.sleeping id } p State.BLOCKED with
            | none => simp [h2] at h
            | some w2 =>
              simp only [h2] at h
              cases h3 : w2.unblockThread p with
              | none => simp [h3] at h
              | some w3 =>
                simp only [h3] at h
                obtain ⟨woken, hw, hq⟩ := ih nc w3 nc1 w1 h
                rcases Woke.wake_one { w with sleeping := merase w.sleeping id } p t w2 w3 ht hs h2 h3 with ⟨hw3, _⟩ | ⟨hw3, _, _⟩
                · have h13 := Woke.trans he hw3
                  refine ⟨woken, by simpa using Woke.trans h13 hw, ?_⟩
                  intro q hqm
                  obtain ⟨id1, hm, hbl⟩ := hq q hqm
                  rw [h13.check_eq] at hm
                  exact ⟨id1, by simp [hd, hm], h13.blocked_sub _ _ hbl⟩
                · have h13 := Woke.trans he hw3
                  refine ⟨p :: woken, by simpa using Woke.trans h13 hw, ?_⟩
                  intro q hqm
                  simp at hqm
                  rcases hqm with hqm | hqm
                  · subst hqm
                    exact ⟨id, by simp [hd], hb⟩
                  · obtain ⟨id1, hm, hbl⟩ := hq q hqm
                    rw [h13.check_eq] at hm
                    exact ⟨id1, by simp [hd, hm], h13.blocked_sub _ _ hbl⟩
          · simp only [hs, if_false] at h
            obtain ⟨woken, hw, hq⟩ := ih nc _ nc1 w1 h
            refine ⟨woken, by simpa using Woke.trans he hw, ?_⟩
            intro q hqm
            obtain ⟨id1, hm, hbl⟩ := hq q hqm
            exact ⟨id1, by simp [hd]; right; simpa [hd] using hm, hbl⟩
    · simp only [hd, if_false] at h
      obtain ⟨woken, hw, hq⟩ := ih _ w nc1 w1 h
      refine ⟨woken, hw, ?_⟩
      intro q hqm
      obtain ⟨id1, hm, hbl⟩ := hq q hqm
      exact ⟨id1, by simp [hm], hbl⟩

theorem handleSleepingLoop_succeeds (l : List (Int × Int)) :
    ∀ (nc : Int) (w : World),
      (l.map Prod.fst).Nodup →
      (∀ e ∈ l, (mfind w.blocked e.1).isSome) →
      (∀ k p, mfind w.blocked k = some p → (hfind w.heap p).map Thread.id = some k) →
      ∃ r, World.handleSleepingLoop l nc w = some r := by
  induction l with
  | nil =>
    intro nc w _ _ _
    exact ⟨_, rfl⟩
  | cons e rest ih =>
    intro nc w hnd hbl hlive
    obtain ⟨id, d⟩ := e
    simp only [List.map_cons, List.nodup_cons] at hnd
    have hrest : ∀ e ∈ rest, (mfind w.blocked e.1).isSome := fun e he => hbl e (by simp [he])
    simp only [World.handleSleepingLoop]
    by_cases hd : d = w.next_sleep_check
    · rw [if_pos hd]
      have h1 := hbl (id, d) (by simp)
      cases hb : mfind w.blocked id with
      | none => simp [hb] at h1
      | some p =>
        have h2 := hlive id p hb
        cases ht : hfind w.heap p with
        | none => simp [ht] at h2
        | some t =>
          simp only [ht, Option.map_some', Option.some.injEq] at h2
          simp only [ht]
          by_cases hs : t.state = State.SLEEPING
          · rw [if_pos hs]
            have hset1 : World.setState { w with sleeping := merase w.sleeping id } p State.BLOCKED
                = some { w with sleeping := merase w.sleeping id, heap := hset w.heap p { t with state := State.BLOCKED } } := by
              simp [World.setState, ht]
            have hnone : mfind (merase w.sleeping id) t.id = none := by
              simp [mfind_merase, h2]
            have hun : ∃ w3, World.unblockThread { w with sleeping := merase w.sleeping id, heap := hset w.heap p { t with state := State.BLOCKED } } p
                = some w3 := by
              simp [World.unblockThread, hfind_hset, ht, hnone, World.setReady, World.setState]
            obtain ⟨w3, h3⟩ := hun
            simp only [hset1, h3]
            rcases Woke.wake_one { w with sleeping := merase w.sleeping id } p t _ w3 ht hs hset1 h3
              with ⟨_, hsome⟩ | ⟨hw3, _, _⟩
            · simp [hnone] at hsome
            · apply ih nc w3 hnd.2
              · intro e he
                have hne : e.1 ≠ id := by
                  intro h
                  apply hnd.1
                  simp only [List.mem_map]
                  exact ⟨e, he, h⟩
                rw [hw3.blocked_keep e.1]
                · exact hrest e he
                · intro q hq t1 ht1
                  simp at hq
                  subst hq
                  have ht1' : hfind w.heap q = some t1 := ht1
                  rw [ht] at ht1'
                  simp at ht1'
                  rw [← ht1', h2]
                  exact fun h => hne h.symm
              · intro k p1 hk
                have hk0 := hlive k p1 (hw3.blocked_sub k p1 hk)
                by_cases hp1 : p1 ∈ [p]
                · obtain ⟨t1, ha, _, hb1⟩ := hw3.heap_woken p1 hp1
                  have ha' : hfind w.heap p1 = some t1 := ha
                  rw [hb1]
                  rw [ha'] at hk0
                  simpa using hk0
                · rw [hw3.heap_other p1 hp1]
                  exact hk0
          · rw [if_neg hs]
            exact ih nc _ hnd.2 hrest hlive
    · rw [if_neg hd]
      exact ih _ w hnd.2 hrest hlive

theorem handleSleeping_woke (w w1 : World) (h : w.handleSleeping = some w1) :
    ∃ woken, Woke w { w1 with next_sleep_check := w.next_sleep_check } woken ∧
      ∀ q ∈ woken, ∃ id, (id, w.next_sleep_check) ∈ w.sleeping ∧ mfind w.blocked id = some q := by
  simp only [World.handleSleeping] at h
  cases hl : World.handleSleepingLoop w.sleeping 0 w with
  | none => simp [hl] at h
  | some r =>
    obtain ⟨nc, w2⟩ := r
    simp only [hl, Option.some.injEq] at h
    subst h
    obtain ⟨woken, hw, hq⟩ := handleSleepingLoop_woke _ _ _ _ _ hl
    refine ⟨woken, ?_, hq⟩
    have hc := hw.check_eq
    constructor
    · exact hw.ready_eq
    · exact hw.heap_other
    · exact hw.heap_woken
    · exact hw.blocked_keep
    · exact hw.blocked_sub
    · exact hw.sleeping_sub
    · exact hw.running_eq
    · exact hw.total_eq
    · rfl
    · exact hw.threads_eq
    · exact hw.terminated_eq
    · exact hw.maker_eq
    · exact hw.addr_eq
    · exact hw.quant_eq
    · exact hw.blocked_gone


/-! ## Switching to the next thread -/

theorem handleSleeping_quant (w w1 : World) (h : w.handleSleeping = some w1) :
    w1.quant_len = w.quant_len := by
  obtain ⟨woken, hw, _⟩ := handleSleeping_woke w w1 h
  exact hw.quant_eq

theorem runNextThread_raw (w : World) (h : Nat) (rest : List Nat) (th : Thread)
    (hready : w.ready = h :: rest) (hh : hfind w.heap h = some th) :
    w.runNextThread
      = match (if w.total_quantum_counter + 1 = w.next_sleep_check
               then (w.switchTo h th rest).handleSleeping
               else some (w.switchTo h th rest)) with
        | none => none
        | some w3 => if timerRejects w3.quant_len then none else some w3 := by
  simp [World.runNextThread, hready, World.runThread, World.setState, hh, World.runTimer,
    World.incrementQuantumAmount, hfind_hset, hset_hset, World.switchTo]

/-- A switch that returns was made with a quantum length that `setitimer`
accepts. -/
theorem runNextThread_timer (w w1 : World) (hrun : w.runNextThread = some w1) :
    ¬ timerRejects w.quant_len := by
  intro hq
  cases hr : w.ready with
  | nil => simp [World.runNextThread, hr] at hrun
  | cons h rest =>
    cases hh : hfind w.heap h with
    | none => simp [World.runNextThread, hr, World.runThread, World.setState, hh] at hrun
    | some th =>
      rw [runNextThread_raw w h rest th hr hh] at hrun
      by_cases hc : w.total_quantum_counter + 1 = w.next_sleep_check
      · rw [if_pos hc] at hrun
        cases hs : (w.switchTo h th rest).handleSleeping with
        | none => simp [hs] at hrun
        | some w3 =>
          have hq3 : timerRejects w3.quant_len := by
            rw [handleSleeping_quant _ _ hs]
            exact hq
          simp [hs, hq3] at hrun
      · rw [if_neg hc] at hrun
        have hq3 : timerRejects (w.switchTo h th rest).quant_len := hq
        simp [hq3] at hrun

theorem runNextThread_eq (w : World) (h : Nat) (rest : List Nat) (th : Thread)
    (hready : w.ready = h :: rest) (hh : hfind w.heap h = some th)
    (hq : ¬ timerRejects w.quant_len) :
    w.runNextThread
      = if w.total_quantum_counter + 1 = w.next_sleep_check
        then (w.switchTo h th rest).handleSleeping
        else some (w.switchTo h th rest) := by
  rw [runNextThread_raw w h rest th hready hh]
  by_cases hc : w.total_quantum_counter + 1 = w.next_sleep_check
  · simp only [if_pos hc]
    cases hs : (w.switchTo h th rest).handleSleeping with
    | none => rfl
    | some w3 =>
      have hq3 : ¬ timerRejects w3.quant_len := by
        rw [handleSleeping_quant _ _ hs]
        exact hq
      simp [hq3]
  · simp only [if_neg hc]
    have hq3 : ¬ timerRejects (w.switchTo h th rest).quant_len := hq
    simp [hq3]

theorem runNextThread_woke (w w1 : World) (hrun : w.runNextThread = some w1) :
    ∃ h rest th woken, w.ready = h :: rest ∧ hfind w.heap h = some th ∧
      Woke (w.switchTo h th rest) { w1 with next_sleep_check := w.next_sleep_check } woken ∧
      (woken ≠ [] → w.total_quantum_counter + 1 = w.next_sleep_check) ∧
      (w.total_quantum_counter + 1 ≠ w.next_sleep_check → w1 = w.switchTo h th rest) ∧
      (w.total_quantum_counter + 1 = w.next_sleep_check →
        (w.switchTo h th rest).handleSleeping = some w1) ∧
      ∀ q ∈ woken, ∃ id, (id, w.next_sleep_check) ∈ w.sleeping ∧ mfind w.blocked id = some q := by
  cases hr : w.ready with
  | nil => simp [World.runNextThread, hr] at hrun
  | cons h rest =>
    cases hh : hfind w.heap h with
    | none => simp [World.runNextThread, hr, World.runThread, World.setState, hh] at hrun
    | some th =>
      rw [runNextThread_eq w h rest th hr hh (runNextThread_timer w w1 hrun)] at hrun
      refine ⟨h, rest, th, ?_⟩
      by_cases hc : w.total_quantum_counter + 1 = w.next_sleep_check
      · rw [if_pos hc] at hrun
        obtain ⟨woken, hw, hq⟩ := handleSleeping_woke _ _ hrun
        exact ⟨woken, rfl, hh, hw, fun _ => hc, fun h => absurd hc h, fun _ => hrun, hq⟩
      · rw [if_neg hc] at hrun
        simp only [Option.some.injEq] at hrun
        subst hrun
        refine ⟨[], rfl, hh, ?_, fun h => absurd rfl h, fun _ => rfl, fun h => absurd h hc, by simp⟩
        constructor <;> simp [World.switchTo]

theorem runNextThread_succeeds (w : World) (h : Nat) (rest : List Nat) (th : Thread)
    (hready : w.ready = h :: rest) (hh : hfind w.heap h = some th) (hwr : WakeReady w)
    (htq : ¬ timerRejects w.quant_len) :
    ∃ w1, w.runNextThread = some w1 := by
  rw [runNextThread_eq w h rest th hready hh htq]
  by_cases hc : w.total_quantum_counter + 1 = w.next_sleep_check
  · rw [if_pos hc]
    obtain ⟨hnd, hsb, hbl⟩ := hwr
    have := handleSleepingLoop_succeeds (w.switchTo h th rest).sleeping 0 (w.switchTo h th rest)
      hnd hsb (by
        intro k p hk
        have hm := hbl (k, p) (mfind_mem _ _ _ hk)
        simp only [World.switchTo, hfind_hset]
        by_cases hp : p = h
        · subst hp
          simp only [hh, Option.map_some', if_true]
          simpa [hh] using hm
        · simpa [hp] using hm)
    obtain ⟨⟨nc, w2⟩, hr⟩ := this
    exact ⟨{ w2 with next_sleep_check := nc }, by simp [World.handleSleeping, hr]⟩
  · rw [if_neg hc]
    exact ⟨_, rfl⟩

/-- The outcome of `runNextThread` on a state whose ready queue is `h :: rest`. -/
theorem switch_outcome (v : World) (h : Nat) (rest : List Nat) (th : Thread)
    (hready : v.ready = h :: rest) (hh : hfind v.heap h = some th) (hwr : WakeReady v)
    (htq : ¬ timerRejects v.quant_len) :
    ∃ w1 woken, v.runNextThread = some w1 ∧
      w1.running = h ∧
      w1.ready = rest ++ woken ∧
      w1.total_quantum_counter = v.total_quantum_counter + 1 ∧
      hfind w1.heap h
        = some { th with state := State.RUNNING, total_run_time := th.total_run_time + 1 } ∧
      (∀ q, q ∉ woken → q ≠ h → hfind w1.heap q = hfind v.heap q) ∧
      (∀ x ∈ woken, x ≠ h ∧ v.total_quantum_counter + 1 = v.next_sleep_check ∧
        (∃ id, (id, v.next_sleep_check) ∈ v.sleeping ∧ mfind v.blocked id = some x) ∧
        ∃ t, hfind v.heap x = some t ∧ t.state = State.SLEEPING ∧
          hfind w1.heap x = some { t with state := State.READY }) ∧
      w1.threads = v.threads ∧ w1.terminated = v.terminated ∧
      w1.threadIdMaker = v.threadIdMaker := by
  obtain ⟨w1, hrun⟩ := runNextThread_succeeds v h rest th hready hh hwr htq
  obtain ⟨h2, rest2, th2, woken, hr2, hh2, hw, hne, _, _, hq⟩ := runNextThread_woke v w1 hrun
  rw [hready] at hr2
  simp only [List.cons.injEq] at hr2
  obtain ⟨rfl, rfl⟩ := hr2
  rw [hh] at hh2
  simp only [Option.some.injEq] at hh2
  subst hh2
  have hnot : h ∉ woken := by
    intro hm
    obtain ⟨t, ht, hs, _⟩ := hw.heap_woken h hm
    simp [World.switchTo, hfind_hset, hh] at ht
    rw [← ht] at hs
    simp at hs
  refine ⟨w1, woken, hrun, ?_, ?_, ?_, ?_, ?_, ?_, ?_, ?_, ?_⟩
  · simpa [World.switchTo] using hw.running_eq
  · simpa [World.switchTo] using hw.ready_eq
  · simpa [World.switchTo] using hw.total_eq
  · have := hw.heap_other h hnot
    simpa [World.switchTo, hfind_hset, hh] using this
  · intro q hq1 hq2
    have := hw.heap_other q hq1
    simpa [World.switchTo, hfind_hset, hq2] using this
  · intro x hx
    have hxh : x ≠ h := fun e => hnot (e ▸ hx)
    obtain ⟨t, ht, hs, ht1⟩ := hw.heap_woken x hx
    simp only [World.switchTo, hfind_hset, hxh, if_false] at ht
    refine ⟨hxh, hne (List.ne_nil_of_mem hx), hq x hx, t, ht, hs, ?_⟩
    simpa using ht1
  · simpa [World.switchTo] using hw.threads_eq
  · simpa [World.switchTo] using hw.terminated_eq
  · simpa [World.switchTo] using hw.maker_eq


/-! ## Timer preemption -/

/-- The reaping step at the head of `timerHandler`. -/
theorem timer_reap (w : World) (hc : Consistent w) :
    ∃ w0, (match w.terminated with
           | none => some w
           | some q =>
             match w.deleteThread q with
             | none => none
             | some w1 => some { w1 with terminated := none }) = some w0 ∧
      w0.ready = w.ready ∧ w0.running = w.running ∧ w0.blocked = w.blocked ∧
      w0.sleeping = w.sleeping ∧ w0.total_quantum_counter = w.total_quantum_counter ∧
      w0.next_sleep_check = w.next_sleep_check ∧
      (∀ x, (∀ q ∈ w.terminated, x ≠ q) → hfind w0.heap x = hfind w.heap x) ∧
      (∀ x t, hfind w0.heap x = some t → hfind w.heap x = some t) ∧
      w0.quant_len = w.quant_len := by
  obtain ⟨_, _, _, _, hterm, _⟩ := hc
  cases ht : w.terminated with
  | none =>
    exact ⟨w, rfl, rfl, rfl, rfl, rfl, rfl, rfl, fun _ _ => rfl, fun _ _ h => h, rfl⟩
  | some q =>
    have hq := (hterm q (by simp [ht])).1
    cases hf : hfind w.heap q with
    | none => simp [hf] at hq
    | some tq =>
      refine ⟨{ w with heap := hdel w.heap q, threadIdMaker := if tq.id ≠ 0 then w.threadIdMaker.addIDtoList tq.id else w.threadIdMaker, terminated := none },
        by simp [World.deleteThread, hf], rfl, rfl, rfl, rfl, rfl, rfl, ?_, ?_, rfl⟩
      · intro x hx
        have : x ≠ q := hx q (by simp)
        simp [hfind_hdel, this]
      · intro x t hx
        simp only [hfind_hdel] at hx
        split at hx
        · simp at hx
        · exact hx

/-- C1 (amended): in a consistent state with running thread `r` and ready
queue `q`, a timer expiry makes the head of `q ++ [r]` the running thread and
the only thread in state RUNNING; when `q` is not empty `r` is READY; the
ready queue becomes the tail of `q ++ [r]` followed only by threads woken by
the wake scan of this quantum start (each was SLEEPING, in the blocked set,
with a deadline equal to the new counter value); the new running thread's
quantum counter and the total-quantum counter each increase by exactly 1. -/
theorem timerHandler_round_robin (w : World) (hc : Consistent w) :
    ∃ w1 woken, w.timerHandler = some w1 ∧
      (w.ready ++ [w.running]).head? = some w1.running ∧
      (∀ p t, hfind w1.heap p = some t → (t.state = State.RUNNING ↔ p = w1.running)) ∧
      (w.ready ≠ [] → w1.stateOf w.running = some State.READY) ∧
      w1.ready = (w.ready ++ [w.running]).tail ++ woken ∧
      (∀ x ∈ woken, w.total_quantum_counter + 1 = w.next_sleep_check ∧
        w.stateOf x = some State.SLEEPING ∧ w1.stateOf x = some State.READY ∧
        ∃ id, (id, w.next_sleep_check) ∈ w.sleeping ∧ mfind w.blocked id = some x) ∧
      (∃ n, w.runTimeOf w1.running = some n ∧ w1.runTimeOf w1.running = some (n + 1)) ∧
      w1.total_quantum_counter = w.total_quantum_counter + 1 := by
  obtain ⟨w0, hreap, h0ready, h0run, h0bl, h0sl, h0tot, h0chk, h0heap, h0sub, h0q⟩ :=
    timer_reap w hc
  obtain ⟨hrl, hreadyl, hrnr, honly, hterm, ⟨hnd, hsb, hbl⟩, htq⟩ := hc
  -- the running thread survives the reap
  have hr_nt : ∀ q ∈ w.terminated, w.running ≠ q := fun q hq => fun e => (hterm q hq).2.1 e.symm
  cases htr : hfind w.heap w.running with
  | none => simp [World.stateOf, htr] at hrl
  | some tr =>
    have htr0 : hfind w0.heap w0.running = some tr := by
      rw [h0run, h0heap _ hr_nt, htr]
    -- the state after `setReady running`
    have hsr : w0.setReady w0.running
        = some { w0 with heap := hset w0.heap w0.running { tr with state := State.READY }, ready := w0.ready ++ [w0.running] } := by
      simp [World.setReady, World.setState, htr0]
    have hth : World.timerHandler w
        = World.runNextThread { w0 with heap := hset w0.heap w0.running { tr with state := State.READY }, ready := w0.ready ++ [w0.running] } := by
      simp only [World.timerHandler]
      rw [hreap]
      simp only [hsr]
    -- the head of the new queue
    cases hq : w.ready ++ [w.running] with
    | nil => simp at hq
    | cons h rest =>
      have hh_w : ∃ th, hfind w.heap h = some th ∧ (∀ q ∈ w.terminated, h ≠ q) := by
        cases hwr : w.ready with
        | nil =>
          rw [hwr] at hq
          simp at hq
          rw [← hq.1]
          exact ⟨tr, htr, hr_nt⟩
        | cons a l =>
          rw [hwr] at hq
          simp at hq
          have ha : h ∈ w.ready := by rw [hwr, ← hq.1]; simp
          have := hreadyl h ha
          cases hf : hfind w.heap h with
          | none => simp [hf] at this
          | some th =>
            exact ⟨th, rfl, fun q hqm => fun e => (hterm q hqm).2.2.1 (e ▸ ha)⟩
      obtain ⟨thw, hthw, hh_nt⟩ := hh_w
      -- the object of `h` in the state before the switch
      have hh2 : ∃ th, hfind (hset w0.heap w0.running { tr with state := State.READY }) h = some th ∧
          th.total_run_time = thw.total_run_time := by
        rw [hfind_hset]
        by_cases hhr : h = w0.running
        · rw [if_pos hhr, htr0]
          refine ⟨_, rfl, ?_⟩
          rw [hhr, h0run, htr] at hthw
          simp at hthw
          simp [hthw]
        · rw [if_neg hhr, h0heap h hh_nt, hthw]
          exact ⟨_, rfl, rfl⟩
      obtain ⟨th, hth2, hrt⟩ := hh2
      have hwr2 : WakeReady { w0 with heap := hset w0.heap w0.running { tr with state := State.READY }, ready := w0.ready ++ [w0.running] } := by
        refine ⟨by simpa [h0sl] using hnd, by simpa [h0sl, h0bl] using hsb, ?_⟩
        intro e he
        simp only [h0bl] at he
        have h1 := hbl e he
        have h2 : ∀ q ∈ w.terminated, e.2 ≠ q := fun q hqm => (hterm q hqm).2.2.2 e he
        simp only [hfind_hset]
        by_cases her : e.2 = w0.running
        · rw [if_pos her, htr0]
          rw [her, h0run, htr] at h1
          simpa using h1
        · rw [if_neg her, h0heap _ h2]
          exact h1
      obtain ⟨w1, woken, hrun, hrunning, hready1, htot, hheaph, hother, hwoken, _, _, _⟩ :=
        switch_outcome _ h rest th (by simp only [h0ready, h0run]; exact hq) hth2 hwr2
          (by show ¬ timerRejects w0.quant_len; rw [h0q]; exact htq)
      have hnotw : ∀ x ∈ woken, x ≠ w0.running := by
        intro x hx e
        obtain ⟨_, _, _, t, ht, hs, _⟩ := hwoken x hx
        simp [e, hfind_hset, htr0] at ht
        rw [← ht] at hs
        simp at hs
      refine ⟨w1, woken, by rw [hth]; exact hrun, by simp [hrunning], ?_, ?_, ?_, ?_, ?_, ?_⟩
      · intro p t hp
        rw [hrunning]
        constructor
        · intro hst
          by_contra hph
          by_cases hpw : p ∈ woken
          · obtain ⟨_, _, _, t2, _, _, ht2⟩ := hwoken p hpw
            rw [hp] at ht2
            simp at ht2
            rw [ht2] at hst
            simp at hst
          · have h3 := hother p hpw hph
            rw [hp] at h3
            simp only [hfind_hset] at h3
            by_cases hpr : p = w0.running
            · rw [if_pos hpr, htr0] at h3
              simp at h3
              rw [h3] at hst
              simp at hst
            · rw [if_neg hpr] at h3
              have h4 := h0sub p t h3.symm
              have h5 := honly (p, t) (hfind_mem _ _ _ h4) hst
              exact hpr (by rw [h0run]; exact h5)
        · intro hph
          subst hph
          rw [hheaph] at hp
          simp at hp
          rw [← hp]
      · intro hne
        have hrh : w.running ≠ h := by
          intro e
          cases hwr : w.ready with
          | nil => exact hne hwr
          | cons a l =>
            rw [hwr] at hq
            simp at hq
            apply hrnr
            rw [hwr, e, ← hq.1]
            simp
        have hrw : w.running ∉ woken := fun hm => hnotw _ hm h0run.symm
        have := hother w.running hrw hrh
        have htr0b : hfind w0.heap w.running = some tr := by rw [← h0run]; exact htr0
        simp only [World.stateOf]
        rw [this]
        simp [hfind_hset, h0run, htr0b]
      · rw [hready1]
        simp
      · intro x hx
        obtain ⟨_, hc1, hex, t, ht, hs, ht1⟩ := hwoken x hx
        have hxr := hnotw x hx
        simp only [hfind_hset, if_neg hxr] at ht
        refine ⟨by simpa [h0tot, h0chk] using hc1, ?_, ?_, ?_⟩
        · simp [World.stateOf, h0sub x t ht, hs]
        · simp [World.stateOf, ht1]
        · simpa [h0sl, h0bl, h0chk] using hex
      · rw [hrunning]
        refine ⟨thw.total_run_time, by simp [World.runTimeOf, hthw], ?_⟩
        simp [World.runTimeOf, hheaph, hrt]
      · simpa [h0tot] using htot


/-! ## Voluntary switches -/

theorem voluntary_core (w v : World) (h : Nat) (rest : List Nat) (th : Thread) (selfWake : Prop)
    (hvq : ¬ timerRejects v.quant_len)
    (hrnr : w.running ∉ w.ready) (hq : w.ready = h :: rest)
    (hvready : v.ready = h :: rest)
    (hvh : hfind v.heap h = some th) (hwh : hfind w.heap h = some th)
    (hvwr : WakeReady v)
    (hvtot : v.total_quantum_counter = w.total_quantum_counter)
    (hnorun : ∀ p t1, hfind v.heap p = some t1 → t1.state ≠ State.RUNNING)
    (hwake : ∀ id x t1, v.total_quantum_counter + 1 = v.next_sleep_check →
      (id, v.next_sleep_check) ∈ v.sleeping → mfind v.blocked id = some x →
      hfind v.heap x = some t1 → t1.state = State.SLEEPING →
      (x = w.running ∧ selfWake) ∨
      (x ≠ w.running ∧ w.stateOf x = some State.SLEEPING ∧
        (id, w.total_quantum_counter + 1) ∈ w.sleeping ∧ mfind w.blocked id = some x)) :
    ∃ w1 woken, v.runNextThread = some w1 ∧ VoluntarySwitch w h rest selfWake w1 woken := by
  obtain ⟨w1, woken, hrun, hrunning, hready1, htot, hheaph, hother, hwoken, _, _, _⟩ :=
    switch_outcome v h rest th hvready hvh hvwr hvq
  have hdesc : ∀ x ∈ woken, (x = w.running ∧ selfWake) ∨
      (x ≠ w.running ∧ w.stateOf x = some State.SLEEPING ∧
        ∃ id, (id, w.total_quantum_counter + 1) ∈ w.sleeping ∧ mfind w.blocked id = some x) := by
    intro x hx
    obtain ⟨_, hc1, ⟨id, hid1, hid2⟩, t1, ht1, hs1, _⟩ := hwoken x hx
    rcases hwake id x t1 hc1 hid1 hid2 ht1 hs1 with h1 | ⟨h1, h2, h3, h4⟩
    · exact Or.inl h1
    · exact Or.inr ⟨h1, h2, id, h3, h4⟩
  refine ⟨w1, woken, hrun, hrunning, ?_, hready1, ?_, ?_, ?_, ?_⟩
  · intro p t hp
    constructor
    · intro hst
      by_contra hph
      by_cases hpw : p ∈ woken
      · obtain ⟨_, _, _, t2, _, _, ht2⟩ := hwoken p hpw
        rw [hp] at ht2
        simp at ht2
        rw [ht2] at hst
        simp at hst
      · have h3 := hother p hpw hph
        rw [hp] at h3
        exact hnorun p t h3.symm hst
    · intro hph
      subst hph
      rw [hheaph] at hp
      simp at hp
      rw [← hp]
  · intro hm
    rw [hready1] at hm
    simp at hm
    rcases hm with hm | hm
    · exfalso
      apply hrnr
      rw [hq]
      simp [hm]
    · rcases hdesc _ hm with h1 | h1
      · exact h1.2
      · exact absurd rfl h1.1
  · intro x hx
    obtain ⟨_, _, _, t1, _, _, ht1⟩ := hwoken x hx
    exact ⟨by simp [World.stateOf, ht1], hdesc x hx⟩
  · exact ⟨th.total_run_time, by simp [World.runTimeOf, hwh], by simp [World.runTimeOf, hheaph]⟩
  · rw [htot, hvtot]

theorem nodup_keys_merase {β : Type} (m : List (Int × β)) (k : Int)
    (h : (m.map Prod.fst).Nodup) : ((merase m k).map Prod.fst).Nodup := by
  induction m with
  | nil => simp [merase]
  | cons e m ih =>
    obtain ⟨k1, v1⟩ := e
    simp only [List.map_cons, List.nodup_cons] at h
    by_cases h1 : k1 = k
    · simp only [merase, h1, if_true]
      exact ih h.2
    · simp only [merase, h1, if_false, List.map_cons, List.nodup_cons]
      refine ⟨?_, ih h.2⟩
      intro hm
      apply h.1
      simp only [List.mem_map] at hm ⊢
      obtain ⟨e, he, hk⟩ := hm
      exact ⟨e, ((mem_merase _ _ _).1 he).1, hk⟩

theorem nodup_keys_mplace {β : Type} (m : List (Int × β)) (k : Int) (v : β)
    (h : (m.map Prod.fst).Nodup) (hk : mfind m k = none) :
    ((mplace k v m).map Prod.fst).Nodup := by
  induction m with
  | nil => simp [mplace]
  | cons e m ih =>
    obtain ⟨k1, v1⟩ := e
    have hk1 : ¬ k1 = k := by
      intro h; simp [mfind, h] at hk
    have hk2 : mfind m k = none := by
      simpa [mfind, hk1] using hk
    simp only [List.map_cons, List.nodup_cons] at h
    by_cases hlt : k < k1
    · simp only [mplace, hlt, if_true, List.map_cons, List.nodup_cons]
      refine ⟨?_, h⟩
      intro hm
      simp only [List.mem_cons, List.mem_map] at hm
      rcases hm with hm | ⟨e, he, hm⟩
      · exact hk1 hm.symm
      · exact (mfind_none_iff m k).1 hk2 e he hm
    · simp only [mplace, hlt, if_false, List.map_cons, List.nodup_cons]
      refine ⟨?_, ih h.2 hk2⟩
      intro hm
      simp only [List.mem_map] at hm
      obtain ⟨e, he, hm⟩ := hm
      rcases (mem_mplace m k v e).1 he with h3 | h3
      · apply hk1
        rw [← hm, h3]
      · apply h.1
        simp only [List.mem_map]
        exact ⟨e, h3, hm⟩

theorem nodup_keys_minsert {β : Type} (m : List (Int × β)) (k : Int) (v : β)
    (h : (m.map Prod.fst).Nodup) : ((minsert k v m).map Prod.fst).Nodup := by
  unfold minsert
  cases hk : mfind m k with
  | none => simpa using nodup_keys_mplace m k v h hk
  | some u => simpa using h

theorem mfind_isSome_of_mem {β : Type} (m : List (Int × β)) (e : Int × β) (he : e ∈ m) :
    (mfind m e.1).isSome := by
  cases h : mfind m e.1 with
  | none => exact absurd rfl ((mfind_none_iff m e.1).1 h e he)
  | some v => rfl

theorem hfind_hset_id (h : List (Nat × Thread)) (p q : Nat) (t u : Thread)
    (ht : hfind h p = some t) (hu : u.id = t.id) :
    (hfind (hset h p u) q).map Thread.id = (hfind h q).map Thread.id := by
  rw [hfind_hset]
  by_cases hq : q = p
  · subst hq
    simp [ht, hu]
  · simp [hq]

theorem running_state (w : World) (t : Thread) (hc : Consistent w)
    (hX : hfind w.heap w.running = some t) : t.state = State.RUNNING := by
  have := hc.1
  simpa [World.stateOf, hX] using this

theorem head_ready (w : World) (h : Nat) (rest : List Nat) (hc : Consistent w)
    (hq : w.ready = h :: rest) :
    h ≠ w.running ∧ (∀ q ∈ w.terminated, h ≠ q) ∧ ∃ th, hfind w.heap h = some th := by
  obtain ⟨_, hreadyl, hrnr, _, hterm, _⟩ := hc
  have hm : h ∈ w.ready := by rw [hq]; simp
  refine ⟨fun e => hrnr (e ▸ hm), fun q hqm e => (hterm q hqm).2.2.1 (e ▸ hm), ?_⟩
  have := hreadyl h hm
  cases hf : hfind w.heap h with
  | none => simp [hf] at this
  | some th => exact ⟨th, rfl⟩

/-- The self-block branch: state BLOCKED, an entry in the blocked set, then
the switch. -/
theorem voluntary_block (w : World) (t : Thread) (h : Nat) (rest : List Nat)
    (hc : Consistent w)
    (hX : hfind w.heap w.running = some t)
    (hmain : t.id ≠ 0)
    (hidx : w.getThreadByID t.id = some w.running)
    (hq : w.ready = h :: rest) :
    ∃ w1 woken, uthread_block t.id w = some (0, w1) ∧
      VoluntarySwitch w h rest False w1 woken := by
  have hst := running_state w t hc hX
  obtain ⟨hhr, _, th, hth⟩ := head_ready w h rest hc hq
  obtain ⟨_, hreadyl, hrnr, honly, _, ⟨hnd, hsb, hbl⟩, htq⟩ := hc
  have hidx2 : mfind w.threads t.id = some w.running := hidx
  have hcall : uthread_block t.id w
      = match World.runNextThread { w with heap := hset w.heap w.running { t with state := State.BLOCKED }, blocked := minsert t.id w.running w.blocked } with
        | none => none
        | some w1 => some (0, w1) := by
    simp [uthread_block, hmain, World.getThreadByID, hidx2, hX, hst, World.blockThread,
      World.setState]
  obtain ⟨w1, woken, hrun, hvs⟩ := voluntary_core w
    { w with heap := hset w.heap w.running { t with state := State.BLOCKED }, blocked := minsert t.id w.running w.blocked }
    h rest th False htq hrnr hq hq
    (by simp [hfind_hset, hhr, hth]) hth
    (by
      refine ⟨hnd, ?_, ?_⟩
      · intro e he
        have := hsb e he
        simp only [mfind_minsert]
        split
        · split <;> simp
        · exact this
      · intro e he
        have hid := hfind_hset_id w.heap w.running e.2 t { t with state := State.BLOCKED } hX rfl
        show (hfind (hset w.heap w.running { t with state := State.BLOCKED }) e.2).map Thread.id
          = some e.1
        rw [hid]
        rcases mem_minsert _ _ _ _ he with h1 | h1
        · simp [h1, hX]
        · exact hbl e h1)
    rfl
    (by
      intro p t1 hp
      simp only [hfind_hset] at hp
      by_cases hpr : p = w.running
      · simp [hpr, hX] at hp
        rw [← hp]
        simp
      · simp only [hpr, if_false] at hp
        intro hs
        exact hpr (honly (p, t1) (hfind_mem _ _ _ hp) hs))
    (by
      intro id x t1 hc1 hm hb hx hs
      simp only [hfind_hset] at hx
      by_cases hxr : x = w.running
      · simp [hxr, hX] at hx
        rw [← hx] at hs
        simp at hs
      · simp only [hxr, if_false] at hx
        right
        refine ⟨hxr, by simp [World.stateOf, hx, hs], ?_, ?_⟩
        · have hc2 : w.total_quantum_counter + 1 = w.next_sleep_check := hc1
          rw [hc2]
          exact hm
        · have hb2 : mfind (minsert t.id w.running w.blocked) id = some x := hb
          rw [mfind_minsert] at hb2
          by_cases hid : id = t.id
          · rw [if_pos hid] at hb2
            cases hu : mfind w.blocked t.id with
            | none =>
              rw [hu] at hb2
              simp at hb2
              exact absurd hb2.symm hxr
            | some u =>
              rw [hu] at hb2
              rw [hid, hu]
              exact hb2
          · rw [if_neg hid] at hb2
            exact hb2)
  exact ⟨w1, woken, by rw [hcall, hrun], hvs⟩

theorem wrapInt_of_range {x : Int} (h1 : -2147483648 ≤ x) (h2 : x ≤ 2147483647) :
    wrapInt x = x := by
  unfold wrapInt
  omega

theorem wrapInt_range (x : Int) : -2147483648 ≤ wrapInt x ∧ wrapInt x ≤ 2147483647 := by
  unfold wrapInt
  omega

/-- For an `int` argument `n`, the wrapped wake-up time is the next quantum
only when `n` is 1. -/
theorem wrapInt_eq_succ {T n : Int} (h1 : -2147483648 ≤ n) (h2 : n ≤ 2147483647)
    (h : T + 1 = wrapInt (T + n)) : n = 1 := by
  unfold wrapInt at h
  omega

/-- The sleep branch: a sleeping-map entry, state SLEEPING, an entry in the
blocked set, then the switch. -/
theorem voluntary_sleep (w : World) (t : Thread) (h : Nat) (rest : List Nat) (n : Int)
    (hc : Consistent w)
    (hX : hfind w.heap w.running = some t)
    (hmain : t.id ≠ 0)
    (hnb : mfind w.blocked t.id = none)
    (hq : w.ready = h :: rest)
    (hint : -2147483648 ≤ n ∧ n ≤ 2147483647) :
    ∃ w1 woken, uthread_sleep n w = some (0, w1) ∧
      VoluntarySwitch w h rest (n = 1) w1 woken := by
  have hst := running_state w t hc hX
  obtain ⟨hhr, _, th, hth⟩ := head_ready w h rest hc hq
  obtain ⟨_, hreadyl, hrnr, honly, _, ⟨hnd, hsb, hbl⟩, htq⟩ := hc
  have hns : mfind w.sleeping t.id = none := by
    rw [mfind_none_iff]
    intro e he hk
    have := hsb e he
    rw [hk, hnb] at this
    simp at this
  have hcall : uthread_sleep n w
      = match World.runNextThread { w with next_sleep_check := (if w.next_sleep_check = 0 ∨ wrapInt (w.total_quantum_counter + n) < w.next_sleep_check then wrapInt (w.total_quantum_counter + n) else w.next_sleep_check), sleeping := minsert t.id (wrapInt (w.total_quantum_counter + n)) w.sleeping, heap := hset w.heap w.running { t with state := State.SLEEPING }, blocked := minsert t.id w.running w.blocked } with
        | none => none
        | some w1 => some (0, w1) := by
    by_cases hcond : w.next_sleep_check = 0 ∨ wrapInt (w.total_quantum_counter + n) < w.next_sleep_check
    · simp [uthread_sleep, hmain, hX, World.sleepCurrentThread, hcond, World.setState,
        World.blockThread, hfind_hset, hnb]
    · simp [uthread_sleep, hmain, hX, World.sleepCurrentThread, hcond, World.setState,
        World.blockThread, hfind_hset, hnb]
  obtain ⟨w1, woken, hrun, hvs⟩ := voluntary_core w
    { w with next_sleep_check := (if w.next_sleep_check = 0 ∨ wrapInt (w.total_quantum_counter + n) < w.next_sleep_check then wrapInt (w.total_quantum_counter + n) else w.next_sleep_check), sleeping := minsert t.id (wrapInt (w.total_quantum_counter + n)) w.sleeping, heap := hset w.heap w.running { t with state := State.SLEEPING }, blocked := minsert t.id w.running w.blocked }
    h rest th (n = 1) htq hrnr hq hq
    (by simp [hfind_hset, hhr, hth]) hth
    (by
      refine ⟨nodup_keys_minsert _ _ _ hnd, ?_, ?_⟩
      · intro e he
        show (mfind (minsert t.id w.running w.blocked) e.1).isSome
        rw [mfind_minsert]
        by_cases hk : e.1 = t.id
        · rw [if_pos hk]
          split <;> simp
        · rw [if_neg hk]
          rcases mem_minsert _ _ _ _ he with h1 | h1
          · exact absurd (by rw [h1]) hk
          · exact hsb e h1
      · intro e he
        have hid := hfind_hset_id w.heap w.running e.2 t { t with state := State.SLEEPING } hX rfl
        show (hfind (hset w.heap w.running { t with state := State.SLEEPING }) e.2).map Thread.id
          = some e.1
        rw [hid]
        rcases mem_minsert _ _ _ _ he with h1 | h1
        · simp [h1, hX]
        · exact hbl e h1)
    rfl
    (by
      intro p t1 hp
      simp only [hfind_hset] at hp
      by_cases hpr : p = w.running
      · simp [hpr, hX] at hp
        rw [← hp]
        simp
      · simp only [hpr, if_false] at hp
        intro hs
        exact hpr (honly (p, t1) (hfind_mem _ _ _ hp) hs))
    (by
      intro id x t1 hc1 hm hb hx hs
      have hc2 : w.total_quantum_counter + 1 = (if w.next_sleep_check = 0 ∨ wrapInt (w.total_quantum_counter + n) < w.next_sleep_check then wrapInt (w.total_quantum_counter + n) else w.next_sleep_check) := hc1
      have hm2 : (id, (if w.next_sleep_check = 0 ∨ wrapInt (w.total_quantum_counter + n) < w.next_sleep_check then wrapInt (w.total_quantum_counter + n) else w.next_sleep_check)) ∈ minsert t.id (wrapInt (w.total_quantum_counter + n)) w.sleeping := hm
      have hb2 : mfind (minsert t.id w.running w.blocked) id = some x := hb
      have hx2 : hfind (hset w.heap w.running { t with state := State.SLEEPING }) x = some t1 := hx
      rw [← hc2] at hm2
      rw [mfind_minsert] at hb2
      by_cases hid : id = t.id
      · left
        rw [if_pos hid, hnb] at hb2
        simp at hb2
        refine ⟨hb2.symm, ?_⟩
        rcases mem_minsert _ _ _ _ hm2 with h1 | h1
        · simp at h1
          exact wrapInt_eq_succ hint.1 hint.2 h1.2
        · exfalso
          have := (mfind_none_iff _ _).1 hns _ h1
          exact this hid
      · right
        rw [if_neg hid] at hb2
        have hxr : x ≠ w.running := by
          intro e
          have := hbl (id, x) (mfind_mem _ _ _ hb2)
          simp [e, hX] at this
          exact hid this.symm
        rw [hfind_hset, if_neg hxr] at hx2
        refine ⟨hxr, by simp [World.stateOf, hx2, hs], ?_, hb2⟩
        rcases mem_minsert _ _ _ _ hm2 with h1 | h1
        · simp at h1
          exact absurd h1.1 hid
        · exact h1)
  exact ⟨w1, woken, by rw [hcall, hrun], hvs⟩

/-- The reaping step of a self-termination in a consistent state: the ready
queue and the counters stay, the tables can only lose entries, the wake scan
can still run, and no object other than the reaped one leaves the heap. -/
theorem terminate_reap (w : World) (hc : Consistent w) :
    ∃ w0, w.reapBeforeTerminate = some w0 ∧
      w0.running = w.running ∧ w0.ready = w.ready ∧ w0.threads.length ≤ w.threads.length ∧
      w0.total_quantum_counter = w.total_quantum_counter ∧
      w0.next_sleep_check = w.next_sleep_check ∧
      WakeReady w0 ∧
      (∀ e, e ∈ w0.sleeping → e ∈ w.sleeping) ∧
      (∀ k x, mfind w0.blocked k = some x → mfind w.blocked k = some x) ∧
      (∀ x, (∀ q ∈ w.terminated, x ≠ q) → hfind w0.heap x = hfind w.heap x) ∧
      (∀ x t, hfind w0.heap x = some t → hfind w.heap x = some t) ∧
      w0.quant_len = w.quant_len := by
  obtain ⟨_, _, _, _, hterm, hwr, _⟩ := hc
  cases ht : w.terminated with
  | none =>
    refine ⟨w, by simp [World.reapBeforeTerminate, ht], rfl, rfl, le_refl _, rfl, rfl, hwr,
      fun _ h => h, fun _ _ h => h, fun _ _ => rfl, fun _ _ h => h, rfl⟩
  | some q =>
    obtain ⟨hq1, hq2, hq3, hq4⟩ := hterm q (by simp [ht])
    cases hf : hfind w.heap q with
    | none => simp [hf] at hq1
    | some tq =>
      obtain ⟨hnd, hsb, hbl⟩ := hwr
      refine ⟨{ w with ready := lremove w.ready q, blocked := merase w.blocked tq.id, sleeping := merase w.sleeping tq.id, threads := merase w.threads tq.id, heap := hdel w.heap q, threadIdMaker := if tq.id ≠ 0 then w.threadIdMaker.addIDtoList tq.id else w.threadIdMaker }, ?_, rfl, ?_, ?_, rfl, rfl, ?_, ?_, ?_, ?_, ?_, rfl⟩
      · simp [World.reapBeforeTerminate, ht, hq2, World.removeThread, hf, World.deleteThread]
      · exact lremove_of_not_mem _ _ hq3
      · show (merase w.threads tq.id).length ≤ w.threads.length
        have hle : ∀ (l : List (Int × Nat)), (merase l tq.id).length ≤ l.length := by
          intro l
          induction l with
          | nil => simp [merase]
          | cons e2 l ih2 =>
            obtain ⟨k2, v2⟩ := e2
            by_cases h2 : k2 = tq.id
            · simp [merase, h2]; omega
            · simp [merase, h2]; omega
        exact hle _
      · refine ⟨nodup_keys_merase _ _ hnd, ?_, ?_⟩
        · intro e he
          obtain ⟨he1, he2⟩ := (mem_merase _ _ _).1 he
          show (mfind (merase w.blocked tq.id) e.1).isSome
          rw [mfind_merase, if_neg he2]
          exact hsb e he1
        · intro e he
          obtain ⟨he1, _⟩ := (mem_merase _ _ _).1 he
          show (hfind (hdel w.heap q) e.2).map Thread.id = some e.1
          rw [hfind_hdel, if_neg (hq4 e he1)]
          exact hbl e he1
      · intro e he
        exact ((mem_merase _ _ _).1 he).1
      · intro k x hk
        have hk2 : mfind (merase w.blocked tq.id) k = some x := hk
        rw [mfind_merase] at hk2
        split at hk2
        · simp at hk2
        · exact hk2
      · intro x hx
        have : x ≠ q := hx q (by simp)
        simp [hfind_hdel, this]
      · intro x t hx
        simp only [hfind_hdel] at hx
        split at hx
        · simp at hx
        · exact hx

/-- The self-termination branch: reap, state TERMINATED, removal from every
table, release of the id, then the switch. -/
theorem voluntary_terminate (w : World) (t : Thread) (h : Nat) (rest : List Nat)
    (hc : Consistent w)
    (hX : hfind w.heap w.running = some t)
    (hmain : t.id ≠ 0)
    (hidx : w.getThreadByID t.id = some w.running)
    (hq : w.ready = h :: rest) :
    ∃ w1 woken, uthread_terminate t.id w = some (0, w1) ∧
      VoluntarySwitch w h rest False w1 woken := by
  have hst := running_state w t hc hX
  obtain ⟨hhr, hhq, th, hth⟩ := head_ready w h rest hc hq
  obtain ⟨w0, hreap, h0run, h0ready, _, h0tot, h0chk, h0wr, h0sl, h0bl, h0heap, h0sub, h0q⟩ :=
    terminate_reap w hc
  obtain ⟨_, hreadyl, hrnr, honly, hterm, ⟨hnd, hsb, hbl⟩, htq⟩ := hc
  have hidx2 : mfind w.threads t.id = some w.running := hidx
  have hr_nt : ∀ q ∈ w.terminated, w.running ≠ q := fun q hq => fun e => (hterm q hq).2.1 e.symm
  have hX0 : hfind w0.heap w0.running = some t := by
    rw [h0run, h0heap _ hr_nt, hX]
  have hX0b : hfind w0.heap w.running = some t := by
    rw [h0heap _ hr_nt, hX]
  have hcall : uthread_terminate t.id w
      = match World.runNextThread { w0 with terminated := some w0.running, heap := hset w0.heap w0.running { t with state := State.TERMINATED }, ready := lremove w0.ready w0.running, blocked := merase w0.blocked t.id, sleeping := merase w0.sleeping t.id, threads := merase w0.threads t.id, threadIdMaker := w0.threadIdMaker.addIDtoList t.id } with
        | none => none
        | some w1 => some (0, w1) := by
    simp [uthread_terminate, hmain, World.getThreadByID, hidx2, World.terminateThread, hX,
      hreap, World.setState, hX0, World.removeThread, hfind_hset, h0run, hX0b, World.removeID]
  have hrem : lremove w0.ready w0.running = h :: rest := by
    rw [h0ready, h0run, lremove_of_not_mem _ _ hrnr, hq]
  obtain ⟨hnd0, hsb0, hbl0⟩ := h0wr
  obtain ⟨w1, woken, hrun, hvs⟩ := voluntary_core w
    { w0 with terminated := some w0.running, heap := hset w0.heap w0.running { t with state := State.TERMINATED }, ready := lremove w0.ready w0.running, blocked := merase w0.blocked t.id, sleeping := merase w0.sleeping t.id, threads := merase w0.threads t.id, threadIdMaker := w0.threadIdMaker.addIDtoList t.id }
    h rest th False (by show ¬ timerRejects w0.quant_len; rw [h0q]; exact htq) hrnr hq hrem
    (by
      show hfind (hset w0.heap w0.running { t with state := State.TERMINATED }) h = some th
      rw [hfind_hset, h0run, if_neg hhr, h0heap h hhq, hth]) hth
    (by
      refine ⟨nodup_keys_merase _ _ hnd0, ?_, ?_⟩
      · intro e he
        obtain ⟨he1, he2⟩ := (mem_merase _ _ _).1 he
        show (mfind (merase w0.blocked t.id) e.1).isSome
        rw [mfind_merase, if_neg he2]
        exact hsb0 e he1
      · intro e he
        obtain ⟨he1, _⟩ := (mem_merase _ _ _).1 he
        have hid := hfind_hset_id w0.heap w0.running e.2 t { t with state := State.TERMINATED }
          hX0 rfl
        show (hfind (hset w0.heap w0.running { t with state := State.TERMINATED }) e.2).map
          Thread.id = some e.1
        rw [hid]
        exact hbl0 e he1)
    h0tot
    (by
      intro p t1 hp
      have hp2 : hfind (hset w0.heap w0.running { t with state := State.TERMINATED }) p
          = some t1 := hp
      rw [hfind_hset] at hp2
      by_cases hpr : p = w0.running
      · simp [hpr, hX0] at hp2
        rw [← hp2]
        simp
      · simp only [hpr, if_false] at hp2
        intro hs
        have := honly (p, t1) (hfind_mem _ _ _ (h0sub p t1 hp2)) hs
        exact hpr (by rw [h0run]; exact this))
    (by
      intro id x t1 hc1 hm hb hx hs
      have hc2 : w0.total_quantum_counter + 1 = w0.next_sleep_check := hc1
      have hm2 : (id, w0.next_sleep_check) ∈ merase w0.sleeping t.id := hm
      have hb2 : mfind (merase w0.blocked t.id) id = some x := hb
      have hx2 : hfind (hset w0.heap w0.running { t with state := State.TERMINATED }) x
          = some t1 := hx
      right
      have hxr : x ≠ w0.running := by
        intro e
        simp [e, hfind_hset, hX0] at hx2
        rw [← hx2] at hs
        simp at hs
      rw [hfind_hset, if_neg hxr] at hx2
      refine ⟨by rw [← h0run]; exact hxr, by simp [World.stateOf, h0sub x t1 hx2, hs], ?_, ?_⟩
      · have := h0sl _ ((mem_merase _ _ _).1 hm2).1
        rw [← h0tot, hc2]
        exact this
      · rw [mfind_merase] at hb2
        split at hb2
        · simp at hb2
        · exact h0bl _ _ hb2)
  exact ⟨w1, woken, by rw [hcall, hrun], hvs⟩

theorem VoluntarySwitch.mono {w : World} {h : Nat} {rest : List Nat} {P Q : Prop}
    {w1 : World} {woken : List Nat} (hv : VoluntarySwitch w h rest P w1 woken) (hpq : P → Q) :
    VoluntarySwitch w h rest Q w1 woken := by
  obtain ⟨h1, h2, h3, h4, h5, h6, h7⟩ := hv
  refine ⟨h1, h2, h3, fun hm => hpq (h4 hm), ?_, h6, h7⟩
  intro x hx
  obtain ⟨ha, hb⟩ := h5 x hx
  refine ⟨ha, ?_⟩
  rcases hb with hb | hb
  · exact Or.inl ⟨hb.1, hpq hb.2⟩
  · exact Or.inr hb

/-- C2 (counterexample): thread 1 runs with main in the ready queue and calls
`sleep 1`; the wake scan of the quantum that starts wakes it at once, so the
caller is in the ready queue after the call. -/
theorem sleep_one_wakes_caller :
    (worldAfter [Op.spawn, Op.timer]).running = 1 ∧
      (worldAfter [Op.spawn, Op.timer]).ready = [0] ∧
      (worldAfter [Op.spawn, Op.timer]).idOf 1 = some 1 ∧
      (uthread_sleep 1 (worldAfter [Op.spawn, Op.timer])).map
          (fun r => (r.1, r.2.running, r.2.ready, r.2.stateOf 1))
        = some (0, 0, [1], some State.READY) := by
  decide

/-- C2 (amended): in a consistent state whose running thread X is not main, is
indexed under its own id and is not in the blocked set, with ready queue
`h :: rest`, each of `block(X)`, `sleep(n)` (`n` a value of type `int`) and
`terminate(X)` returns 0 (to
the caller once it runs again) and leaves `h` running, the only thread in state
RUNNING; the ready queue is `rest` followed only by threads woken by the wake
scan of that quantum start; X is not in the ready queue unless the call was
`sleep(1)`, whose deadline is the quantum that starts; the total-quantum
counter and the quantum counter of `h` each increase by exactly 1. -/
theorem voluntary_switch_selects_head (M : Nat) (w : World) (op : Op) (t : Thread)
    (h : Nat) (rest : List Nat)
    (hc : Consistent w)
    (hX : hfind w.heap w.running = some t)
    (hmain : t.id ≠ 0)
    (hidx : w.getThreadByID t.id = some w.running)
    (hnb : mfind w.blocked t.id = none)
    (hq : w.ready = h :: rest)
    (hop : op = Op.block t.id ∨
      (∃ n, op = Op.sleep n ∧ -2147483648 ≤ n ∧ n ≤ 2147483647) ∨
      op = Op.terminate t.id) :
    ∃ w1 woken, step M w op = some (0, w1) ∧
      VoluntarySwitch w h rest (op = Op.sleep 1) w1 woken := by
  rcases hop with hop | ⟨n, hop, hint⟩ | hop
  · obtain ⟨w1, woken, h1, h2⟩ := voluntary_block w t h rest hc hX hmain hidx hq
    exact ⟨w1, woken, by rw [hop]; exact h1, h2.mono (fun hf => hf.elim)⟩
  · obtain ⟨w1, woken, h1, h2⟩ := voluntary_sleep w t h rest n hc hX hmain hnb hq hint
    exact ⟨w1, woken, by rw [hop]; exact h1, h2.mono (fun hn => by rw [hop, hn])⟩
  · obtain ⟨w1, woken, h1, h2⟩ := voluntary_terminate w t h rest hc hX hmain hidx hq
    exact ⟨w1, woken, by rw [hop]; exact h1, h2.mono (fun hf => hf.elim)⟩

/-- C2 (witness): thread 1 runs, threads 2 and main are ready, thread 1 blocks
itself. -/
theorem voluntary_switch_selects_head_witness :
    Consistent (worldAfter [Op.spawn, Op.spawn, Op.timer]) ∧
    (worldAfter [Op.spawn, Op.spawn, Op.timer]).ready = [2, 0] ∧
    ∃ w1 woken, step 100 (worldAfter [Op.spawn, Op.spawn, Op.timer]) (Op.block 1) = some (0, w1) ∧
      VoluntarySwitch (worldAfter [Op.spawn, Op.spawn, Op.timer]) 2 [0]
        (Op.block 1 = Op.sleep 1) w1 woken :=
  ⟨by decide, by decide,
    voluntary_switch_selects_head 100 (worldAfter [Op.spawn, Op.spawn, Op.timer]) (Op.block 1)
      { id := 1, state := State.RUNNING, total_run_time := 1 } 2 [0]
      (by decide) (by decide) (by decide) (by decide) (by decide) (by decide) (Or.inl rfl)⟩

/-- C1 (counterexample): after `init` the ready queue is empty; a timer expiry
leaves main running (state RUNNING, not READY) and the ready queue empty, not
`tail [] ++ [main]`. -/
theorem timer_with_empty_queue :
    (initWorld 1).ready = [] ∧ (initWorld 1).running = 0 ∧
      ((initWorld 1).timerHandler).map (fun w1 => (w1.running, w1.ready, w1.stateOf 0))
        = some (0, [], some State.RUNNING) ∧
      ((initWorld 1).timerHandler).map World.ready
        ≠ some ((initWorld 1).ready.tail ++ [(initWorld 1).running]) := by
  decide

/-- C1 (witness): thread 2 runs, main is ready, thread 1 sleeps until quantum
4, which is the quantum this timer expiry starts. -/
theorem timerHandler_round_robin_witness :
    Consistent wakeWorld ∧
    ∃ w1 woken, wakeWorld.timerHandler = some w1 ∧
      (wakeWorld.ready
          ++ [wakeWorld.running]).head?
        = some w1.running ∧
      (∀ p t, hfind w1.heap p = some t → (t.state = State.RUNNING ↔ p = w1.running)) ∧
      (wakeWorld.ready ≠ [] →
        w1.stateOf wakeWorld.running
          = some State.READY) ∧
      w1.ready = (wakeWorld.ready
          ++ [wakeWorld.running]).tail ++ woken ∧
      (∀ x ∈ woken,
        wakeWorld.total_quantum_counter + 1
          = wakeWorld.next_sleep_check ∧
        wakeWorld.stateOf x
          = some State.SLEEPING ∧
        w1.stateOf x = some State.READY ∧
        ∃ id, (id, wakeWorld.next_sleep_check)
            ∈ wakeWorld.sleeping ∧
          mfind wakeWorld.blocked id = some x) ∧
      (∃ n, wakeWorld.runTimeOf w1.running = some n ∧
        w1.runTimeOf w1.running = some (n + 1)) ∧
      w1.total_quantum_counter
        = wakeWorld.total_quantum_counter + 1 :=
  ⟨by decide,
    timerHandler_round_robin wakeWorld (by decide)⟩

/-! ## A guarded thread through the primitive operations -/

theorem getNewID_guard (m : Thread_ID_Maker) (i : Int)
    (hmark : i ≤ m.last_id) (hfree : i ∉ m.available_ids) :
    (m.getNewID).1 ≠ i ∧ i ≤ (m.getNewID).2.last_id ∧ i ∉ (m.getNewID).2.available_ids := by
  unfold Thread_ID_Maker.getNewID
  cases ha : m.available_ids with
  | nil =>
    simp only []
    refine ⟨by omega, by omega, ?_⟩
    rw [← ha]; exact hfree
  | cons lowest rest =>
    rw [ha] at hfree
    simp only [List.mem_cons, not_or] at hfree
    by_cases hlt : lowest < m.last_id
    · simp only [hlt, if_true]
      exact ⟨fun e => hfree.1 e.symm, hmark, hfree.2⟩
    · simp only [hlt, if_false]
      exact ⟨by omega, by omega, by simp⟩

theorem mem_setInsert (x y : Int) (l : List Int) (h : y ∈ setInsert x l) : y = x ∨ y ∈ l := by
  induction l with
  | nil => simp [setInsert] at h; exact Or.inl h
  | cons a l ih =>
    simp only [setInsert] at h
    split at h
    · simp at h
      rcases h with h | h | h
      · exact Or.inl h
      · exact Or.inr (by simp [h])
      · exact Or.inr (by simp [h])
    · split at h
      · exact Or.inr h
      · simp at h
        rcases h with h | h
        · exact Or.inr (by simp [h])
        · rcases ih h with h1 | h1
          · exact Or.inl h1
          · exact Or.inr (by simp [h1])

theorem addIDtoList_guard (m : Thread_ID_Maker) (i e : Int) (he : e ≠ i)
    (hmark : i ≤ m.last_id) (hfree : i ∉ m.available_ids) :
    i ≤ (m.addIDtoList e).last_id ∧ i ∉ (m.addIDtoList e).available_ids := by
  unfold Thread_ID_Maker.addIDtoList
  split
  · exact ⟨hmark, hfree⟩
  · split
    · rename_i h1 h2
      simp only []
      refine ⟨by omega, hfree⟩
    · refine ⟨hmark, ?_⟩
      intro hm
      rcases mem_setInsert _ _ _ hm with h1 | h1
      · exact he h1.symm
      · exact hfree h1

theorem Guarded.id_ne {st : State} {i : Int} {p : Nat} {w : World} (hg : Guarded st i p w)
    {q : Nat} {tq : Thread} (hq : q ≠ p) (hf : hfind w.heap q = some tq) : tq.id ≠ i :=
  fun e => hq (hg.unique q tq hf e)

theorem Guarded.setState_other {st : State} {i : Int} {p : Nat} {w w1 : World}
    (hg : Guarded st i p w) (q : Nat) (s : State) (hq : q ≠ p)
    (h : w.setState q s = some w1) : Guarded st i p w1 := by
  cases hf : hfind w.heap q with
  | none => simp [World.setState, hf] at h
  | some tq =>
    simp [World.setState, hf] at h
    subst h
    exact { hg with
      obj := by
        obtain ⟨t, ht, hid, hs⟩ := hg.obj
        exact ⟨t, by simp [hfind_hset, Ne.symm hq, ht], hid, hs⟩
      unique := by
        intro q1 t1 h1 hid
        simp only [hfind_hset] at h1
        by_cases hq1 : q1 = q
        · simp [hq1, hf] at h1
          rw [← h1] at hid
          rw [hq1]
          exact hg.unique q tq hf hid
        · simp only [hq1, if_false] at h1
          exact hg.unique q1 t1 h1 hid }

theorem Guarded.setState_self {st : State} {i : Int} {p : Nat} {w w1 : World}
    (hg : Guarded st i p w) (s : State)
    (h : w.setState p s = some w1) : Guarded s i p w1 := by
  obtain ⟨t, ht, hid, hs⟩ := hg.obj
  simp [World.setState, ht] at h
  subst h
  exact { hg with
    obj := ⟨{ t with state := s }, by simp [hfind_hset, ht], hid, rfl⟩
    unique := by
      intro q1 t1 h1 hid1
      simp only [hfind_hset] at h1
      by_cases hq1 : q1 = p
      · exact hq1
      · simp only [hq1, if_false] at h1
        exact hg.unique q1 t1 h1 hid1 }

theorem setState_frame {w w1 : World} {q : Nat} {s : State} (h : w.setState q s = some w1) :
    w1.sleeping = w.sleeping ∧ w1.total_quantum_counter = w.total_quantum_counter ∧
    w1.next_sleep_check = w.next_sleep_check ∧ w1.running = w.running ∧
    w1.ready = w.ready ∧ w1.blocked = w.blocked ∧ w1.threads = w.threads ∧
    w1.terminated = w.terminated := by
  cases hf : hfind w.heap q with
  | none => simp [World.setState, hf] at h
  | some tq =>
    simp [World.setState, hf] at h
    subst h
    simp

theorem Guarded.setReady_other {st : State} {i : Int} {p : Nat} {w w1 : World}
    (hg : Guarded st i p w) (q : Nat) (hq : q ≠ p)
    (h : w.setReady q = some w1) :
    Guarded st i p w1 ∧ w1.sleeping = w.sleeping ∧
      w1.total_quantum_counter = w.total_quantum_counter ∧
      w1.next_sleep_check = w.next_sleep_check ∧ w1.running = w.running := by
  simp only [World.setReady] at h
  cases h1 : w.setState q State.READY with
  | none => simp [h1] at h
  | some w2 =>
    simp [h1] at h
    subst h
    have hg2 := hg.setState_other q State.READY hq h1
    obtain ⟨f1, f2, f3, f4, _⟩ := setState_frame h1
    refine ⟨{ hg2 with not_ready := ?_ }, f1, f2, f3, f4⟩
    show p ∉ w2.ready ++ [q]
    simp
    exact ⟨hg2.not_ready, fun e => hq e.symm⟩

theorem Guarded.unblockThread_other {st : State} {i : Int} {p : Nat} {w w1 : World}
    (hg : Guarded st i p w) (q : Nat) (hq : q ≠ p)
    (h : w.unblockThread q = some w1) :
    Guarded st i p w1 ∧ w1.sleeping = w.sleeping ∧
      w1.total_quantum_counter = w.total_quantum_counter ∧
      w1.next_sleep_check = w.next_sleep_check ∧ w1.running = w.running := by
  cases hf : hfind w.heap q with
  | none => simp [World.unblockThread, hf] at h
  | some tq =>
    have hid : tq.id ≠ i := hg.id_ne hq hf
    simp only [World.unblockThread, hf] at h
    by_cases hs : tq.state ≠ State.BLOCKED
    · rw [if_pos hs] at h
      simp at h
      subst h
      exact ⟨hg, rfl, rfl, rfl, rfl⟩
    · rw [if_neg hs] at h
      by_cases hsl : (mfind w.sleeping tq.id).isSome
      · rw [if_pos hsl] at h
        obtain ⟨f1, f2, f3, f4, _⟩ := setState_frame h
        exact ⟨hg.setState_other q _ hq h, f1, f2, f3, f4⟩
      · rw [if_neg hsl] at h
        have hg2 : Guarded st i p { w with blocked := merase w.blocked tq.id } :=
          { hg with
            blocked_own := by
              intro k hk
              have hk2 : mfind (merase w.blocked tq.id) k = some p := hk
              rw [mfind_merase] at hk2
              split at hk2
              · simp at hk2
              · exact hg.blocked_own k hk2
            in_blocked := by
              show mfind (merase w.blocked tq.id) i = some p
              rw [mfind_merase, if_neg (Ne.symm hid)]
              exact hg.in_blocked }
        exact hg2.setReady_other q hq h

theorem Guarded.unblockThread_self {st : State} {i : Int} {p : Nat} {w w1 : World}
    (hg : Guarded st i p w) (hst : st ≠ State.BLOCKED)
    (h : w.unblockThread p = some w1) : w1 = w := by
  obtain ⟨t, ht, _, hs⟩ := hg.obj
  have : t.state ≠ State.BLOCKED := by rw [hs]; exact hst
  simp [World.unblockThread, ht, this] at h
  exact h.symm

theorem Guarded.removeThread_other {st : State} {i : Int} {p : Nat} {w w1 : World}
    (hg : Guarded st i p w) (q : Nat) (hq : q ≠ p)
    (h : w.removeThread q = some w1) :
    Guarded st i p w1 ∧ (∃ k, k ≠ i ∧ w1.sleeping = merase w.sleeping k) ∧
      w1.total_quantum_counter = w.total_quantum_counter ∧
      w1.next_sleep_check = w.next_sleep_check ∧ w1.running = w.running ∧
      w1.heap = w.heap ∧ w1.terminated = w.terminated := by
  cases hf : hfind w.heap q with
  | none => simp [World.removeThread, hf] at h
  | some tq =>
    have hid : tq.id ≠ i := hg.id_ne hq hf
    simp [World.removeThread, hf] at h
    subst h
    refine ⟨{ hg with
      indexed := by
        show mfind (merase w.threads tq.id) i = some p
        rw [mfind_merase, if_neg (Ne.symm hid)]
        exact hg.indexed
      index_own := by
        intro k hk
        have hk2 : mfind (merase w.threads tq.id) k = some p := hk
        rw [mfind_merase] at hk2
        split at hk2
        · simp at hk2
        · exact hg.index_own k hk2
      blocked_own := by
        intro k hk
        have hk2 : mfind (merase w.blocked tq.id) k = some p := hk
        rw [mfind_merase] at hk2
        split at hk2
        · simp at hk2
        · exact hg.blocked_own k hk2
      in_blocked := by
        show mfind (merase w.blocked tq.id) i = some p
        rw [mfind_merase, if_neg (Ne.symm hid)]
        exact hg.in_blocked
      not_ready := by
        show p ∉ lremove w.ready q
        rw [mem_lremove]
        exact fun hm => hg.not_ready hm.1 }, ⟨tq.id, hid, rfl⟩, rfl, rfl, rfl, rfl, rfl⟩

theorem Guarded.deleteThread_other {st : State} {i : Int} {p : Nat} {w w1 : World}
    (hg : Guarded st i p w) (q : Nat) (hq : q ≠ p)
    (h : w.deleteThread q = some w1) :
    Guarded st i p w1 ∧ w1.sleeping = w.sleeping ∧
      w1.total_quantum_counter = w.total_quantum_counter ∧
      w1.next_sleep_check = w.next_sleep_check ∧ w1.running = w.running ∧
      w1.ready = w.ready ∧ w1.terminated = w.terminated := by
  cases hf : hfind w.heap q with
  | none => simp [World.deleteThread, hf] at h
  | some tq =>
    have hid : tq.id ≠ i := hg.id_ne hq hf
    simp [World.deleteThread, hf] at h
    subst h
    have hm : i ≤ (if tq.id = 0 then w.threadIdMaker else w.threadIdMaker.addIDtoList tq.id).last_id ∧
        i ∉ (if tq.id = 0 then w.threadIdMaker else w.threadIdMaker.addIDtoList tq.id).available_ids := by
      split
      · exact ⟨hg.mark, hg.not_free⟩
      · exact addIDtoList_guard _ _ _ hid hg.mark hg.not_free
    refine ⟨{ hg with
      obj := by
        obtain ⟨t, ht, hid1, hs⟩ := hg.obj
        exact ⟨t, by simp [hfind_hdel, Ne.symm hq, ht], hid1, hs⟩
      unique := by
        intro q1 t1 h1 hid1
        simp only [hfind_hdel] at h1
        split at h1
        · simp at h1
        · exact hg.unique q1 t1 h1 hid1
      mark := hm.1
      not_free := hm.2 }, rfl, rfl, rfl, rfl, rfl, rfl⟩

theorem Guarded.removeID_other {st : State} {i : Int} {p : Nat} {w w1 : World}
    (hg : Guarded st i p w) (q : Nat) (hq : q ≠ p)
    (h : w.removeID q = some w1) :
    Guarded st i p w1 ∧ w1.sleeping = w.sleeping ∧
      w1.total_quantum_counter = w.total_quantum_counter ∧
      w1.next_sleep_check = w.next_sleep_check ∧ w1.running = w.running ∧
      w1.ready = w.ready ∧ w1.terminated = w.terminated := by
  cases hf : hfind w.heap q with
  | none => simp [World.removeID, hf] at h
  | some tq =>
    have hid : tq.id ≠ i := hg.id_ne hq hf
    simp [World.removeID, hf] at h
    subst h
    have hm := addIDtoList_guard w.threadIdMaker _ _ hid hg.mark hg.not_free
    exact ⟨{ hg with mark := hm.1, not_free := hm.2 }, rfl, rfl, rfl, rfl, rfl, rfl⟩

theorem Guarded.newThread {st : State} {i : Int} {p : Nat} {w : World}
    (hg : Guarded st i p w) :
    Guarded st i p (w.newThread).2 ∧ (w.newThread).1 ≠ p ∧
      (w.newThread).2.sleeping = w.sleeping ∧
      (w.newThread).2.total_quantum_counter = w.total_quantum_counter ∧
      (w.newThread).2.next_sleep_check = w.next_sleep_check ∧
      (w.newThread).2.running = w.running := by
  have hm := getNewID_guard w.threadIdMaker i hg.mark hg.not_free
  have hfr := hg.fresh
  refine ⟨{ hg with
    obj := by
      obtain ⟨t, ht, hid1, hs⟩ := hg.obj
      exact ⟨t, by simp [World.newThread, hfind_append, ht], hid1, hs⟩
    unique := by
      intro q1 t1 h1 hid1
      simp only [World.newThread, hfind_append] at h1
      cases hq1 : hfind w.heap q1 with
      | none =>
        simp only [hq1] at h1
        split at h1
        · simp at h1
          rw [← h1] at hid1
          exact absurd hid1 hm.1
        · simp at h1
      | some t2 =>
        simp only [hq1] at h1
        simp at h1
        rw [← h1] at hid1
        exact hg.unique q1 t2 hq1 hid1
    mark := hm.2.1
    not_free := hm.2.2
    fresh := by
      show p < w.next_addr + 1
      omega }, ?_, rfl, rfl, rfl, rfl⟩
  show w.next_addr ≠ p
  omega

theorem Guarded.switchTo {st : State} {i : Int} {p : Nat} {w : World}
    (hg : Guarded st i p w) (h : Nat) (th : Thread) (rest : List Nat)
    (hready : w.ready = h :: rest) (hh : hfind w.heap h = some th) :
    Guarded st i p (w.switchTo h th rest) ∧ h ≠ p := by
  have hhp : h ≠ p := by
    intro e
    apply hg.not_ready
    rw [hready, e]
    simp
  refine ⟨{ hg with
    obj := by
      obtain ⟨t, ht, hid1, hs⟩ := hg.obj
      exact ⟨t, by simp [World.switchTo, hfind_hset, Ne.symm hhp, ht], hid1, hs⟩
    unique := by
      intro q1 t1 h1 hid1
      simp only [World.switchTo, hfind_hset] at h1
      by_cases hq1 : q1 = h
      · simp [hq1, hh] at h1
        rw [← h1] at hid1
        rw [hq1]
        exact hg.unique h th hh hid1
      · simp only [hq1, if_false] at h1
        exact hg.unique q1 t1 h1 hid1
    not_ready := by
      show p ∉ rest
      intro hm
      apply hg.not_ready
      rw [hready]
      simp [hm] }, hhp⟩

theorem Guarded.of_woke {st : State} {i : Int} {p : Nat} {a b : World} {l : List Nat}
    (hg : Guarded st i p a) (hw : Woke a b l) (hp : p ∉ l) : Guarded st i p b := by
  have hids : ∀ q ∈ l, ∀ t, hfind a.heap q = some t → t.id ≠ i := by
    intro q hq t ht
    exact hg.id_ne (fun e => hp (e ▸ hq)) ht
  exact {
    obj := by
      obtain ⟨t, ht, hid1, hs⟩ := hg.obj
      exact ⟨t, by rw [hw.heap_other p hp, ht], hid1, hs⟩
    unique := by
      intro q t hq hid
      by_cases hql : q ∈ l
      · obtain ⟨t0, h0, _, h1⟩ := hw.heap_woken q hql
        rw [h1] at hq
        simp at hq
        rw [← hq] at hid
        exact hg.unique q t0 h0 hid
      · rw [hw.heap_other q hql] at hq
        exact hg.unique q t hq hid
    mark := by rw [hw.maker_eq]; exact hg.mark
    not_free := by rw [hw.maker_eq]; exact hg.not_free
    fresh := by rw [hw.addr_eq]; exact hg.fresh
    indexed := by rw [hw.threads_eq]; exact hg.indexed
    index_own := by rw [hw.threads_eq]; exact hg.index_own
    blocked_own := fun k hk => hg.blocked_own k (hw.blocked_sub k p hk)
    in_blocked := by rw [hw.blocked_keep i hids]; exact hg.in_blocked
    not_reaped := by rw [hw.terminated_eq]; exact hg.not_reaped
    not_ready := by
      rw [hw.ready_eq]
      simp
      exact ⟨hg.not_ready, hp⟩ }

/-! ## The wake scan and a guarded sleeper -/

theorem handleSleepingLoop_skip (id dd : Int) (rest : List (Int × Int)) (nc : Int) (w : World)
    (hd : dd ≠ w.next_sleep_check) :
    World.handleSleepingLoop ((id, dd) :: rest) nc w
      = World.handleSleepingLoop rest (if nc = 0 ∨ dd < nc then dd else nc) w := by
  simp only [World.handleSleepingLoop]
  rw [if_neg hd]

/-- One iteration of the wake scan on an entry that is due. -/
theorem handleSleepingLoop_due (id dd : Int) (rest : List (Int × Int)) (nc : Int) (w : World)
    (r : Int × World) (hd : dd = w.next_sleep_check)
    (h : World.handleSleepingLoop ((id, dd) :: rest) nc w = some r) :
    ∃ w3 x tx l, World.handleSleepingLoop rest nc w3 = some r ∧
      mfind w.blocked id = some x ∧ hfind w.heap x = some tx ∧
      w3.sleeping = merase w.sleeping id ∧
      Woke w w3 l ∧ (l = [] ∨ (l = [x] ∧ tx.state = State.SLEEPING)) ∧
      (tx.state = State.SLEEPING → tx.id = id → l = [x]) := by
  simp only [World.handleSleepingLoop] at h
  rw [if_pos hd] at h
  cases hb : mfind w.blocked id with
  | none => simp [hb] at h
  | some x =>
    simp only [hb] at h
    cases ht : hfind w.heap x with
    | none => simp [ht] at h
    | some tx =>
      simp only [ht] at h
      have he := Woke.erase_sleeping w id
      by_cases hs : tx.state = State.SLEEPING
      · rw [if_pos hs] at h
        cases h2 : World.setState { w with sleeping := merase w.sleeping id } x State.BLOCKED with
        | none => simp [h2] at h
        | some w2 =>
          simp only [h2] at h
          cases h3 : w2.unblockThread x with
          | none => simp [h3] at h
          | some w3 =>
            simp only [h3] at h
            have hsl3 : w3.sleeping = merase w.sleeping id := by
              have e2 : w2.sleeping = merase w.sleeping id := (setState_frame h2).1
              have ht2 : hfind w2.heap x = some { tx with state := State.BLOCKED } := by
                simp [World.setState, ht] at h2
                subst h2
                simp [hfind_hset, ht]
              simp only [World.unblockThread, ht2] at h3
              simp only [ne_eq, not_true_eq_false, if_false] at h3
              split at h3
              · rw [(setState_frame h3).1, e2]
              · simp only [World.setReady] at h3
                cases h4 : World.setState { w2 with blocked := merase w2.blocked tx.id } x State.READY with
                | none => simp [h4] at h3
                | some w4 =>
                  simp [h4] at h3
                  subst h3
                  show w4.sleeping = _
                  rw [(setState_frame h4).1]
                  exact e2
            rcases Woke.wake_one { w with sleeping := merase w.sleeping id } x tx w2 w3 ht hs h2 h3
              with ⟨hw3, hsome⟩ | ⟨hw3, _, _⟩
            · refine ⟨w3, x, tx, [], h, rfl, ht, hsl3, by simpa using Woke.trans he hw3,
                Or.inl rfl, ?_⟩
              intro _ hid
              exfalso
              have hsome2 : (mfind (merase w.sleeping id) tx.id).isSome := hsome
              rw [hid] at hsome2
              simp [mfind_merase] at hsome2
            · exact ⟨w3, x, tx, [x], h, rfl, ht, hsl3, by simpa using Woke.trans he hw3,
                Or.inr ⟨rfl, hs⟩, fun _ _ => rfl⟩
      · rw [if_neg hs] at h
        exact ⟨_, x, tx, [], h, rfl, ht, rfl, he, Or.inl rfl, fun h1 => absurd h1 hs⟩

/-- The sleeping map and the computed next check after the wake scan. -/
theorem handleSleepingLoop_clock (l : List (Int × Int)) :
    ∀ (nc : Int) (w : World) (nc1 : Int) (w1 : World),
      World.handleSleepingLoop l nc w = some (nc1, w1) →
      (∀ e ∈ w1.sleeping, e ∈ l → e.2 ≠ w.next_sleep_check) ∧
      (∀ k, (∀ e ∈ l, e.1 = k → e.2 ≠ w.next_sleep_check) →
        mfind w1.sleeping k = mfind w.sleeping k) ∧
      (0 ≤ w.next_sleep_check → (∀ e ∈ l, w.next_sleep_check ≤ e.2) →
        (nc = 0 ∨ w.next_sleep_check < nc) →
        (nc1 = 0 ∨ w.next_sleep_check < nc1) ∧
        (∀ e ∈ l, e.2 ≠ w.next_sleep_check → nc1 ≠ 0 ∧ nc1 ≤ e.2) ∧
        (nc ≠ 0 → nc1 ≠ 0 ∧ nc1 ≤ nc)) := by
  induction l with
  | nil =>
    intro nc w nc1 w1 h
    simp [World.handleSleepingLoop] at h
    obtain ⟨rfl, rfl⟩ := h
    refine ⟨by simp, fun _ _ => rfl, ?_⟩
    intro _ _ hnc
    exact ⟨hnc, by simp, fun h => ⟨h, le_refl _⟩⟩
  | cons e rest ih =>
    intro nc w nc1 w1 h
    obtain ⟨id, dd⟩ := e
    by_cases hd : dd = w.next_sleep_check
    · obtain ⟨w3, x, tx, l3, hrest, _, _, hsl3, hw3, _, _⟩ :=
        handleSleepingLoop_due id dd rest nc w (nc1, w1) hd h
      obtain ⟨ih1, ih2, ih3⟩ := ih nc w3 nc1 w1 hrest
      have hchk : w3.next_sleep_check = w.next_sleep_check := hw3.check_eq
      rw [hchk] at ih1 ih2 ih3
      have hsub : ∀ e ∈ w1.sleeping, e ∈ w3.sleeping := by
        obtain ⟨woken, hw, _⟩ := handleSleepingLoop_woke _ _ _ _ _ hrest
        exact hw.sleeping_sub
      refine ⟨?_, ?_, ?_⟩
      · intro e he hel
        simp only [List.mem_cons] at hel
        rcases hel with hel | hel
        · exfalso
          have := hsub e he
          rw [hsl3] at this
          have := ((mem_merase _ _ _).1 this).2
          rw [hel] at this
          exact this rfl
        · exact ih1 e he hel
      · intro k hk
        rw [ih2 k (fun e he => hk e (by simp [he])), hsl3, mfind_merase]
        have : k ≠ id := by
          intro e
          exact hk (id, dd) (by simp) e.symm hd
        rw [if_neg this]
      · intro h0 hmin hnc
        obtain ⟨a, b, c⟩ := ih3 h0 (fun e he => hmin e (by simp [he])) hnc
        refine ⟨a, ?_, c⟩
        intro e he hne
        simp only [List.mem_cons] at he
        rcases he with he | he
        · rw [he] at hne
          exact absurd hd hne
        · exact b e he hne
    · rw [handleSleepingLoop_skip id dd rest nc w hd] at h
      obtain ⟨ih1, ih2, ih3⟩ := ih _ w nc1 w1 h
      refine ⟨?_, ?_, ?_⟩
      · intro e he hel
        simp only [List.mem_cons] at hel
        rcases hel with hel | hel
        · rw [hel]
          exact hd
        · exact ih1 e he hel
      · intro k hk
        exact ih2 k (fun e he => hk e (by simp [he]))
      · intro h0 hmin hnc
        have hdd : w.next_sleep_check < dd := by
          have := hmin (id, dd) (by simp)
          simp at this
          omega
        have hnc2 : (if nc = 0 ∨ dd < nc then dd else nc) = 0 ∨
            w.next_sleep_check < (if nc = 0 ∨ dd < nc then dd else nc) := by
          split
          · exact Or.inr hdd
          · exact hnc
        have hnz : (if nc = 0 ∨ dd < nc then dd else nc) ≠ 0 := by
          split
          · omega
          · rename_i hcond
            intro e
            exact hcond (Or.inl e)
        obtain ⟨a, b, c⟩ := ih3 h0 (fun e he => hmin e (by simp [he])) hnc2
        obtain ⟨c1, c2⟩ := c hnz
        refine ⟨a, ?_, ?_⟩
        · intro e he hne
          simp only [List.mem_cons] at he
          rcases he with he | he
          · rw [he]
            refine ⟨c1, ?_⟩
            simp only []
            split at c2
            · exact c2
            · rename_i hcond
              have : ¬ dd < nc := fun h => hcond (Or.inr h)
              omega
          · exact b e he hne
        · intro hne
          refine ⟨c1, ?_⟩
          split at c2
          · rename_i hcond
            rcases hcond with hcond | hcond
            · exact absurd hcond hne
            · omega
          · exact c2

theorem Guarded.scan_keeps {st : State} {i : Int} {p : Nat} {w : World}
    (hg : Guarded st i p w) (l : List (Int × Int)) (nc nc1 : Int) (w1 : World)
    (h : World.handleSleepingLoop l nc w = some (nc1, w1))
    (hnot : (∀ e ∈ l, e.1 = i → e.2 ≠ w.next_sleep_check) ∨ st ≠ State.SLEEPING) :
    Guarded st i p w1 := by
  obtain ⟨woken, hw, hq⟩ := handleSleepingLoop_woke _ _ _ _ _ h
  apply hg.of_woke hw
  intro hp
  rcases hnot with hnot | hnot
  · obtain ⟨id, hm, hb⟩ := hq p hp
    have := hg.blocked_own id hb
    exact hnot _ hm this rfl
  · obtain ⟨t, ht, hs, _⟩ := hw.heap_woken p hp
    obtain ⟨t2, ht2, _, hs2⟩ := hg.obj
    rw [ht] at ht2
    simp at ht2
    rw [ht2] at hs
    exact hnot (hs2 ▸ hs)

theorem Guarded.scan_wakes {i : Int} {p : Nat} (l : List (Int × Int)) :
    ∀ (nc : Int) (w : World) (nc1 : Int) (w1 : World),
      Guarded State.SLEEPING i p w →
      World.handleSleepingLoop l nc w = some (nc1, w1) →
      (i, w.next_sleep_check) ∈ l →
      w1.stateOf p = some State.READY ∧ p ∈ w1.ready ∧ mfind w1.blocked i = none := by
  induction l with
  | nil =>
    intro nc w nc1 w1 _ _ hm
    simp at hm
  | cons e rest ih =>
    intro nc w nc1 w1 hg h hm
    obtain ⟨id, dd⟩ := e
    by_cases hd : dd = w.next_sleep_check
    · obtain ⟨w3, x, tx, l3, hrest, hb, hx, _, hw3, hl3, hwake⟩ :=
        handleSleepingLoop_due id dd rest nc w (nc1, w1) hd h
      by_cases hid : id = i
      · -- the entry of the guarded thread itself
        rw [hid, hg.in_blocked] at hb
        simp at hb
        subst hb
        obtain ⟨t, ht, htid, hts⟩ := hg.obj
        rw [ht] at hx
        simp at hx
        subst hx
        have hl : l3 = [p] := hwake hts (by rw [htid, hid])
        subst hl
        obtain ⟨woken, hw, _⟩ := handleSleepingLoop_woke _ _ _ _ _ hrest
        obtain ⟨t0, h0, _, h1⟩ := hw3.heap_woken p (by simp)
        have hpn : p ∉ woken := by
          intro hpw
          obtain ⟨t2, h2, hs2, _⟩ := hw.heap_woken p hpw
          rw [h1] at h2
          simp at h2
          rw [← h2] at hs2
          simp at hs2
        refine ⟨?_, ?_, ?_⟩
        · simp [World.stateOf, hw.heap_other p hpn, h1]
        · rw [hw.ready_eq, hw3.ready_eq]
          simp
        · have hgone := hw3.blocked_gone p (by simp) t ht
          rw [htid] at hgone
          cases hc : mfind w1.blocked i with
          | none => rfl
          | some v =>
            have := hw.blocked_sub _ _ hc
            rw [hgone] at this
            simp at this
      · have hxp : x ≠ p := by
          intro e
          rw [e] at hb
          exact hid (hg.blocked_own id hb)
        have hpl : p ∉ l3 := by
          rcases hl3 with hl3 | ⟨hl3, _⟩
          · simp [hl3]
          · simp [hl3]
            exact fun e => hxp e.symm
        have hg3 := hg.of_woke hw3 hpl
        have hm3 : (i, w3.next_sleep_check) ∈ rest := by
          rw [hw3.check_eq]
          simp only [List.mem_cons] at hm
          rcases hm with hm | hm
          · simp at hm
            exact absurd hm.1.symm hid
          · exact hm
        exact ih nc w3 nc1 w1 hg3 hrest hm3
    · rw [handleSleepingLoop_skip id dd rest nc w hd] at h
      have hm3 : (i, w.next_sleep_check) ∈ rest := by
        simp only [List.mem_cons] at hm
        rcases hm with hm | hm
        · simp at hm
          exact absurd hm.2.symm hd
        · exact hm
      exact ih _ w nc1 w1 hg h hm3

theorem handleSleeping_loop (w w1 : World) (h : w.handleSleeping = some w1) :
    ∃ nc1 w2, World.handleSleepingLoop w.sleeping 0 w = some (nc1, w2) ∧
      w1 = { w2 with next_sleep_check := nc1 } := by
  simp only [World.handleSleeping] at h
  cases hl : World.handleSleepingLoop w.sleeping 0 w with
  | none => simp [hl] at h
  | some r =>
    obtain ⟨nc, w2⟩ := r
    simp only [hl, Option.some.injEq] at h
    exact ⟨nc, w2, rfl, h.symm⟩

theorem Guarded.set_check {st : State} {i : Int} {p : Nat} {w : World}
    (hg : Guarded st i p w) (nc : Int) : Guarded st i p { w with next_sleep_check := nc } :=
  { hg with }

/-- A switch while the sleep of a guarded thread is pending: before the
deadline everything is kept; at the deadline the sleeping-map entry goes, and
the thread is woken if it is SLEEPING and kept as it is otherwise. -/
theorem Guarded.switch_pending {st : State} {i : Int} {p : Nat} {d : Int} {v w1 : World}
    (hg : Guarded st i p v) (hp : Pending i d v) (hrun : v.runNextThread = some w1) :
    w1.running ≠ p ∧ w1.total_quantum_counter = v.total_quantum_counter + 1 ∧
    ((w1.total_quantum_counter < d ∧ Guarded st i p w1 ∧ Pending i d w1) ∨
     (w1.total_quantum_counter = d ∧ Absent i w1 ∧
       ((st ≠ State.SLEEPING ∧ Guarded st i p w1) ∨
        (st = State.SLEEPING ∧ w1.stateOf p = some State.READY ∧ p ∈ w1.ready ∧
          mfind w1.blocked i = none)))) := by
  obtain ⟨h, rest, th, woken, hready, hh, hw, _, hno, hyes, _⟩ := runNextThread_woke v w1 hrun
  obtain ⟨hgS, hhp⟩ := hg.switchTo h th rest hready hh
  have hrun1 : w1.running ≠ p := by
    have := hw.running_eq
    simp [World.switchTo] at this
    rw [this]
    exact hhp
  have htot : w1.total_quantum_counter = v.total_quantum_counter + 1 := by
    have := hw.total_eq
    simpa [World.switchTo] using this
  refine ⟨hrun1, htot, ?_⟩
  by_cases hc : v.total_quantum_counter + 1 = v.next_sleep_check
  · obtain ⟨nc1, w2, hloop, hw1⟩ := handleSleeping_loop _ _ (hyes hc)
    have hN : (v.switchTo h th rest).next_sleep_check = v.next_sleep_check := rfl
    have hSl : (v.switchTo h th rest).sleeping = v.sleeping := rfl
    obtain ⟨c1, c2, c3⟩ := handleSleepingLoop_clock _ _ _ _ _ hloop
    rw [hN, hSl] at c1 c2 c3
    obtain ⟨wk, hwk, _⟩ := handleSleepingLoop_woke _ _ _ _ _ hloop
    have hsub : ∀ e ∈ w2.sleeping, e ∈ v.sleeping := hwk.sleeping_sub
    by_cases hdl : v.next_sleep_check = d
    · -- the deadline
      right
      have habs : Absent i w1 := by
        intro e he hk
        rw [hw1] at he
        have he2 : e ∈ w2.sleeping := he
        have := c1 e he2 (hsub e he2)
        exact this (by rw [hp.entry_only e (hsub e he2) hk, hdl])
      refine ⟨by rw [htot, hc, hdl], habs, ?_⟩
      by_cases hst : st = State.SLEEPING
      · right
        subst hst
        have hm : (i, (v.switchTo h th rest).next_sleep_check) ∈ (v.switchTo h th rest).sleeping := by
          rw [hN, hSl, hdl]
          exact mfind_mem _ _ _ hp.entry
        obtain ⟨a, b, c⟩ := Guarded.scan_wakes _ 0 _ nc1 w2 hgS hloop hm
        rw [hw1]
        exact ⟨rfl, a, b, c⟩
      · left
        have := hgS.scan_keeps _ 0 nc1 w2 hloop (Or.inr hst)
        rw [hw1]
        exact ⟨hst, this.set_check nc1⟩
    · -- a scan before the deadline
      left
      have hlt : v.next_sleep_check < d := lt_of_le_of_ne hp.check_le hdl
      have hnd : ∀ e ∈ v.sleeping, e.1 = i → e.2 ≠ v.next_sleep_check := by
        intro e he hk
        rw [hp.entry_only e he hk]
        exact fun e2 => hdl e2.symm
      have hg2 := hgS.scan_keeps _ 0 nc1 w2 hloop (Or.inl hnd)
      have h0 : 0 ≤ v.next_sleep_check := by
        have := hp.counter_nonneg
        have := hp.check_pos
        omega
      obtain ⟨d1, d2, _⟩ := c3 h0 hp.check_min (Or.inl rfl)
      have hent : (i, d) ∈ v.sleeping := mfind_mem _ _ _ hp.entry
      obtain ⟨e1, e2⟩ := d2 (i, d) hent (fun e => hdl e.symm)
      have hw2tot : w2.total_quantum_counter = v.total_quantum_counter + 1 := by
        have := hwk.total_eq
        simpa [World.switchTo] using this
      refine ⟨by rw [htot, hc]; exact hlt, by rw [hw1]; exact hg2.set_check nc1, ?_⟩
      rw [hw1]
      exact {
        entry := by
          show mfind w2.sleeping i = some d
          rw [c2 i hnd]
          exact hp.entry
        entry_only := fun e he hk => hp.entry_only e (hsub e he) hk
        counter_nonneg := by
          show 0 ≤ w2.total_quantum_counter
          rw [hw2tot]
          have := hp.counter_nonneg
          omega
        check_pos := by
          show w2.total_quantum_counter < nc1
          rw [hw2tot, hc]
          rcases d1 with d1 | d1
          · exact absurd d1 e1
          · exact d1
        check_le := e2
        check_min := by
          intro e he
          have he2 : e ∈ w2.sleeping := he
          exact (d2 e (hsub e he2) (c1 e he2 (hsub e he2))).2 }
  · left
    have hw1 := hno hc
    have hlt : v.total_quantum_counter + 1 < v.next_sleep_check :=
      lt_of_le_of_ne (by have := hp.check_pos; omega) hc
    refine ⟨by rw [htot]; have := hp.check_le; omega, by rw [hw1]; exact hgS, ?_⟩
    rw [hw1]
    exact {
      entry := hp.entry
      entry_only := hp.entry_only
      counter_nonneg := by
        show 0 ≤ v.total_quantum_counter + 1
        have := hp.counter_nonneg
        omega
      check_pos := hlt
      check_le := hp.check_le
      check_min := hp.check_min }

/-- A switch while the guarded thread has no sleeping-map entry keeps it as it
is. -/
theorem Guarded.switch_absent {st : State} {i : Int} {p : Nat} {v w1 : World}
    (hg : Guarded st i p v) (ha : Absent i v) (hrun : v.runNextThread = some w1) :
    w1.running ≠ p ∧ w1.total_quantum_counter = v.total_quantum_counter + 1 ∧
    Guarded st i p w1 ∧ Absent i w1 := by
  obtain ⟨h, rest, th, woken, hready, hh, hw, _, _, _, hq⟩ := runNextThread_woke v w1 hrun
  obtain ⟨hgS, hhp⟩ := hg.switchTo h th rest hready hh
  have hpn : p ∉ woken := by
    intro hp
    obtain ⟨id, hm, hb⟩ := hq p hp
    exact ha _ hm (hg.blocked_own id hb)
  have hg1 := hgS.of_woke hw hpn
  refine ⟨?_, ?_, { hg1 with }, ?_⟩
  · have := hw.running_eq
    simp [World.switchTo] at this
    rw [this]
    exact hhp
  · have := hw.total_eq
    simpa [World.switchTo] using this
  · intro e he
    exact ha e (hw.sleeping_sub e he)

/-! ## A guarded thread through the public operations -/

theorem ClockKeep.same (i : Int) (w : World) : ClockKeep i w w :=
  ⟨rfl, rfl, rfl, rfl, fun _ h => h⟩

theorem ClockKeep.chain {i : Int} {a b c : World} (h1 : ClockKeep i a b)
    (h2 : ClockKeep i b c) : ClockKeep i a c :=
  ⟨by rw [h2.total_eq, h1.total_eq], by rw [h2.check_eq, h1.check_eq],
    by rw [h2.running_eq, h1.running_eq], by rw [h2.entry_eq, h1.entry_eq],
    fun e he => h1.sub e (h2.sub e he)⟩

theorem ClockKeep.of_eq {i : Int} {w v : World} (h1 : v.sleeping = w.sleeping)
    (h2 : v.total_quantum_counter = w.total_quantum_counter)
    (h3 : v.next_sleep_check = w.next_sleep_check) (h4 : v.running = w.running) :
    ClockKeep i w v :=
  ⟨h2, h3, h4, by rw [h1], fun e he => by rw [← h1]; exact he⟩

theorem ClockKeep.of_erase {i k : Int} {w v : World} (hk : k ≠ i)
    (h1 : v.sleeping = merase w.sleeping k)
    (h2 : v.total_quantum_counter = w.total_quantum_counter)
    (h3 : v.next_sleep_check = w.next_sleep_check) (h4 : v.running = w.running) :
    ClockKeep i w v :=
  ⟨h2, h3, h4, by rw [h1, mfind_merase, if_neg (Ne.symm hk)],
    fun e he => by rw [h1] at he; exact ((mem_merase _ _ _).1 he).1⟩

theorem Guarded.insert_blocked {st : State} {i : Int} {p : Nat} {w : World}
    (hg : Guarded st i p w) (k : Int) (q : Nat) (hq : q ≠ p) :
    Guarded st i p { w with blocked := minsert k q w.blocked } :=
  { hg with
    blocked_own := by
      intro k1 hk1
      have h2 : mfind (minsert k q w.blocked) k1 = some p := hk1
      rw [mfind_minsert] at h2
      by_cases hkk : k1 = k
      · rw [if_pos hkk] at h2
        cases hm : mfind w.blocked k with
        | none =>
          rw [hm] at h2
          simp at h2
          exact absurd h2 hq
        | some u =>
          rw [hm] at h2
          simp at h2
          rw [h2] at hm
          rw [hkk]
          exact hg.blocked_own k hm
      · rw [if_neg hkk] at h2
        exact hg.blocked_own k1 h2
    in_blocked := by
      show mfind (minsert k q w.blocked) i = some p
      rw [mfind_minsert]
      by_cases hik : i = k
      · rw [if_pos hik, ← hik, hg.in_blocked]
      · rw [if_neg hik]
        exact hg.in_blocked }

theorem Guarded.insert_threads {st : State} {i : Int} {p : Nat} {w : World}
    (hg : Guarded st i p w) (k : Int) (q : Nat) (hq : q ≠ p) :
    Guarded st i p { w with threads := minsert k q w.threads } :=
  { hg with
    index_own := by
      intro k1 hk1
      have h2 : mfind (minsert k q w.threads) k1 = some p := hk1
      rw [mfind_minsert] at h2
      by_cases hkk : k1 = k
      · rw [if_pos hkk] at h2
        cases hm : mfind w.threads k with
        | none =>
          rw [hm] at h2
          simp at h2
          exact absurd h2 hq
        | some u =>
          rw [hm] at h2
          simp at h2
          rw [h2] at hm
          rw [hkk]
          exact hg.index_own k hm
      · rw [if_neg hkk] at h2
        exact hg.index_own k1 h2
    indexed := by
      show mfind (minsert k q w.threads) i = some p
      rw [mfind_minsert]
      by_cases hik : i = k
      · rw [if_pos hik, ← hik, hg.indexed]
      · rw [if_neg hik]
        exact hg.indexed }

theorem Guarded.remove_ready {st : State} {i : Int} {p : Nat} {w : World}
    (hg : Guarded st i p w) (q : Nat) :
    Guarded st i p { w with ready := lremove w.ready q } :=
  { hg with
    not_ready := by
      show p ∉ lremove w.ready q
      rw [mem_lremove]
      exact fun hm => hg.not_ready hm.1 }

/-- `blockThread` on a thread other than the guarded one. -/
theorem Guarded.blockThread_other {st : State} {i : Int} {p : Nat} {w w1 : World}
    (hg : Guarded st i p w) (q : Nat) (hq : q ≠ p)
    (h : w.blockThread q = some w1) :
    ∃ v, Guarded st i p v ∧
      (v.sleeping = w.sleeping ∧ v.total_quantum_counter = w.total_quantum_counter ∧
        v.next_sleep_check = w.next_sleep_check ∧ v.running = w.running) ∧
      ((w1 = v ∧ w.running ≠ q) ∨ (v.runNextThread = some w1 ∧ w.running = q)) := by
  cases hf : hfind w.heap q with
  | none => simp [World.blockThread, hf] at h
  | some tq =>
    have hid : tq.id ≠ i := hg.id_ne hq hf
    simp only [World.blockThread, hf] at h
    cases h1 : (if tq.state ≠ State.SLEEPING ∨ (mfind w.blocked tq.id).isSome = true
        then w.setState q State.BLOCKED else some w) with
    | none => simp [h1] at h
    | some w2 =>
      simp only [h1] at h
      have hg2 : Guarded st i p w2 ∧ w2.sleeping = w.sleeping ∧
          w2.total_quantum_counter = w.total_quantum_counter ∧
          w2.next_sleep_check = w.next_sleep_check ∧ w2.running = w.running := by
        split at h1
        · obtain ⟨f1, f2, f3, f4, _⟩ := setState_frame h1
          exact ⟨hg.setState_other q _ hq h1, f1, f2, f3, f4⟩
        · simp at h1
          subst h1
          exact ⟨hg, rfl, rfl, rfl, rfl⟩
      obtain ⟨hg2, f1, f2, f3, f4⟩ := hg2
      have hg3 := hg2.insert_blocked tq.id q hq
      by_cases hr : w2.running = q
      · rw [if_pos hr] at h
        exact ⟨_, hg3, ⟨f1, f2, f3, f4⟩, Or.inr ⟨h, by rw [← f4]; exact hr⟩⟩
      · rw [if_neg hr] at h
        simp at h
        refine ⟨_, hg3.remove_ready q, ⟨f1, f2, f3, f4⟩,
          Or.inl ⟨h.symm, by rw [← f4]; exact hr⟩⟩

/-- `blockThread` on the guarded thread itself: it is in the blocked set, so
its state becomes BLOCKED whatever it was, and no table changes. -/
theorem Guarded.blockThread_self {st : State} {i : Int} {p : Nat} {w w1 : World}
    (hg : Guarded st i p w) (hrun : w.running ≠ p)
    (h : w.blockThread p = some w1) :
    Guarded State.BLOCKED i p w1 ∧ ClockKeep i w w1 := by
  obtain ⟨t, ht, hid, hs⟩ := hg.obj
  have hin : (mfind w.blocked t.id).isSome = true := by
    rw [hid, hg.in_blocked]
    rfl
  simp only [World.blockThread, ht] at h
  rw [if_pos (Or.inr hin)] at h
  cases h1 : w.setState p State.BLOCKED with
  | none => simp [h1] at h
  | some w2 =>
    simp only [h1] at h
    obtain ⟨f1, f2, f3, f4, _⟩ := setState_frame h1
    have hg2 := hg.setState_self State.BLOCKED h1
    have hr : ¬ w2.running = p := by rw [f4]; exact hrun
    rw [if_neg hr] at h
    simp at h
    subst h
    refine ⟨?_, ClockKeep.of_eq f1 f2 f3 f4⟩
    have hins : minsert t.id p w2.blocked = w2.blocked := by
      unfold minsert
      rw [hid, hg2.in_blocked]
      simp
    exact { hg2.remove_ready p with
      blocked_own := by
        show ∀ k, mfind (minsert t.id p w2.blocked) k = some p → k = i
        rw [hins]
        exact hg2.blocked_own
      in_blocked := by
        show mfind (minsert t.id p w2.blocked) i = some p
        rw [hins]
        exact hg2.in_blocked }

theorem Guarded.spawn_pre {st : State} {i : Int} {p : Nat} {w w1 : World} {r : Int} (M : Nat)
    (hg : Guarded st i p w)
    (h : uthread_spawn M true w = some (r, w1)) :
    Guarded st i p w1 ∧ ClockKeep i w w1 := by
  obtain ⟨hgn, hnp, f1, f2, f3, f4⟩ := hg.newThread
  simp only [uthread_spawn] at h
  simp only [Bool.true_eq_false, if_false] at h
  cases ha : World.addNewThread M (w.newThread).2 (w.newThread).1 with
  | none => simp [ha] at h
  | some ra =>
    obtain ⟨res, w2⟩ := ra
    have hw12 : w1 = w2 := by
      simp only [ha] at h
      split at h
      · simp at h
        exact h.2.symm
      · split at h
        · simp at h
        · simp at h
          exact h.2.symm
    subst hw12
    simp only [World.addNewThread] at ha
    split at ha
    · simp at ha
      rw [← ha.2]
      exact ⟨hgn, ClockKeep.of_eq f1 f2 f3 f4⟩
    · cases hf : hfind (w.newThread).2.heap (w.newThread).1 with
      | none => simp [hf] at ha
      | some tn =>
        simp only [hf] at ha
        cases hs : World.setReady { (w.newThread).2 with threads := minsert tn.id (w.newThread).1 (w.newThread).2.threads } (w.newThread).1 with
        | none => simp [hs] at ha
        | some w3 =>
          simp [hs] at ha
          rw [← ha.2]
          obtain ⟨hg3, g1, g2, g3, g4⟩ :=
            (hgn.insert_threads tn.id (w.newThread).1 hnp).setReady_other _ hnp hs
          exact ⟨hg3, ClockKeep.of_eq (by rw [g1]; exact f1) (by rw [g2]; exact f2)
            (by rw [g3]; exact f3) (by rw [g4]; exact f4)⟩

theorem Guarded.block_pre {st : State} {i : Int} {p : Nat} {w w1 : World} {r : Int} (j : Int)
    (hg : Guarded st i p w) (hrun : w.running ≠ p) (hal : j = i → st = State.BLOCKED)
    (h : uthread_block j w = some (r, w1)) :
    ∃ v, Guarded st i p v ∧ ClockKeep i w v ∧
      ((w1 = v ∧ v.running ≠ p) ∨ v.runNextThread = some w1) := by
  simp only [uthread_block] at h
  split at h
  · simp at h
    exact ⟨w, hg, ClockKeep.same i w, Or.inl ⟨h.2.symm, hrun⟩⟩
  · cases hq : w.getThreadByID j with
    | none =>
      simp [hq] at h
      exact ⟨w, hg, ClockKeep.same i w, Or.inl ⟨h.2.symm, hrun⟩⟩
    | some q =>
      simp only [hq] at h
      cases hf : hfind w.heap q with
      | none => simp [hf] at h
      | some tq =>
        simp only [hf] at h
        split at h
        · simp at h
          exact ⟨w, hg, ClockKeep.same i w, Or.inl ⟨h.2.symm, hrun⟩⟩
        · cases hb : w.blockThread q with
          | none => simp [hb] at h
          | some w2 =>
            simp [hb] at h
            obtain ⟨_, rfl⟩ := h
            by_cases hqp : q = p
            · subst hqp
              have hji : j = i := hg.index_own j hq
              have hst := hal hji
              subst hst
              obtain ⟨a, b⟩ := hg.blockThread_self hrun hb
              exact ⟨w2, a, b, Or.inl ⟨rfl, by rw [b.running_eq]; exact hrun⟩⟩
            · obtain ⟨v, a, ⟨b1, b2, b3, b4⟩, c⟩ := hg.blockThread_other q hqp hb
              refine ⟨v, a, ClockKeep.of_eq b1 b2 b3 b4, ?_⟩
              rcases c with ⟨c1, _⟩ | ⟨c1, _⟩
              · exact Or.inl ⟨c1, by rw [b4]; exact hrun⟩
              · exact Or.inr c1

theorem Guarded.resume_pre {st : State} {i : Int} {p : Nat} {w w1 : World} {r : Int} (j : Int)
    (hg : Guarded st i p w) (hrun : w.running ≠ p) (hal : j = i → st ≠ State.BLOCKED)
    (h : uthread_resume j w = some (r, w1)) :
    Guarded st i p w1 ∧ ClockKeep i w w1 := by
  simp only [uthread_resume] at h
  cases hq : w.getThreadByID j with
  | none =>
    simp [hq] at h
    rw [← h.2]
    exact ⟨hg, ClockKeep.same i w⟩
  | some q =>
    simp only [hq] at h
    cases hf : hfind w.heap q with
    | none => simp [hf] at h
    | some tq =>
      simp only [hf] at h
      split at h
      · simp at h
        rw [← h.2]
        exact ⟨hg, ClockKeep.same i w⟩
      · cases hb : w.unblockThread q with
        | none => simp [hb] at h
        | some w2 =>
          simp [hb] at h
          obtain ⟨_, rfl⟩ := h
          by_cases hqp : q = p
          · subst hqp
            have hji : j = i := hg.index_own j hq
            have := hg.unblockThread_self (hal hji) hb
            rw [this]
            exact ⟨hg, ClockKeep.same i w⟩
          · obtain ⟨a, f1, f2, f3, f4⟩ := hg.unblockThread_other q hqp hb
            exact ⟨a, ClockKeep.of_eq f1 f2 f3 f4⟩

theorem Guarded.sleep_pre {st : State} {i : Int} {p : Nat} {w w1 : World} {r : Int} (n : Int)
    (hg : Guarded st i p w) (hrun : w.running ≠ p)
    (h : uthread_sleep n w = some (r, w1)) :
    ∃ v, Guarded st i p v ∧ PreClock i (Op.sleep n) w v ∧
      ((w1 = v ∧ v.running ≠ p) ∨ v.runNextThread = some w1) := by
  simp only [uthread_sleep] at h
  cases hf : hfind w.heap w.running with
  | none => simp [hf] at h
  | some tr =>
    have hid : tr.id ≠ i := hg.id_ne hrun hf
    simp only [hf] at h
    split at h
    · simp at h
      exact ⟨w, hg, Or.inl (ClockKeep.same i w), Or.inl ⟨h.2.symm, hrun⟩⟩
    · cases hs : w.sleepCurrentThread n with
      | none => simp [hs] at h
      | some w2 =>
        simp [hs] at h
        obtain ⟨_, rfl⟩ := h
        -- the state after the bookkeeping of `sleepCurrentThread`
        have hg0 : Guarded st i p { w with next_sleep_check := (if w.next_sleep_check = 0 ∨ wrapInt (w.total_quantum_counter + n) < w.next_sleep_check then wrapInt (w.total_quantum_counter + n) else w.next_sleep_check), sleeping := minsert tr.id (wrapInt (w.total_quantum_counter + n)) w.sleeping } :=
          { hg with }
        have hs2 : ∃ w3, World.setState { w with next_sleep_check := (if w.next_sleep_check = 0 ∨ wrapInt (w.total_quantum_counter + n) < w.next_sleep_check then wrapInt (w.total_quantum_counter + n) else w.next_sleep_check), sleeping := minsert tr.id (wrapInt (w.total_quantum_counter + n)) w.sleeping } w.running State.SLEEPING = some w3 ∧ w3.blockThread w3.running = some w2 := by
          simp only [World.sleepCurrentThread] at hs
          by_cases hcond : w.next_sleep_check = 0 ∨ wrapInt (w.total_quantum_counter + n) < w.next_sleep_check
          · simp only [hcond, if_true, hf] at hs
            simp only [if_pos hcond]
            cases h3 : World.setState { w with next_sleep_check := wrapInt (w.total_quantum_counter + n), sleeping := minsert tr.id (wrapInt (w.total_quantum_counter + n)) w.sleeping } w.running State.SLEEPING with
            | none => simp [h3] at hs
            | some w3 =>
              simp only [h3] at hs
              exact ⟨w3, rfl, hs⟩
          · simp only [hcond, if_false, hf] at hs
            simp only [if_neg hcond]
            cases h3 : World.setState { w with sleeping := minsert tr.id (wrapInt (w.total_quantum_counter + n)) w.sleeping } w.running State.SLEEPING with
            | none => simp [h3] at hs
            | some w3 =>
              simp only [h3] at hs
              exact ⟨w3, rfl, hs⟩
        obtain ⟨w3, h3, h4⟩ := hs2
        obtain ⟨f1, f2, f3, f4, _⟩ := setState_frame h3
        have hg3 := hg0.setState_other w.running State.SLEEPING hrun h3
        have hr3 : w3.running ≠ p := by rw [f4]; exact hrun
        obtain ⟨v, a, ⟨b1, b2, b3, b4⟩, c⟩ := hg3.blockThread_other w3.running hr3 h4
        refine ⟨v, a, Or.inr ⟨n, tr.id, rfl, hid, ?_, ?_, ?_, ?_⟩, ?_⟩
        · rw [b2, f2]
        · rw [b4, f4]
        · rw [b3, f3]
        · rw [b1, f1]
        · rcases c with ⟨c1, c2⟩ | ⟨c1, _⟩
          · exact absurd rfl c2
          · exact Or.inr c1

theorem Guarded.reap_pre {st : State} {i : Int} {p : Nat} {w w1 : World}
    (hg : Guarded st i p w)
    (h : w.reapBeforeTerminate = some w1) :
    Guarded st i p w1 ∧ ClockKeep i w w1 := by
  simp only [World.reapBeforeTerminate] at h
  cases ht : w.terminated with
  | none =>
    simp [ht] at h
    subst h
    exact ⟨hg, ClockKeep.same i w⟩
  | some q =>
    simp only [ht] at h
    have hqp : q ≠ p := by
      intro e
      apply hg.not_reaped
      rw [ht, e]
    split at h
    · cases h1 : w.removeThread q with
      | none => simp [h1] at h
      | some w2 =>
        simp only [h1] at h
        obtain ⟨hg2, ⟨k, hk, f1⟩, f2, f3, f4, _, _⟩ := hg.removeThread_other q hqp h1
        obtain ⟨hg3, g1, g2, g3, g4, _, _⟩ := hg2.deleteThread_other q hqp h
        exact ⟨hg3, (ClockKeep.of_erase hk f1 f2 f3 f4).chain (ClockKeep.of_eq g1 g2 g3 g4)⟩
    · simp at h
      subst h
      exact ⟨hg, ClockKeep.same i w⟩

theorem Guarded.set_terminated {st : State} {i : Int} {p : Nat} {w : World}
    (hg : Guarded st i p w) (q : Option Nat) (hq : q ≠ some p) :
    Guarded st i p { w with terminated := q } :=
  { hg with not_reaped := hq }

theorem Guarded.terminate_pre {st : State} {i : Int} {p : Nat} {w w1 : World} {r : Int}
    (j : Int) (hg : Guarded st i p w) (hrun : w.running ≠ p) (hal : j ≠ i)
    (h : uthread_terminate j w = some (r, w1)) :
    ∃ v, Guarded st i p v ∧ ClockKeep i w v ∧
      ((w1 = v ∧ v.running ≠ p) ∨ v.runNextThread = some w1) := by
  simp only [uthread_terminate] at h
  split at h
  · simp at h
  · cases hq : w.getThreadByID j with
    | none =>
      simp [hq] at h
      exact ⟨w, hg, ClockKeep.same i w, Or.inl ⟨h.2.symm, hrun⟩⟩
    | some q =>
      simp only [hq] at h
      have hqp : q ≠ p := by
        intro e
        rw [e] at hq
        exact hal (hg.index_own j hq)
      cases ht : w.terminateThread q with
      | none => simp [ht] at h
      | some w2 =>
        simp [ht] at h
        obtain ⟨_, rfl⟩ := h
        simp only [World.terminateThread] at ht
        cases hf : hfind w.heap q with
        | none => simp [hf] at ht
        | some tq =>
          cases hfr : hfind w.heap w.running with
          | none => simp [hf, hfr] at ht
          | some tr =>
            simp only [hf, hfr] at ht
            split at ht
            · -- the thread terminates itself
              cases h1 : w.reapBeforeTerminate with
              | none => simp [h1] at ht
              | some wa =>
                simp only [h1] at ht
                obtain ⟨hga, ca⟩ := hg.reap_pre h1
                have hra : wa.running ≠ p := by rw [ca.running_eq]; exact hrun
                cases h2 : World.setState { wa with terminated := some wa.running } wa.running State.TERMINATED with
                | none => simp [h2] at ht
                | some wb =>
                  simp only [h2] at ht
                  have hgb := (hga.set_terminated (some wa.running)
                    (by simp; exact hra)).setState_other _ _ hra h2
                  obtain ⟨b1, b2, b3, b4, _⟩ := setState_frame h2
                  cases h3 : wb.removeThread q with
                  | none => simp [h3] at ht
                  | some wc =>
                    simp only [h3] at ht
                    obtain ⟨hgc, ⟨k, hk, c1⟩, c2, c3, c4, _, _⟩ := hgb.removeThread_other q hqp h3
                    cases h4 : wc.removeID q with
                    | none => simp [h4] at ht
                    | some wd =>
                      simp only [h4] at ht
                      obtain ⟨hgd, d1, d2, d3, d4, _, _⟩ := hgc.removeID_other q hqp h4
                      refine ⟨wd, hgd, ?_, Or.inr ht⟩
                      exact ((ca.chain (ClockKeep.of_eq b1 b2 b3 b4)).chain
                        (ClockKeep.of_erase hk c1 c2 c3 c4)).chain (ClockKeep.of_eq d1 d2 d3 d4)
            · cases h1 : w.removeThread q with
              | none => simp [h1] at ht
              | some wa =>
                simp only [h1] at ht
                obtain ⟨hga, ⟨k, hk, a1⟩, a2, a3, a4, _, _⟩ := hg.removeThread_other q hqp h1
                obtain ⟨hgb, b1, b2, b3, b4, _, _⟩ := hga.deleteThread_other q hqp ht
                have hck := (ClockKeep.of_erase hk a1 a2 a3 a4).chain (ClockKeep.of_eq b1 b2 b3 b4)
                exact ⟨w2, hgb, hck, Or.inl ⟨rfl, by rw [hck.running_eq]; exact hrun⟩⟩

theorem Guarded.timer_pre {st : State} {i : Int} {p : Nat} {w w1 : World}
    (hg : Guarded st i p w) (hrun : w.running ≠ p)
    (h : w.timerHandler = some w1) :
    ∃ v, Guarded st i p v ∧ ClockKeep i w v ∧ v.runNextThread = some w1 := by
  simp only [World.timerHandler] at h
  have hreap : ∀ wa, (match w.terminated with
      | none => some w
      | some q =>
        match w.deleteThread q with
        | none => none
        | some w1 => some { w1 with terminated := none }) = some wa →
      Guarded st i p wa ∧ ClockKeep i w wa := by
    intro wa hwa
    cases ht : w.terminated with
    | none =>
      simp [ht] at hwa
      subst hwa
      exact ⟨hg, ClockKeep.same i w⟩
    | some q =>
      simp only [ht] at hwa
      have hqp : q ≠ p := by
        intro e
        apply hg.not_reaped
        rw [ht, e]
      cases hd : w.deleteThread q with
      | none => simp [hd] at hwa
      | some wb =>
        simp [hd] at hwa
        subst hwa
        obtain ⟨hgb, b1, b2, b3, b4, _, _⟩ := hg.deleteThread_other q hqp hd
        exact ⟨hgb.set_terminated none (by simp), ClockKeep.of_eq b1 b2 b3 b4⟩
  cases h0 : (match w.terminated with
      | none => some w
      | some q =>
        match w.deleteThread q with
        | none => none
        | some w1 => some { w1 with terminated := none }) with
  | none => simp [h0] at h
  | some wa =>
    simp only [h0] at h
    obtain ⟨hga, ca⟩ := hreap wa h0
    have hra : wa.running ≠ p := by rw [ca.running_eq]; exact hrun
    cases h1 : wa.setReady wa.running with
    | none => simp [h1] at h
    | some wb =>
      simp only [h1] at h
      obtain ⟨hgb, b1, b2, b3, b4⟩ := hga.setReady_other _ hra h1
      exact ⟨wb, hgb, ca.chain (ClockKeep.of_eq b1 b2 b3 b4), h⟩

/-- Every allowed event consists of changes that keep a guarded thread,
followed or not by a switch to the head of the ready queue. -/
theorem Guarded.step_pre {st : State} {i : Int} {p : Nat} {w w1 : World} {r : Int}
    (M : Nat) (op : Op)
    (hg : Guarded st i p w) (hrun : w.running ≠ p) (hal : Allowed st i op)
    (h : step M w op = some (r, w1)) :
    ∃ v, Guarded st i p v ∧ PreClock i op w v ∧
      ((w1 = v ∧ v.running ≠ p) ∨ v.runNextThread = some w1) := by
  obtain ⟨hterm, hblock, hresume⟩ := hal
  cases op with
  | spawn =>
    obtain ⟨a, b⟩ := hg.spawn_pre M h
    exact ⟨w1, a, Or.inl b, Or.inl ⟨rfl, by rw [b.running_eq]; exact hrun⟩⟩
  | block j =>
    obtain ⟨v, a, b, c⟩ := hg.block_pre j hrun (fun e => hblock (by rw [e])) h
    exact ⟨v, a, Or.inl b, c⟩
  | resume j =>
    obtain ⟨a, b⟩ := hg.resume_pre j hrun (fun e => hresume (by rw [e])) h
    exact ⟨w1, a, Or.inl b, Or.inl ⟨rfl, by rw [b.running_eq]; exact hrun⟩⟩
  | sleep n =>
    exact hg.sleep_pre n hrun h
  | terminate j =>
    obtain ⟨v, a, b, c⟩ := hg.terminate_pre j hrun (fun e => hterm (by rw [e])) h
    exact ⟨v, a, Or.inl b, c⟩
  | timer =>
    simp only [step] at h
    cases ht : w.timerHandler with
    | none => simp [ht] at h
    | some w2 =>
      simp [ht] at h
      obtain ⟨_, rfl⟩ := h
      obtain ⟨v, a, b, c⟩ := hg.timer_pre hrun ht
      exact ⟨v, a, Or.inl b, Or.inr c⟩

/-! ## The total-quantum counter never decreases -/

theorem setReady_total {w w1 : World} {q : Nat} (h : w.setReady q = some w1) :
    w1.total_quantum_counter = w.total_quantum_counter := by
  simp only [World.setReady] at h
  cases h1 : w.setState q State.READY with
  | none => simp [h1] at h
  | some w2 =>
    simp [h1] at h
    subst h
    exact (setState_frame h1).2.1

theorem unblockThread_total {w w1 : World} {q : Nat} (h : w.unblockThread q = some w1) :
    w1.total_quantum_counter = w.total_quantum_counter := by
  simp only [World.unblockThread] at h
  cases hf : hfind w.heap q with
  | none => simp [hf] at h
  | some tq =>
    simp only [hf] at h
    split at h
    · simp at h
      rw [← h]
    · split at h
      · exact (setState_frame h).2.1
      · have := setReady_total h
        simpa using this

theorem runNextThread_total {w w1 : World} (h : w.runNextThread = some w1) :
    w1.total_quantum_counter = w.total_quantum_counter + 1 := by
  obtain ⟨_, _, _, _, _, _, hw, _⟩ := runNextThread_woke w w1 h
  have := hw.total_eq
  simpa [World.switchTo] using this

theorem blockThread_total {w w1 : World} {q : Nat} (h : w.blockThread q = some w1) :
    w.total_quantum_counter ≤ w1.total_quantum_counter := by
  simp only [World.blockThread] at h
  cases hf : hfind w.heap q with
  | none => simp [hf] at h
  | some tq =>
    simp only [hf] at h
    cases h1 : (if tq.state ≠ State.SLEEPING ∨ (mfind w.blocked tq.id).isSome = true
        then w.setState q State.BLOCKED else some w) with
    | none => simp [h1] at h
    | some w2 =>
      simp only [h1] at h
      have h2 : w2.total_quantum_counter = w.total_quantum_counter := by
        split at h1
        · exact (setState_frame h1).2.1
        · simp at h1
          rw [← h1]
      split at h
      · have := runNextThread_total h
        simp at this
        omega
      · simp at h
        rw [← h]
        simp
        omega

theorem removeThread_total {w w1 : World} {q : Nat} (h : w.removeThread q = some w1) :
    w1.total_quantum_counter = w.total_quantum_counter := by
  simp only [World.removeThread] at h
  cases hf : hfind w.heap q with
  | none => simp [hf] at h
  | some tq =>
    simp [hf] at h
    rw [← h]

theorem deleteThread_total {w w1 : World} {q : Nat} (h : w.deleteThread q = some w1) :
    w1.total_quantum_counter = w.total_quantum_counter := by
  simp only [World.deleteThread] at h
  cases hf : hfind w.heap q with
  | none => simp [hf] at h
  | some tq =>
    simp [hf] at h
    rw [← h]

theorem removeID_total {w w1 : World} {q : Nat} (h : w.removeID q = some w1) :
    w1.total_quantum_counter = w.total_quantum_counter := by
  simp only [World.removeID] at h
  cases hf : hfind w.heap q with
  | none => simp [hf] at h
  | some tq =>
    simp [hf] at h
    rw [← h]

theorem reapBeforeTerminate_total {w w1 : World} (h : w.reapBeforeTerminate = some w1) :
    w1.total_quantum_counter = w.total_quantum_counter := by
  simp only [World.reapBeforeTerminate] at h
  cases ht : w.terminated with
  | none =>
    simp [ht] at h
    rw [← h]
  | some q =>
    simp only [ht] at h
    split at h
    · cases h1 : w.removeThread q with
      | none => simp [h1] at h
      | some w2 =>
        simp only [h1] at h
        rw [deleteThread_total h, removeThread_total h1]
    · simp at h
      rw [← h]

theorem terminateThread_total {w w1 : World} {q : Nat} (h : w.terminateThread q = some w1) :
    w.total_quantum_counter ≤ w1.total_quantum_counter := by
  simp only [World.terminateThread] at h
  cases hf : hfind w.heap q with
  | none => simp [hf] at h
  | some tq =>
    cases hfr : hfind w.heap w.running with
    | none => simp [hf, hfr] at h
    | some tr =>
      simp only [hf, hfr] at h
      split at h
      · cases h1 : w.reapBeforeTerminate with
        | none => simp [h1] at h
        | some wa =>
          simp only [h1] at h
          cases h2 : World.setState { wa with terminated := some wa.running } wa.running State.TERMINATED with
          | none => simp [h2] at h
          | some wb =>
            simp only [h2] at h
            cases h3 : wb.removeThread q with
            | none => simp [h3] at h
            | some wc =>
              simp only [h3] at h
              cases h4 : wc.removeID q with
              | none => simp [h4] at h
              | some wd =>
                simp only [h4] at h
                have e1 := reapBeforeTerminate_total h1
                have e2 := (setState_frame h2).2.1
                have e3 := removeThread_total h3
                have e4 := removeID_total h4
                have e5 := runNextThread_total h
                simp at e2
                omega
      · cases h1 : w.removeThread q with
        | none => simp [h1] at h
        | some wa =>
          simp only [h1] at h
          have e1 := removeThread_total h1
          have e2 := deleteThread_total h
          omega

theorem step_total_mono (M : Nat) (w w1 : World) (op : Op) (r : Int)
    (h : step M w op = some (r, w1)) :
    w.total_quantum_counter ≤ w1.total_quantum_counter := by
  cases op with
  | spawn =>
    simp only [step, uthread_spawn] at h
    simp only [Bool.true_eq_false, if_false] at h
    cases ha : World.addNewThread M (w.newThread).2 (w.newThread).1 with
    | none => simp [ha] at h
    | some ra =>
      obtain ⟨res, w2⟩ := ra
      have hw12 : w1 = w2 := by
        simp only [ha] at h
        split at h
        · simp at h
          exact h.2.symm
        · split at h
          · simp at h
          · simp at h
            exact h.2.symm
      subst hw12
      simp only [World.addNewThread] at ha
      split at ha
      · simp at ha
        rw [← ha.2]
        simp [World.newThread]
      · cases hf : hfind (w.newThread).2.heap (w.newThread).1 with
        | none => simp [hf] at ha
        | some tn =>
          simp only [hf] at ha
          cases hs : World.setReady { (w.newThread).2 with threads := minsert tn.id (w.newThread).1 (w.newThread).2.threads } (w.newThread).1 with
          | none => simp [hs] at ha
          | some w3 =>
            simp [hs] at ha
            rw [← ha.2, setReady_total hs]
            simp [World.newThread]
  | block j =>
    simp only [step, uthread_block] at h
    split at h
    · simp at h
      rw [← h.2]
    · cases hq : w.getThreadByID j with
      | none =>
        simp [hq] at h
        rw [← h.2]
      | some q =>
        simp only [hq] at h
        cases hf : hfind w.heap q with
        | none => simp [hf] at h
        | some tq =>
          simp only [hf] at h
          split at h
          · simp at h
            rw [← h.2]
          · cases hb : w.blockThread q with
            | none => simp [hb] at h
            | some w2 =>
              simp [hb] at h
              rw [← h.2]
              exact blockThread_total hb
  | resume j =>
    simp only [step, uthread_resume] at h
    cases hq : w.getThreadByID j with
    | none =>
      simp [hq] at h
      rw [← h.2]
    | some q =>
      simp only [hq] at h
      cases hf : hfind w.heap q with
      | none => simp [hf] at h
      | some tq =>
        simp only [hf] at h
        split at h
        · simp at h
          rw [← h.2]
        · cases hb : w.unblockThread q with
          | none => simp [hb] at h
          | some w2 =>
            simp [hb] at h
            rw [← h.2, unblockThread_total hb]
  | sleep n =>
    simp only [step, uthread_sleep] at h
    cases hf : hfind w.heap w.running with
    | none => simp [hf] at h
    | some tr =>
      simp only [hf] at h
      split at h
      · simp at h
        rw [← h.2]
      · cases hs : w.sleepCurrentThread n with
        | none => simp [hs] at h
        | some w2 =>
          simp [hs] at h
          rw [← h.2]
          simp only [World.sleepCurrentThread] at hs
          split at hs
          · simp at hs
          · rename_i t2 ht2
            split at hs
            · simp at hs
            · rename_i w3 h3
              have e1 := (setState_frame h3).2.1
              have e2 := blockThread_total hs
              have e3 : w3.total_quantum_counter = w.total_quantum_counter := by
                rw [e1]
                show (if w.next_sleep_check = 0 ∨ wrapInt (w.total_quantum_counter + n) < w.next_sleep_check then { w with next_sleep_check := wrapInt (w.total_quantum_counter + n) } else w).total_quantum_counter = _
                split <;> rfl
              omega
  | terminate j =>
    simp only [step, uthread_terminate] at h
    split at h
    · simp at h
    · cases hq : w.getThreadByID j with
      | none =>
        simp [hq] at h
        rw [← h.2]
      | some q =>
        simp only [hq] at h
        cases ht : w.terminateThread q with
        | none => simp [ht] at h
        | some w2 =>
          simp [ht] at h
          rw [← h.2]
          exact terminateThread_total ht
  | timer =>
    simp only [step] at h
    cases ht : w.timerHandler with
    | none => simp [ht] at h
    | some w2 =>
      simp [ht] at h
      rw [← h.2]
      simp only [World.timerHandler] at ht
      cases h0 : (match w.terminated with
          | none => some w
          | some q =>
            match w.deleteThread q with
            | none => none
            | some w1 => some { w1 with terminated := none }) with
      | none => simp [h0] at ht
      | some wa =>
        simp only [h0] at ht
        have e0 : wa.total_quantum_counter = w.total_quantum_counter := by
          cases htm : w.terminated with
          | none =>
            simp [htm] at h0
            rw [← h0]
          | some q =>
            simp only [htm] at h0
            cases hd : w.deleteThread q with
            | none => simp [hd] at h0
            | some wb =>
              simp [hd] at h0
              rw [← h0]
              show wb.total_quantum_counter = w.total_quantum_counter
              exact deleteThread_total hd
        cases h1 : wa.setReady wa.running with
        | none => simp [h1] at ht
        | some wb =>
          simp only [h1] at ht
          have e1 := setReady_total h1
          have e2 := runNextThread_total ht
          omega

theorem trace_total_mono (M : Nat) (ops : List Op) :
    ∀ (w : World) (ws : List World), trace M ops w = some ws →
      ∀ b ∈ ws, w.total_quantum_counter ≤ b.total_quantum_counter := by
  induction ops with
  | nil =>
    intro w ws h b hb
    simp [trace] at h
    subst h
    simp at hb
  | cons op ops ih =>
    intro w ws h b hb
    simp only [trace] at h
    cases hs : step M w op with
    | none => simp [hs] at h
    | some r =>
      obtain ⟨r0, w1⟩ := r
      simp only [hs] at h
      cases ht : trace M ops w1 with
      | none => simp [ht] at h
      | some ws1 =>
        simp [ht] at h
        subst h
        have hm := step_total_mono M w w1 op r0 hs
        simp only [List.mem_cons] at hb
        rcases hb with hb | hb
        · rw [hb]; exact hm
        · exact le_trans hm (ih w1 ws1 ht b hb)

/-! ## Sleep and its deadline -/

theorem Pending.of_pre {i d : Int} {op : Op} {w v : World} (hp : Pending i d w)
    (hpc : PreClock i op w v)
    (hpos : ∀ n, op = Op.sleep n →
      w.total_quantum_counter < wrapInt (w.total_quantum_counter + n)) : Pending i d v := by
  rcases hpc with hk | ⟨n, k, hop, hk, htot, _, hchk, hsl⟩
  · exact {
      entry := by rw [hk.entry_eq]; exact hp.entry
      entry_only := fun e he => hp.entry_only e (hk.sub e he)
      counter_nonneg := by rw [hk.total_eq]; exact hp.counter_nonneg
      check_pos := by rw [hk.total_eq, hk.check_eq]; exact hp.check_pos
      check_le := by rw [hk.check_eq]; exact hp.check_le
      check_min := fun e he => by rw [hk.check_eq]; exact hp.check_min e (hk.sub e he) }
  · have hn := hpos n hop
    have h0 := hp.counter_nonneg
    have h1 := hp.check_pos
    have h2 := hp.check_le
    exact {
      entry := by
        rw [hsl, mfind_minsert, if_neg (Ne.symm hk)]
        exact hp.entry
      entry_only := by
        intro e he hei
        rw [hsl] at he
        rcases mem_minsert _ _ _ _ he with h3 | h3
        · rw [h3] at hei
          exact absurd hei hk
        · exact hp.entry_only e h3 hei
      counter_nonneg := by rw [htot]; exact h0
      check_pos := by
        rw [htot, hchk]
        split <;> omega
      check_le := by
        rw [hchk]
        split
        · rename_i hc
          rcases hc with hc | hc <;> omega
        · exact h2
      check_min := by
        intro e he
        rw [hsl] at he
        rw [hchk]
        rcases mem_minsert _ _ _ _ he with h3 | h3
        · rw [h3]
          simp only []
          split
          · exact le_refl _
          · rename_i hc
            have : ¬ wrapInt (w.total_quantum_counter + n) < w.next_sleep_check := fun h => hc (Or.inr h)
            omega
        · have := hp.check_min e h3
          split
          · rename_i hc
            rcases hc with hc | hc <;> omega
          · exact this }

theorem Absent.after_pre {i : Int} {op : Op} {w v : World} (ha : Absent i w)
    (hpc : PreClock i op w v) : Absent i v := by
  rcases hpc with hk | ⟨n, k, _, hk, _, _, _, hsl⟩
  · exact fun e he => ha e (hk.sub e he)
  · intro e he
    rw [hsl] at he
    rcases mem_minsert _ _ _ _ he with h3 | h3
    · rw [h3]
      exact hk
    · exact ha e h3

theorem PreClock.total {i : Int} {op : Op} {w v : World} (hpc : PreClock i op w v) :
    v.total_quantum_counter = w.total_quantum_counter := by
  rcases hpc with hk | ⟨_, _, _, _, htot, _, _, _⟩
  · exact hk.total_eq
  · exact htot

/-- One allowed event while the sleep of a guarded thread is pending. -/
theorem Guarded.step_pending {st : State} {i : Int} {p : Nat} {d : Int} {w w1 : World}
    {r : Int} (M : Nat) (op : Op)
    (hg : Guarded st i p w) (hrun : w.running ≠ p) (hp : Pending i d w)
    (hal : Allowed st i op)
    (hpos : ∀ n, op = Op.sleep n →
      w.total_quantum_counter < wrapInt (w.total_quantum_counter + n))
    (h : step M w op = some (r, w1)) :
    w1.running ≠ p ∧
    ((w1.total_quantum_counter < d ∧ Guarded st i p w1 ∧ Pending i d w1) ∨
     (w1.total_quantum_counter = d ∧ Absent i w1 ∧
       ((st ≠ State.SLEEPING ∧ Guarded st i p w1) ∨
        (st = State.SLEEPING ∧ w1.stateOf p = some State.READY ∧ p ∈ w1.ready ∧
          mfind w1.blocked i = none)))) := by
  obtain ⟨v, hgv, hpc, hcase⟩ := hg.step_pre M op hrun hal h
  have hpv := hp.of_pre hpc hpos
  rcases hcase with ⟨rfl, hr⟩ | hsw
  · refine ⟨hr, Or.inl ⟨?_, hgv, hpv⟩⟩
    have := hpv.check_pos
    have := hpv.check_le
    omega
  · obtain ⟨a, _, c⟩ := hgv.switch_pending hpv hsw
    exact ⟨a, c⟩

/-- One allowed event while a guarded thread has no sleeping-map entry. -/
theorem Guarded.step_absent {st : State} {i : Int} {p : Nat} {w w1 : World}
    {r : Int} (M : Nat) (op : Op)
    (hg : Guarded st i p w) (hrun : w.running ≠ p) (ha : Absent i w)
    (hal : Allowed st i op)
    (h : step M w op = some (r, w1)) :
    w1.running ≠ p ∧ Guarded st i p w1 ∧ Absent i w1 := by
  obtain ⟨v, hgv, hpc, hcase⟩ := hg.step_pre M op hrun hal h
  have hav := ha.after_pre hpc
  rcases hcase with ⟨rfl, hr⟩ | hsw
  · exact ⟨hr, hgv, hav⟩
  · obtain ⟨a, _, c, e⟩ := hgv.switch_absent hav hsw
    exact ⟨a, c, e⟩

theorem pair_infix_cons {α : Type} (a b x : α) (l : List α) (h : [a, b] <:+: (x :: l)) :
    (a = x ∧ ∃ l1, l = b :: l1) ∨ [a, b] <:+: l := by
  rw [List.infix_cons_iff] at h
  rcases h with h | h
  · left
    rw [List.cons_prefix_cons] at h
    obtain ⟨h1, h2⟩ := h
    refine ⟨h1, ?_⟩
    obtain ⟨t, ht⟩ := h2
    exact ⟨t, by simpa using ht.symm⟩
  · exact Or.inr h

theorem trace_cons (M : Nat) (op : Op) (ops : List Op) (w : World) (ws : List World)
    (h : trace M (op :: ops) w = some ws) :
    ∃ r w1 ws1, step M w op = some (r, w1) ∧ trace M ops w1 = some ws1 ∧ ws = w1 :: ws1 := by
  simp only [trace] at h
  cases hs : step M w op with
  | none => simp [hs] at h
  | some r =>
    obtain ⟨r0, w1⟩ := r
    simp only [hs] at h
    cases ht : trace M ops w1 with
    | none => simp [ht] at h
    | some ws1 =>
      simp [ht] at h
      exact ⟨r0, w1, ws1, rfl, ht, h.symm⟩

/-- An execution of allowed events from a state in which the guarded thread is
asleep with deadline `d`. -/
theorem trace_sleeping {i : Int} {p : Nat} {d : Int} (M : Nat) (ops : List Op) :
    ∀ (w : World) (ws : List World),
      Guarded State.SLEEPING i p w → w.running ≠ p → Pending i d w →
      (∀ e ∈ List.zip (w :: ws) ops, e.2 ≠ Op.block i ∧ e.2 ≠ Op.terminate i ∧
        ∀ m, e.2 = Op.sleep m →
          e.1.total_quantum_counter < wrapInt (e.1.total_quantum_counter + m)) →
      trace M ops w = some ws →
      (∀ b ∈ ws, b.total_quantum_counter < d → AsleepAt p i d b) ∧
      (∀ a b, [a, b] <:+: (w :: ws) → a.total_quantum_counter < d →
        b.total_quantum_counter = d → p ∉ a.ready ∧ WokenAt p i b) := by
  induction ops with
  | nil =>
    intro w ws _ _ _ _ h
    simp [trace] at h
    subst h
    refine ⟨by simp, ?_⟩
    intro a b hab
    have := hab.length_le
    simp at this
  | cons op ops ih =>
    intro w ws hg hrun hp hops h
    obtain ⟨r, w1, ws1, hs, ht, rfl⟩ := trace_cons M op ops w ws h
    obtain ⟨ho1, ho2, ho3⟩ := hops (w, op) (by simp)
    have hal : Allowed State.SLEEPING i op :=
      ⟨ho2, fun e => absurd e ho1, fun _ => by decide⟩
    obtain ⟨hr1, hcase⟩ := hg.step_pending M op hrun hp hal ho3 hs
    rcases hcase with ⟨hlt, hg1, hp1⟩ | ⟨heq, habs, hw⟩
    · obtain ⟨ih1, ih2⟩ := ih w1 ws1 hg1 hr1 hp1
        (fun o ho => hops o (by simp only [List.zip_cons_cons, List.mem_cons]; exact Or.inr ho)) ht
      refine ⟨?_, ?_⟩
      · intro b hb hbd
        simp only [List.mem_cons] at hb
        rcases hb with hb | hb
        · subst hb
          obtain ⟨t, ht1, _, hs1⟩ := hg1.obj
          exact ⟨by simp [World.stateOf, ht1, hs1], hr1, hg1.not_ready, hp1.entry,
            hg1.in_blocked⟩
        · exact ih1 b hb hbd
      · intro a b hab ha hb
        rcases pair_infix_cons a b w (w1 :: ws1) hab with ⟨_, l1, hl1⟩ | hab2
        · simp at hl1
          rw [hl1.1] at hlt
          omega
        · exact ih2 a b hab2 ha hb
    · rcases hw with ⟨hne, _⟩ | ⟨_, hst, hrd, hbl⟩
      · exact absurd rfl hne
      · have hmono := trace_total_mono M ops w1 ws1 ht
        refine ⟨?_, ?_⟩
        · intro b hb hbd
          simp only [List.mem_cons] at hb
          rcases hb with hb | hb
          · subst hb
            omega
          · have := hmono b hb
            omega
        · intro a b hab ha hb
          rcases pair_infix_cons a b w (w1 :: ws1) hab with ⟨ha1, l1, hl1⟩ | hab2
          · simp at hl1
            rw [← hl1.1]
            subst ha1
            exact ⟨hg.not_ready, hst, hrd, (mfind_none_iff _ _).2 habs, hbl⟩
          · exfalso
            have hmem : a ∈ w1 :: ws1 := hab2.subset (by simp)
            simp only [List.mem_cons] at hmem
            rcases hmem with hmem | hmem
            · subst hmem
              omega
            · have := hmono a hmem
              omega

/-- The state `sleepCurrentThread` hands to `runNextThread`, for a caller that
is not in the blocked set. -/
theorem uthread_sleep_eq (w : World) (t : Thread) (n : Int)
    (hX : hfind w.heap w.running = some t) (hmain : t.id ≠ 0)
    (hnb : mfind w.blocked t.id = none) :
    uthread_sleep n w
      = match World.runNextThread { w with next_sleep_check := (if w.next_sleep_check = 0 ∨ wrapInt (w.total_quantum_counter + n) < w.next_sleep_check then wrapInt (w.total_quantum_counter + n) else w.next_sleep_check), sleeping := minsert t.id (wrapInt (w.total_quantum_counter + n)) w.sleeping, heap := hset w.heap w.running { t with state := State.SLEEPING }, blocked := minsert t.id w.running w.blocked } with
        | none => none
        | some w1 => some (0, w1) := by
  by_cases hcond : w.next_sleep_check = 0 ∨ wrapInt (w.total_quantum_counter + n) < w.next_sleep_check
  · simp [uthread_sleep, hmain, hX, World.sleepCurrentThread, hcond, World.setState,
      World.blockThread, hfind_hset, hnb]
  · simp [uthread_sleep, hmain, hX, World.sleepCurrentThread, hcond, World.setState,
      World.blockThread, hfind_hset, hnb]

/-- A thread in good standing calls `sleep n` with a wake-up time `T + n`
that lies above the counter `T` and fits an `int`; afterwards no `block` or
`terminate` names its id and every `sleep` computes a wake-up time in the same
way.  Until the counter reaches `T + n` the thread is asleep, and the event
that brings the counter to `T + n` wakes it. -/
theorem sleep_wakes_core (M : Nat) (w : World) (t : Thread) (n : Int)
    (ops : List Op) (ws : List World)
    (hX : hfind w.heap w.running = some t)
    (hmain : t.id ≠ 0)
    (hn : 1 ≤ n)
    (hov : w.total_quantum_counter + n ≤ 2147483647)
    (hwf : SleepCaller t.id w)
    (hops : ∀ e ∈ List.zip ws ops,
      e.2 ≠ Op.block t.id ∧ e.2 ≠ Op.terminate t.id ∧ SleepFits e.1 e.2)
    (htr : trace M (Op.sleep n :: ops) w = some ws) :
    (∀ b ∈ ws, b.total_quantum_counter < w.total_quantum_counter + n →
      AsleepAt w.running t.id (w.total_quantum_counter + n) b) ∧
    (∀ a b, [a, b] <:+: (w :: ws) →
      a.total_quantum_counter < w.total_quantum_counter + n →
      b.total_quantum_counter = w.total_quantum_counter + n →
      w.running ∉ a.ready ∧ WokenAt w.running t.id b) := by
  obtain ⟨huniq, hmark, hfree, hfresh, hidx, hidxo, hbl, hsl, hterm, hnr, h0, hclock⟩ := hwf
  obtain ⟨r, w1, ws1, hs, ht, rfl⟩ := trace_cons M (Op.sleep n) ops w ws htr
  have hnb : mfind w.blocked t.id = none :=
    (mfind_none_iff _ _).2 (fun e he => (hbl e he).1)
  have hns : mfind w.sleeping t.id = none := (mfind_none_iff _ _).2 hsl
  have hs2 : uthread_sleep n w = some (r, w1) := hs
  have hwrap : wrapInt (w.total_quantum_counter + n) = w.total_quantum_counter + n :=
    wrapInt_of_range (by omega) hov
  rw [uthread_sleep_eq w t n hX hmain hnb, hwrap] at hs2
  cases hrun : World.runNextThread { w with next_sleep_check := (if w.next_sleep_check = 0 ∨ w.total_quantum_counter + n < w.next_sleep_check then w.total_quantum_counter + n else w.next_sleep_check), sleeping := minsert t.id (w.total_quantum_counter + n) w.sleeping, heap := hset w.heap w.running { t with state := State.SLEEPING }, blocked := minsert t.id w.running w.blocked } with
  | none => simp [hrun] at hs2
  | some w2 =>
    simp [hrun] at hs2
    obtain ⟨_, rfl⟩ := hs2
    -- the caller is guarded in the state before the switch
    have hgv : Guarded State.SLEEPING t.id w.running { w with next_sleep_check := (if w.next_sleep_check = 0 ∨ w.total_quantum_counter + n < w.next_sleep_check then w.total_quantum_counter + n else w.next_sleep_check), sleeping := minsert t.id (w.total_quantum_counter + n) w.sleeping, heap := hset w.heap w.running { t with state := State.SLEEPING }, blocked := minsert t.id w.running w.blocked } :=
      { obj := ⟨{ t with state := State.SLEEPING }, by simp [hfind_hset, hX], rfl, rfl⟩
        unique := by
          intro q tq hq hid
          have hq2 : hfind (hset w.heap w.running { t with state := State.SLEEPING }) q
              = some tq := hq
          rw [hfind_hset] at hq2
          by_cases hqr : q = w.running
          · exact hqr
          · rw [if_neg hqr] at hq2
            exact huniq (q, tq) (hfind_mem _ _ _ hq2) hid
        mark := hmark
        not_free := hfree
        fresh := hfresh
        indexed := hidx
        index_own := fun k hk => hidxo (k, w.running) (mfind_mem _ _ _ hk) rfl
        blocked_own := by
          intro k hk
          have hk2 : mfind (minsert t.id w.running w.blocked) k = some w.running := hk
          rw [mfind_minsert] at hk2
          by_cases hkt : k = t.id
          · exact hkt
          · rw [if_neg hkt] at hk2
            exact absurd rfl (hbl (k, w.running) (mfind_mem _ _ _ hk2)).2
        in_blocked := by
          show mfind (minsert t.id w.running w.blocked) t.id = some w.running
          rw [mfind_minsert, if_pos rfl, hnb]
        not_reaped := hterm
        not_ready := hnr }
    have hpv : Pending t.id (w.total_quantum_counter + n) { w with next_sleep_check := (if w.next_sleep_check = 0 ∨ w.total_quantum_counter + n < w.next_sleep_check then w.total_quantum_counter + n else w.next_sleep_check), sleeping := minsert t.id (w.total_quantum_counter + n) w.sleeping, heap := hset w.heap w.running { t with state := State.SLEEPING }, blocked := minsert t.id w.running w.blocked } :=
      { entry := by
          show mfind (minsert t.id (w.total_quantum_counter + n) w.sleeping) t.id = _
          rw [mfind_minsert, if_pos rfl, hns]
        entry_only := by
          intro e he hei
          rcases mem_minsert _ _ _ _ he with h3 | h3
          · rw [h3]
          · exact absurd hei (hsl e h3)
        counter_nonneg := h0
        check_pos := by
          show w.total_quantum_counter < (if w.next_sleep_check = 0 ∨ w.total_quantum_counter + n < w.next_sleep_check then w.total_quantum_counter + n else w.next_sleep_check)
          split
          · omega
          · rename_i hc
            rcases hclock with hcl | hcl
            · exact absurd (Or.inl hcl.1) hc
            · exact hcl.1
        check_le := by
          show (if w.next_sleep_check = 0 ∨ w.total_quantum_counter + n < w.next_sleep_check then w.total_quantum_counter + n else w.next_sleep_check) ≤ _
          split
          · exact le_refl _
          · rename_i hc
            have : ¬ w.total_quantum_counter + n < w.next_sleep_check := fun h => hc (Or.inr h)
            omega
        check_min := by
          intro e he
          show (if w.next_sleep_check = 0 ∨ w.total_quantum_counter + n < w.next_sleep_check then w.total_quantum_counter + n else w.next_sleep_check) ≤ e.2
          rcases mem_minsert _ _ _ _ he with h3 | h3
          · rw [h3]
            simp only []
            split
            · exact le_refl _
            · rename_i hc
              have : ¬ w.total_quantum_counter + n < w.next_sleep_check := fun h => hc (Or.inr h)
              omega
          · rcases hclock with hcl | hcl
            · rw [hcl.2] at h3
              simp at h3
            · have := hcl.2 e h3
              split
              · rename_i hc
                rcases hc with hc | hc <;> omega
              · exact this }
    obtain ⟨hr1, htot2, hcase⟩ := hgv.switch_pending hpv hrun
    have hmono2 := trace_total_mono M ops w2 ws1 ht
    have hops2 : ∀ e ∈ List.zip (w2 :: ws1) ops,
        e.2 ≠ Op.block t.id ∧ e.2 ≠ Op.terminate t.id ∧
        ∀ m, e.2 = Op.sleep m →
          e.1.total_quantum_counter < wrapInt (e.1.total_quantum_counter + m) := by
      intro e he
      obtain ⟨o1, o2, o3⟩ := hops e he
      refine ⟨o1, o2, fun m hm => ?_⟩
      rw [hm] at o3
      obtain ⟨m1, m2⟩ := o3
      have hge : 0 ≤ e.1.total_quantum_counter := by
        have hmem : e.1 ∈ w2 :: ws1 := (List.of_mem_zip (show (e.1, e.2) ∈ _ from he)).1
        have h2 : w2.total_quantum_counter = w.total_quantum_counter + 1 := htot2
        simp only [List.mem_cons] at hmem
        rcases hmem with hmem | hmem
        · rw [hmem]
          omega
        · have := hmono2 e.1 hmem
          omega
      rw [wrapInt_of_range (by omega) m2]
      omega
    rcases hcase with ⟨hlt, hg1, hp1⟩ | ⟨heq, habs, hw⟩
    · obtain ⟨ih1, ih2⟩ := trace_sleeping M ops w2 ws1 hg1 hr1 hp1 hops2 ht
      refine ⟨?_, ?_⟩
      · intro b hb hbd
        simp only [List.mem_cons] at hb
        rcases hb with hb | hb
        · subst hb
          obtain ⟨t1, ht1, _, hs1⟩ := hg1.obj
          exact ⟨by simp [World.stateOf, ht1, hs1], hr1, hg1.not_ready, hp1.entry,
            hg1.in_blocked⟩
        · exact ih1 b hb hbd
      · intro a b hab ha hb
        rcases pair_infix_cons a b w (w2 :: ws1) hab with ⟨_, l1, hl1⟩ | hab2
        · simp at hl1
          rw [hl1.1] at hlt
          omega
        · exact ih2 a b hab2 ha hb
    · rcases hw with ⟨hne, _⟩ | ⟨_, hst, hrd, hbl1⟩
      · exact absurd rfl hne
      · have hmono := trace_total_mono M ops w2 ws1 ht
        refine ⟨?_, ?_⟩
        · intro b hb hbd
          simp only [List.mem_cons] at hb
          rcases hb with hb | hb
          · subst hb
            omega
          · have := hmono b hb
            omega
        · intro a b hab ha hb
          rcases pair_infix_cons a b w (w2 :: ws1) hab with ⟨ha1, l1, hl1⟩ | hab2
          · simp at hl1
            rw [← hl1.1]
            subst ha1
            exact ⟨hnr, hst, hrd, (mfind_none_iff _ _).2 habs, hbl1⟩
          · exfalso
            have hmem : a ∈ w2 :: ws1 := hab2.subset (by simp)
            simp only [List.mem_cons] at hmem
            rcases hmem with hmem | hmem
            · subst hmem
              omega
            · have := hmono a hmem
              omega

/-! ## A block laid over a sleep -/

/-- An execution of allowed events from a state in which the guarded thread is
BLOCKED, with its sleep still pending or over. -/
theorem trace_blocked {i : Int} {p : Nat} {d : Int} (M : Nat) (ops : List Op) :
    ∀ (w : World) (ws : List World),
      Guarded State.BLOCKED i p w → w.running ≠ p → (Pending i d w ∨ Absent i w) →
      (∀ e ∈ List.zip (w :: ws) ops, e.2 ≠ Op.resume i ∧ e.2 ≠ Op.terminate i ∧
        ∀ m, e.2 = Op.sleep m →
          e.1.total_quantum_counter < wrapInt (e.1.total_quantum_counter + m)) →
      trace M ops w = some ws →
      ∀ b ∈ ws, Guarded State.BLOCKED i p b ∧ b.running ≠ p ∧ (Pending i d b ∨ Absent i b) := by
  induction ops with
  | nil =>
    intro w ws _ _ _ _ h
    simp [trace] at h
    subst h
    simp
  | cons op ops ih =>
    intro w ws hg hrun hp hops h
    obtain ⟨r, w1, ws1, hs, ht, rfl⟩ := trace_cons M op ops w ws h
    obtain ⟨ho1, ho2, ho3⟩ := hops (w, op) (by simp)
    have hal : Allowed State.BLOCKED i op :=
      ⟨ho2, fun _ => rfl, fun e => absurd e ho1⟩
    have h1 : Guarded State.BLOCKED i p w1 ∧ w1.running ≠ p ∧ (Pending i d w1 ∨ Absent i w1) := by
      rcases hp with hp | hp
      · obtain ⟨hr1, hcase⟩ := hg.step_pending M op hrun hp hal ho3 hs
        rcases hcase with ⟨_, hg1, hp1⟩ | ⟨_, habs, hw⟩
        · exact ⟨hg1, hr1, Or.inl hp1⟩
        · rcases hw with ⟨_, hg1⟩ | ⟨hst, _⟩
          · exact ⟨hg1, hr1, Or.inr habs⟩
          · exact absurd hst (by decide)
      · obtain ⟨hr1, hg1, ha1⟩ := hg.step_absent M op hrun hp hal hs
        exact ⟨hg1, hr1, Or.inr ha1⟩
    intro b hb
    simp only [List.mem_cons] at hb
    rcases hb with hb | hb
    · rw [hb]
      exact h1
    · exact ih w1 ws1 h1.1 h1.2.1 h1.2.2
        (fun o ho => hops o (by simp only [List.zip_cons_cons, List.mem_cons]; exact Or.inr ho))
        ht b hb

theorem Sleeper.guarded {i : Int} {p : Nat} {d : Int} {w : World} (h : Sleeper i p d w) :
    Guarded State.SLEEPING i p w ∧ w.running ≠ p ∧ Pending i d w := by
  obtain ⟨hobj, huniq, hmark, hfree, hfresh, hidx, hidxo, hblo, hbl, hterm, hnr, hrun, hent,
    hento, h0, hpos, hle, hmin⟩ := h
  refine ⟨?_, hrun, ⟨hent, hento, h0, hpos, hle, hmin⟩⟩
  exact {
    obj := by
      cases hf : hfind w.heap p with
      | none => simp [hf] at hobj
      | some t =>
        simp [hf] at hobj
        exact ⟨t, rfl, hobj.1, hobj.2⟩
    unique := fun q tq hq hid => huniq (q, tq) (hfind_mem _ _ _ hq) hid
    mark := hmark
    not_free := hfree
    fresh := hfresh
    indexed := hidx
    index_own := fun k hk => hidxo (k, p) (mfind_mem _ _ _ hk) rfl
    blocked_own := fun k hk => hblo (k, p) (mfind_mem _ _ _ hk) rfl
    in_blocked := hbl
    not_reaped := hterm
    not_ready := hnr }

/-- `resume` of a guarded BLOCKED thread without a sleeping-map entry makes it
READY at the tail of the ready queue. -/
theorem Guarded.resume_held {i : Int} {p : Nat} {b : World}
    (hg : Guarded State.BLOCKED i p b) (ha : Absent i b) :
    ∃ b1, uthread_resume i b = some (0, b1) ∧ b1.stateOf p = some State.READY ∧
      b1.ready = b.ready ++ [p] := by
  obtain ⟨t, ht, hid, hs⟩ := hg.obj
  have hidx : mfind b.threads i = some p := hg.indexed
  have hns : mfind b.sleeping t.id = none := by
    rw [hid]
    exact (mfind_none_iff _ _).2 ha
  refine ⟨{ b with blocked := merase b.blocked t.id, heap := hset b.heap p { t with state := State.READY }, ready := b.ready ++ [p] }, ?_, ?_, rfl⟩
  · simp [uthread_resume, World.getThreadByID, hidx, ht, hs, World.unblockThread, hns,
      World.setReady, World.setState]
  · simp [World.stateOf, hfind_hset, ht]

/-- C4 (amended): thread `p` with id `i ≠ 0` is asleep with deadline `d` in a
state of good standing (`Sleeper`: it is SLEEPING and the only live object
with id `i`, the allocator holds `i` as taken, the index and the blocked set
hold the thread under `i` and under no other key, it is not awaiting a reap,
not in the ready queue and not running, the sleeping map holds `d` under `i`,
the counter is not negative, and `next_sleep_check` lies above the counter, at
or below `d` and at or below every stored deadline) and the running thread
calls `block i`; afterwards no `resume` or `terminate` names `i` and every
`sleep m` has `m ≥ 1` and a wake-up time not above the largest `int`.  Then
the counter at the block is below `d`, at every later state the thread is
BLOCKED, in the blocked set, not in the ready queue and not running, and at
every state whose counter has reached `d` it is absent from the sleeping map
and `resume i` returns 0 and puts it READY at the tail of the ready queue. -/
theorem block_overlays_sleep (M : Nat) (w : World) (i : Int) (p : Nat) (d : Int)
    (ops : List Op) (ws : List World)
    (hsl : Sleeper i p d w)
    (hi : i ≠ 0)
    (hops : ∀ e ∈ List.zip ws ops,
      e.2 ≠ Op.resume i ∧ e.2 ≠ Op.terminate i ∧ SleepFits e.1 e.2)
    (htr : trace M (Op.block i :: ops) w = some ws) :
    w.total_quantum_counter < d ∧
    (∀ b ∈ ws, HeldAt p i b) ∧
    (∀ b ∈ ws, d ≤ b.total_quantum_counter →
      mfind b.sleeping i = none ∧
      ∃ b1, uthread_resume i b = some (0, b1) ∧ b1.stateOf p = some State.READY ∧
        b1.ready = b.ready ++ [p]) := by
  obtain ⟨hg, hrun, hp⟩ := hsl.guarded
  obtain ⟨r, w1, ws1, hs, ht, rfl⟩ := trace_cons M (Op.block i) ops w ws htr
  -- the block itself
  have hb : uthread_block i w = some (r, w1) := hs
  obtain ⟨t, htp, hid, hst⟩ := hg.obj
  have hidx : mfind w.threads i = some p := hg.indexed
  have hnt : ¬ t.state = State.TERMINATED := by rw [hst]; decide
  simp only [uthread_block, hi, if_false, World.getThreadByID, hidx, htp, hnt] at hb
  cases hbt : w.blockThread p with
  | none => simp [hbt] at hb
  | some w2 =>
    simp [hbt] at hb
    obtain ⟨_, rfl⟩ := hb
    obtain ⟨hg2, hck⟩ := hg.blockThread_self hrun hbt
    have hr2 : w2.running ≠ p := by rw [hck.running_eq]; exact hrun
    have hp2 : Pending i d w2 := @Pending.of_pre i d Op.timer w w2 hp (Or.inl hck) (fun n hn => by cases hn)
    have hmono2 := trace_total_mono M ops w2 ws1 ht
    have hops2 : ∀ e ∈ List.zip (w2 :: ws1) ops,
        e.2 ≠ Op.resume i ∧ e.2 ≠ Op.terminate i ∧
        ∀ m, e.2 = Op.sleep m →
          e.1.total_quantum_counter < wrapInt (e.1.total_quantum_counter + m) := by
      intro e he
      obtain ⟨o1, o2, o3⟩ := hops e he
      refine ⟨o1, o2, fun m hm => ?_⟩
      rw [hm] at o3
      obtain ⟨m1, m2⟩ := o3
      have hge : 0 ≤ e.1.total_quantum_counter := by
        have hmem : e.1 ∈ w2 :: ws1 := (List.of_mem_zip (show (e.1, e.2) ∈ _ from he)).1
        have h2 := hp2.counter_nonneg
        simp only [List.mem_cons] at hmem
        rcases hmem with hmem | hmem
        · rw [hmem]
          exact h2
        · have := hmono2 e.1 hmem
          omega
      rw [wrapInt_of_range (by omega) m2]
      omega
    have hall := trace_blocked M ops w2 ws1 hg2 hr2 (Or.inl hp2) hops2 ht
    have hfirst : ∀ b ∈ w2 :: ws1,
        Guarded State.BLOCKED i p b ∧ b.running ≠ p ∧ (Pending i d b ∨ Absent i b) := by
      intro b hb
      simp only [List.mem_cons] at hb
      rcases hb with hb | hb
      · rw [hb]
        exact ⟨hg2, hr2, Or.inl hp2⟩
      · exact hall b hb
    refine ⟨by have := hp.check_pos; have := hp.check_le; omega, ?_, ?_⟩
    · intro b hb
      obtain ⟨hgb, hrb, _⟩ := hfirst b hb
      obtain ⟨tb, htb, _, hsb⟩ := hgb.obj
      exact ⟨by simp [World.stateOf, htb, hsb], hgb.in_blocked, hgb.not_ready, hrb⟩
    · intro b hb hd
      obtain ⟨hgb, hrb, hcase⟩ := hfirst b hb
      have hab : Absent i b := by
        rcases hcase with hpb | hab
        · have := hpb.check_pos
          have := hpb.check_le
          omega
        · exact hab
      exact ⟨(mfind_none_iff _ _).2 hab, hgb.resume_held hab⟩

/-- C4 (counterexample): thread 1 sleeps with deadline 7; thread 2 blocks it at
counter 3 and then calls `sleep 0`, which moves `next_sleep_check` to 3, behind
the counter.  No wake scan runs again: at counter 7 and after, thread 1 is
BLOCKED but still has its entry in the sleeping map.  The allocator matters as
well: after `reapTrace` the running thread (address 2, id 1) is the only live
thread with id 1 but the allocator's mark is 0; it calls `sleep 3` at counter 4
(deadline 7) and main blocks it at counter 5.  A spawn then hands out id 1
again (address 3); the wake scan at counter 7 removes the sleeping-map entry,
and at counter 8 the new thread calls `sleep 2`, which stores deadline 10 under
id 1.  At counter 9, past the deadline 7, the blocked thread has an entry in
the sleeping map again and `resume 1` sets it SLEEPING, not READY.  Last, a
`sleep` with a positive argument whose wake-up time overflows stops the wake
scan as `sleep 0` does: with thread 1 asleep until 7 and blocked at counter 3,
thread 2 calls `sleep 2147483647`; the wake-up time wraps to -2147483646, and
at counter 7 and after thread 1 still has its entry in the sleeping map. -/
theorem blocked_sleeper_keeps_map_entry :
    ((worldAfter [Op.spawn, Op.spawn, Op.timer, Op.sleep 5]).running = 2 ∧
      (worldAfter [Op.spawn, Op.spawn, Op.timer, Op.sleep 5]).total_quantum_counter = 3 ∧
      (worldAfter [Op.spawn, Op.spawn, Op.timer, Op.sleep 5]).idOf 1 = some 1 ∧
      (worldAfter [Op.spawn, Op.spawn, Op.timer, Op.sleep 5]).stateOf 1 = some State.SLEEPING ∧
      mfind (worldAfter [Op.spawn, Op.spawn, Op.timer, Op.sleep 5]).sleeping 1 = some 7 ∧
      (trace 100 [Op.block 1, Op.sleep 0, Op.timer, Op.timer, Op.timer, Op.timer]
          (worldAfter [Op.spawn, Op.spawn, Op.timer, Op.sleep 5])).map
          (fun ws => ws.map (fun b =>
            (b.total_quantum_counter, b.next_sleep_check, b.stateOf 1, mfind b.sleeping 1)))
        = some [(3, 7, some State.BLOCKED, some 7),
                (4, 3, some State.BLOCKED, some 7),
                (5, 3, some State.BLOCKED, some 7),
                (6, 3, some State.BLOCKED, some 7),
                (7, 3, some State.BLOCKED, some 7),
                (8, 3, some State.BLOCKED, some 7)]) ∧
    ((run 100 (reapTrace ++ [Op.sleep 3]) (initWorld 1)).map Prod.fst
        = some [1, 0, 0, 1, 0, 0] ∧
      (worldAfter (reapTrace ++ [Op.sleep 3])).running = 0 ∧
      (worldAfter (reapTrace ++ [Op.sleep 3])).total_quantum_counter = 5 ∧
      (worldAfter (reapTrace ++ [Op.sleep 3])).heap
        = [(0, { id := 0, state := State.RUNNING, total_run_time := 3 }),
           (2, { id := 1, state := State.SLEEPING, total_run_time := 1 })] ∧
      (worldAfter (reapTrace ++ [Op.sleep 3])).threads = [(0, 0), (1, 2)] ∧
      (worldAfter (reapTrace ++ [Op.sleep 3])).blocked = [(1, 2)] ∧
      (worldAfter (reapTrace ++ [Op.sleep 3])).sleeping = [(1, 7)] ∧
      (worldAfter (reapTrace ++ [Op.sleep 3])).next_sleep_check = 7 ∧
      (worldAfter (reapTrace ++ [Op.sleep 3])).threadIdMaker
        = { available_ids := [], last_id := 0 } ∧
      (trace 100 [Op.block 1, Op.spawn, Op.timer, Op.timer, Op.timer, Op.sleep 2]
          (worldAfter (reapTrace ++ [Op.sleep 3]))).map
          (fun ws => ws.map (fun b =>
            (b.total_quantum_counter, b.running, b.stateOf 2, mfind b.sleeping 1)))
        = some [(5, 0, some State.BLOCKED, some 7),
                (5, 0, some State.BLOCKED, some 7),
                (6, 3, some State.BLOCKED, some 7),
                (7, 0, some State.BLOCKED, none),
                (8, 3, some State.BLOCKED, none),
                (9, 0, some State.BLOCKED, some 10)] ∧
      (uthread_resume 1 (worldAfter (reapTrace ++
          [Op.sleep 3, Op.block 1, Op.spawn, Op.timer, Op.timer, Op.timer, Op.sleep 2]))).map
          (fun r => (r.1, r.2.stateOf 2, r.2.ready))
        = some (0, some State.SLEEPING, [])) ∧
    (trace 100 [Op.block 1, Op.sleep 2147483647, Op.timer, Op.timer, Op.timer, Op.timer]
        (worldAfter [Op.spawn, Op.spawn, Op.timer, Op.sleep 5])).map
        (fun ws => ws.map (fun b =>
          (b.total_quantum_counter, b.next_sleep_check, b.stateOf 1, mfind b.sleeping 1)))
      = some [(3, 7, some State.BLOCKED, some 7),
              (4, -2147483646, some State.BLOCKED, some 7),
              (5, -2147483646, some State.BLOCKED, some 7),
              (6, -2147483646, some State.BLOCKED, some 7),
              (7, -2147483646, some State.BLOCKED, some 7),
              (8, -2147483646, some State.BLOCKED, some 7)] :=
  ⟨by decide,
    ⟨by decide, by decide, by decide, by decide, by decide, by decide, by decide, by decide,
      by decide, by decide, by decide⟩,
    by decide⟩

/-- C4 (witness): thread 1 sleeps with deadline 5; thread 2 blocks it at
counter 3 and three timer expiries follow. -/
theorem block_overlays_sleep_witness :
    Sleeper 1 1 5 (worldAfter [Op.spawn, Op.spawn, Op.timer, Op.sleep 3]) ∧
    trace 100 [Op.block 1, Op.timer, Op.timer, Op.timer]
        (worldAfter [Op.spawn, Op.spawn, Op.timer, Op.sleep 3])
      = some (tracedFrom [Op.block 1, Op.timer, Op.timer, Op.timer]
          (worldAfter [Op.spawn, Op.spawn, Op.timer, Op.sleep 3])) ∧
    (worldAfter [Op.spawn, Op.spawn, Op.timer, Op.sleep 3]).total_quantum_counter < 5 ∧
    (∀ b ∈ tracedFrom [Op.block 1, Op.timer, Op.timer, Op.timer]
          (worldAfter [Op.spawn, Op.spawn, Op.timer, Op.sleep 3]), HeldAt 1 1 b) ∧
    (∀ b ∈ tracedFrom [Op.block 1, Op.timer, Op.timer, Op.timer]
          (worldAfter [Op.spawn, Op.spawn, Op.timer, Op.sleep 3]),
      5 ≤ b.total_quantum_counter →
      mfind b.sleeping 1 = none ∧
      ∃ b1, uthread_resume 1 b = some (0, b1) ∧ b1.stateOf 1 = some State.READY ∧
        b1.ready = b.ready ++ [1]) :=
  ⟨by decide, by decide,
    block_overlays_sleep 100 (worldAfter [Op.spawn, Op.spawn, Op.timer, Op.sleep 3]) 1 1 5
      [Op.timer, Op.timer, Op.timer]
      (tracedFrom [Op.block 1, Op.timer, Op.timer, Op.timer]
        (worldAfter [Op.spawn, Op.spawn, Op.timer, Op.sleep 3]))
      (by decide) (by decide)
      (by decide) (by decide)⟩

/-! ## Initialisation, no-op calls and the block of a sleeper -/

/-- For a quantum length `q` with `0 < q ≤ 999999`, `uthread_init q` returns
0 and leaves the state in which the total-quantum counter is 1, the running
thread is the main thread (id 0, state RUNNING, quantum counter 1), the thread
index holds exactly that thread, the ready queue, the blocked set and the
sleeping map are empty and `next_sleep_check` is 0. -/
theorem init_in_range (q : Int) (hq : 0 < q) (hq2 : q ≤ 999999) :
    ∃ w, uthread_init q = some (0, some w) ∧
      w.total_quantum_counter = 1 ∧ uthread_get_total_quantums w = 1 ∧
      hfind w.heap w.running
        = some { id := 0, state := State.RUNNING, total_run_time := 1 } ∧
      uthread_get_tid w = some 0 ∧ uthread_get_quantums 0 w = some 1 ∧
      w.threads = [(0, w.running)] ∧
      w.ready = [] ∧ w.blocked = [] ∧ w.sleeping = [] ∧ w.next_sleep_check = 0 := by
  refine ⟨initWorld q, uthread_init_eq q hq hq2, ?_⟩
  simp [initWorld, uthread_get_total_quantums, uthread_get_tid, uthread_get_quantums,
    World.getThreadByID, hfind, mfind]

/-- C17 (failing input): for a quantum length of one second or more,
`q ≥ 1000000`, the constructor stores `q` in the microsecond field of the timer
value, `setitimer` rejects it, and `uthread_init q` does not return: the
process reports a system error and exits, where the return value 0 and the
initial state are expected for every `q > 0`. -/
theorem init_exits_on_long_quantum (q : Int) (hq : 1000000 ≤ q) :
    uthread_init q = none := by
  have h1 : ¬ q ≤ 0 := by omega
  have h2 : timerRejects q := Or.inr (by omega)
  rw [uthread_init, if_neg h1, init_eq, if_pos h2]

/-- C17 (witness): a quantum of exactly one second. -/
theorem init_exits_on_long_quantum_witness :
    (1000000 : Int) ≤ 1000000 ∧ uthread_init 1000000 = none :=
  ⟨by decide, init_exits_on_long_quantum 1000000 (by decide)⟩

theorem thread_state_eta (t : Thread) : { t with state := t.state } = t := by
  cases t
  rfl

theorem setState_same (w : World) (p : Nat) (t : Thread) (ht : hfind w.heap p = some t) :
    w.setState p t.state = some w := by
  simp only [World.setState, ht]
  rw [thread_state_eta, hset_self _ _ _ ht]

theorem minsert_present {β : Type} (m : List (Int × β)) (k : Int) (v u : β)
    (h : mfind m k = some u) : minsert k v m = m := by
  simp [minsert, h]

/-- C14 (failing input): after `twinTrace`, main calls `block 1`, which sets
the thread the index holds under id 1 (address 2) to BLOCKED but cannot insert
it in the blocked set, where key 1 is taken by the sleeping thread at address
3; the next timer expiry brings the counter to 9 and the wake scan removes key
1 from the blocked set.  The thread at address 2 is then in state BLOCKED with
no entry in the blocked set, and a second `block 1` returns 0 and changes the
state: it inserts the thread in the blocked set. -/
theorem block_of_blocked_adds_entry :
    (run 100 (twinTrace ++ [Op.block 1, Op.timer]) (initWorld 1)).map Prod.fst
      = some [1, 0, 0, 1, 0, 1, 0, 0, 0, 0, 0, 0] ∧
    (worldAfter (twinTrace ++ [Op.block 1, Op.timer])).running = 0 ∧
    (worldAfter (twinTrace ++ [Op.block 1, Op.timer])).total_quantum_counter = 9 ∧
    (worldAfter (twinTrace ++ [Op.block 1, Op.timer])).getThreadByID 1 = some 2 ∧
    (worldAfter (twinTrace ++ [Op.block 1, Op.timer])).idOf 2 = some 1 ∧
    (worldAfter (twinTrace ++ [Op.block 1, Op.timer])).stateOf 2 = some State.BLOCKED ∧
    (worldAfter (twinTrace ++ [Op.block 1, Op.timer])).blocked = [] ∧
    (uthread_block 1 (worldAfter (twinTrace ++ [Op.block 1, Op.timer]))).map
        (fun r => (r.1, r.2.blocked,
          decide (r.2 = worldAfter (twinTrace ++ [Op.block 1, Op.timer]))))
      = some (0, [(1, 2)], false) :=
  ⟨by decide, by decide, by decide, by decide, by decide, by decide, by decide, by decide⟩

/-- The no-op calls.  `resume` of an indexed thread whose state
is RUNNING, READY or SLEEPING returns 0 and leaves the whole state as it was;
`block` of an indexed thread (not main) whose state is BLOCKED, which is in the
blocked set under its id, outside the ready queue and not running, returns 0
and leaves the whole state as it was. -/
theorem documented_noops (w : World) (tid : Int) (p : Nat) (t : Thread)
    (hidx : w.getThreadByID tid = some p)
    (hheap : hfind w.heap p = some t) :
    ((t.state = State.RUNNING ∨ t.state = State.READY ∨ t.state = State.SLEEPING) →
      uthread_resume tid w = some (0, w)) ∧
    (t.state = State.BLOCKED → tid ≠ 0 → (mfind w.blocked t.id).isSome → p ∉ w.ready →
      w.running ≠ p → uthread_block tid w = some (0, w)) := by
  constructor
  · intro hst
    have h1 : t.state ≠ State.TERMINATED := by
      rcases hst with h | h | h <;> rw [h] <;> decide
    have h2 : t.state ≠ State.BLOCKED := by
      rcases hst with h | h | h <;> rw [h] <;> decide
    simp [uthread_resume, hidx, hheap, h1, World.unblockThread, h2]
  · intro hst hmain hbl hnr hrun
    have h1 : t.state ≠ State.TERMINATED := by rw [hst]; decide
    have h2 : t.state ≠ State.SLEEPING := by rw [hst]; decide
    have hss : w.setState p State.BLOCKED = some w := by
      rw [← hst]
      exact setState_same w p t hheap
    obtain ⟨u, hu⟩ := Option.isSome_iff_exists.1 hbl
    have hrun2 : ¬ w.running = p := hrun
    simp [uthread_block, hmain, hidx, hheap, h1, World.blockThread, h2, hss,
      minsert_present _ _ _ _ hu, hrun2, lremove_of_not_mem _ _ hnr]

/-- `resume 2` while thread 2 is READY, and `block 1` while thread 1 is
already BLOCKED. -/
theorem documented_noops_witness :
    (uthread_resume 2 (worldAfter [Op.spawn, Op.spawn, Op.timer])
        = some (0, worldAfter [Op.spawn, Op.spawn, Op.timer])) ∧
    (uthread_block 1 (worldAfter [Op.spawn, Op.spawn, Op.block 1])
        = some (0, worldAfter [Op.spawn, Op.spawn, Op.block 1])) :=
  ⟨(documented_noops (worldAfter [Op.spawn, Op.spawn, Op.timer]) 2 2
      { id := 2, state := State.READY, total_run_time := 0 } (by decide) (by decide)).1
      (Or.inr (Or.inl rfl)),
   (documented_noops (worldAfter [Op.spawn, Op.spawn, Op.block 1]) 1 1
      { id := 1, state := State.BLOCKED, total_run_time := 0 } (by decide) (by decide)).2
      rfl (by decide) (by decide) (by decide) (by decide)⟩

/-- C19 (counterexample): thread 1 is SLEEPING with deadline 7, in the sleeping
map and the blocked set; thread 2 runs and calls `block 1`.  The call returns
0, the sleeping-map entry stays, but the state of thread 1 is BLOCKED, not
SLEEPING.  The thread that `block` reaches is the one the thread index holds
under the id: after `twinTrace` the thread at address 3 is SLEEPING with the
entries of id 1 in the sleeping map and the blocked set, and `block 1` by main
sets the thread at address 2, which the index holds under id 1, to BLOCKED and
leaves the thread at address 3 SLEEPING. -/
theorem sleeper_state_after_block :
    ((worldAfter [Op.spawn, Op.spawn, Op.timer, Op.sleep 5]).running = 2 ∧
      (worldAfter [Op.spawn, Op.spawn, Op.timer, Op.sleep 5]).idOf 1 = some 1 ∧
      (worldAfter [Op.spawn, Op.spawn, Op.timer, Op.sleep 5]).stateOf 1 = some State.SLEEPING ∧
      mfind (worldAfter [Op.spawn, Op.spawn, Op.timer, Op.sleep 5]).sleeping 1 = some 7 ∧
      mfind (worldAfter [Op.spawn, Op.spawn, Op.timer, Op.sleep 5]).blocked 1 = some 1 ∧
      (uthread_block 1 (worldAfter [Op.spawn, Op.spawn, Op.timer, Op.sleep 5])).map
          (fun r => (r.1, r.2.stateOf 1, mfind r.2.sleeping 1))
        = some (0, some State.BLOCKED, some 7)) ∧
    ((worldAfter twinTrace).running = 0 ∧
      (worldAfter twinTrace).idOf 3 = some 1 ∧
      (worldAfter twinTrace).stateOf 3 = some State.SLEEPING ∧
      mfind (worldAfter twinTrace).sleeping 1 = some 9 ∧
      mfind (worldAfter twinTrace).blocked 1 = some 3 ∧
      (worldAfter twinTrace).getThreadByID 1 = some 2 ∧
      (uthread_block 1 (worldAfter twinTrace)).map
          (fun r => (r.1, r.2.stateOf 3, r.2.stateOf 2, mfind r.2.sleeping 1))
        = some (0, some State.SLEEPING, some State.BLOCKED, some 9)) :=
  ⟨by decide, by decide⟩

/-- C19 (amended): for a thread (not main) in state SLEEPING that is the
thread the index holds under its id, has a sleeping-map entry and is in the
blocked set, `block` called by another thread returns 0 and sets the thread's
state to BLOCKED; the sleeping map, the blocked set and everything else but
the ready queue (which loses the thread, were it there) are as before, so
afterwards the thread has a sleeping-map entry while its state is not
SLEEPING. -/
theorem block_of_sleeper (w : World) (tid : Int) (p : Nat) (t : Thread) (d : Int)
    (hmain : tid ≠ 0)
    (hidx : w.getThreadByID tid = some p)
    (hheap : hfind w.heap p = some t)
    (hid : t.id = tid)
    (hst : t.state = State.SLEEPING)
    (hsl : mfind w.sleeping tid = some d)
    (hbl : mfind w.blocked tid = some p)
    (hrun : w.running ≠ p) :
    ∃ w1, uthread_block tid w = some (0, w1) ∧
      w1 = { w with heap := hset w.heap p { t with state := State.BLOCKED }, ready := lremove w.ready p } ∧
      w1.stateOf p = some State.BLOCKED ∧ mfind w1.sleeping tid = some d ∧
      mfind w1.blocked tid = some p ∧ w1.stateOf p ≠ some State.SLEEPING := by
  have h1 : t.state ≠ State.TERMINATED := by rw [hst]; decide
  have hrun2 : ¬ w.running = p := hrun
  have hbl2 : mfind w.blocked t.id = some p := by rw [hid]; exact hbl
  refine ⟨_, ?_, rfl, ?_, hsl, hbl, ?_⟩
  · simp [uthread_block, hmain, hidx, hheap, h1, World.blockThread, hbl2, World.setState,
      minsert_present _ _ _ _ hbl2, hrun2]
  · simp [World.stateOf, hfind_hset, hheap]
  · simp [World.stateOf, hfind_hset, hheap]

/-- C19 (witness): thread 1 sleeps until quantum 7, thread 2 blocks it. -/
theorem block_of_sleeper_witness :
    ∃ w1, uthread_block 1 (worldAfter [Op.spawn, Op.spawn, Op.timer, Op.sleep 5]) = some (0, w1) ∧
      w1 = { worldAfter [Op.spawn, Op.spawn, Op.timer, Op.sleep 5] with
        heap := hset (worldAfter [Op.spawn, Op.spawn, Op.timer, Op.sleep 5]).heap 1
          { ({ id := 1, state := State.SLEEPING, total_run_time := 1 } : Thread) with
            state := State.BLOCKED },
        ready := lremove (worldAfter [Op.spawn, Op.spawn, Op.timer, Op.sleep 5]).ready 1 } ∧
      w1.stateOf 1 = some State.BLOCKED ∧ mfind w1.sleeping 1 = some 7 ∧
      mfind w1.blocked 1 = some 1 ∧ w1.stateOf 1 ≠ some State.SLEEPING :=
  block_of_sleeper (worldAfter [Op.spawn, Op.spawn, Op.timer, Op.sleep 5]) 1 1
    { id := 1, state := State.SLEEPING, total_run_time := 1 } 7
    (by decide) (by decide) (by decide) (by decide) (by decide) (by decide) (by decide)
    (by decide)

/-! ## Spawn at the limit, and the index after a deferred reap -/

/-- C11 (failing input): with `MAX_THREAD_NUM = 3`, after `init` and two spawns
the index holds 3 threads.  A third spawn returns -1 and leaves the ready
queue, blocked set, sleeping map, index and counters as they were, but the
allocator's high-water mark goes from 2 to 3 and a thread object with id 3
stays on the heap.  After `terminate 1` and `terminate 2` the next spawn
returns 1; without the failed spawn it returns 2. -/
theorem spawn_at_limit_consumes_id :
    (run 3 [Op.spawn, Op.spawn] (initWorld 1)).map
        (fun r => (r.1, r.2.threads, r.2.threadIdMaker, r.2.heap.length))
      = some ([1, 2], [(0, 0), (1, 1), (2, 2)], { available_ids := [], last_id := 2 }, 3) ∧
    (run 3 [Op.spawn, Op.spawn, Op.spawn] (initWorld 1)).map
        (fun r => (r.1, r.2.threads, r.2.threadIdMaker, r.2.heap.length))
      = some ([1, 2, -1], [(0, 0), (1, 1), (2, 2)], { available_ids := [], last_id := 3 }, 4) ∧
    (run 3 [Op.spawn, Op.spawn] (initWorld 1)).map
        (fun r => (r.2.ready, r.2.blocked, r.2.sleeping, r.2.total_quantum_counter))
      = (run 3 [Op.spawn, Op.spawn, Op.spawn] (initWorld 1)).map
        (fun r => (r.2.ready, r.2.blocked, r.2.sleeping, r.2.total_quantum_counter)) ∧
    (run 3 [Op.spawn, Op.spawn, Op.spawn, Op.terminate 1, Op.terminate 2, Op.spawn]
        (initWorld 1)).map Prod.fst = some [1, 2, -1, 0, 0, 1] ∧
    (run 3 [Op.spawn, Op.spawn, Op.terminate 1, Op.terminate 2, Op.spawn]
        (initWorld 1)).map Prod.fst = some [1, 2, 0, 0, 2] :=
  ⟨by decide, by decide, by decide, by decide, by decide⟩

/-- C20 (failing input): thread 1 terminates itself and awaits its deferred
reap; thread 2 spawns, and the new thread is given id 1 and indexed under it;
thread 2 then terminates itself.  The reap of the old thread 1 erases the index
entry of id 1: the new thread is READY in the ready queue but the index has no
entry for its id, and `get_quantums 1` returns -1. -/
theorem reap_erases_live_index_entry :
    (run 100 [Op.spawn, Op.spawn, Op.timer, Op.terminate 1, Op.spawn] (initWorld 1)).map
        (fun r => (r.1, r.2.running, r.2.ready, r.2.threads))
      = some ([1, 2, 0, 0, 1], 2, [0, 3], [(0, 0), (1, 3), (2, 2)]) ∧
    (run 100 [Op.spawn, Op.spawn, Op.timer, Op.terminate 1, Op.spawn] (initWorld 1)).map
        (fun r => (r.2.terminated, r.2.idOf 3, r.2.stateOf 3, uthread_get_quantums 1 r.2))
      = some (some 1, some 1, some State.READY, some 0) ∧
    (run 100 [Op.spawn, Op.spawn, Op.timer, Op.terminate 1, Op.spawn, Op.terminate 2]
        (initWorld 1)).map
        (fun r => (r.1, r.2.running, r.2.ready, r.2.threads))
      = some ([1, 2, 0, 0, 1, 0], 0, [3], [(0, 0)]) ∧
    (run 100 [Op.spawn, Op.spawn, Op.timer, Op.terminate 1, Op.spawn, Op.terminate 2]
        (initWorld 1)).map
        (fun r => (r.2.terminated, r.2.idOf 3, r.2.stateOf 3, uthread_get_quantums 1 r.2))
      = some (some 2, some 1, some State.READY, some (-1)) :=
  ⟨by decide, by decide, by decide, by decide⟩

/-- C16 (counterexample): after `init`, two spawns and four timer expiries the
total-quantum counter is 5 and thread 2 has run 1 quantum, which is neither
`⌊(5 - 1) / 2⌋` nor `⌈(5 - 1) / 2⌉` (both are 2): main takes its turn in the
rotation. -/
theorem rotation_at_five_quanta :
    (run 100 [Op.spawn, Op.spawn, Op.timer, Op.timer, Op.timer, Op.timer] (initWorld 1)).map
        (fun r => (r.2.total_quantum_counter, uthread_get_quantums 0 r.2,
          uthread_get_quantums 1 r.2, uthread_get_quantums 2 r.2))
      = some (5, some 2, some 2, some 1) ∧
    (1 : Int) ≠ (5 - 1) / 2 ∧ (1 : Int) ≠ (5 - 1 + 1) / 2 := by
  decide

/-! ## User errors -/

/-- C13: every user error returns -1 and leaves the state as it was: `init`
with a non-positive quantum (no scheduler is created), `spawn` with a null
entry point, `block 0`, `block`, `resume`, `terminate` (id not 0) and
`get_quantums` with an id that is not in the thread index, and `sleep` while
the main thread runs.  Conversely, for an id whose index entry is a live thread
not in state TERMINATED, `resume` returns 0, `get_quantums` returns the quantum
counter (not -1, counters being non-negative), and `block` (id not 0) returns
0: at once when the target is not the running thread, and after the switch when
it is (in a consistent state with a non-empty ready queue). -/
theorem user_errors (M : Nat) (w : World) :
    (∀ q : Int, q ≤ 0 → uthread_init q = some (-1, none)) ∧
    uthread_spawn M false w = some (-1, w) ∧
    uthread_block 0 w = some (-1, w) ∧
    (∀ tid, w.getThreadByID tid = none →
      uthread_block tid w = some (-1, w) ∧ uthread_resume tid w = some (-1, w) ∧
      (tid ≠ 0 → uthread_terminate tid w = some (-1, w)) ∧
      uthread_get_quantums tid w = some (-1)) ∧
    (∀ n, w.idOf w.running = some 0 → uthread_sleep n w = some (-1, w)) ∧
    (∀ tid p t, w.getThreadByID tid = some p → hfind w.heap p = some t →
      t.state ≠ State.TERMINATED →
      (∃ w1, uthread_resume tid w = some (0, w1)) ∧
      (0 ≤ t.total_run_time →
        uthread_get_quantums tid w = some t.total_run_time ∧ t.total_run_time ≠ -1) ∧
      (tid ≠ 0 → (w.running = p → Consistent w ∧ t.id = tid ∧ w.ready ≠ []) →
        ∃ w1, uthread_block tid w = some (0, w1))) := by
  refine ⟨?_, ?_, ?_, ?_, ?_, ?_⟩
  · intro q hq
    simp [uthread_init, hq]
  · simp [uthread_spawn]
  · simp [uthread_block]
  · intro tid hn
    refine ⟨?_, ?_, ?_, ?_⟩
    · by_cases h0 : tid = 0
      · simp [uthread_block, h0]
      · simp [uthread_block, h0, hn]
    · simp [uthread_resume, hn]
    · intro h0
      simp [uthread_terminate, h0, hn]
    · simp [uthread_get_quantums, hn]
  · intro n h0
    cases hr : hfind w.heap w.running with
    | none => simp [World.idOf, hr] at h0
    | some r =>
      simp [World.idOf, hr] at h0
      simp [uthread_sleep, hr, h0]
  · intro tid p t hidx hheap hnt
    refine ⟨?_, ?_, ?_⟩
    · by_cases hb : t.state = State.BLOCKED
      · cases hs : mfind w.sleeping t.id with
        | none =>
          simp [uthread_resume, hidx, hheap, hnt, World.unblockThread, hb, hs, World.setReady,
            World.setState]
        | some d =>
          simp [uthread_resume, hidx, hheap, hnt, World.unblockThread, hb, hs, World.setState]
      · simp [uthread_resume, hidx, hheap, hnt, World.unblockThread, hb]
    · intro h0
      refine ⟨by simp [uthread_get_quantums, hidx, hheap, hnt], ?_⟩
      omega
    · intro h0 hself
      by_cases hrun : w.running = p
      · obtain ⟨hc, hid, hne⟩ := hself hrun
        cases hq : w.ready with
        | nil => exact absurd hq hne
        | cons h rest =>
          have hX : hfind w.heap w.running = some t := by rw [hrun]; exact hheap
          have hidx2 : w.getThreadByID t.id = some w.running := by rw [hid, hrun]; exact hidx
          have hm : t.id ≠ 0 := by rw [hid]; exact h0
          obtain ⟨w1, _, hb, _⟩ := voluntary_block w t h rest hc hX hm hidx2 hq
          rw [hid] at hb
          exact ⟨w1, hb⟩
      · by_cases hsl : t.state ≠ State.SLEEPING ∨ (mfind w.blocked t.id).isSome = true
        · simp [uthread_block, h0, hidx, hheap, hnt, World.blockThread, hsl, World.setState,
            hrun]
        · simp [uthread_block, h0, hidx, hheap, hnt, World.blockThread, hsl, hrun]

/-- C13 (witness): thread 1 runs, thread 2 and main are ready; id 5 is not in
the index, ids 1 and 2 are. -/
theorem user_errors_witness :
    uthread_init 0 = some (-1, none) ∧ uthread_init (-1) = some (-1, none) ∧
    uthread_block 5 (worldAfter [Op.spawn, Op.spawn, Op.timer])
      = some (-1, worldAfter [Op.spawn, Op.spawn, Op.timer]) ∧
    uthread_sleep 3 (worldAfter [Op.spawn, Op.spawn])
      = some (-1, worldAfter [Op.spawn, Op.spawn]) ∧
    (∃ w1, uthread_resume 2 (worldAfter [Op.spawn, Op.spawn, Op.timer]) = some (0, w1)) ∧
    (∃ w1, uthread_block 2 (worldAfter [Op.spawn, Op.spawn, Op.timer]) = some (0, w1)) ∧
    (∃ w1, uthread_block 1 (worldAfter [Op.spawn, Op.spawn, Op.timer]) = some (0, w1)) :=
  ⟨(user_errors 100 (initWorld 1)).1 0 (by decide),
   (user_errors 100 (initWorld 1)).1 (-1) (by decide),
   ((user_errors 100 (worldAfter [Op.spawn, Op.spawn, Op.timer])).2.2.2.1 5 (by decide)).1,
   (user_errors 100 (worldAfter [Op.spawn, Op.spawn])).2.2.2.2.1 3 (by decide),
   ((user_errors 100 (worldAfter [Op.spawn, Op.spawn, Op.timer])).2.2.2.2.2 2 2
      { id := 2, state := State.READY, total_run_time := 0 }
      (by decide) (by decide) (by decide)).1,
   ((user_errors 100 (worldAfter [Op.spawn, Op.spawn, Op.timer])).2.2.2.2.2 2 2
      { id := 2, state := State.READY, total_run_time := 0 }
      (by decide) (by decide) (by decide)).2.2 (by decide) (fun h => absurd h (by decide)),
   ((user_errors 100 (worldAfter [Op.spawn, Op.spawn, Op.timer])).2.2.2.2.2 1 1
      { id := 1, state := State.RUNNING, total_run_time := 1 }
      (by decide) (by decide) (by decide)).2.2 (by decide)
      (fun _ => ⟨by decide, by decide, by decide⟩)⟩

/-! ## Rotation of main and two spawned threads -/

theorem timer_phase0 (q a b c n : Int) (hn : n + 1 ≠ 0) (hq : ¬ timerRejects q) :
    World.timerHandler (rrWorld q 0 a b c n) = some (rrWorld q 1 a (b + 1) c (n + 1)) := by
  simp [World.timerHandler, rrWorld, World.setReady, World.setState, World.runNextThread,
    World.runThread, World.runTimer, World.incrementQuantumAmount, hfind, hset, hn, hq]

theorem timer_phase1 (q a b c n : Int) (hn : n + 1 ≠ 0) (hq : ¬ timerRejects q) :
    World.timerHandler (rrWorld q 1 a b c n) = some (rrWorld q 2 a b (c + 1) (n + 1)) := by
  simp [World.timerHandler, rrWorld, World.setReady, World.setState, World.runNextThread,
    World.runThread, World.runTimer, World.incrementQuantumAmount, hfind, hset, hn, hq]

theorem timer_phase2 (q a b c n : Int) (hn : n + 1 ≠ 0) (hq : ¬ timerRejects q) :
    World.timerHandler (rrWorld q 2 a b c n) = some (rrWorld q 0 (a + 1) b c (n + 1)) := by
  simp [World.timerHandler, rrWorld, World.setReady, World.setState, World.runNextThread,
    World.runThread, World.runTimer, World.incrementQuantumAmount, hfind, hset, hn, hq]

theorem rrWorld_congr (q : Int) {p p1 : Nat} {a a1 b b1 c c1 n n1 : Int}
    (hp : p = p1) (ha : a = a1) (hb : b = b1) (hc : c = c1) (hn : n = n1) :
    rrWorld q p a b c n = rrWorld q p1 a1 b1 c1 n1 := by
  subst hp ha hb hc hn
  rfl

theorem timer_rotation (q : Int) (k : Nat) (hq : ¬ timerRejects q) :
    World.timerHandler (rotation q k) = some (rotation q (k + 1)) := by
  have hn : (((k + 1 : Nat) : Int)) + 1 ≠ 0 := by omega
  have h3 : k % 3 = 0 ∨ k % 3 = 1 ∨ k % 3 = 2 := by omega
  unfold rotation
  rcases h3 with h | h | h
  · rw [h, timer_phase0 q _ _ _ _ hn hq]
    exact congrArg some (rrWorld_congr q (by omega) (by omega) (by omega) (by omega) (by omega))
  · rw [h, timer_phase1 q _ _ _ _ hn hq]
    exact congrArg some (rrWorld_congr q (by omega) (by omega) (by omega) (by omega) (by omega))
  · rw [h, timer_phase2 q _ _ _ _ hn hq]
    exact congrArg some (rrWorld_congr q (by omega) (by omega) (by omega) (by omega) (by omega))

theorem run_timers (M : Nat) (q : Int) (k : Nat) (hq : ¬ timerRejects q) :
    run M (List.replicate k Op.timer) (rotation q 0)
      = some (List.replicate k 0, rotation q k) := by
  induction k with
  | zero => simp [run]
  | succ k ih =>
    have h1 : run M [Op.timer] (rotation q k) = some ([0], rotation q (k + 1)) := by
      simp [run, step, timer_rotation q k hq]
    have h2 := run_append M (List.replicate k Op.timer) [Op.timer] _ _ _ _ _ ih h1
    rw [List.replicate_succ']
    rw [h2]
    simp [List.replicate_succ']

theorem run_two_spawns (M : Nat) (q : Int) (h1 : M ≠ 1) (h2 : M ≠ 2) :
    run M [Op.spawn, Op.spawn] (initWorld q) = some ([1, 2], rotation q 0) := by
  have e1 : ¬ 1 = M := fun e => h1 e.symm
  have e2 : ¬ 2 = M := fun e => h2 e.symm
  simp [run, step, uthread_spawn, World.newThread, World.addNewThread, initWorld,
    Thread_ID_Maker.getNewID, World.setReady, World.setState, hfind, hset, minsert, mfind,
    mplace, e1, e2, rotation, rrWorld]

/-- C16 (amended): after an `init` that returned 0, two spawns (threads 1 and
2, which requires `MAX_THREAD_NUM` to allow three threads) and then `k` timer
expiries, the
total-quantum counter is `N = k + 1`, thread 1 has run `⌊(N + 1) / 3⌋` quanta,
thread 2 `⌊N / 3⌋` and main `1 + ⌊(N - 1) / 3⌋`; so each of threads 1 and 2 has
a quantum counter equal to `⌊(N - 1) / 3⌋` or `⌈(N - 1) / 3⌉`: the rotation is
among three threads, main included. -/
theorem three_way_rotation (M : Nat) (q : Int) (k : Nat) (w0 : World)
    (hinit : uthread_init q = some (0, some w0)) (h1 : M ≠ 1) (h2 : M ≠ 2) :
    ∃ rs w,
      run M ([Op.spawn, Op.spawn] ++ List.replicate k Op.timer) w0 = some (rs, w) ∧
      uthread_get_total_quantums w = (k : Int) + 1 ∧
      uthread_get_quantums 1 w = some ((((k : Int) + 1) + 1) / 3) ∧
      uthread_get_quantums 2 w = some (((k : Int) + 1) / 3) ∧
      uthread_get_quantums 0 w = some (1 + (((k : Int) + 1) - 1) / 3) ∧
      (∀ tid, tid = 1 ∨ tid = 2 →
        uthread_get_quantums tid w = some ((((k : Int) + 1) - 1) / 3) ∨
        uthread_get_quantums tid w = some (((((k : Int) + 1) - 1) + 2) / 3)) := by
  obtain ⟨hq, hq2, rfl⟩ := uthread_init_some hinit
  have htq : ¬ timerRejects q := by
    unfold timerRejects
    omega
  have hrun := run_append M [Op.spawn, Op.spawn] (List.replicate k Op.timer) _ _ _ _ _
    (run_two_spawns M q h1 h2) (run_timers M q k htq)
  refine ⟨_, rotation q k, hrun, ?_⟩
  have g1 : uthread_get_quantums 1 (rotation q k) = some ((((k : Int) + 1) + 1) / 3) := by
    have : (((k + 2) / 3 : Nat) : Int) = (((k : Int) + 1) + 1) / 3 := by omega
    rw [← this]
    by_cases hp : k % 3 = 1 <;>
      simp [uthread_get_quantums, World.getThreadByID, rotation, rrWorld, mfind, hfind, hp]
  have g2 : uthread_get_quantums 2 (rotation q k) = some (((k : Int) + 1) / 3) := by
    have : (((k + 1) / 3 : Nat) : Int) = ((k : Int) + 1) / 3 := by omega
    rw [← this]
    by_cases hp : k % 3 = 2 <;>
      simp [uthread_get_quantums, World.getThreadByID, rotation, rrWorld, mfind, hfind, hp]
  have g0 : uthread_get_quantums 0 (rotation q k) = some (1 + (((k : Int) + 1) - 1) / 3) := by
    have : ((1 + k / 3 : Nat) : Int) = 1 + (((k : Int) + 1) - 1) / 3 := by omega
    rw [← this]
    by_cases hp : k % 3 = 0 <;>
      simp [uthread_get_quantums, World.getThreadByID, rotation, rrWorld, mfind, hfind, hp]
  refine ⟨?_, g1, g2, g0, ?_⟩
  · simp [uthread_get_total_quantums, rotation, rrWorld]
  · intro tid htid
    rcases htid with rfl | rfl
    · rw [g1]
      have : (((k : Int) + 1) + 1) / 3 = (((k : Int) + 1) - 1) / 3 ∨
          (((k : Int) + 1) + 1) / 3 = ((((k : Int) + 1) - 1) + 2) / 3 := by omega
      rcases this with e | e
      · exact Or.inl (by rw [e])
      · exact Or.inr (by rw [e])
    · rw [g2]
      have : ((k : Int) + 1) / 3 = (((k : Int) + 1) - 1) / 3 ∨
          ((k : Int) + 1) / 3 = ((((k : Int) + 1) - 1) + 2) / 3 := by omega
      rcases this with e | e
      · exact Or.inl (by rw [e])
      · exact Or.inr (by rw [e])

/-- C16 (witness): quantum length 1, `MAX_THREAD_NUM = 100`, four timer
expiries. -/
theorem three_way_rotation_witness :
    uthread_init 1 = some (0, some (initWorld 1)) ∧
    ∃ rs w,
      run 100 ([Op.spawn, Op.spawn] ++ List.replicate 4 Op.timer) (initWorld 1)
        = some (rs, w) ∧
      uthread_get_total_quantums w = ((4 : Nat) : Int) + 1 ∧
      uthread_get_quantums 1 w = some (((((4 : Nat) : Int) + 1) + 1) / 3) ∧
      uthread_get_quantums 2 w = some ((((4 : Nat) : Int) + 1) / 3) ∧
      uthread_get_quantums 0 w = some (1 + ((((4 : Nat) : Int) + 1) - 1) / 3) ∧
      (∀ tid, tid = 1 ∨ tid = 2 →
        uthread_get_quantums tid w = some (((((4 : Nat) : Int) + 1) - 1) / 3) ∨
        uthread_get_quantums tid w = some ((((((4 : Nat) : Int) + 1) - 1) + 2) / 3)) :=
  ⟨by decide, three_way_rotation 100 1 4 (initWorld 1) (by decide) (by decide) (by decide)⟩

/-! ## Events as quiet changes followed by a switch -/

theorem blockThread_eq (w : World) (p : Nat) :
    w.blockThread p
      = match w.blockThreadEntry p with
        | none => none
        | some v => if v.running = p then v.runNextThread
                    else some { v with ready := lremove v.ready p } := by
  simp only [World.blockThread, World.blockThreadEntry]
  cases hfind w.heap p with
  | none => rfl
  | some t =>
    simp only []
    cases (if t.state ≠ State.SLEEPING ∨ (mfind w.blocked t.id).isSome = true
           then w.setState p State.BLOCKED else some w) with
    | none => rfl
    | some w1 => rfl

theorem sleepCurrentThread_eq (w : World) (n : Int) :
    w.sleepCurrentThread n
      = match w.sleepEntry n with
        | none => none
        | some w2 => w2.blockThread w2.running := by
  simp only [World.sleepCurrentThread, World.sleepEntry]
  split <;> rfl

theorem terminateThread_self (w : World) (p : Nat) (v : World)
    (h : w.terminateEntry p = some v) : w.terminateThread p = v.runNextThread := by
  simp only [World.terminateEntry] at h
  simp only [World.terminateThread]
  split at h
  · rename_i t r ht hr
    split at h
    · rename_i hid
      rw [if_pos hid]
      cases h0 : w.reapBeforeTerminate with
      | none => simp [h0] at h
      | some w1 =>
        simp only [h0] at h ⊢
        cases h1 : World.setState { w1 with terminated := some w1.running } w1.running
            State.TERMINATED with
        | none => simp [h1] at h
        | some w2 =>
          simp only [h1] at h ⊢
          cases h2 : w2.removeThread p with
          | none => simp [h2] at h
          | some w3 =>
            simp only [h2] at h ⊢
            rw [h]
    · simp at h
  · simp at h

theorem timerHandler_eq (w : World) :
    w.timerHandler = match w.timerEntry with
      | none => none
      | some v => v.runNextThread := by
  simp only [World.timerHandler, World.timerEntry]
  split
  · rfl
  · rename_i w1 h1
    cases w1.setReady w1.running <;> rfl

/-- An event that reaches a call of `runNextThread` returns what that call
leaves, with result 0. -/
theorem step_at_switchPoint (M : Nat) (w : World) (op : Op) (v : World)
    (h : switchPoint w op = some v) :
    step M w op = (v.runNextThread).map (fun w1 => ((0 : Int), w1)) := by
  cases op with
  | spawn => simp [switchPoint] at h
  | resume j => simp [switchPoint] at h
  | block j =>
    simp only [switchPoint] at h
    simp only [step, uthread_block]
    split at h
    · simp at h
    · rename_i h0
      rw [if_neg h0]
      cases hq : w.getThreadByID j with
      | none => simp [hq] at h
      | some p =>
        simp only [hq] at h ⊢
        cases hf : hfind w.heap p with
        | none => simp [hf] at h
        | some t =>
          simp only [hf] at h ⊢
          split at h
          · simp at h
          · rename_i hnt
            rw [if_neg hnt, blockThread_eq]
            cases he : w.blockThreadEntry p with
            | none => simp [he] at h
            | some v1 =>
              simp only [he] at h ⊢
              split at h
              · rename_i hr
                simp at h
                subst h
                rw [if_pos hr]
                cases v1.runNextThread <;> rfl
              · simp at h
  | sleep n =>
    simp only [switchPoint] at h
    simp only [step, uthread_sleep]
    cases hf : hfind w.heap w.running with
    | none => simp [hf] at h
    | some t =>
      simp only [hf] at h ⊢
      split at h
      · simp at h
      · rename_i h0
        rw [if_neg h0, sleepCurrentThread_eq]
        cases hs : w.sleepEntry n with
        | none => simp [hs] at h
        | some w2 =>
          simp only [hs] at h ⊢
          rw [blockThread_eq]
          cases he : w2.blockThreadEntry w2.running with
          | none => simp [he] at h
          | some v1 =>
            simp only [he] at h ⊢
            split at h
            · rename_i hr
              simp at h
              subst h
              rw [if_pos hr]
              cases v1.runNextThread <;> rfl
            · simp at h
  | terminate j =>
    simp only [switchPoint] at h
    simp only [step, uthread_terminate]
    split at h
    · simp at h
    · rename_i h0
      rw [if_neg h0]
      cases hq : w.getThreadByID j with
      | none => simp [hq] at h
      | some p =>
        simp only [hq] at h ⊢
        rw [terminateThread_self w p v h]
        cases v.runNextThread <;> rfl
  | timer =>
    simp only [switchPoint] at h
    simp only [step, timerHandler_eq, h]
    cases v.runNextThread <;> rfl

theorem hfind_hset_time (h : List (Nat × Thread)) (p q : Nat) (t u : Thread)
    (ht : hfind h p = some t) (hu : u.total_run_time = t.total_run_time) :
    (hfind (hset h p u) q).map Thread.total_run_time
      = (hfind h q).map Thread.total_run_time := by
  rw [hfind_hset]
  by_cases hq : q = p
  · subst hq
    simp [ht, hu]
  · simp [hq]

theorem Quiet.unchanged (p : Nat) (w : World) : Quiet p w w :=
  ⟨fun _ => rfl, fun _ => rfl, rfl, rfl, rfl, rfl, rfl, rfl, fun _ hx => Or.inl hx,
    fun _ _ hx => Or.inl hx, fun _ hx => hx⟩

theorem Quiet.compose {p : Nat} {a b c : World} (h1 : Quiet p a b) (h2 : Quiet p b c) :
    Quiet p a c where
  ids := fun q => by rw [h2.ids, h1.ids]
  times := fun q => by rw [h2.times, h1.times]
  threads_eq := by rw [h2.threads_eq, h1.threads_eq]
  maker_eq := by rw [h2.maker_eq, h1.maker_eq]
  addr_eq := by rw [h2.addr_eq, h1.addr_eq]
  terminated_eq := by rw [h2.terminated_eq, h1.terminated_eq]
  total_eq := by rw [h2.total_eq, h1.total_eq]
  running_eq := by rw [h2.running_eq, h1.running_eq]
  ready_sub := fun x hx => by
    rcases h2.ready_sub x hx with h | h
    · exact h1.ready_sub x h
    · exact Or.inr h
  blocked_sub := fun k x hx => by
    rcases h2.blocked_sub k x hx with h | h
    · exact h1.blocked_sub k x h
    · exact Or.inr h
  states := fun q hq => h1.states q (h2.states q hq)

theorem Quiet.of_setState {w v : World} {q : Nat} {s : State} (p : Nat)
    (hs : s ≠ State.TERMINATED) (h : w.setState q s = some v) :
    Quiet p w v ∧ v.ready = w.ready ∧ v.blocked = w.blocked ∧ v.sleeping = w.sleeping ∧
      v.next_sleep_check = w.next_sleep_check := by
  simp only [World.setState] at h
  cases ht : hfind w.heap q with
  | none => simp [ht] at h
  | some t =>
    simp [ht] at h
    subst h
    refine ⟨?_, rfl, rfl, rfl, rfl⟩
    exact {
      ids := fun x => by
        simp only [World.idOf]
        exact hfind_hset_id _ _ _ t _ ht rfl
      times := fun x => by
        simp only [World.runTimeOf]
        exact hfind_hset_time _ _ _ t _ ht rfl
      threads_eq := rfl
      maker_eq := rfl
      addr_eq := rfl
      terminated_eq := rfl
      total_eq := rfl
      running_eq := rfl
      ready_sub := fun _ hx => Or.inl hx
      blocked_sub := fun _ _ hx => Or.inl hx
      states := fun x hx => by
        simp only [World.stateOf, hfind_hset] at hx
        split at hx
        · simp [ht] at hx
          exact absurd hx hs
        · exact hx }

theorem Quiet.of_setReady {w v : World} {q : Nat} (h : w.setReady q = some v) :
    Quiet q w v ∧ v.ready = w.ready ++ [q] ∧ v.blocked = w.blocked ∧
      v.sleeping = w.sleeping ∧ v.next_sleep_check = w.next_sleep_check := by
  simp only [World.setReady] at h
  cases h1 : w.setState q State.READY with
  | none => simp [h1] at h
  | some w1 =>
    simp [h1] at h
    subst h
    obtain ⟨hq, e1, e2, e3, e4⟩ := Quiet.of_setState q (by decide) h1
    refine ⟨?_, by simp [e1], e2, e3, e4⟩
    exact {
      ids := hq.ids
      times := hq.times
      threads_eq := hq.threads_eq
      maker_eq := hq.maker_eq
      addr_eq := hq.addr_eq
      terminated_eq := hq.terminated_eq
      total_eq := hq.total_eq
      running_eq := hq.running_eq
      ready_sub := fun x hx => by
        simp only [List.mem_append, List.mem_singleton] at hx
        rcases hx with hx | hx
        · rw [e1] at hx
          exact Or.inl hx
        · exact Or.inr hx
      blocked_sub := fun k x hx => by
        have : mfind w1.blocked k = some x := hx
        rw [e2] at this
        exact Or.inl this
      states := hq.states }

theorem Quiet.of_unblockThread {w v : World} {q : Nat} (h : w.unblockThread q = some v) :
    Quiet q w v ∧ (∀ x ∈ w.ready, x ∈ v.ready) := by
  simp only [World.unblockThread] at h
  cases ht : hfind w.heap q with
  | none => simp [ht] at h
  | some t =>
    simp only [ht] at h
    split at h
    · simp at h
      subst h
      exact ⟨Quiet.unchanged q w, fun _ hx => hx⟩
    · split at h
      · obtain ⟨hq, e1, _⟩ := Quiet.of_setState q (by decide) h
        exact ⟨hq, fun x hx => by rw [e1]; exact hx⟩
      · obtain ⟨hq, e1, e2, _⟩ := Quiet.of_setReady h
        refine ⟨?_, fun x hx => by rw [e1]; simp; exact Or.inl hx⟩
        exact {
          ids := hq.ids
          times := hq.times
          threads_eq := hq.threads_eq
          maker_eq := hq.maker_eq
          addr_eq := hq.addr_eq
          terminated_eq := hq.terminated_eq
          total_eq := hq.total_eq
          running_eq := hq.running_eq
          ready_sub := hq.ready_sub
          blocked_sub := fun k x hx => by
            rw [e2] at hx
            simp only [mfind_merase] at hx
            split at hx
            · simp at hx
            · exact Or.inl hx
          states := hq.states }

theorem Quiet.of_blockThreadEntry {w v : World} {p : Nat} (h : w.blockThreadEntry p = some v) :
    Quiet p w v ∧ v.ready = w.ready := by
  simp only [World.blockThreadEntry] at h
  cases ht : hfind w.heap p with
  | none => simp [ht] at h
  | some t =>
    simp only [ht] at h
    have key : ∀ w1, Quiet p w w1 → w1.ready = w.ready → w1.blocked = w.blocked →
        Quiet p w { w1 with blocked := minsert t.id p w1.blocked } := by
      intro w1 hq _ e2
      exact {
        ids := hq.ids
        times := hq.times
        threads_eq := hq.threads_eq
        maker_eq := hq.maker_eq
        addr_eq := hq.addr_eq
        terminated_eq := hq.terminated_eq
        total_eq := hq.total_eq
        running_eq := hq.running_eq
        ready_sub := hq.ready_sub
        blocked_sub := fun k x hx => by
          have hx2 : mfind (minsert t.id p w1.blocked) k = some x := hx
          rw [mfind_minsert, e2] at hx2
          split at hx2
          · rename_i hk
            cases hm : mfind w.blocked t.id with
            | none =>
              simp [hm] at hx2
              exact Or.inr hx2.symm
            | some u =>
              simp [hm] at hx2
              rw [hk, hm, hx2]
              exact Or.inl rfl
          · exact Or.inl hx2
        states := hq.states }
    cases h1 : (if t.state ≠ State.SLEEPING ∨ (mfind w.blocked t.id).isSome = true
        then w.setState p State.BLOCKED else some w) with
    | none => simp [h1] at h
    | some w1 =>
      simp [h1] at h
      subst h
      split at h1
      · obtain ⟨hq, e1, e2, _⟩ := Quiet.of_setState p (by decide) h1
        exact ⟨key w1 hq e1 e2, e1⟩
      · simp at h1
        subst h1
        exact ⟨key w (Quiet.unchanged p w) rfl rfl, rfl⟩

theorem Quiet.of_sleepEntry {w v : World} {n : Int} (h : w.sleepEntry n = some v) :
    Quiet w.running w v ∧ v.ready = w.ready ∧ v.blocked = w.blocked := by
  simp only [World.sleepEntry] at h
  split at h
  · simp at h
  · rename_i t ht
    obtain ⟨hq, e1, e2, _⟩ := Quiet.of_setState w.running (by decide) h
    split at hq <;> split at e1 <;> split at e2 <;>
      exact ⟨⟨hq.ids, hq.times, hq.threads_eq, hq.maker_eq, hq.addr_eq, hq.terminated_eq,
        hq.total_eq, hq.running_eq, hq.ready_sub, hq.blocked_sub, hq.states⟩, e1, e2⟩

theorem Switched.of_runNextThread {v w1 : World} (h : v.runNextThread = some w1) :
    Switched v w1 := by
  obtain ⟨hd, rest, th, woken, hready, hh, hwoke, _, _, _, hw⟩ := runNextThread_woke v w1 h
  have hsh : hfind (v.switchTo hd th rest).heap hd
      = some { th with state := State.RUNNING, total_run_time := th.total_run_time + 1 } := by
    simp [World.switchTo, hfind_hset, hh]
  have hrun : w1.running = hd := hwoke.running_eq
  have hnw : hd ∉ woken := by
    intro hin
    obtain ⟨t, ht, hs, _⟩ := hwoke.heap_woken hd hin
    rw [hsh] at ht
    simp at ht
    rw [← ht] at hs
    simp at hs
  have hheap : ∀ q, (∃ t, hfind (v.switchTo hd th rest).heap q = some t ∧
      ∃ s, hfind w1.heap q = some { t with state := s }) ∨
      (hfind (v.switchTo hd th rest).heap q = none ∧ hfind w1.heap q = none) := by
    intro q
    by_cases hq : q ∈ woken
    · obtain ⟨t, ht, _, ht1⟩ := hwoke.heap_woken q hq
      exact Or.inl ⟨t, ht, State.READY, ht1⟩
    · have := hwoke.heap_other q hq
      cases hs : hfind (v.switchTo hd th rest).heap q with
      | none =>
        rw [hs] at this
        exact Or.inr ⟨rfl, this⟩
      | some t =>
        rw [hs] at this
        exact Or.inl ⟨t, rfl, t.state, this⟩
  have hids0 : ∀ q, w1.idOf q = (v.switchTo hd th rest).idOf q := by
    intro q
    rcases hheap q with ⟨t, ht, s, hs⟩ | ⟨h1, h2⟩
    · simp [World.idOf, ht, hs]
    · simp [World.idOf, h1, h2]
  have htimes0 : ∀ q, w1.runTimeOf q = (v.switchTo hd th rest).runTimeOf q := by
    intro q
    rcases hheap q with ⟨t, ht, s, hs⟩ | ⟨h1, h2⟩
    · simp [World.runTimeOf, ht, hs]
    · simp [World.runTimeOf, h1, h2]
  exact {
    head := by
      refine ⟨rest, by rw [hrun]; exact hready, ?_, ?_⟩
      · intro x hx
        have := hwoke.ready_eq
        simp only [World.switchTo] at this
        change w1.ready = rest ++ woken at this
        rw [this]
        simp [hx]
      · intro x hx
        have := hwoke.ready_eq
        change w1.ready = rest ++ woken at this
        rw [this] at hx
        simp only [List.mem_append] at hx
        rcases hx with hx | hx
        · exact Or.inl hx
        · obtain ⟨id, _, hb⟩ := hw x hx
          exact Or.inr ⟨id, hb⟩
    ids := fun q => by
      rw [hids0]
      simp only [World.idOf, World.switchTo]
      exact hfind_hset_id _ _ _ th _ hh rfl
    time_head := by
      refine ⟨th.total_run_time, ?_, ?_⟩
      · rw [hrun]
        simp [World.runTimeOf, hh]
      · rw [htimes0, hrun]
        simp [World.runTimeOf, hsh]
    time_other := fun q hq => by
      rw [hrun] at hq
      rw [htimes0]
      simp only [World.runTimeOf, World.switchTo]
      rw [hfind_hset_ne _ _ _ _ hq]
    threads_eq := hwoke.threads_eq
    maker_eq := hwoke.maker_eq
    addr_eq := hwoke.addr_eq
    terminated_eq := hwoke.terminated_eq
    total_eq := hwoke.total_eq
    blocked_sub := fun k x hx => hwoke.blocked_sub k x hx
    states := fun q hq => by
      have h1 : (v.switchTo hd th rest).stateOf q = some State.TERMINATED := by
        by_cases hqw : q ∈ woken
        · obtain ⟨t2, _, _, ht3⟩ := hwoke.heap_woken q hqw
          have ht4 : hfind w1.heap q = some { t2 with state := State.READY } := ht3
          simp [World.stateOf, ht4] at hq
        · have ho : hfind w1.heap q = hfind (v.switchTo hd th rest).heap q :=
            hwoke.heap_other q hqw
          simp only [World.stateOf] at hq ⊢
          rw [← ho]
          exact hq
      simp only [World.stateOf, World.switchTo, hfind_hset] at h1
      split at h1
      · simp [hh] at h1
      · exact h1
    sleeping_sub := fun e he => hwoke.sleeping_sub e he }

/-! ## The main thread is always running or ready -/

theorem MainAlive.init (q : Int) : MainAlive (initWorld q) where
  main := by simp [World.idOf, initWorld, hfind]
  only := fun x hx => by
    by_cases h : x = 0
    · exact h
    · have h2 : ¬ 0 = x := fun e => h e.symm
      simp [World.idOf, initWorld, hfind, h2] at hx
  idx := fun k x hk hk0 => by
    simp only [initWorld, mfind] at hk
    split at hk
    · rename_i e
      exact absurd e.symm hk0
    · simp at hk
  reap := by simp [initWorld]
  mark := by simp [initWorld]
  free := by simp [initWorld]
  fresh := fun x hx => by
    by_cases h : x = 0
    · subst h
      simp [initWorld]
    · have h2 : ¬ 0 = x := fun e => h e.symm
      simp [World.idOf, initWorld, hfind, h2] at hx

theorem MainAlive.quiet_main {p : Nat} {w v : World} (hm : MainAlive w) (hq : Quiet p w v) :
    MainAlive v where
  main := by rw [hq.ids]; exact hm.main
  only := fun x hx => hm.only x (by rw [← hq.ids]; exact hx)
  idx := fun k x hk => hm.idx k x (by rw [← hq.threads_eq]; exact hk)
  reap := by rw [hq.terminated_eq]; exact hm.reap
  mark := by rw [hq.maker_eq]; exact hm.mark
  free := by rw [hq.maker_eq]; exact hm.free
  fresh := fun x hx => by
    rw [hq.addr_eq]
    exact hm.fresh x (by rw [← hq.ids]; exact hx)

theorem MainAlive.setState {w v : World} {x : Nat} {s : State} (hm : MainAlive w)
    (h : w.setState x s = some v) : MainAlive v ∧ v.ready = w.ready := by
  simp only [World.setState] at h
  cases ht : hfind w.heap x with
  | none => simp [ht] at h
  | some t =>
    simp [ht] at h
    subst h
    have hids : ∀ y, (World.idOf { w with heap := hset w.heap x { t with state := s } } y)
        = w.idOf y := fun y => hfind_hset_id _ _ _ t _ ht rfl
    refine ⟨?_, rfl⟩
    exact {
      main := by rw [hids]; exact hm.main
      only := fun y hy => hm.only y (by rw [← hids]; exact hy)
      idx := hm.idx
      reap := hm.reap
      mark := hm.mark
      free := hm.free
      fresh := fun y hy => hm.fresh y (by rw [← hids]; exact hy) }

theorem MainAlive.switched_main {v w1 : World} (hm : MainAlive v) (hs : Switched v w1)
    (h0 : 0 ∈ v.ready) : MainAlive w1 ∧ (w1.running = 0 ∨ 0 ∈ w1.ready) := by
  refine ⟨?_, ?_⟩
  · exact {
      main := by rw [hs.ids]; exact hm.main
      only := fun x hx => hm.only x (by rw [← hs.ids]; exact hx)
      idx := fun k x hk => hm.idx k x (by rw [← hs.threads_eq]; exact hk)
      reap := by rw [hs.terminated_eq]; exact hm.reap
      mark := by rw [hs.maker_eq]; exact hm.mark
      free := by rw [hs.maker_eq]; exact hm.free
      fresh := fun x hx => by
        rw [hs.addr_eq]
        exact hm.fresh x (by rw [← hs.ids]; exact hx) }
  · obtain ⟨rest, hr, hkeep, _⟩ := hs.head
    rw [hr] at h0
    simp only [List.mem_cons] at h0
    rcases h0 with h0 | h0
    · exact Or.inl h0.symm
    · exact Or.inr (hkeep 0 h0)

theorem MainAlive.not_main_of_id {w : World} (hm : MainAlive w) {x : Nat} {t : Thread}
    (hx : hfind w.heap x = some t) (hid : t.id ≠ 0) : x ≠ 0 := by
  intro e
  subst e
  have := hm.main
  simp [World.idOf, hx] at this
  exact hid this

theorem MainAlive.id_of_not_main {w : World} (hm : MainAlive w) {x : Nat} {t : Thread}
    (hx : hfind w.heap x = some t) (hx0 : x ≠ 0) : t.id ≠ 0 := by
  intro e
  exact hx0 (hm.only x (by simp [World.idOf, hx, e]))

theorem MainAlive.deleteThread {w v : World} {x : Nat} (hm : MainAlive w) (hx0 : x ≠ 0)
    (h : w.deleteThread x = some v) :
    MainAlive v ∧ v.ready = w.ready ∧ v.running = w.running ∧ v.terminated = w.terminated := by
  cases hf : hfind w.heap x with
  | none => simp [World.deleteThread, hf] at h
  | some t =>
    have hid := hm.id_of_not_main hf hx0
    simp [World.deleteThread, hf, hid] at h
    subst h
    have ha := addIDtoList_guard w.threadIdMaker 0 t.id hid hm.mark hm.free
    have hids : ∀ y, (World.idOf { w with heap := hdel w.heap x, threadIdMaker := w.threadIdMaker.addIDtoList t.id } y)
        = if y = x then none else w.idOf y := by
      intro y
      simp only [World.idOf, hfind_hdel]
      split <;> simp
    refine ⟨?_, rfl, rfl, rfl⟩
    exact {
      main := by
        rw [hids]
        rw [if_neg (fun e => hx0 e.symm)]
        exact hm.main
      only := fun y hy => by
        rw [hids] at hy
        split at hy
        · simp at hy
        · exact hm.only y hy
      idx := hm.idx
      reap := hm.reap
      mark := ha.1
      free := ha.2
      fresh := fun y hy => by
        rw [hids] at hy
        split at hy
        · simp at hy
        · exact hm.fresh y hy }

theorem MainAlive.removeThread {w v : World} {x : Nat} (hm : MainAlive w)
    (h : w.removeThread x = some v) :
    MainAlive v ∧ v.ready = lremove w.ready x ∧ v.running = w.running ∧
      v.terminated = w.terminated ∧ v.heap = w.heap := by
  cases hf : hfind w.heap x with
  | none => simp [World.removeThread, hf] at h
  | some t =>
    simp [World.removeThread, hf] at h
    subst h
    refine ⟨?_, rfl, rfl, rfl, rfl⟩
    exact {
      main := hm.main
      only := hm.only
      idx := fun k y hk hk0 => by
        have hk2 : mfind (merase w.threads t.id) k = some y := hk
        rw [mfind_merase] at hk2
        split at hk2
        · simp at hk2
        · exact hm.idx k y hk2 hk0
      reap := hm.reap
      mark := hm.mark
      free := hm.free
      fresh := hm.fresh }

theorem MainAlive.removeID {w v : World} {x : Nat} (hm : MainAlive w) (hx0 : x ≠ 0)
    (h : w.removeID x = some v) :
    MainAlive v ∧ v.ready = w.ready ∧ v.running = w.running ∧ v.terminated = w.terminated := by
  cases hf : hfind w.heap x with
  | none => simp [World.removeID, hf] at h
  | some t =>
    have hid := hm.id_of_not_main hf hx0
    simp [World.removeID, hf] at h
    subst h
    have ha := addIDtoList_guard w.threadIdMaker 0 t.id hid hm.mark hm.free
    exact ⟨{ hm with mark := ha.1, free := ha.2 }, rfl, rfl, rfl⟩

theorem MainAlive.newThread_main {w : World} (hm : MainAlive w) :
    MainAlive (w.newThread).2 ∧ (w.newThread).1 ≠ 0 ∧
      (w.newThread).2.ready = w.ready ∧ (w.newThread).2.running = w.running ∧
      (w.newThread).2.threads = w.threads := by
  have hg := getNewID_guard w.threadIdMaker 0 hm.mark hm.free
  have hpos : 0 < w.next_addr := hm.fresh 0 (by rw [hm.main]; rfl)
  have hnone : hfind w.heap w.next_addr = none := by
    cases hf : hfind w.heap w.next_addr with
    | none => rfl
    | some t =>
      have := hm.fresh w.next_addr (by simp [World.idOf, hf])
      omega
  have hids : ∀ y, (w.newThread).2.idOf y
      = if y = w.next_addr then some (w.threadIdMaker.getNewID).1 else w.idOf y := by
    intro y
    simp only [World.idOf, World.newThread, hfind_append]
    by_cases hy : y = w.next_addr
    · subst hy
      simp [hnone]
    · have hy2 : ¬ w.next_addr = y := fun e => hy e.symm
      cases hfind w.heap y <;> simp [hy, hy2]
  refine ⟨?_, by simp [World.newThread]; omega, rfl, rfl, rfl⟩
  exact {
    main := by
      rw [hids, if_neg (by omega)]
      exact hm.main
    only := fun y hy => by
      rw [hids] at hy
      split at hy
      · simp at hy
        exact absurd hy hg.1
      · exact hm.only y hy
    idx := hm.idx
    reap := hm.reap
    mark := hg.2.1
    free := hg.2.2
    fresh := fun y hy => by
      rw [hids] at hy
      simp only [World.newThread]
      split at hy
      · omega
      · have := hm.fresh y hy
        omega }

theorem MainAlive.reapBeforeTerminate {w v : World} (hm : MainAlive w)
    (h : w.reapBeforeTerminate = some v) :
    MainAlive v ∧ v.running = w.running ∧ (0 ∈ w.ready → 0 ∈ v.ready) := by
  simp only [World.reapBeforeTerminate] at h
  split at h
  · simp at h
    subst h
    exact ⟨hm, rfl, fun hx => hx⟩
  · rename_i x hx
    have hx0 : x ≠ 0 := fun e => hm.reap (by rw [hx, e])
    split at h
    · cases h1 : w.removeThread x with
      | none => simp [h1] at h
      | some w1 =>
        simp only [h1] at h
        obtain ⟨hm1, r1, r2, _, _⟩ := hm.removeThread h1
        obtain ⟨hm2, d1, d2, _⟩ := hm1.deleteThread hx0 h
        refine ⟨hm2, by rw [d2, r2], fun h0 => ?_⟩
        rw [d1, r1, mem_lremove]
        exact ⟨h0, fun e => hx0 e.symm⟩
    · simp at h
      subst h
      exact ⟨hm, rfl, fun hx => hx⟩

/-- In a state where main is in place and running or ready, the state in which
an event calls `runNextThread` has main in place and in the ready queue. -/
theorem MainAlive.at_switchPoint {w v : World} (op : Op) (hm : MainAlive w)
    (hs : w.running = 0 ∨ 0 ∈ w.ready) (h : switchPoint w op = some v) :
    MainAlive v ∧ 0 ∈ v.ready := by
  cases op with
  | spawn => simp [switchPoint] at h
  | resume j => simp [switchPoint] at h
  | block j =>
    simp only [switchPoint] at h
    split at h
    · simp at h
    · rename_i hj
      cases hq : w.getThreadByID j with
      | none => simp [hq] at h
      | some p =>
        simp only [hq] at h
        have hp0 : p ≠ 0 := hm.idx j p hq hj
        cases hf : hfind w.heap p with
        | none => simp [hf] at h
        | some t =>
          simp only [hf] at h
          split at h
          · simp at h
          · cases he : w.blockThreadEntry p with
            | none => simp [he] at h
            | some v1 =>
              simp only [he] at h
              split at h
              · rename_i hr
                simp at h
                subst h
                obtain ⟨hqt, hready⟩ := Quiet.of_blockThreadEntry he
                refine ⟨hm.quiet_main hqt, ?_⟩
                rw [hready]
                rcases hs with hs | hs
                · rw [hqt.running_eq, hs] at hr
                  exact absurd hr.symm hp0
                · exact hs
              · simp at h
  | sleep n =>
    simp only [switchPoint] at h
    cases hf : hfind w.heap w.running with
    | none => simp [hf] at h
    | some t =>
      simp only [hf] at h
      split at h
      · simp at h
      · rename_i hid
        have hr0 : w.running ≠ 0 := hm.not_main_of_id hf hid
        cases hse : w.sleepEntry n with
        | none => simp [hse] at h
        | some w2 =>
          simp only [hse] at h
          cases he : w2.blockThreadEntry w2.running with
          | none => simp [he] at h
          | some v1 =>
            simp only [he] at h
            split at h
            · simp at h
              subst h
              obtain ⟨hq1, hr1, _⟩ := Quiet.of_sleepEntry hse
              obtain ⟨hq2, hr2⟩ := Quiet.of_blockThreadEntry he
              refine ⟨(hm.quiet_main hq1).quiet_main hq2, ?_⟩
              rw [hr2, hr1]
              rcases hs with hs | hs
              · exact absurd hs hr0
              · exact hs
            · simp at h
  | terminate j =>
    simp only [switchPoint] at h
    split at h
    · simp at h
    · rename_i hj
      cases hq : w.getThreadByID j with
      | none => simp [hq] at h
      | some p =>
        simp only [hq] at h
        have hp0 : p ≠ 0 := hm.idx j p hq hj
        simp only [World.terminateEntry] at h
        split at h
        · rename_i t r ht hr
          split at h
          · rename_i hid
            have htid : t.id ≠ 0 := hm.id_of_not_main ht hp0
            have hr0 : w.running ≠ 0 := hm.not_main_of_id hr (by rw [← hid]; exact htid)
            have h0 : 0 ∈ w.ready := by
              rcases hs with hs | hs
              · exact absurd hs hr0
              · exact hs
            cases h1 : w.reapBeforeTerminate with
            | none => simp [h1] at h
            | some w1 =>
              simp only [h1] at h
              obtain ⟨hm1, e1, k1⟩ := hm.reapBeforeTerminate h1
              cases h2 : World.setState { w1 with terminated := some w1.running } w1.running
                  State.TERMINATED with
              | none => simp [h2] at h
              | some w2 =>
                simp only [h2] at h
                have hreap : (some w1.running : Option Nat) ≠ some 0 := by
                  intro e
                  simp at e
                  rw [e1] at e
                  exact hr0 e
                have hm1b : MainAlive { w1 with terminated := some w1.running } :=
                  { hm1 with reap := hreap }
                obtain ⟨hm2, r2⟩ := hm1b.setState h2
                cases h3 : w2.removeThread p with
                | none => simp [h3] at h
                | some w3 =>
                  simp only [h3] at h
                  obtain ⟨hm3, r3, _, _, _⟩ := hm2.removeThread h3
                  obtain ⟨hm4, r4, _, _⟩ := hm3.removeID hp0 h
                  refine ⟨hm4, ?_⟩
                  rw [r4, r3, mem_lremove, r2]
                  exact ⟨k1 h0, fun e => hp0 e.symm⟩
          · simp at h
        · simp at h
  | timer =>
    simp only [switchPoint, World.timerEntry] at h
    have key : ∀ w1, MainAlive w1 → w1.ready = w.ready → w1.running = w.running →
        w1.setReady w1.running = some v → MainAlive v ∧ 0 ∈ v.ready := by
      intro w1 hm1 e1 e2 hsr
      obtain ⟨hq, hr, _⟩ := Quiet.of_setReady hsr
      refine ⟨hm1.quiet_main hq, ?_⟩
      rw [hr, e1, e2]
      rcases hs with hs | hs
      · simp [hs]
      · simp [hs]
    cases ht : w.terminated with
    | none =>
      simp only [ht] at h
      exact key w hm rfl rfl h
    | some x =>
      simp only [ht] at h
      have hx0 : x ≠ 0 := fun e => hm.reap (by rw [ht, e])
      cases hd : w.deleteThread x with
      | none => simp [hd] at h
      | some w1 =>
        simp only [hd] at h
        obtain ⟨hm1, d1, d2, _⟩ := hm.deleteThread hx0 hd
        have hreap : (none : Option Nat) ≠ some 0 := by simp
        have hm1b : MainAlive { w1 with terminated := none } := { hm1 with reap := hreap }
        exact key _ hm1b d1 d2 h

theorem terminateThread_other (w : World) (p : Nat) (w1 : World)
    (hn : w.terminateEntry p = none) (h : w.terminateThread p = some w1) :
    ∃ t r w2, hfind w.heap p = some t ∧ hfind w.heap w.running = some r ∧ t.id ≠ r.id ∧
      w.removeThread p = some w2 ∧ w2.deleteThread p = some w1 := by
  simp only [World.terminateEntry] at hn
  simp only [World.terminateThread] at h
  split at h
  · rename_i t r ht hr
    simp only [ht, hr] at hn
    split at h
    · rename_i hid
      rw [if_pos hid] at hn
      cases h0 : w.reapBeforeTerminate with
      | none => simp [h0] at h
      | some wa =>
        simp only [h0] at h hn
        cases h1 : World.setState { wa with terminated := some wa.running } wa.running
            State.TERMINATED with
        | none => simp [h1] at h
        | some wb =>
          simp only [h1] at h hn
          cases h2 : wb.removeThread p with
          | none => simp [h2] at h
          | some wc =>
            simp only [h2] at h hn
            simp [hn] at h
    · rename_i hid
      cases h2 : w.removeThread p with
      | none => simp [h2] at h
      | some w2 =>
        simp only [h2] at h
        exact ⟨t, r, w2, ht, hr, hid, rfl, h⟩
  · simp at h

/-- Every event keeps the main thread in place and running or ready. -/
theorem MainAlive.step_main {w w1 : World} {r : Int} (M : Nat) (op : Op) (hm : MainAlive w)
    (hs : w.running = 0 ∨ 0 ∈ w.ready) (h : step M w op = some (r, w1)) :
    MainAlive w1 ∧ (w1.running = 0 ∨ 0 ∈ w1.ready) := by
  cases hsp : switchPoint w op with
  | some v =>
    rw [step_at_switchPoint M w op v hsp] at h
    cases hr : v.runNextThread with
    | none => simp [hr] at h
    | some w2 =>
      simp [hr] at h
      obtain ⟨_, rfl⟩ := h
      obtain ⟨hmv, h0⟩ := hm.at_switchPoint op hs hsp
      exact hmv.switched_main (Switched.of_runNextThread hr) h0
  | none =>
    cases op with
    | spawn =>
      simp only [step, uthread_spawn] at h
      simp only [Bool.true_eq_false, if_false] at h
      obtain ⟨hmn, hp0, e1, e2, e3⟩ := hm.newThread_main
      have hsn : (w.newThread).2.running = 0 ∨ 0 ∈ (w.newThread).2.ready := by
        rw [e1, e2]; exact hs
      cases ha : World.addNewThread M (w.newThread).2 (w.newThread).1 with
      | none => simp [ha] at h
      | some ra =>
        obtain ⟨res, w2⟩ := ra
        have hw12 : w1 = w2 := by
          simp only [ha] at h
          split at h
          · simp at h; exact h.2.symm
          · split at h
            · simp at h
            · simp at h; exact h.2.symm
        subst hw12
        simp only [World.addNewThread] at ha
        split at ha
        · simp at ha
          rw [← ha.2]
          exact ⟨hmn, hsn⟩
        · cases hf : hfind (w.newThread).2.heap (w.newThread).1 with
          | none => simp [hf] at ha
          | some t =>
            simp only [hf] at ha
            cases hsr : World.setReady { (w.newThread).2 with
                threads := minsert t.id (w.newThread).1 (w.newThread).2.threads }
                (w.newThread).1 with
            | none => simp [hsr] at ha
            | some w3 =>
              simp [hsr] at ha
              obtain ⟨_, rfl⟩ := ha
              obtain ⟨hq, hr, _⟩ := Quiet.of_setReady hsr
              have hidx : ∀ k x, mfind (minsert t.id (w.newThread).1 (w.newThread).2.threads) k
                  = some x → k ≠ 0 → x ≠ 0 := by
                intro k x hk hk0
                rw [mfind_minsert] at hk
                split at hk
                · rename_i hkt
                  cases hmf : mfind (w.newThread).2.threads t.id with
                  | none =>
                    simp [hmf] at hk
                    rw [← hk]
                    exact hp0
                  | some u =>
                    simp [hmf] at hk
                    rw [← hk]
                    exact hmn.idx t.id u hmf (by rw [← hkt]; exact hk0)
                · exact hmn.idx k x hk hk0
              have hmb : MainAlive { (w.newThread).2 with
                  threads := minsert t.id (w.newThread).1 (w.newThread).2.threads } :=
                { hmn with idx := hidx }
              refine ⟨hmb.quiet_main hq, ?_⟩
              rw [hq.running_eq, hr]
              rcases hsn with hsn | hsn
              · exact Or.inl hsn
              · exact Or.inr (by simp [hsn])
    | resume j =>
      simp only [step, uthread_resume] at h
      cases hq : w.getThreadByID j with
      | none =>
        simp [hq] at h
        rw [← h.2]
        exact ⟨hm, hs⟩
      | some p =>
        simp only [hq] at h
        cases hf : hfind w.heap p with
        | none => simp [hf] at h
        | some t =>
          simp only [hf] at h
          split at h
          · simp at h
            rw [← h.2]
            exact ⟨hm, hs⟩
          · cases hu : w.unblockThread p with
            | none => simp [hu] at h
            | some w2 =>
              simp [hu] at h
              obtain ⟨_, rfl⟩ := h
              obtain ⟨hqt, hkeep⟩ := Quiet.of_unblockThread hu
              refine ⟨hm.quiet_main hqt, ?_⟩
              rw [hqt.running_eq]
              rcases hs with hs | hs
              · exact Or.inl hs
              · exact Or.inr (hkeep 0 hs)
    | block j =>
      simp only [switchPoint] at hsp
      simp only [step, uthread_block] at h
      split at h
      · simp at h
        rw [← h.2]
        exact ⟨hm, hs⟩
      · rename_i hj
        rw [if_neg hj] at hsp
        cases hq : w.getThreadByID j with
        | none =>
          simp [hq] at h
          rw [← h.2]
          exact ⟨hm, hs⟩
        | some p =>
          simp only [hq] at h hsp
          have hp0 : p ≠ 0 := hm.idx j p hq hj
          cases hf : hfind w.heap p with
          | none => simp [hf] at h
          | some t =>
            simp only [hf] at h hsp
            split at h
            · simp at h
              rw [← h.2]
              exact ⟨hm, hs⟩
            · rename_i hnt
              rw [if_neg hnt] at hsp
              rw [blockThread_eq] at h
              cases he : w.blockThreadEntry p with
              | none => simp [he] at h
              | some v =>
                simp only [he] at h hsp
                split at hsp
                · simp at hsp
                · rename_i hr
                  rw [if_neg hr] at h
                  simp at h
                  obtain ⟨_, rfl⟩ := h
                  obtain ⟨hqt, hready⟩ := Quiet.of_blockThreadEntry he
                  have hmv := hm.quiet_main hqt
                  refine ⟨⟨hmv.main, hmv.only, hmv.idx, hmv.reap, hmv.mark, hmv.free,
                    hmv.fresh⟩, ?_⟩
                  show v.running = 0 ∨ 0 ∈ lremove v.ready p
                  rw [hqt.running_eq, hready, mem_lremove]
                  rcases hs with hs | hs
                  · exact Or.inl hs
                  · exact Or.inr ⟨hs, fun e => hp0 e.symm⟩
    | sleep n =>
      simp only [switchPoint] at hsp
      simp only [step, uthread_sleep] at h
      cases hf : hfind w.heap w.running with
      | none => simp [hf] at h
      | some t =>
        simp only [hf] at h hsp
        split at h
        · simp at h
          rw [← h.2]
          exact ⟨hm, hs⟩
        · rename_i hid
          rw [if_neg hid] at hsp
          rw [sleepCurrentThread_eq] at h
          cases hse : w.sleepEntry n with
          | none => simp [hse] at h
          | some w2 =>
            simp only [hse] at h hsp
            rw [blockThread_eq] at h
            cases he : w2.blockThreadEntry w2.running with
            | none => simp [he] at h
            | some v =>
              simp only [he] at h hsp
              obtain ⟨hq2, _⟩ := Quiet.of_blockThreadEntry he
              rw [if_pos hq2.running_eq] at hsp
              simp at hsp
    | terminate j =>
      simp only [switchPoint] at hsp
      simp only [step, uthread_terminate] at h
      split at h
      · simp at h
      · rename_i hj
        rw [if_neg hj] at hsp
        cases hq : w.getThreadByID j with
        | none =>
          simp [hq] at h
          rw [← h.2]
          exact ⟨hm, hs⟩
        | some p =>
          simp only [hq] at h hsp
          have hp0 : p ≠ 0 := hm.idx j p hq hj
          cases ht : w.terminateThread p with
          | none => simp [ht] at h
          | some w2 =>
            simp [ht] at h
            obtain ⟨_, rfl⟩ := h
            obtain ⟨t, r, wa, _, _, _, hrm, hdl⟩ := terminateThread_other w p w2 hsp ht
            obtain ⟨hm1, r1, r2, _, _⟩ := hm.removeThread hrm
            obtain ⟨hm2, d1, d2, _⟩ := hm1.deleteThread hp0 hdl
            refine ⟨hm2, ?_⟩
            rw [d2, r2, d1, r1, mem_lremove]
            rcases hs with hs | hs
            · exact Or.inl hs
            · exact Or.inr ⟨hs, fun e => hp0 e.symm⟩
    | timer =>
      simp only [switchPoint] at hsp
      simp [step, timerHandler_eq, hsp] at h

theorem MainAlive.run_main (M : Nat) (ops : List Op) :
    ∀ (w : World) (rs : List Int) (w1 : World), MainAlive w →
      (w.running = 0 ∨ 0 ∈ w.ready) → run M ops w = some (rs, w1) →
      MainAlive w1 ∧ (w1.running = 0 ∨ 0 ∈ w1.ready) := by
  induction ops with
  | nil =>
    intro w rs w1 hm hs h
    simp [run] at h
    rw [← h.2]
    exact ⟨hm, hs⟩
  | cons op ops ih =>
    intro w rs w1 hm hs h
    simp only [run] at h
    cases hst : step M w op with
    | none => simp [hst] at h
    | some a =>
      obtain ⟨r, w2⟩ := a
      simp only [hst] at h
      cases hr : run M ops w2 with
      | none => simp [hr] at h
      | some b =>
        obtain ⟨rs2, w3⟩ := b
        simp [hr] at h
        obtain ⟨_, rfl⟩ := h
        obtain ⟨hm2, hs2⟩ := hm.step_main M op hs hst
        exact ih w2 rs2 w3 hm2 hs2 hr

/-- C18: in every state reached from `init` through the public operations and
timer expiries, the main thread (address 0, id 0) is running or in the ready
queue, and whenever an event calls `runNextThread` (from the timer handler, a
block of the running thread, a sleep or a self-termination) the ready queue at
that call holds the main thread, so it is not empty; the event then returns
what `runNextThread` leaves. -/
theorem ready_nonempty_at_switch (M : Nat) (q : Int) (w0 : World) (ops : List Op)
    (rs : List Int) (w : World)
    (hinit : uthread_init q = some (0, some w0))
    (hrun : run M ops w0 = some (rs, w)) :
    (w.running = 0 ∨ 0 ∈ w.ready) ∧ w.idOf 0 = some 0 ∧
    ∀ op v, switchPoint w op = some v →
      v.ready ≠ [] ∧ 0 ∈ v.ready ∧
      step M w op = (v.runNextThread).map (fun w1 => ((0 : Int), w1)) := by
  have hw0 : w0 = initWorld q := (uthread_init_some hinit).2.2
  subst hw0
  obtain ⟨hm, hs⟩ := MainAlive.run_main M ops (initWorld q) rs w (MainAlive.init q)
    (Or.inl rfl) hrun
  refine ⟨hs, hm.main, fun op v hv => ?_⟩
  obtain ⟨_, h0⟩ := hm.at_switchPoint op hs hv
  exact ⟨List.ne_nil_of_mem h0, h0, step_at_switchPoint M w op v hv⟩

/-- C18 (witness): thread 1 runs with thread 2 and main ready; each of the
timer, `block 1`, `sleep 3` and `terminate 1` calls `runNextThread` with a
non-empty ready queue. -/
theorem ready_nonempty_at_switch_witness :
    uthread_init 1 = some (0, some (initWorld 1)) ∧
    run 100 [Op.spawn, Op.spawn, Op.timer] (initWorld 1)
      = some ([1, 2, 0], worldAfter [Op.spawn, Op.spawn, Op.timer]) ∧
    ((worldAfter [Op.spawn, Op.spawn, Op.timer]).running = 0 ∨
      0 ∈ (worldAfter [Op.spawn, Op.spawn, Op.timer]).ready) ∧
    (worldAfter [Op.spawn, Op.spawn, Op.timer]).idOf 0 = some 0 ∧
    ∀ op v, switchPoint (worldAfter [Op.spawn, Op.spawn, Op.timer]) op = some v →
      v.ready ≠ [] ∧ 0 ∈ v.ready ∧
      step 100 (worldAfter [Op.spawn, Op.spawn, Op.timer]) op
        = (v.runNextThread).map (fun w1 => ((0 : Int), w1)) :=
  ⟨by decide, by decide,
    ready_nonempty_at_switch 100 1 (initWorld 1) [Op.spawn, Op.spawn, Op.timer] [1, 2, 0]
      (worldAfter [Op.spawn, Op.spawn, Op.timer]) (by decide) (by decide)⟩

/-! ## Quantum accounting -/

theorem sum_bump (l : List (Int × Nat)) (f g : Nat → Int) (h : Nat)
    (hn : (l.map Prod.snd).Nodup) (hin : h ∈ l.map Prod.snd)
    (hh : g h = f h + 1) (ho : ∀ q, q ≠ h → g q = f q) :
    (l.map (fun e => g e.2)).sum = (l.map (fun e => f e.2)).sum + 1 := by
  induction l with
  | nil => simp at hin
  | cons e l ih =>
    simp only [List.map_cons, List.nodup_cons, List.mem_cons, List.sum_cons] at hn hin ⊢
    by_cases he : e.2 = h
    · have hl : ∀ x ∈ l, g x.2 = f x.2 := by
        intro x hx
        apply ho
        intro hxh
        apply hn.1
        rw [he, ← hxh]
        exact List.mem_map_of_mem _ hx
      have : l.map (fun e => g e.2) = l.map (fun e => f e.2) :=
        List.map_congr_left hl
      rw [this, he, hh]
      omega
    · have hin2 : h ∈ l.map Prod.snd := by
        rcases hin with hin | hin
        · exact absurd hin.symm he
        · exact hin
      rw [ih hn.2 hin2, ho _ he]
      omega

theorem mplace_perm {β : Type} (m : List (Int × β)) (k : Int) (v : β) :
    (mplace k v m).Perm ((k, v) :: m) := by
  induction m with
  | nil => simp [mplace]
  | cons e m ih =>
    obtain ⟨k1, v1⟩ := e
    simp only [mplace]
    split
    · exact List.Perm.refl _
    · exact (List.Perm.cons _ ih).trans (List.Perm.swap _ _ _)

theorem mfind_of_mem_nodup {β : Type} (m : List (Int × β)) (e : Int × β)
    (hn : (m.map Prod.fst).Nodup) (he : e ∈ m) : mfind m e.1 = some e.2 := by
  induction m with
  | nil => simp at he
  | cons a m ih =>
    obtain ⟨k, v⟩ := a
    simp only [List.map_cons, List.nodup_cons, List.mem_cons] at hn he
    simp only [mfind]
    rcases he with he | he
    · subst he
      simp
    · have hk : ¬ k = e.1 := by
        intro hk
        apply hn.1
        rw [hk]
        exact List.mem_map_of_mem _ he
      rw [if_neg hk]
      exact ih hn.2 he

theorem timeSum_congr {w v : World} (ht : v.threads = w.threads)
    (hr : ∀ q, v.runTimeOf q = w.runTimeOf q) : timeSum v = timeSum w := by
  simp only [timeSum, ht]
  exact congrArg List.sum (List.map_congr_left (fun e _ => by rw [hr]))

theorem Accounted.quiet_acct {p : Nat} {w v : World} (ha : Accounted w) (hq : Quiet p w v)
    (hp : p ∈ w.threads.map Prod.snd) : Accounted v where
  total := by rw [hq.total_eq, timeSum_congr hq.threads_eq hq.times]; exact ha.total
  nodup := by rw [hq.threads_eq]; exact ha.nodup
  keys_nodup := by rw [hq.threads_eq]; exact ha.keys_nodup
  running := by rw [hq.threads_eq, hq.running_eq]; exact ha.running
  ready := fun x hx => by
    rw [hq.threads_eq]
    rcases hq.ready_sub x hx with h | h
    · exact ha.ready x h
    · rw [h]; exact hp
  blocked := fun k x hx => by
    rw [hq.threads_eq]
    rcases hq.blocked_sub k x hx with h | h
    · exact ha.blocked k x h
    · rw [h]; exact hp
  live := fun e he => by
    rw [hq.ids]
    exact ha.live e (by rw [← hq.threads_eq]; exact he)
  fresh := fun x hx => by
    rw [hq.addr_eq]
    exact ha.fresh x (by rw [← hq.ids]; exact hx)
  keys := fun e he => by
    rw [hq.maker_eq]
    exact ha.keys e (by rw [← hq.threads_eq]; exact he)
  no_free := by rw [hq.maker_eq]; exact ha.no_free
  no_reap := by rw [hq.terminated_eq]; exact ha.no_reap
  no_dead := fun x hx => ha.no_dead x (hq.states x hx)

theorem Accounted.switched_acct {v w1 : World} (ha : Accounted v) (hs : Switched v w1) :
    Accounted w1 := by
  obtain ⟨rest, hr, hkeep, hsub⟩ := hs.head
  have hrun : w1.running ∈ v.threads.map Prod.snd := ha.ready _ (by rw [hr]; simp)
  exact {
    total := by
      rw [hs.total_eq, ha.total]
      simp only [timeSum, hs.threads_eq]
      obtain ⟨n, h1, h2⟩ := hs.time_head
      exact (sum_bump v.threads (fun x => (v.runTimeOf x).getD 0)
        (fun x => (w1.runTimeOf x).getD 0) w1.running ha.nodup hrun
        (by simp [h1, h2]) (fun x hx => by simp [hs.time_other x hx])).symm
    nodup := by rw [hs.threads_eq]; exact ha.nodup
    keys_nodup := by rw [hs.threads_eq]; exact ha.keys_nodup
    running := by rw [hs.threads_eq]; exact hrun
    ready := fun x hx => by
      rw [hs.threads_eq]
      rcases hsub x hx with h | ⟨k, hk⟩
      · exact ha.ready x (by rw [hr]; simp [h])
      · exact ha.blocked k x hk
    blocked := fun k x hx => by
      rw [hs.threads_eq]
      exact ha.blocked k x (hs.blocked_sub k x hx)
    live := fun e he => by
      rw [hs.ids]
      exact ha.live e (by rw [← hs.threads_eq]; exact he)
    fresh := fun x hx => by
      rw [hs.addr_eq]
      exact ha.fresh x (by rw [← hs.ids]; exact hx)
    keys := fun e he => by
      rw [hs.maker_eq]
      exact ha.keys e (by rw [← hs.threads_eq]; exact he)
    no_free := by rw [hs.maker_eq]; exact ha.no_free
    no_reap := by rw [hs.terminated_eq]; exact ha.no_reap
    no_dead := fun x hx => ha.no_dead x (hs.states x hx) }

theorem Accounted.first (q : Int) : Accounted (initWorld q) where
  total := by simp [timeSum, initWorld, World.runTimeOf, hfind]
  nodup := by simp [initWorld]
  keys_nodup := by simp [initWorld]
  running := by simp [initWorld]
  ready := by simp [initWorld]
  blocked := by simp [initWorld, mfind]
  live := by simp [initWorld, World.idOf, hfind]
  fresh := fun x hx => by
    by_cases h : x = 0
    · subst h
      simp [initWorld]
    · have h2 : ¬ 0 = x := fun e => h e.symm
      simp [World.idOf, initWorld, hfind, h2] at hx
  keys := by simp [initWorld]
  no_free := by simp [initWorld]
  no_reap := by simp [initWorld]
  no_dead := fun x hx => by
    by_cases h : x = 0
    · subst h
      simp [World.stateOf, initWorld, hfind] at hx
    · have h2 : ¬ 0 = x := fun e => h e.symm
      simp [World.stateOf, initWorld, hfind, h2] at hx

theorem Accounted.newThread_acct {w : World} (ha : Accounted w) :
    Accounted (w.newThread).2 ∧
      (w.newThread).1 = w.next_addr ∧
      (w.newThread).2.threads = w.threads ∧
      (w.newThread).2.next_addr = w.next_addr + 1 ∧
      hfind (w.newThread).2.heap w.next_addr
        = some { id := w.threadIdMaker.last_id + 1, state := State.READY, total_run_time := 0 } ∧
      (w.newThread).2.threadIdMaker.last_id = w.threadIdMaker.last_id + 1 := by
  have hnone : hfind w.heap w.next_addr = none := by
    cases hf : hfind w.heap w.next_addr with
    | none => rfl
    | some t =>
      have := ha.fresh w.next_addr (by simp [World.idOf, hf])
      omega
  have hmk : w.threadIdMaker.getNewID
      = (w.threadIdMaker.last_id + 1,
          { w.threadIdMaker with last_id := w.threadIdMaker.last_id + 1 }) := by
    simp [Thread_ID_Maker.getNewID, ha.no_free]
  have hheap : ∀ y, hfind (w.newThread).2.heap y
      = if y = w.next_addr
        then some { id := w.threadIdMaker.last_id + 1, state := State.READY, total_run_time := 0 }
        else hfind w.heap y := by
    intro y
    simp only [World.newThread, hfind_append, hmk]
    by_cases hy : y = w.next_addr
    · subst hy
      simp [hnone]
    · have hy2 : ¬ w.next_addr = y := fun e => hy e.symm
      cases hfind w.heap y <;> simp [hy, hy2]
  have hbelow : ∀ e ∈ w.threads, e.2 ≠ w.next_addr := by
    intro e he hen
    have := ha.fresh e.2 (ha.live e he)
    omega
  refine ⟨?_, rfl, rfl, rfl, by rw [hheap]; simp, by simp [World.newThread, hmk]⟩
  exact {
    total := by
      have h1 : (w.newThread).2.total_quantum_counter = w.total_quantum_counter := rfl
      rw [h1, ha.total]
      simp only [timeSum]
      have h2 : (w.newThread).2.threads = w.threads := rfl
      rw [h2]
      refine congrArg List.sum (List.map_congr_left (fun e he => ?_))
      simp only [World.runTimeOf, hheap, if_neg (hbelow e he)]
    nodup := ha.nodup
    keys_nodup := ha.keys_nodup
    running := ha.running
    ready := ha.ready
    blocked := ha.blocked
    live := fun e he => by
      simp only [World.idOf, hheap, if_neg (hbelow e he)]
      exact ha.live e he
    fresh := fun y hy => by
      simp only [World.idOf, hheap] at hy
      simp only [World.newThread]
      split at hy
      · omega
      · have := ha.fresh y hy
        omega
    keys := fun e he => by
      have := ha.keys e he
      simp only [World.newThread, hmk]
      omega
    no_free := by simp [World.newThread, hmk, ha.no_free]
    no_reap := ha.no_reap
    no_dead := fun y hy => by
      simp only [World.stateOf, hheap] at hy
      split at hy
      · simp at hy
      · exact ha.no_dead y hy }

theorem Accounted.index {n : World} {k : Int} {x : Nat} (ha : Accounted n)
    (hk : ∀ e ∈ n.threads, e.1 < k) (hk2 : k ≤ n.threadIdMaker.last_id)
    (hx : ∀ e ∈ n.threads, e.2 ≠ x) (hlive : (n.idOf x).isSome)
    (htime : n.runTimeOf x = some 0) :
    Accounted { n with threads := minsert k x n.threads } ∧
      x ∈ (minsert k x n.threads).map Prod.snd := by
  have hnone : mfind n.threads k = none := by
    rw [mfind_none_iff]
    intro e he hek
    have := hk e he
    omega
  have hins : minsert k x n.threads = mplace k x n.threads := by
    simp [minsert, hnone]
  rw [hins]
  have hperm := mplace_perm n.threads k x
  have hmem : ∀ y, y ∈ n.threads.map Prod.snd → y ∈ (mplace k x n.threads).map Prod.snd := by
    intro y hy
    rw [(hperm.map Prod.snd).mem_iff]
    simp only [List.map_cons, List.mem_cons]
    exact Or.inr hy
  refine ⟨?_, by rw [(hperm.map Prod.snd).mem_iff]; simp⟩
  exact {
    total := by
      show n.total_quantum_counter
        = ((mplace k x n.threads).map (fun e => (n.runTimeOf e.2).getD 0)).sum
      rw [(hperm.map _).sum_eq, ha.total]
      simp [timeSum, htime]
    nodup := by
      show ((mplace k x n.threads).map Prod.snd).Nodup
      rw [(hperm.map Prod.snd).nodup_iff]
      simp only [List.map_cons, List.nodup_cons]
      refine ⟨?_, ha.nodup⟩
      intro hin
      obtain ⟨e, he, hex⟩ := List.mem_map.1 hin
      exact hx e he hex
    keys_nodup := nodup_keys_mplace n.threads k x ha.keys_nodup hnone
    running := hmem _ ha.running
    ready := fun y hy => hmem y (ha.ready y hy)
    blocked := fun j y hy => hmem y (ha.blocked j y hy)
    live := fun e he => by
      have he2 : e ∈ mplace k x n.threads := he
      rw [mem_mplace] at he2
      rcases he2 with h | h
      · rw [h]; exact hlive
      · exact ha.live e h
    fresh := ha.fresh
    keys := fun e he => by
      have he2 : e ∈ mplace k x n.threads := he
      rw [mem_mplace] at he2
      rcases he2 with h | h
      · rw [h]; exact hk2
      · exact ha.keys e h
    no_free := ha.no_free
    no_reap := ha.no_reap
    no_dead := ha.no_dead }

theorem Accounted.spawn {w w1 : World} {r : Int} (M : Nat) (ha : Accounted w)
    (h : uthread_spawn M true w = some (r, w1)) : Accounted w1 := by
  simp only [uthread_spawn] at h
  simp only [Bool.true_eq_false, if_false] at h
  obtain ⟨hn, e1, e2, e3, e4, e5⟩ := ha.newThread_acct
  cases hadd : World.addNewThread M (w.newThread).2 (w.newThread).1 with
  | none => simp [hadd] at h
  | some ra =>
    obtain ⟨res, w2⟩ := ra
    have hw12 : w1 = w2 := by
      simp only [hadd] at h
      split at h
      · simp at h; exact h.2.symm
      · split at h
        · simp at h
        · simp at h; exact h.2.symm
    subst hw12
    simp only [World.addNewThread] at hadd
    split at hadd
    · simp at hadd
      rw [← hadd.2]
      exact hn
    · rw [e1, e4] at hadd
      simp only [] at hadd
      have hidx := @Accounted.index (w.newThread).2 (w.threadIdMaker.last_id + 1) w.next_addr hn
        (fun e he => by
          have := ha.keys e (by rw [← e2]; exact he)
          omega)
        (by rw [e5])
        (fun e he hen => by
          have := ha.fresh e.2 (ha.live e (by rw [← e2]; exact he))
          omega)
        (by simp [World.idOf, e4])
        (by simp [World.runTimeOf, e4])
      cases hsr : World.setReady { (w.newThread).2 with
          threads := minsert (w.threadIdMaker.last_id + 1) w.next_addr (w.newThread).2.threads }
          w.next_addr with
      | none => simp [hsr] at hadd
      | some w3 =>
        simp [hsr] at hadd
        obtain ⟨_, rfl⟩ := hadd
        obtain ⟨hq, _⟩ := Quiet.of_setReady hsr
        exact hidx.1.quiet_acct hq hidx.2

theorem Quiet.drop_ready {p : Nat} {w v : World} (hq : Quiet p w v) (l : List Nat)
    (hl : ∀ x ∈ l, x ∈ v.ready) : Quiet p w { v with ready := l } where
  ids := hq.ids
  times := hq.times
  threads_eq := hq.threads_eq
  maker_eq := hq.maker_eq
  addr_eq := hq.addr_eq
  terminated_eq := hq.terminated_eq
  total_eq := hq.total_eq
  running_eq := hq.running_eq
  ready_sub := fun x hx => hq.ready_sub x (hl x hx)
  blocked_sub := hq.blocked_sub
  states := hq.states

/-- Without `terminate` and with no thread awaiting a reap, the state in which
an event calls `runNextThread` differs from the state before the event by a
quiet change around the running thread or an indexed thread. -/
theorem switchPoint_quiet {w v : World} (op : Op) (hop : ∀ j, op ≠ Op.terminate j)
    (hreap : w.terminated = none) (h : switchPoint w op = some v) :
    ∃ p, Quiet p w v ∧ (p = w.running ∨ ∃ k, mfind w.threads k = some p) := by
  cases op with
  | spawn => simp [switchPoint] at h
  | resume j => simp [switchPoint] at h
  | terminate j => exact absurd rfl (hop j)
  | block j =>
    simp only [switchPoint] at h
    split at h
    · simp at h
    · cases hq : w.getThreadByID j with
      | none => simp [hq] at h
      | some p =>
        simp only [hq] at h
        cases hf : hfind w.heap p with
        | none => simp [hf] at h
        | some t =>
          simp only [hf] at h
          split at h
          · simp at h
          · cases he : w.blockThreadEntry p with
            | none => simp [he] at h
            | some v1 =>
              simp only [he] at h
              split at h
              · simp at h
                subst h
                exact ⟨p, (Quiet.of_blockThreadEntry he).1, Or.inr ⟨j, hq⟩⟩
              · simp at h
  | sleep n =>
    simp only [switchPoint] at h
    cases hf : hfind w.heap w.running with
    | none => simp [hf] at h
    | some t =>
      simp only [hf] at h
      split at h
      · simp at h
      · cases hse : w.sleepEntry n with
        | none => simp [hse] at h
        | some w2 =>
          simp only [hse] at h
          cases he : w2.blockThreadEntry w2.running with
          | none => simp [he] at h
          | some v1 =>
            simp only [he] at h
            split at h
            · simp at h
              subst h
              obtain ⟨hq1, _, _⟩ := Quiet.of_sleepEntry hse
              obtain ⟨hq2, _⟩ := Quiet.of_blockThreadEntry he
              rw [hq1.running_eq] at hq2
              exact ⟨w.running, hq1.compose hq2, Or.inl rfl⟩
            · simp at h
  | timer =>
    simp only [switchPoint, World.timerEntry, hreap] at h
    exact ⟨w.running, (Quiet.of_setReady h).1, Or.inl rfl⟩

/-- An event other than `terminate` is a switch from its switch point, a quiet
change around the running thread or an indexed thread, or a spawn. -/
theorem step_quiet_cases {w w1 : World} {r : Int} (M : Nat) (op : Op)
    (hop : ∀ j, op ≠ Op.terminate j) (h : step M w op = some (r, w1)) :
    (∃ v, switchPoint w op = some v ∧ v.runNextThread = some w1) ∨
    (∃ p, Quiet p w w1 ∧ (p = w.running ∨ ∃ k, mfind w.threads k = some p)) ∨
    op = Op.spawn := by
  cases hsp : switchPoint w op with
  | some v =>
    rw [step_at_switchPoint M w op v hsp] at h
    cases hr : v.runNextThread with
    | none => simp [hr] at h
    | some w2 =>
      simp [hr] at h
      obtain ⟨_, rfl⟩ := h
      exact Or.inl ⟨v, rfl, hr⟩
  | none =>
    have hsame : w1 = w →
        ∃ p, Quiet p w w1 ∧ (p = w.running ∨ ∃ k, mfind w.threads k = some p) := by
      intro e
      rw [e]
      exact ⟨w.running, Quiet.unchanged _ w, Or.inl rfl⟩
    cases op with
    | spawn => exact Or.inr (Or.inr rfl)
    | terminate j => exact absurd rfl (hop j)
    | resume j =>
      simp only [step, uthread_resume] at h
      cases hq : w.getThreadByID j with
      | none =>
        simp [hq] at h
        exact Or.inr (Or.inl (hsame h.2.symm))
      | some p =>
        simp only [hq] at h
        cases hf : hfind w.heap p with
        | none => simp [hf] at h
        | some t =>
          simp only [hf] at h
          split at h
          · simp at h
            exact Or.inr (Or.inl (hsame h.2.symm))
          · cases hu : w.unblockThread p with
            | none => simp [hu] at h
            | some w2 =>
              simp [hu] at h
              obtain ⟨_, rfl⟩ := h
              exact Or.inr (Or.inl ⟨p, (Quiet.of_unblockThread hu).1, Or.inr ⟨j, hq⟩⟩)
    | block j =>
      simp only [switchPoint] at hsp
      simp only [step, uthread_block] at h
      split at h
      · simp at h
        exact Or.inr (Or.inl (hsame h.2.symm))
      · rename_i hj
        rw [if_neg hj] at hsp
        cases hq : w.getThreadByID j with
        | none =>
          simp [hq] at h
          exact Or.inr (Or.inl (hsame h.2.symm))
        | some p =>
          simp only [hq] at h hsp
          cases hf : hfind w.heap p with
          | none => simp [hf] at h
          | some t =>
            simp only [hf] at h hsp
            split at h
            · simp at h
              exact Or.inr (Or.inl (hsame h.2.symm))
            · rename_i hnt
              rw [if_neg hnt] at hsp
              rw [blockThread_eq] at h
              cases he : w.blockThreadEntry p with
              | none => simp [he] at h
              | some v =>
                simp only [he] at h hsp
                split at hsp
                · simp at hsp
                · rename_i hr
                  rw [if_neg hr] at h
                  simp at h
                  obtain ⟨_, rfl⟩ := h
                  obtain ⟨hqt, _⟩ := Quiet.of_blockThreadEntry he
                  exact Or.inr (Or.inl ⟨p, hqt.drop_ready (lremove v.ready p)
                    (fun x hx => ((mem_lremove _ _ _).1 hx).1), Or.inr ⟨j, hq⟩⟩)
    | sleep n =>
      simp only [switchPoint] at hsp
      simp only [step, uthread_sleep] at h
      cases hf : hfind w.heap w.running with
      | none => simp [hf] at h
      | some t =>
        simp only [hf] at h hsp
        split at h
        · simp at h
          exact Or.inr (Or.inl (hsame h.2.symm))
        · rename_i hid
          rw [if_neg hid] at hsp
          rw [sleepCurrentThread_eq] at h
          cases hse : w.sleepEntry n with
          | none => simp [hse] at h
          | some w2 =>
            simp only [hse] at h hsp
            rw [blockThread_eq] at h
            cases he : w2.blockThreadEntry w2.running with
            | none => simp [he] at h
            | some v =>
              simp only [he] at h hsp
              obtain ⟨hq2, _⟩ := Quiet.of_blockThreadEntry he
              rw [if_pos hq2.running_eq] at hsp
              simp at hsp
    | timer =>
      simp only [switchPoint] at hsp
      simp [step, timerHandler_eq, hsp] at h

theorem Accounted.indexed_of {w : World} {p : Nat} (ha : Accounted w)
    (hp : p = w.running ∨ ∃ k, mfind w.threads k = some p) :
    p ∈ w.threads.map Prod.snd := by
  rcases hp with hp | ⟨k, hk⟩
  · rw [hp]; exact ha.running
  · exact List.mem_map.2 ⟨(k, p), mfind_mem _ _ _ hk, rfl⟩

theorem Accounted.step_acct {w w1 : World} {r : Int} (M : Nat) (op : Op) (ha : Accounted w)
    (hop : ∀ j, op ≠ Op.terminate j) (h : step M w op = some (r, w1)) : Accounted w1 := by
  rcases step_quiet_cases M op hop h with ⟨v, hv, hr⟩ | ⟨p, hq, hp⟩ | hsp
  · obtain ⟨p, hq, hp⟩ := switchPoint_quiet op hop ha.no_reap hv
    exact (ha.quiet_acct hq (ha.indexed_of hp)).switched_acct (Switched.of_runNextThread hr)
  · exact ha.quiet_acct hq (ha.indexed_of hp)
  · subst hsp
    exact ha.spawn M h

theorem Accounted.run_acct (M : Nat) (ops : List Op) :
    ∀ (w : World) (rs : List Int) (w1 : World), Accounted w →
      (∀ op ∈ ops, ∀ j, op ≠ Op.terminate j) → run M ops w = some (rs, w1) →
      Accounted w1 := by
  induction ops with
  | nil =>
    intro w rs w1 ha _ h
    simp [run] at h
    rw [← h.2]
    exact ha
  | cons op ops ih =>
    intro w rs w1 ha hops h
    simp only [run] at h
    cases hst : step M w op with
    | none => simp [hst] at h
    | some a =>
      obtain ⟨r, w2⟩ := a
      simp only [hst] at h
      cases hr : run M ops w2 with
      | none => simp [hr] at h
      | some b =>
        obtain ⟨rs2, w3⟩ := b
        simp [hr] at h
        obtain ⟨_, rfl⟩ := h
        exact ih w2 rs2 w3 (ha.step_acct M op (hops op (by simp)) hst)
          (fun o ho => hops o (by simp [ho])) hr

theorem Accounted.get_quantums {w : World} (ha : Accounted w) (e : Int × Nat)
    (he : e ∈ w.threads) :
    uthread_get_quantums e.1 w = w.runTimeOf e.2 ∧ (w.runTimeOf e.2).isSome := by
  have h1 : w.getThreadByID e.1 = some e.2 := mfind_of_mem_nodup _ e ha.keys_nodup he
  have h2 := ha.live e he
  cases hf : hfind w.heap e.2 with
  | none => simp [World.idOf, hf] at h2
  | some t =>
    have h3 : t.state ≠ State.TERMINATED := by
      intro hst
      exact ha.no_dead e.2 (by simp [World.stateOf, hf, hst])
    simp [uthread_get_quantums, h1, hf, h3, World.runTimeOf]

/-- C15: in every state reached from `init` by spawn, block, resume, sleep and
timer expiries, without any `terminate`, the total-quantum counter equals the
sum of `get_quantums` over the ids in the thread index, and `get_quantums` of
each indexed id is the quantum counter of the thread the index holds for
it. -/
theorem quantum_accounting (M : Nat) (q : Int) (w0 : World) (ops : List Op)
    (rs : List Int) (w : World)
    (hinit : uthread_init q = some (0, some w0))
    (hops : ∀ op ∈ ops, ∀ j, op ≠ Op.terminate j)
    (hrun : run M ops w0 = some (rs, w)) :
    uthread_get_total_quantums w = quantumSum w ∧
    ∀ e ∈ w.threads,
      uthread_get_quantums e.1 w = w.runTimeOf e.2 ∧ (w.runTimeOf e.2).isSome := by
  have hw0 : w0 = initWorld q := (uthread_init_some hinit).2.2
  subst hw0
  have ha := Accounted.run_acct M ops (initWorld q) rs w (Accounted.first q) hops hrun
  refine ⟨?_, ha.get_quantums⟩
  show w.total_quantum_counter = quantumSum w
  rw [ha.total]
  simp only [timeSum, quantumSum]
  exact congrArg List.sum (List.map_congr_left (fun e he => by rw [(ha.get_quantums e he).1]))

/-- C15 (witness): main and two spawned threads; thread 1 sleeps, thread 2
blocks it and resumes it, and the timer expires twice:
`get_quantums 0 + get_quantums 1 + get_quantums 2 = get_total_quantums`. -/
theorem quantum_accounting_witness :
    uthread_get_total_quantums
        (worldAfter [Op.spawn, Op.spawn, Op.timer, Op.sleep 2, Op.block 1, Op.resume 1,
          Op.timer, Op.timer])
      = quantumSum
        (worldAfter [Op.spawn, Op.spawn, Op.timer, Op.sleep 2, Op.block 1, Op.resume 1,
          Op.timer, Op.timer]) ∧
    quantumSum
        (worldAfter [Op.spawn, Op.spawn, Op.timer, Op.sleep 2, Op.block 1, Op.resume 1,
          Op.timer, Op.timer]) = 2 + 1 + 2 :=
  ⟨(quantum_accounting 100 1 (initWorld 1)
      [Op.spawn, Op.spawn, Op.timer, Op.sleep 2, Op.block 1, Op.resume 1, Op.timer, Op.timer]
      ((run 100 [Op.spawn, Op.spawn, Op.timer, Op.sleep 2, Op.block 1, Op.resume 1, Op.timer,
        Op.timer] (initWorld 1)).getD ([], initWorld 1)).1
      (worldAfter [Op.spawn, Op.spawn, Op.timer, Op.sleep 2, Op.block 1, Op.resume 1,
        Op.timer, Op.timer])
      (by decide)
      (fun op hop j => by
        simp only [List.mem_cons, List.mem_singleton, List.not_mem_nil, or_false] at hop
        rcases hop with h | h | h | h | h | h | h | h <;> rw [h] <;> exact fun e => (by cases e))
      (by decide)).1,
   by decide⟩

/-! ## Termination removes the thread from every table -/

theorem terminateEntry_tables {w v : World} {p : Nat} {t : Thread} (hc : Consistent w)
    (hheap : hfind w.heap p = some t) (h : w.terminateEntry p = some v) :
    mfind v.threads t.id = none ∧ mfind v.blocked t.id = none ∧
      mfind v.sleeping t.id = none ∧ ∀ x i, v.idOf x = some i → w.idOf x = some i := by
  obtain ⟨w0, hreap, _, _, _, _, _, _, _, _, _, hsub, _⟩ := terminate_reap w hc
  simp only [World.terminateEntry, hheap] at h
  split at h
  · rename_i t1 r ht1 hr
    simp at ht1
    subst ht1
    split at h
    · simp only [hreap] at h
      cases h2 : World.setState { w0 with terminated := some w0.running } w0.running
          State.TERMINATED with
      | none => simp [h2] at h
      | some w2 =>
        simp only [h2] at h
        simp only [World.setState] at h2
        cases hr0 : hfind w0.heap w0.running with
        | none => simp [hr0] at h2
        | some tr =>
          simp [hr0] at h2
          subst h2
          have hids : ∀ x, (hfind (hset w0.heap w0.running { tr with state := State.TERMINATED }) x).map
              Thread.id = (hfind w0.heap x).map Thread.id :=
            fun x => hfind_hset_id _ _ _ tr _ hr0 rfl
          cases h3 : World.removeThread { w0 with terminated := some w0.running, heap := hset w0.heap w0.running { tr with state := State.TERMINATED } } p with
          | none => simp [h3] at h
          | some w3 =>
            simp only [h3] at h
            simp only [World.removeThread] at h3
            cases hp2 : hfind (hset w0.heap w0.running { tr with state := State.TERMINATED }) p with
            | none => simp [hp2] at h3
            | some t2 =>
              simp [hp2] at h3
              subst h3
              have hid2 : t2.id = t.id := by
                have hh := hids p
                rw [hp2] at hh
                cases hp0 : hfind w0.heap p with
                | none => simp [hp0] at hh
                | some t0 =>
                  simp [hp0] at hh
                  have e := hsub p t0 hp0
                  rw [hheap] at e
                  simp at e
                  rw [hh, e]
              simp only [World.removeID, hp2] at h
              simp at h
              subst h
              refine ⟨?_, ?_, ?_, ?_⟩
              · simp [mfind_merase, hid2]
              · simp [mfind_merase, hid2]
              · simp [mfind_merase, hid2]
              · intro x i hx
                simp only [World.idOf] at hx ⊢
                rw [hids x] at hx
                cases hx0 : hfind w0.heap x with
                | none => simp [hx0] at hx
                | some tx =>
                  simp [hx0] at hx
                  rw [hsub x tx hx0]
                  simp [hx]
    · simp at h
  · rename_i hne
    cases hr : hfind w.heap w.running with
    | none => simp [hr] at h
    | some r => exact absurd hr (hne t r rfl)

/-- C12 (failing input): after `reapTrace`, a spawn by the running thread
(the new thread, address 3, gets id 1 although the running thread, address 2,
has id 1) and a timer expiry, main runs and both threads with id 1 are READY in
the queue; the index holds the thread at address 2 under id 1.  `terminate 1`
returns 0 and removes the thread at address 2 and the index entry of id 1, but
a live READY thread with id 1, the one at address 3, stays in the ready queue;
`get_quantums 1` then returns -1 although that thread is live. -/
theorem terminate_leaves_namesake_ready :
    (run 100 (reapTrace ++ [Op.spawn, Op.timer]) (initWorld 1)).map Prod.fst
      = some [1, 0, 0, 1, 0, 1, 0] ∧
    (worldAfter (reapTrace ++ [Op.spawn, Op.timer])).running = 0 ∧
    (worldAfter (reapTrace ++ [Op.spawn, Op.timer])).ready = [3, 2] ∧
    (worldAfter (reapTrace ++ [Op.spawn, Op.timer])).idOf 2 = some 1 ∧
    (worldAfter (reapTrace ++ [Op.spawn, Op.timer])).idOf 3 = some 1 ∧
    (worldAfter (reapTrace ++ [Op.spawn, Op.timer])).getThreadByID 1 = some 2 ∧
    (uthread_terminate 1 (worldAfter (reapTrace ++ [Op.spawn, Op.timer]))).map
        (fun r => (r.1, r.2.ready, r.2.idOf 3, r.2.stateOf 3))
      = some (0, [3], some 1, some State.READY) ∧
    (uthread_terminate 1 (worldAfter (reapTrace ++ [Op.spawn, Op.timer]))).map
        (fun r => (r.2.getThreadByID 1, uthread_get_quantums 1 r.2))
      = some (none, some (-1)) :=
  ⟨by decide, by decide, by decide, by decide, by decide, by decide, by decide, by decide⟩

/-- `terminate` of an id other than 0 whose index entry is a live thread,
the only live thread with that id, returns 0 and leaves the id without an entry
in the thread index, the blocked set and the sleeping map and without a thread
in the ready queue, so that `get_quantums` of the id returns -1; when the
target is the running thread this is the state after the switch (in a
consistent state with a non-empty ready queue).  When the target is not the
running thread nothing else changes: the running thread, the counters, every
other thread object, the order of the remaining ready threads, the other
entries of the tables and the deferred-reap slot are as before. -/
theorem terminate_removes (w : World) (tid : Int) (p : Nat) (t : Thread)
    (hmain : tid ≠ 0)
    (hidx : w.getThreadByID tid = some p)
    (hheap : hfind w.heap p = some t)
    (hid : t.id = tid)
    (huniq : ∀ e ∈ w.heap, e.2.id = tid → e.1 = p)
    (hself : w.running = p → Consistent w ∧ w.ready ≠ [])
    (hother : w.running ≠ p → (hfind w.heap w.running).isSome) :
    ∃ w1, uthread_terminate tid w = some (0, w1) ∧
      mfind w1.threads tid = none ∧ mfind w1.blocked tid = none ∧
      mfind w1.sleeping tid = none ∧
      (∀ x ∈ w1.ready, w1.idOf x ≠ some tid) ∧
      uthread_get_quantums tid w1 = some (-1) ∧
      (w.running ≠ p →
        w1.running = w.running ∧ w1.total_quantum_counter = w.total_quantum_counter ∧
        w1.next_sleep_check = w.next_sleep_check ∧
        (∀ x, x ≠ p → hfind w1.heap x = hfind w.heap x) ∧
        w1.ready = w.ready.filter (fun a => decide (a ≠ p)) ∧
        w1.blocked = merase w.blocked tid ∧ w1.sleeping = merase w.sleeping tid ∧
        w1.threads = merase w.threads tid ∧ w1.terminated = w.terminated) := by
  have hu : ∀ x i, w.idOf x = some i → i = tid → x = p := by
    intro x i hx hi
    cases hf : hfind w.heap x with
    | none => simp [World.idOf, hf] at hx
    | some u =>
      simp [World.idOf, hf] at hx
      exact huniq (x, u) (hfind_mem _ _ _ hf) (by simp [hx, hi])
  by_cases hrun : w.running = p
  · obtain ⟨hc, hne⟩ := hself hrun
    cases hq : w.ready with
    | nil => exact absurd hq hne
    | cons h rest =>
      have hX : hfind w.heap w.running = some t := by rw [hrun]; exact hheap
      have hidx2 : w.getThreadByID t.id = some w.running := by rw [hid, hrun]; exact hidx
      have hm : t.id ≠ 0 := by rw [hid]; exact hmain
      obtain ⟨w1, woken, hterm, hvs⟩ := voluntary_terminate w t h rest hc hX hm hidx2 hq
      rw [hid] at hterm
      have hstep : step 0 w (Op.terminate tid) = some (0, w1) := hterm
      have hnr : p ∉ w1.ready := by
        intro hin
        rw [← hrun] at hin
        exact hvs.2.2.2.1 hin
      cases hsp : switchPoint w (Op.terminate tid) with
      | none =>
        simp only [switchPoint, if_neg hmain, hidx] at hsp
        simp only [uthread_terminate, if_neg hmain, hidx] at hterm
        cases ht : w.terminateThread p with
        | none => simp [ht] at hterm
        | some w2 =>
          obtain ⟨t2, r, _, h1, h2, h3, _⟩ := terminateThread_other w p w2 hsp ht
          rw [hrun, h1] at h2
          simp at h2
          exact absurd (by rw [h2]) h3
      | some v =>
        have hv : w.terminateEntry p = some v := by
          simp only [switchPoint, if_neg hmain, hidx] at hsp
          exact hsp
        obtain ⟨k1, k2, k3, k4⟩ := terminateEntry_tables hc hheap hv
        rw [hid] at k1 k2 k3
        rw [step_at_switchPoint 0 w _ v hsp] at hstep
        cases hr : v.runNextThread with
        | none => simp [hr] at hstep
        | some w2 =>
          simp [hr] at hstep
          subst hstep
          have hs := Switched.of_runNextThread hr
          have ht1 : mfind w2.threads tid = none := by rw [hs.threads_eq]; exact k1
          refine ⟨w2, hterm, ht1, ?_, ?_, ?_, ?_, ?_⟩
          · cases hb : mfind w2.blocked tid with
            | none => rfl
            | some x =>
              have := hs.blocked_sub tid x hb
              rw [k2] at this
              simp at this
          · rw [mfind_none_iff]
            intro e he hek
            have := (mfind_none_iff _ _).1 k3 e (hs.sleeping_sub e he)
            exact this hek
          · intro x hx hxi
            rw [hs.ids] at hxi
            have := hu x tid (k4 x tid hxi) rfl
            rw [this] at hx
            exact hnr hx
          · simp only [uthread_get_quantums, World.getThreadByID, ht1]
          · intro hne
            exact absurd hrun hne
  · have hr := hother hrun
    cases hfr : hfind w.heap w.running with
    | none => simp [hfr] at hr
    | some r =>
      have hrid : ¬ t.id = r.id := by
        intro e
        apply hrun
        exact hu w.running r.id (by simp [World.idOf, hfr]) (by rw [← e, hid])
      have hid0 : ¬ t.id = 0 := by rw [hid]; exact hmain
      refine ⟨{ w with heap := hdel w.heap p, threadIdMaker := w.threadIdMaker.addIDtoList t.id, ready := lremove w.ready p, blocked := merase w.blocked t.id, sleeping := merase w.sleeping t.id, threads := merase w.threads t.id }, ?_, ?_, ?_, ?_, ?_, ?_, ?_⟩
      · simp [uthread_terminate, hmain, hidx, World.terminateThread, hheap, hfr, hrid,
          World.removeThread, World.deleteThread, hid0]
      · simp [mfind_merase, hid]
      · simp [mfind_merase, hid]
      · simp [mfind_merase, hid]
      · intro x hx hxi
        have hx2 : x ∈ lremove w.ready p := hx
        rw [mem_lremove] at hx2
        simp only [World.idOf, hfind_hdel, if_neg hx2.2] at hxi
        exact hx2.2 (hu x tid hxi rfl)
      · simp [uthread_get_quantums, World.getThreadByID, mfind_merase, hid]
      · intro _
        refine ⟨rfl, rfl, rfl, ?_, ?_, ?_, ?_, ?_, rfl⟩
        · intro x hx
          simp [hfind_hdel, hx]
        · simp [lremove_eq_filter]
        · simp [hid]
        · simp [hid]
        · simp [hid]

/-- Thread 1 runs with thread 2 and main ready; `terminate 2` removes another
thread, `terminate 1` the running one. -/
theorem terminate_removes_witness :
    (∃ w1, uthread_terminate 2 (worldAfter [Op.spawn, Op.spawn, Op.timer]) = some (0, w1) ∧
      mfind w1.threads 2 = none ∧ w1.ready = [0] ∧ w1.running = 1 ∧
      uthread_get_quantums 2 w1 = some (-1)) ∧
    (∃ w1, uthread_terminate 1 (worldAfter [Op.spawn, Op.spawn, Op.timer]) = some (0, w1) ∧
      mfind w1.threads 1 = none ∧ uthread_get_quantums 1 w1 = some (-1)) := by
  obtain ⟨w1, h1, h2, _, _, _, h6, h7⟩ :=
    terminate_removes (worldAfter [Op.spawn, Op.spawn, Op.timer]) 2 2
      { id := 2, state := State.READY, total_run_time := 0 }
      (by decide) (by decide) (by decide) (by decide) (by decide)
      (fun h => absurd h (by decide)) (fun _ => by decide)
  obtain ⟨w2, g1, g2, _, _, _, g6, _⟩ :=
    terminate_removes (worldAfter [Op.spawn, Op.spawn, Op.timer]) 1 1
      { id := 1, state := State.RUNNING, total_run_time := 1 }
      (by decide) (by decide) (by decide) (by decide) (by decide)
      (fun _ => ⟨by decide, by decide⟩) (fun h => absurd rfl h)
  obtain ⟨r1, _, _, _, r5, _⟩ := h7 (by decide)
  exact ⟨⟨w1, h1, h2, by rw [r5]; decide, by rw [r1]; decide, h6⟩, ⟨w2, g1, g2, g6⟩⟩

/-! ## The sleep bookkeeping across events -/

theorem Calm.stay (w : World) : Calm w w :=
  ⟨rfl, rfl, fun _ h => h, fun h => h, fun _ _ h => h⟩

theorem Calm.seq {a b c : World} (h1 : Calm a b) (h2 : Calm b c) : Calm a c where
  total_eq := by rw [h2.total_eq, h1.total_eq]
  check_eq := by rw [h2.check_eq, h1.check_eq]
  sleeping_sub := fun e he => h1.sleeping_sub e (h2.sleeping_sub e he)
  keys_nodup := fun h => h2.keys_nodup (h1.keys_nodup h)
  blocked_keep := fun e he ha =>
    h2.blocked_keep e he (h1.blocked_keep e (h2.sleeping_sub e he) ha)

theorem Calm.of_tables {w v : World}
    (h1 : v.total_quantum_counter = w.total_quantum_counter)
    (h2 : v.next_sleep_check = w.next_sleep_check)
    (h3 : v.sleeping = w.sleeping)
    (h4 : ∀ k, (mfind w.blocked k).isSome → (mfind v.blocked k).isSome) : Calm w v where
  total_eq := h1
  check_eq := h2
  sleeping_sub := fun e he => by rw [← h3]; exact he
  keys_nodup := fun h => by rw [h3]; exact h
  blocked_keep := fun e _ ha => h4 e.1 ha

theorem Calm.by_setState {w v : World} {q : Nat} {s : State} (h : w.setState q s = some v) :
    Calm w v := by
  obtain ⟨e1, e2, e3, _, _, e6, _, _⟩ := setState_frame h
  exact Calm.of_tables e2 e3 e1 (fun k hk => by rw [e6]; exact hk)

theorem Calm.by_setReady {w v : World} {q : Nat} (h : w.setReady q = some v) : Calm w v := by
  obtain ⟨hq, _, e2, e3, e4⟩ := Quiet.of_setReady h
  exact Calm.of_tables hq.total_eq e4 e3 (fun k hk => by rw [e2]; exact hk)

theorem Calm.by_unblockThread {w v : World} {q : Nat} (h : w.unblockThread q = some v) :
    Calm w v := by
  simp only [World.unblockThread] at h
  cases ht : hfind w.heap q with
  | none => simp [ht] at h
  | some t =>
    simp only [ht] at h
    split at h
    · simp at h
      subst h
      exact Calm.stay w
    · split at h
      · exact Calm.by_setState h
      · rename_i hns
        have hc := Calm.by_setReady h
        have h0 : Calm w { w with blocked := merase w.blocked t.id } := {
          total_eq := rfl
          check_eq := rfl
          sleeping_sub := fun _ he => he
          keys_nodup := fun hn => hn
          blocked_keep := fun e he ha => by
            have hne : e.1 ≠ t.id := by
              intro heq
              apply hns
              rw [← heq]
              exact mfind_isSome_of_mem w.sleeping e he
            show (mfind (merase w.blocked t.id) e.1).isSome = true
            rw [mfind_merase, if_neg hne]
            exact ha }
        exact h0.seq hc

theorem blockThreadEntry_tables {w v : World} {p : Nat} (h : w.blockThreadEntry p = some v) :
    v.total_quantum_counter = w.total_quantum_counter ∧
      v.next_sleep_check = w.next_sleep_check ∧ v.sleeping = w.sleeping ∧
      (∀ j, (mfind w.blocked j).isSome → (mfind v.blocked j).isSome) ∧
      ∃ t, hfind w.heap p = some t ∧ (mfind v.blocked t.id).isSome := by
  simp only [World.blockThreadEntry] at h
  cases ht : hfind w.heap p with
  | none => simp [ht] at h
  | some t =>
    simp only [ht] at h
    have key : ∀ w1 : World, w1.blocked = w.blocked →
        (∀ j, (mfind w.blocked j).isSome → (mfind (minsert t.id p w1.blocked) j).isSome) ∧
          (mfind (minsert t.id p w1.blocked) t.id).isSome := by
      intro w1 hb
      refine ⟨?_, ?_⟩
      · intro j ha
        rw [mfind_minsert, hb]
        split
        · cases mfind w.blocked t.id <;> simp
        · exact ha
      · rw [mfind_minsert, if_pos rfl]
        cases mfind w1.blocked t.id <;> simp
    cases h1 : (if t.state ≠ State.SLEEPING ∨ (mfind w.blocked t.id).isSome = true
        then w.setState p State.BLOCKED else some w) with
    | none => simp [h1] at h
    | some w1 =>
      simp [h1] at h
      subst h
      split at h1
      · obtain ⟨e1, e2, e3, _, _, e6, _, _⟩ := setState_frame h1
        obtain ⟨k1, k2⟩ := key w1 e6
        exact ⟨e2, e3, e1, k1, t, rfl, k2⟩
      · simp at h1
        subst h1
        obtain ⟨k1, k2⟩ := key w rfl
        exact ⟨rfl, rfl, rfl, k1, t, rfl, k2⟩

theorem Calm.by_blockThreadEntry {w v : World} {p : Nat} (h : w.blockThreadEntry p = some v) :
    Calm w v := by
  obtain ⟨e1, e2, e3, e4, _⟩ := blockThreadEntry_tables h
  exact Calm.of_tables e1 e2 e3 e4

theorem Calm.of_removeThread {w v : World} {p : Nat} (h : w.removeThread p = some v) :
    Calm w v := by
  cases ht : hfind w.heap p with
  | none => simp [World.removeThread, ht] at h
  | some t =>
    simp [World.removeThread, ht] at h
    subst h
    exact {
      total_eq := rfl
      check_eq := rfl
      sleeping_sub := fun e he => ((mem_merase _ _ _).1 he).1
      keys_nodup := fun hn => nodup_keys_merase _ _ hn
      blocked_keep := fun e he ha => by
        have hne : e.1 ≠ t.id := ((mem_merase _ _ _).1 he).2
        show (mfind (merase w.blocked t.id) e.1).isSome = true
        rw [mfind_merase, if_neg hne]
        exact ha }

theorem Calm.of_deleteThread {w v : World} {p : Nat} (h : w.deleteThread p = some v) :
    Calm w v := by
  cases ht : hfind w.heap p with
  | none => simp [World.deleteThread, ht] at h
  | some t =>
    simp [World.deleteThread, ht] at h
    subst h
    exact Calm.of_tables rfl rfl rfl (fun _ hk => hk)

theorem Calm.of_removeID {w v : World} {p : Nat} (h : w.removeID p = some v) :
    Calm w v := by
  cases ht : hfind w.heap p with
  | none => simp [World.removeID, ht] at h
  | some t =>
    simp [World.removeID, ht] at h
    subst h
    exact Calm.of_tables rfl rfl rfl (fun _ hk => hk)

theorem Calm.of_reapBeforeTerminate {w v : World} (h : w.reapBeforeTerminate = some v) :
    Calm w v := by
  simp only [World.reapBeforeTerminate] at h
  split at h
  · simp at h
    subst h
    exact Calm.stay w
  · split at h
    · rename_i x _ _
      cases h1 : w.removeThread x with
      | none => simp [h1] at h
      | some w1 =>
        simp only [h1] at h
        exact (Calm.of_removeThread h1).seq (Calm.of_deleteThread h)
    · simp at h
      subst h
      exact Calm.stay w

theorem Calm.of_timerEntry {w v : World} (h : w.timerEntry = some v) : Calm w v := by
  simp only [World.timerEntry] at h
  cases ht : w.terminated with
  | none =>
    simp only [ht] at h
    exact Calm.by_setReady h
  | some x =>
    simp only [ht] at h
    cases hd : w.deleteThread x with
    | none => simp [hd] at h
    | some w1 =>
      simp only [hd] at h
      have h1 : Calm w1 { w1 with terminated := none } :=
        Calm.of_tables rfl rfl rfl (fun _ hk => hk)
      exact ((Calm.of_deleteThread hd).seq h1).seq (Calm.by_setReady h)

theorem Calm.of_terminateEntry {w v : World} {p : Nat} (h : w.terminateEntry p = some v) :
    Calm w v := by
  simp only [World.terminateEntry] at h
  split at h
  · split at h
    · cases h0 : w.reapBeforeTerminate with
      | none => simp [h0] at h
      | some w1 =>
        simp only [h0] at h
        cases h1 : World.setState { w1 with terminated := some w1.running } w1.running
            State.TERMINATED with
        | none => simp [h1] at h
        | some w2 =>
          simp only [h1] at h
          cases h2 : w2.removeThread p with
          | none => simp [h2] at h
          | some w3 =>
            simp only [h2] at h
            have ha : Calm w1 { w1 with terminated := some w1.running } :=
              Calm.of_tables rfl rfl rfl (fun _ hk => hk)
            exact ((((Calm.of_reapBeforeTerminate h0).seq ha).seq (Calm.by_setState h1)).seq
              (Calm.of_removeThread h2)).seq (Calm.of_removeID h)
    · simp at h
  · simp at h

theorem sleepEntry_eq (w : World) (n : Int) :
    w.sleepEntry n
      = (hfind w.heap w.running).map (fun t =>
          { w with next_sleep_check := (if w.next_sleep_check = 0 ∨ wrapInt (w.total_quantum_counter + n) < w.next_sleep_check then wrapInt (w.total_quantum_counter + n) else w.next_sleep_check), sleeping := minsert t.id (wrapInt (w.total_quantum_counter + n)) w.sleeping, heap := hset w.heap w.running { t with state := State.SLEEPING } }) := by
  by_cases hcond : w.next_sleep_check = 0 ∨ wrapInt (w.total_quantum_counter + n) < w.next_sleep_check
  · cases hf : hfind w.heap w.running <;>
      simp [World.sleepEntry, hcond, hf, World.setState]
  · cases hf : hfind w.heap w.running <;>
      simp [World.sleepEntry, hcond, hf, World.setState]

theorem SleepPre.of_switchPoint {w v : World} {n : Int}
    (h : switchPoint w (Op.sleep n) = some v) : SleepPre n w v := by
  simp only [switchPoint] at h
  cases hf : hfind w.heap w.running with
  | none => simp [hf] at h
  | some t =>
    simp only [hf] at h
    split at h
    · simp at h
    · cases hse : w.sleepEntry n with
      | none => simp [hse] at h
      | some w2 =>
        simp only [hse] at h
        cases he : w2.blockThreadEntry w2.running with
        | none => simp [he] at h
        | some v1 =>
          simp only [he] at h
          split at h
          · simp at h
            subst h
            rw [sleepEntry_eq, hf] at hse
            simp at hse
            subst hse
            obtain ⟨e1, e2, e3, e4, t2, ht2, hb2⟩ := blockThreadEntry_tables he
            have ht3 : hfind (hset w.heap w.running { t with state := State.SLEEPING }) w.running
                = some t2 := ht2
            rw [hfind_hset_same _ _ _ _ hf] at ht3
            simp at ht3
            have hid : t2.id = t.id := by rw [← ht3]
            exact {
              total_eq := e1
              check_eq := e2
              sleeping_eq := ⟨t.id, e3, by rw [← hid]; exact hb2⟩
              blocked_keep := e4 }
          · simp at h

/-- The state in which an event calls `runNextThread` differs from the state
before the event by a calm change, or the event is a `sleep`. -/
theorem switchPoint_tables {w v : World} (op : Op) (h : switchPoint w op = some v) :
    Calm w v ∨ ∃ n, op = Op.sleep n ∧ SleepPre n w v := by
  cases op with
  | spawn => simp [switchPoint] at h
  | resume j => simp [switchPoint] at h
  | sleep n => exact Or.inr ⟨n, rfl, SleepPre.of_switchPoint h⟩
  | timer => exact Or.inl (Calm.of_timerEntry h)
  | terminate j =>
    simp only [switchPoint] at h
    split at h
    · simp at h
    · cases hq : w.getThreadByID j with
      | none => simp [hq] at h
      | some p =>
        simp only [hq] at h
        exact Or.inl (Calm.of_terminateEntry h)
  | block j =>
    simp only [switchPoint] at h
    split at h
    · simp at h
    · cases hq : w.getThreadByID j with
      | none => simp [hq] at h
      | some p =>
        simp only [hq] at h
        cases hf : hfind w.heap p with
        | none => simp [hf] at h
        | some t =>
          simp only [hf] at h
          split at h
          · simp at h
          · cases he : w.blockThreadEntry p with
            | none => simp [he] at h
            | some v1 =>
              simp only [he] at h
              split at h
              · simp at h
                subst h
                exact Or.inl (Calm.by_blockThreadEntry he)
              · simp at h

/-- An event that does not reach a call of `runNextThread` is a calm change. -/
theorem step_calm {w w1 : World} {r : Int} (M : Nat) (op : Op)
    (hsp : switchPoint w op = none) (h : step M w op = some (r, w1)) : Calm w w1 := by
  cases op with
  | spawn =>
    simp only [step, uthread_spawn] at h
    simp only [Bool.true_eq_false, if_false] at h
    have hn : Calm w (w.newThread).2 := Calm.of_tables rfl rfl rfl (fun _ hk => hk)
    cases ha : World.addNewThread M (w.newThread).2 (w.newThread).1 with
    | none => simp [ha] at h
    | some ra =>
      obtain ⟨res, w2⟩ := ra
      have hw12 : w1 = w2 := by
        simp only [ha] at h
        split at h
        · simp at h; exact h.2.symm
        · split at h
          · simp at h
          · simp at h; exact h.2.symm
      subst hw12
      simp only [World.addNewThread] at ha
      split at ha
      · simp at ha
        rw [← ha.2]
        exact hn
      · cases hf : hfind (w.newThread).2.heap (w.newThread).1 with
        | none => simp [hf] at ha
        | some t =>
          simp only [hf] at ha
          cases hsr : World.setReady { (w.newThread).2 with
              threads := minsert t.id (w.newThread).1 (w.newThread).2.threads }
              (w.newThread).1 with
          | none => simp [hsr] at ha
          | some w3 =>
            simp [hsr] at ha
            obtain ⟨_, rfl⟩ := ha
            have hb : Calm (w.newThread).2 { (w.newThread).2 with
                threads := minsert t.id (w.newThread).1 (w.newThread).2.threads } :=
              Calm.of_tables rfl rfl rfl (fun _ hk => hk)
            exact (hn.seq hb).seq (Calm.by_setReady hsr)
  | resume j =>
    simp only [step, uthread_resume] at h
    cases hq : w.getThreadByID j with
    | none =>
      simp [hq] at h
      rw [← h.2]
      exact Calm.stay w
    | some p =>
      simp only [hq] at h
      cases hf : hfind w.heap p with
      | none => simp [hf] at h
      | some t =>
        simp only [hf] at h
        split at h
        · simp at h
          rw [← h.2]
          exact Calm.stay w
        · cases hu : w.unblockThread p with
          | none => simp [hu] at h
          | some w2 =>
            simp [hu] at h
            obtain ⟨_, rfl⟩ := h
            exact Calm.by_unblockThread hu
  | block j =>
    simp only [switchPoint] at hsp
    simp only [step, uthread_block] at h
    split at h
    · simp at h
      rw [← h.2]
      exact Calm.stay w
    · rename_i hj
      rw [if_neg hj] at hsp
      cases hq : w.getThreadByID j with
      | none =>
        simp [hq] at h
        rw [← h.2]
        exact Calm.stay w
      | some p =>
        simp only [hq] at h hsp
        cases hf : hfind w.heap p with
        | none => simp [hf] at h
        | some t =>
          simp only [hf] at h hsp
          split at h
          · simp at h
            rw [← h.2]
            exact Calm.stay w
          · rename_i hnt
            rw [if_neg hnt] at hsp
            rw [blockThread_eq] at h
            cases he : w.blockThreadEntry p with
            | none => simp [he] at h
            | some v =>
              simp only [he] at h hsp
              split at hsp
              · simp at hsp
              · rename_i hr
                rw [if_neg hr] at h
                simp at h
                obtain ⟨_, rfl⟩ := h
                have hc := Calm.by_blockThreadEntry he
                exact ⟨hc.total_eq, hc.check_eq, hc.sleeping_sub, hc.keys_nodup,
                  hc.blocked_keep⟩
  | sleep n =>
    simp only [switchPoint] at hsp
    simp only [step, uthread_sleep] at h
    cases hf : hfind w.heap w.running with
    | none => simp [hf] at h
    | some t =>
      simp only [hf] at h hsp
      split at h
      · simp at h
        rw [← h.2]
        exact Calm.stay w
      · rename_i hid
        rw [if_neg hid] at hsp
        rw [sleepCurrentThread_eq] at h
        cases hse : w.sleepEntry n with
        | none => simp [hse] at h
        | some w2 =>
          simp only [hse] at h hsp
          rw [blockThread_eq] at h
          cases he : w2.blockThreadEntry w2.running with
          | none => simp [he] at h
          | some v =>
            simp only [he] at h hsp
            obtain ⟨hq2, _⟩ := Quiet.of_blockThreadEntry he
            rw [if_pos hq2.running_eq] at hsp
            simp at hsp
  | terminate j =>
    simp only [switchPoint] at hsp
    simp only [step, uthread_terminate] at h
    split at h
    · simp at h
    · rename_i hj
      rw [if_neg hj] at hsp
      cases hq : w.getThreadByID j with
      | none =>
        simp [hq] at h
        rw [← h.2]
        exact Calm.stay w
      | some p =>
        simp only [hq] at h hsp
        cases ht : w.terminateThread p with
        | none => simp [ht] at h
        | some w2 =>
          simp [ht] at h
          obtain ⟨_, rfl⟩ := h
          obtain ⟨t, r, wa, _, _, _, hrm, hdl⟩ := terminateThread_other w p w2 hsp ht
          exact (Calm.of_removeThread hrm).seq (Calm.of_deleteThread hdl)
  | timer =>
    simp only [switchPoint] at hsp
    simp [step, timerHandler_eq, hsp] at h

theorem handleSleepingLoop_calm (l : List (Int × Int)) :
    ∀ (nc : Int) (w : World) (nc1 : Int) (w1 : World),
      World.handleSleepingLoop l nc w = some (nc1, w1) → Calm w w1 := by
  induction l with
  | nil =>
    intro nc w nc1 w1 h
    simp [World.handleSleepingLoop] at h
    rw [← h.2]
    exact Calm.stay w
  | cons e l ih =>
    intro nc w nc1 w1 h
    obtain ⟨id, dd⟩ := e
    simp only [World.handleSleepingLoop] at h
    have herase : Calm w { w with sleeping := merase w.sleeping id } := {
      total_eq := rfl
      check_eq := rfl
      sleeping_sub := fun e he => ((mem_merase _ _ _).1 he).1
      keys_nodup := fun hn => nodup_keys_merase _ _ hn
      blocked_keep := fun _ _ ha => ha }
    split at h
    · cases hb : mfind w.blocked id with
      | none => simp [hb] at h
      | some p =>
        simp only [hb] at h
        cases hp : hfind w.heap p with
        | none => simp [hp] at h
        | some t =>
          simp only [hp] at h
          split at h
          · cases h2 : World.setState { w with sleeping := merase w.sleeping id } p
                State.BLOCKED with
            | none => simp [h2] at h
            | some w2 =>
              simp only [h2] at h
              cases h3 : w2.unblockThread p with
              | none => simp [h3] at h
              | some w3 =>
                simp only [h3] at h
                have hc := ih nc w3 nc1 w1 h
                have e3 := (herase.seq (Calm.by_setState h2)).seq (Calm.by_unblockThread h3)
                exact e3.seq hc
          · exact herase.seq (ih nc _ nc1 w1 h)
    · exact ih _ w nc1 w1 h

/-- A property kept by calm changes, by the bookkeeping of a `sleep` and by a
switch is kept by every event. -/
theorem step_keeps (P : World → Prop) {w w1 : World} {r : Int} (M : Nat) (op : Op)
    (hcalm : ∀ a b, P a → Calm a b → P b)
    (hsleep : ∀ n v, op = Op.sleep n → SleepPre n w v → P w → P v)
    (hswitch : ∀ v b, P v → v.runNextThread = some b → P b)
    (hP : P w) (h : step M w op = some (r, w1)) : P w1 := by
  cases hsp : switchPoint w op with
  | none => exact hcalm w w1 hP (step_calm M op hsp h)
  | some v =>
    rw [step_at_switchPoint M w op v hsp] at h
    cases hr : v.runNextThread with
    | none => simp [hr] at h
    | some w2 =>
      simp [hr] at h
      obtain ⟨_, rfl⟩ := h
      have hv : P v := by
        rcases switchPoint_tables op hsp with hc | ⟨n, hop, hs⟩
        · exact hcalm w v hP hc
        · exact hsleep n v hop hs hP
      exact hswitch v w2 hv hr

theorem run_keeps (P : World → Prop) (good : Op → Prop) (M : Nat)
    (hstep : ∀ w op r w1, P w → good op → step M w op = some (r, w1) → P w1)
    (ops : List Op) :
    ∀ (w : World) (rs : List Int) (w1 : World), P w → (∀ op ∈ ops, good op) →
      run M ops w = some (rs, w1) → P w1 := by
  induction ops with
  | nil =>
    intro w rs w1 hP _ h
    simp [run] at h
    rw [← h.2]
    exact hP
  | cons op ops ih =>
    intro w rs w1 hP hg h
    simp only [run] at h
    cases hst : step M w op with
    | none => simp [hst] at h
    | some a =>
      obtain ⟨r, w2⟩ := a
      simp only [hst] at h
      cases hr : run M ops w2 with
      | none => simp [hr] at h
      | some b =>
        obtain ⟨rs2, w3⟩ := b
        simp [hr] at h
        obtain ⟨_, rfl⟩ := h
        exact ih w2 rs2 w3 (hstep w op r w2 hP (hg op (by simp)) hst)
          (fun o ho => hg o (by simp [ho])) hr

/-- A property kept by every event that meets a condition on the state it
starts from holds in every state of an execution whose events meet the
condition. -/
theorem trace_keeps (P : World → Prop) (good : World → Op → Prop) (M : Nat)
    (hstep : ∀ w op r w1, P w → good w op → step M w op = some (r, w1) → P w1)
    (ops : List Op) :
    ∀ (w : World) (ws : List World), P w →
      (∀ e ∈ List.zip (w :: ws) ops, good e.1 e.2) →
      trace M ops w = some ws → ∀ b ∈ w :: ws, P b := by
  induction ops with
  | nil =>
    intro w ws hP _ h b hb
    simp [trace] at h
    subst h
    simp at hb
    rw [hb]
    exact hP
  | cons op ops ih =>
    intro w ws hP hg h b hb
    obtain ⟨r, w1, ws1, hs, ht, rfl⟩ := trace_cons M op ops w ws h
    simp only [List.mem_cons] at hb
    rcases hb with hb | hb
    · rw [hb]
      exact hP
    · have h1 : P w1 := hstep w op r w1 hP (hg (w, op) (by simp)) hs
      exact ih w1 ws1 h1
        (fun e he => hg e (by simp only [List.zip_cons_cons, List.mem_cons]; exact Or.inr he))
        ht b (by simpa using hb)

/-! ### Sleeping ids are keys of the blocked set -/

theorem SleepKeys.calm_sk {a b : World} (hk : SleepKeys a) (hc : Calm a b) : SleepKeys b :=
  ⟨hc.keys_nodup hk.1, fun e he => hc.blocked_keep e he (hk.2 e (hc.sleeping_sub e he))⟩

theorem SleepKeys.sleepPre_sk {n : Int} {w v : World} (hk : SleepKeys w) (hs : SleepPre n w v) :
    SleepKeys v := by
  obtain ⟨k, hsl, hb⟩ := hs.sleeping_eq
  refine ⟨?_, ?_⟩
  · rw [hsl]
    exact nodup_keys_minsert _ _ _ hk.1
  · intro e he
    rw [hsl] at he
    rcases mem_minsert _ _ _ _ he with h | h
    · rw [h]; exact hb
    · exact hs.blocked_keep e.1 (hk.2 e h)

theorem SleepKeys.switch_sk {v w1 : World} (hk : SleepKeys v) (hr : v.runNextThread = some w1) :
    SleepKeys w1 := by
  obtain ⟨hd, rest, th, woken, _, _, _, _, hne, heq, _⟩ := runNextThread_woke v w1 hr
  by_cases hc : v.total_quantum_counter + 1 = v.next_sleep_check
  · obtain ⟨nc1, w2, hl, rfl⟩ := handleSleeping_loop _ _ (heq hc)
    have hk2 : SleepKeys w2 :=
      (show SleepKeys (v.switchTo hd th rest) from hk).calm_sk (handleSleepingLoop_calm _ _ _ _ _ hl)
    exact hk2
  · rw [hne hc]
    exact hk

theorem SleepKeys.step_sk {w w1 : World} {r : Int} (M : Nat) (op : Op) (hk : SleepKeys w)
    (h : step M w op = some (r, w1)) : SleepKeys w1 :=
  step_keeps SleepKeys M op (fun _ _ ha hc => ha.calm_sk hc)
    (fun _ _ _ hs ha => ha.sleepPre_sk hs) (fun _ _ hv hr => hv.switch_sk hr) hk h

/-! ### The wake clock -/

theorem ClockSound.calm_cs {a b : World} (hk : ClockSound a) (hc : Calm a b) : ClockSound b := by
  obtain ⟨h0, hk⟩ := hk
  refine ⟨by rw [hc.total_eq]; exact h0, ?_⟩
  rcases hk with ⟨h1, h2⟩ | ⟨h1, h2⟩
  · refine Or.inl ⟨by rw [hc.check_eq]; exact h1, ?_⟩
    apply List.eq_nil_iff_forall_not_mem.2
    intro e he
    have := hc.sleeping_sub e he
    rw [h2] at this
    simp at this
  · refine Or.inr ⟨by rw [hc.check_eq, hc.total_eq]; exact h1, fun e he => ?_⟩
    rw [hc.check_eq]
    exact h2 e (hc.sleeping_sub e he)

theorem ClockSound.sleepPre_cs {n : Int} {w v : World} (hk : ClockSound w) (hs : SleepPre n w v)
    (hn : w.total_quantum_counter < wrapInt (w.total_quantum_counter + n)) :
    ClockSound v := by
  obtain ⟨h0, hk⟩ := hk
  obtain ⟨k, hsl, _⟩ := hs.sleeping_eq
  refine ⟨by rw [hs.total_eq]; exact h0, Or.inr ⟨?_, ?_⟩⟩
  · rw [hs.check_eq, hs.total_eq]
    split
    · omega
    · rename_i hc
      rcases hk with ⟨h1, _⟩ | ⟨h1, _⟩
      · exact absurd (Or.inl h1) hc
      · exact h1
  · intro e he
    rw [hs.check_eq]
    rw [hsl] at he
    rcases mem_minsert _ _ _ _ he with h | h
    · rw [h]
      simp only []
      split
      · exact le_refl _
      · rename_i hc
        have : ¬ wrapInt (w.total_quantum_counter + n) < w.next_sleep_check := fun h => hc (Or.inr h)
        omega
    · rcases hk with ⟨_, h2⟩ | ⟨_, h2⟩
      · rw [h2] at h
        simp at h
      · have := h2 e h
        split
        · rename_i hc
          rcases hc with hc | hc <;> omega
        · exact this

theorem ClockSound.switch_cs {v w1 : World} (hk : ClockSound v)
    (hr : v.runNextThread = some w1) : ClockSound w1 := by
  obtain ⟨h0, hk⟩ := hk
  obtain ⟨hd, rest, th, woken, _, _, _, _, hne, heq, _⟩ := runNextThread_woke v w1 hr
  by_cases hc : v.total_quantum_counter + 1 = v.next_sleep_check
  · obtain ⟨nc1, w2, hl, rfl⟩ := handleSleeping_loop _ _ (heq hc)
    have hcm := handleSleepingLoop_calm _ _ _ _ _ hl
    have htot : w2.total_quantum_counter = v.total_quantum_counter + 1 := hcm.total_eq
    obtain ⟨c1, _, c3⟩ := handleSleepingLoop_clock _ _ _ _ _ hl
    have hsnsc : (v.switchTo hd th rest).next_sleep_check = v.next_sleep_check := rfl
    have hssl : (v.switchTo hd th rest).sleeping = v.sleeping := rfl
    rw [hsnsc, hssl] at c1 c3
    have hmin : ∀ e ∈ v.sleeping, v.next_sleep_check ≤ e.2 := by
      rcases hk with ⟨_, h2⟩ | ⟨_, h2⟩
      · rw [h2]; simp
      · exact h2
    obtain ⟨d1, d2, _⟩ := c3 (by omega) hmin (Or.inl rfl)
    have hsub : ∀ e ∈ w2.sleeping, e ∈ v.sleeping := hcm.sleeping_sub
    refine ⟨by show 0 ≤ w2.total_quantum_counter; omega, ?_⟩
    by_cases hz : nc1 = 0
    · refine Or.inl ⟨hz, ?_⟩
      apply List.eq_nil_iff_forall_not_mem.2
      intro e he
      exact (d2 e (hsub e he) (c1 e he (hsub e he))).1 hz
    · refine Or.inr ⟨?_, fun e he => ?_⟩
      · show w2.total_quantum_counter < nc1
        rcases d1 with d1 | d1
        · exact absurd d1 hz
        · omega
      · exact (d2 e (hsub e he) (c1 e he (hsub e he))).2
  · rw [hne hc]
    refine ⟨by show 0 ≤ v.total_quantum_counter + 1; omega, ?_⟩
    rcases hk with ⟨h1, h2⟩ | ⟨h1, h2⟩
    · exact Or.inl ⟨h1, h2⟩
    · refine Or.inr ⟨?_, h2⟩
      show v.total_quantum_counter + 1 < v.next_sleep_check
      omega

theorem ClockSound.step_cs {w w1 : World} {r : Int} (M : Nat) (op : Op) (hk : ClockSound w)
    (hpos : ∀ m, op = Op.sleep m →
      w.total_quantum_counter < wrapInt (w.total_quantum_counter + m))
    (h : step M w op = some (r, w1)) : ClockSound w1 :=
  step_keeps ClockSound M op (fun _ _ ha hc => ha.calm_cs hc)
    (fun n _ hop hs ha => ha.sleepPre_cs hs (hpos n hop)) (fun _ _ hv hr => hv.switch_cs hr) hk h

theorem StuckClock.calm_sc {a b : World} (hk : StuckClock a) (hc : Calm a b) : StuckClock b := by
  unfold StuckClock
  rw [hc.check_eq, hc.total_eq]
  exact hk

theorem StuckClock.sleepPre_sc {n : Int} {w v : World} (hk : StuckClock w) (hs : SleepPre n w v)
    (hn : wrapInt (w.total_quantum_counter + n) ≠ 0) : StuckClock v := by
  obtain ⟨h1, h2⟩ := hk
  unfold StuckClock
  rw [hs.check_eq, hs.total_eq]
  split
  · rename_i hc
    rcases hc with hc | hc
    · exact absurd hc h1
    · exact ⟨hn, by omega⟩
  · exact ⟨h1, h2⟩

theorem StuckClock.switch_sc {v w1 : World} (hk : StuckClock v)
    (hr : v.runNextThread = some w1) :
    StuckClock w1 ∧ ∃ h rest th, v.ready = h :: rest ∧ hfind v.heap h = some th ∧
      w1 = v.switchTo h th rest := by
  obtain ⟨h1, h2⟩ := hk
  obtain ⟨hd, rest, th, woken, hready, hh, _, _, hne, _, _⟩ := runNextThread_woke v w1 hr
  have hc : v.total_quantum_counter + 1 ≠ v.next_sleep_check := by omega
  refine ⟨?_, hd, rest, th, hready, hh, hne hc⟩
  rw [hne hc]
  exact ⟨h1, by show v.next_sleep_check ≤ v.total_quantum_counter + 1; omega⟩

/-! ### The lookups of the wake scan -/

theorem unblockThread_sleeping {w v : World} {q : Nat} (h : w.unblockThread q = some v) :
    v.sleeping = w.sleeping := by
  simp only [World.unblockThread] at h
  cases ht : hfind w.heap q with
  | none => simp [ht] at h
  | some t =>
    simp only [ht] at h
    split at h
    · simp at h
      rw [← h]
    · split at h
      · exact (setState_frame h).1
      · simp only [World.setReady] at h
        cases h2 : World.setState { w with blocked := merase w.blocked t.id } q State.READY with
        | none => simp [h2] at h
        | some w2 =>
          simp [h2] at h
          rw [← h]
          exact (setState_frame h2).1

theorem scanLookups_found (l : List (Int × Int)) :
    ∀ (w : World), (l.map Prod.fst).Nodup → (∀ e ∈ l, e ∈ w.sleeping) →
      (∀ e ∈ w.sleeping, (mfind w.blocked e.1).isSome) →
      World.scanLookups l w = true := by
  induction l with
  | nil =>
    intro w _ _ _
    rfl
  | cons e l ih =>
    intro w hnd hsub hkeys
    obtain ⟨id, dd⟩ := e
    simp only [List.map_cons, List.nodup_cons] at hnd
    have hrest : ∀ e ∈ l, e ∈ merase w.sleeping id := by
      intro e he
      refine (mem_merase _ _ _).2 ⟨hsub e (by simp [he]), ?_⟩
      intro heq
      apply hnd.1
      rw [← heq]
      exact List.mem_map_of_mem _ he
    have herase : Calm w { w with sleeping := merase w.sleeping id } := {
      total_eq := rfl
      check_eq := rfl
      sleeping_sub := fun e he => ((mem_merase _ _ _).1 he).1
      keys_nodup := fun hn => nodup_keys_merase _ _ hn
      blocked_keep := fun _ _ ha => ha }
    simp only [World.scanLookups]
    split
    · have hb := hkeys (id, dd) (hsub (id, dd) (by simp))
      cases hf : mfind w.blocked id with
      | none => simp [hf] at hb
      | some p =>
        simp only []
        cases hp : hfind w.heap p with
        | none => rfl
        | some t =>
          simp only []
          split
          · cases h2 : World.setState { w with sleeping := merase w.sleeping id } p
                State.BLOCKED with
            | none => rfl
            | some w2 =>
              simp only []
              cases h3 : w2.unblockThread p with
              | none => rfl
              | some w3 =>
                simp only []
                have e3 := (herase.seq (Calm.by_setState h2)).seq (Calm.by_unblockThread h3)
                have hsl : w3.sleeping = merase w.sleeping id := by
                  rw [unblockThread_sleeping h3, (setState_frame h2).1]
                apply ih w3 hnd.2
                · intro e he
                  rw [hsl]
                  exact hrest e he
                · intro e he
                  exact e3.blocked_keep e he (hkeys e (e3.sleeping_sub e he))
          · apply ih _ hnd.2 hrest
            intro e he
            exact hkeys e (herase.sleeping_sub e he)
    · exact ih w hnd.2 (fun e he => hsub e (by simp [he])) hkeys

/-- C23: in every state reached from `init` through spawn, block, resume,
sleep (any argument), terminate and timer expiries, the sleeping map has one
entry per id and every id in it is a key of the blocked set; and at every
event that switches threads, the wake scan run in the state the switch
prepares finds the key of each due entry in the blocked set, so no lookup
`blocked->at(id)` throws. -/
theorem sleeping_ids_are_blocked (M : Nat) (q : Int) (w0 : World) (ops : List Op)
    (rs : List Int) (w : World)
    (hinit : uthread_init q = some (0, some w0))
    (hrun : run M ops w0 = some (rs, w)) :
    (∀ e ∈ w.sleeping, (mfind w.blocked e.1).isSome) ∧
    ∀ op v h th rest, switchPoint w op = some v → v.ready = h :: rest →
      hfind v.heap h = some th →
      (∀ e ∈ (v.switchTo h th rest).sleeping,
        (mfind (v.switchTo h th rest).blocked e.1).isSome) ∧
      World.scanLookups (v.switchTo h th rest).sleeping (v.switchTo h th rest) = true := by
  have hw0 : w0 = initWorld q := (uthread_init_some hinit).2.2
  subst hw0
  have hk0 : SleepKeys (initWorld q) := by
    simp [SleepKeys, initWorld]
  have hk : SleepKeys w :=
    run_keeps SleepKeys (fun _ => True) M
      (fun a op r b ha _ hs => ha.step_sk M op hs) ops (initWorld q) rs w hk0
      (fun _ _ => trivial) hrun
  refine ⟨hk.2, fun op v h th rest hsp _ _ => ?_⟩
  have hv : SleepKeys v := by
    rcases switchPoint_tables op hsp with hc | ⟨n, _, hs⟩
    · exact hk.calm_sk hc
    · exact hk.sleepPre_sk hs
  exact ⟨hv.2, scanLookups_found v.sleeping (v.switchTo h th rest) hv.1 (fun _ he => he) hv.2⟩

/-- C23 (witness): thread 1 sleeps with deadline 7 while thread 2 runs; its id
is a key of the blocked set, and so it is at every switch from that state. -/
theorem sleeping_ids_are_blocked_witness :
    uthread_init 1 = some (0, some (initWorld 1)) ∧
    run 100 [Op.spawn, Op.spawn, Op.timer, Op.sleep 5] (initWorld 1)
      = some ([1, 2, 0, 0], worldAfter [Op.spawn, Op.spawn, Op.timer, Op.sleep 5]) ∧
    (worldAfter [Op.spawn, Op.spawn, Op.timer, Op.sleep 5]).sleeping = [(1, 7)] ∧
    ((∀ e ∈ (worldAfter [Op.spawn, Op.spawn, Op.timer, Op.sleep 5]).sleeping,
      (mfind (worldAfter [Op.spawn, Op.spawn, Op.timer, Op.sleep 5]).blocked e.1).isSome) ∧
    ∀ op v h th rest,
      switchPoint (worldAfter [Op.spawn, Op.spawn, Op.timer, Op.sleep 5]) op = some v →
      v.ready = h :: rest → hfind v.heap h = some th →
      (∀ e ∈ (v.switchTo h th rest).sleeping,
        (mfind (v.switchTo h th rest).blocked e.1).isSome) ∧
      World.scanLookups (v.switchTo h th rest).sleeping (v.switchTo h th rest) = true) :=
  ⟨by decide, by decide, by decide,
    sleeping_ids_are_blocked 100 1 (initWorld 1) [Op.spawn, Op.spawn, Op.timer, Op.sleep 5]
      [1, 2, 0, 0] (worldAfter [Op.spawn, Op.spawn, Op.timer, Op.sleep 5])
      (by decide) (by decide)⟩

/-- C21 (counterexample): thread 1 sleeps with deadline 7, which sets
`next_sleep_check` to 7; thread 2 then terminates it.  `removeThread` erases
the entry of the sleeping map and leaves `next_sleep_check` alone: the map is
empty and `next_sleep_check` is 7, not 0. -/
theorem stale_check_after_terminate :
    uthread_init 1 = some (0, some (initWorld 1)) ∧
    run 100 [Op.spawn, Op.spawn, Op.timer, Op.sleep 5, Op.terminate 1] (initWorld 1)
      = some ([1, 2, 0, 0, 0],
          worldAfter [Op.spawn, Op.spawn, Op.timer, Op.sleep 5, Op.terminate 1]) ∧
    (worldAfter [Op.spawn, Op.spawn, Op.timer, Op.sleep 5, Op.terminate 1]).sleeping = [] ∧
    (worldAfter [Op.spawn, Op.spawn, Op.timer, Op.sleep 5, Op.terminate 1]).next_sleep_check
      = 7 ∧
    (worldAfter [Op.spawn, Op.spawn, Op.timer, Op.sleep 5, Op.terminate 1]).total_quantum_counter
      = 3 :=
  ⟨by decide, by decide, by decide, by decide, by decide⟩

/-! ### Orderly states and parked threads -/

theorem Orderly.tidy {w : World} (h : Orderly w) : Tidy w where
  ready_states := h.2.1
  nodup := h.2.2.1
  fresh := fun x t ht => h.2.2.2.1 (x, t) (hfind_mem _ _ _ ht)
  reap := fun q hq => h.2.2.2.2 q hq

theorem Tidy.restate {w v : World} (hT : Tidy w) (q : Nat) (t : Thread) (s : State)
    (ht : hfind w.heap q = some t) (hs : t.state ≠ State.TERMINATED)
    (hheap : v.heap = hset w.heap q { t with state := s })
    (hready : ∀ x ∈ v.ready, (x ∈ w.ready ∧ x ≠ q) ∨ (x = q ∧ s = State.READY))
    (hn : v.ready.Nodup) (haddr : v.next_addr = w.next_addr)
    (hterm : v.terminated = w.terminated) : Tidy v where
  ready_states := by
    intro x hx
    simp only [World.stateOf, hheap, hfind_hset]
    rcases hready x hx with ⟨h1, h2⟩ | ⟨h1, h2⟩
    · rw [if_neg h2]
      exact hT.ready_states x h1
    · rw [if_pos h1, ht, h2]
      rfl
  nodup := hn
  fresh := by
    intro x u hu
    rw [haddr]
    rw [hheap, hfind_hset] at hu
    by_cases hx : x = q
    · rw [hx]
      exact hT.fresh q t ht
    · rw [if_neg hx] at hu
      exact hT.fresh x u hu
  reap := by
    intro q0 hq0
    rw [hterm] at hq0
    have h0 := hT.reap q0 hq0
    have hne : q0 ≠ q := by
      intro he
      rw [he] at h0
      simp [World.stateOf, ht] at h0
      exact hs h0
    simp only [World.stateOf, hheap, hfind_hset, if_neg hne]
    exact h0

theorem Tidy.retable {w v : World} (hT : Tidy w) (hheap : v.heap = w.heap)
    (hready : ∀ x ∈ v.ready, x ∈ w.ready) (hn : v.ready.Nodup)
    (haddr : v.next_addr = w.next_addr) (hterm : v.terminated = w.terminated) : Tidy v where
  ready_states := by
    intro x hx
    simp only [World.stateOf, hheap]
    exact hT.ready_states x (hready x hx)
  nodup := hn
  fresh := by
    intro x u hu
    rw [haddr]
    rw [hheap] at hu
    exact hT.fresh x u hu
  reap := by
    intro q0 hq0
    rw [hterm] at hq0
    simp only [World.stateOf, hheap]
    exact hT.reap q0 hq0

theorem Asleep.restate_as {w v : World} {p : Nat} (ha : Asleep p w) (q : Nat) (t : Thread)
    (s : State) (ht : hfind w.heap q = some t)
    (hs : q = p → s = State.SLEEPING ∨ s = State.BLOCKED)
    (hheap : v.heap = hset w.heap q { t with state := s })
    (hsl : ∀ k, (mfind w.sleeping k).isSome → (mfind v.sleeping k).isSome) : Asleep p v := by
  obtain ⟨u, hu, h1, h2⟩ := ha
  have hu : hfind w.heap p = some u := hu
  by_cases hq : p = q
  · subst hq
    rw [ht] at hu
    simp at hu
    subst hu
    refine ⟨{ t with state := s }, ?_, hs rfl, hsl _ h2⟩
    show hfind v.heap p = some _
    rw [hheap, hfind_hset, if_pos rfl, ht]
    rfl
  · refine ⟨u, ?_, h1, hsl _ h2⟩
    show hfind v.heap p = some _
    rw [hheap, hfind_hset, if_neg hq]
    exact hu

theorem Asleep.retable_as {w v : World} {p : Nat} (ha : Asleep p w) (hheap : v.heap = w.heap)
    (hsl : ∀ k, (mfind w.sleeping k).isSome → (mfind v.sleeping k).isSome) : Asleep p v := by
  obtain ⟨u, hu, h1, h2⟩ := ha
  have hu : hfind w.heap p = some u := hu
  refine ⟨u, ?_, h1, hsl _ h2⟩
  show hfind v.heap p = some _
  rw [hheap]
  exact hu

theorem Asleep.state_ne {w : World} {p : Nat} (ha : Asleep p w) {s : State}
    (hs : w.stateOf p = some s) : s = State.SLEEPING ∨ s = State.BLOCKED := by
  obtain ⟨u, hu, h1, _⟩ := ha
  have hu : hfind w.heap p = some u := hu
  simp [World.stateOf, hu] at hs
  rw [← hs]
  exact h1

theorem Asleep.parked {w : World} {p : Nat} (ha : Asleep p w) (hT : Tidy w)
    (hrun : w.stateOf w.running = some State.RUNNING) : Parked p w := by
  refine ⟨ha, ?_, ?_⟩
  · intro he
    rw [he] at hrun
    rcases ha.state_ne hrun with h | h <;> cases h
  · intro hin
    rcases ha.state_ne (hT.ready_states p hin) with h | h <;> cases h

theorem stateOf_restate {w v : World} (q : Nat) (u : Thread) (x : Nat)
    (hheap : v.heap = hset w.heap q u) (hx : x ≠ q) : v.stateOf x = w.stateOf x := by
  simp only [World.stateOf, hheap, hfind_hset, if_neg hx]

theorem setState_spec {w v : World} {q : Nat} {s : State} (h : w.setState q s = some v) :
    ∃ t, hfind w.heap q = some t ∧ v = { w with heap := hset w.heap q { t with state := s } } := by
  simp only [World.setState] at h
  cases ht : hfind w.heap q with
  | none => simp [ht] at h
  | some t =>
    simp [ht] at h
    exact ⟨t, rfl, h.symm⟩

theorem setReady_spec {w v : World} {q : Nat} (h : w.setReady q = some v) :
    ∃ t, hfind w.heap q = some t ∧
      v = { w with heap := hset w.heap q { t with state := State.READY },
                   ready := w.ready ++ [q] } := by
  simp only [World.setReady] at h
  cases h1 : w.setState q State.READY with
  | none => simp [h1] at h
  | some w1 =>
    simp [h1] at h
    obtain ⟨t, ht, rfl⟩ := setState_spec h1
    exact ⟨t, ht, h.symm⟩

theorem blockThreadEntry_spec {w v : World} {p : Nat} (h : w.blockThreadEntry p = some v) :
    ∃ t s, hfind w.heap p = some t ∧
      (s = State.BLOCKED ∨ (s = State.SLEEPING ∧ t.state = State.SLEEPING)) ∧
      v = { w with heap := hset w.heap p { t with state := s },
                   blocked := minsert t.id p w.blocked } := by
  simp only [World.blockThreadEntry] at h
  cases ht : hfind w.heap p with
  | none => simp [ht] at h
  | some t =>
    simp only [ht] at h
    split at h
    · simp at h
    · rename_i w1 h1
      simp at h
      split at h1
      · obtain ⟨t1, ht1, rfl⟩ := setState_spec h1
        rw [ht] at ht1
        simp at ht1
        subst ht1
        exact ⟨t, State.BLOCKED, rfl, Or.inl rfl, h.symm⟩
      · rename_i hc
        simp at h1
        subst h1
        have hst : t.state = State.SLEEPING := by
          by_contra hne
          exact hc (Or.inl hne)
        refine ⟨t, State.SLEEPING, rfl, Or.inr ⟨rfl, hst⟩, ?_⟩
        rw [← hst, thread_state_eta, hset_self _ _ _ ht]
        exact h.symm

theorem nodup_lremove (l : List Nat) (p : Nat) (h : l.Nodup) : (lremove l p).Nodup := by
  rw [lremove_eq_filter]
  exact h.filter _

theorem isSome_minsert_of_isSome {β : Type} (m : List (Int × β)) (k x : Int) (v : β)
    (h : (mfind m x).isSome) : (mfind (minsert k v m) x).isSome := by
  rw [mfind_minsert]
  by_cases hx : x = k
  · rw [if_pos hx]
    cases hk : mfind m k <;> rfl
  · rw [if_neg hx]
    exact h

theorem isSome_minsert_self {β : Type} (m : List (Int × β)) (k : Int) (v : β) :
    (mfind (minsert k v m) k).isSome := by
  rw [mfind_minsert, if_pos rfl]
  cases hk : mfind m k <;> rfl

theorem Tidy.not_ready_of_state {w : World} (hT : Tidy w) {q : Nat} {s : State}
    (hq : w.stateOf q = some s) (hs : s ≠ State.READY) : q ∉ w.ready := by
  intro hin
  rw [hT.ready_states q hin] at hq
  simp at hq
  exact hs hq.symm

theorem setReady_effect {w v : World} {q : Nat} (hT : Tidy w) (h : w.setReady q = some v)
    (hq : q ∉ w.ready) (hs : ∀ t, hfind w.heap q = some t → t.state ≠ State.TERMINATED)
    (hna : ¬ Asleep q w) :
    Tidy v ∧ (∀ p, Asleep p w → Asleep p v) ∧ (∀ x, x ≠ q → v.stateOf x = w.stateOf x) ∧
      v.running = w.running := by
  obtain ⟨t, ht, rfl⟩ := setReady_spec h
  refine ⟨?_, ?_, ?_, rfl⟩
  · refine hT.restate q t State.READY ht (hs t ht) rfl ?_ ?_ rfl rfl
    · intro x hx
      simp only [List.mem_append, List.mem_singleton] at hx
      rcases hx with hx | hx
      · exact Or.inl ⟨hx, fun he => hq (he ▸ hx)⟩
      · exact Or.inr ⟨hx, rfl⟩
    · show (w.ready ++ [q]).Nodup
      rw [List.nodup_append]
      refine ⟨hT.nodup, List.nodup_singleton q, ?_⟩
      intro a ha hb
      simp only [List.mem_singleton] at hb
      exact hq (hb ▸ ha)
  · intro p ha
    refine ha.restate_as q t State.READY ht ?_ rfl (fun _ hk => hk)
    intro he
    exact absurd (he ▸ ha) hna
  · intro x hx
    exact stateOf_restate q _ x rfl hx

theorem blockThreadEntry_effect {w v : World} {p : Nat} (hT : Tidy w)
    (h : w.blockThreadEntry p = some v)
    (hs : ∀ t, hfind w.heap p = some t → t.state ≠ State.TERMINATED) :
    Tidy { v with ready := lremove v.ready p } ∧ (p ∉ w.ready → Tidy v) ∧
      (∀ q, Asleep q w → Asleep q v) ∧ (∀ x, x ≠ p → v.stateOf x = w.stateOf x) ∧
      v.ready = w.ready ∧ v.running = w.running := by
  obtain ⟨t, s, ht, hst, rfl⟩ := blockThreadEntry_spec h
  have hs2 : s = State.SLEEPING ∨ s = State.BLOCKED := by
    rcases hst with h1 | ⟨h1, _⟩
    · exact Or.inr h1
    · exact Or.inl h1
  refine ⟨?_, ?_, ?_, ?_, rfl, rfl⟩
  · refine hT.restate p t s ht (hs t ht) rfl ?_ ?_ rfl rfl
    · intro x hx
      exact Or.inl ((mem_lremove _ _ _).1 hx)
    · exact nodup_lremove _ _ hT.nodup
  · intro hp
    refine hT.restate p t s ht (hs t ht) rfl ?_ hT.nodup rfl rfl
    intro x hx
    exact Or.inl ⟨hx, fun he => hp (he ▸ hx)⟩
  · intro q ha
    exact ha.restate_as p t s ht (fun _ => hs2) rfl (fun _ hk => hk)
  · intro x hx
    exact stateOf_restate p _ x rfl hx

theorem unblockThread_effect {w v : World} {q : Nat} (hT : Tidy w)
    (hrun : w.stateOf w.running = some State.RUNNING)
    (h : w.unblockThread q = some v) :
    Tidy v ∧ (∀ p, Asleep p w → Asleep p v) ∧ v.running = w.running ∧
      v.stateOf v.running = some State.RUNNING := by
  simp only [World.unblockThread] at h
  cases ht : hfind w.heap q with
  | none => simp [ht] at h
  | some t =>
    simp only [ht] at h
    split at h
    · simp at h
      subst h
      exact ⟨hT, fun _ ha => ha, rfl, hrun⟩
    · rename_i hb
      have hb : t.state = State.BLOCKED := by
        by_contra hne
        exact hb hne
      have hsq : w.stateOf q = some State.BLOCKED := by
        simp [World.stateOf, ht, hb]
      have hqr : w.running ≠ q := by
        intro he
        rw [he, hsq] at hrun
        simp at hrun
      split at h
      · obtain ⟨t1, ht1, rfl⟩ := setState_spec h
        rw [ht] at ht1
        simp at ht1
        subst ht1
        refine ⟨?_, ?_, rfl, ?_⟩
        · refine hT.restate q t State.SLEEPING ht (by rw [hb]; decide) rfl ?_ hT.nodup rfl rfl
          intro x hx
          refine Or.inl ⟨hx, fun he => ?_⟩
          exact hT.not_ready_of_state hsq (by decide) (he ▸ hx)
        · intro p ha
          exact ha.restate_as q t State.SLEEPING ht (fun _ => Or.inl rfl) rfl (fun _ hk => hk)
        · show World.stateOf _ w.running = some State.RUNNING
          rw [stateOf_restate q _ w.running rfl hqr]
          exact hrun
      · rename_i hns
        have hna : ¬ Asleep q { w with blocked := merase w.blocked t.id } := by
          rintro ⟨u, hu, _, h2⟩
          have hu : hfind w.heap q = some u := hu
          rw [ht] at hu
          simp at hu
          subst hu
          exact hns h2
        have hT0 : Tidy { w with blocked := merase w.blocked t.id } :=
          hT.retable rfl (fun _ hx => hx) hT.nodup rfl rfl
        obtain ⟨h1, h2, h3, h4⟩ := setReady_effect hT0 h
          (hT.not_ready_of_state hsq (by decide))
          (fun u hu => by
            have hu : hfind w.heap q = some u := hu
            rw [ht] at hu
            simp at hu
            rw [← hu, hb]
            decide) hna
        refine ⟨h1, fun p ha => h2 p (ha.retable_as rfl (fun _ hk => hk)), h4, ?_⟩
        rw [h4]
        have := h3 w.running hqr
        rw [this]
        exact hrun

theorem reap_effect {w v : World} {q : Nat} (hT : Tidy w)
    (hrun : w.stateOf w.running = some State.RUNNING)
    (hq : w.terminated = some q) (h : w.deleteThread q = some v) :
    Tidy { v with terminated := none } ∧
      (∀ p, Asleep p w → Asleep p { v with terminated := none }) ∧
      v.running = w.running ∧ v.stateOf v.running = some State.RUNNING := by
  simp only [World.deleteThread] at h
  cases ht : hfind w.heap q with
  | none => simp [ht] at h
  | some t =>
    simp [ht] at h
    subst h
    have hst := hT.reap q hq
    have hne : ∀ x s, w.stateOf x = some s → s ≠ State.TERMINATED → x ≠ q := by
      intro x s hx hs he
      rw [he, hst] at hx
      simp at hx
      exact hs hx.symm
    refine ⟨?_, ?_, rfl, ?_⟩
    · exact {
        ready_states := by
          intro x hx
          have h0 := hT.ready_states x hx
          have hxq := hne x _ h0 (by decide)
          simp only [World.stateOf, hfind_hdel, if_neg hxq]
          exact h0
        nodup := hT.nodup
        fresh := by
          intro x u hu
          have hu : hfind (hdel w.heap q) x = some u := hu
          rw [hfind_hdel] at hu
          by_cases hx : x = q
          · simp [hx] at hu
          · rw [if_neg hx] at hu
            exact hT.fresh x u hu
        reap := by
          intro q0 hq0
          simp at hq0 }
    · rintro p ⟨u, hu, h1, h2⟩
      have hu : hfind w.heap p = some u := hu
      have hpq : p ≠ q := by
        apply hne p u.state (by simp [World.stateOf, hu])
        rcases h1 with h1 | h1 <;> rw [h1] <;> decide
      refine ⟨u, ?_, h1, h2⟩
      show hfind (hdel w.heap q) p = some u
      rw [hfind_hdel, if_neg hpq]
      exact hu
    · have hrq := hne w.running _ hrun (by decide)
      show (hfind (hdel w.heap q) w.running).map Thread.state = some State.RUNNING
      rw [hfind_hdel, if_neg hrq]
      exact hrun

theorem switchTo_effect {v : World} (hT : Tidy v) (h : Nat) (th : Thread) (rest : List Nat)
    (hready : v.ready = h :: rest) (hh : hfind v.heap h = some th) :
    Tidy (v.switchTo h th rest) ∧
      (v.switchTo h th rest).stateOf (v.switchTo h th rest).running = some State.RUNNING ∧
      (∀ p, Asleep p v → Asleep p (v.switchTo h th rest)) := by
  have hnd : (h :: rest).Nodup := hready ▸ hT.nodup
  have hhs : v.stateOf h = some State.READY := hT.ready_states h (by simp [hready])
  have hths : th.state = State.READY := by
    simpa [World.stateOf, hh] using hhs
  have hfs : ∀ x, x ≠ h → hfind (v.switchTo h th rest).heap x = hfind v.heap x := by
    intro x hx
    simp [World.switchTo, hfind_hset, hx]
  refine ⟨?_, ?_, ?_⟩
  · exact {
      ready_states := by
        intro x hx
        have hx : x ∈ rest := hx
        have hxh : x ≠ h := fun he => (List.nodup_cons.1 hnd).1 (he ▸ hx)
        simp only [World.stateOf, hfs x hxh]
        exact hT.ready_states x (by simp [hready, hx])
      nodup := (List.nodup_cons.1 hnd).2
      fresh := by
        intro x u hu
        show x < v.next_addr
        by_cases hx : x = h
        · rw [hx]
          exact hT.fresh h th hh
        · rw [hfs x hx] at hu
          exact hT.fresh x u hu
      reap := by
        intro q hq
        have hq : v.terminated = some q := hq
        have h0 := hT.reap q hq
        have hqh : q ≠ h := by
          intro he
          rw [he, hhs] at h0
          simp at h0
        simp only [World.stateOf, hfs q hqh]
        exact h0 }
  · simp [World.switchTo, World.stateOf, hfind_hset, hh]
  · rintro p ⟨u, hu, h1, h2⟩
    have hu : hfind v.heap p = some u := hu
    have hph : p ≠ h := by
      intro he
      rw [he, hh] at hu
      simp at hu
      rw [← hu, hths] at h1
      rcases h1 with h1 | h1 <;> cases h1
    refine ⟨u, ?_, h1, h2⟩
    show hfind (v.switchTo h th rest).heap p = some u
    rw [hfs p hph]
    exact hu

theorem sleepEntry_effect {w w2 : World} {n : Int} (hT : Tidy w)
    (hrun : w.stateOf w.running = some State.RUNNING) (h : w.sleepEntry n = some w2) :
    Tidy w2 ∧ (∀ p, Asleep p w → Asleep p w2) ∧ Asleep w.running w2 ∧
      w2.running = w.running ∧ w2.ready = w.ready ∧
      w2.stateOf w.running = some State.SLEEPING := by
  rw [sleepEntry_eq] at h
  cases ht : hfind w.heap w.running with
  | none => simp [ht] at h
  | some t =>
    simp [ht] at h
    subst h
    have hts : t.state = State.RUNNING := by
      simpa [World.stateOf, ht] using hrun
    have hfr : hfind (hset w.heap w.running { t with state := State.SLEEPING }) w.running
        = some { t with state := State.SLEEPING } := by
      rw [hfind_hset, if_pos rfl, ht]
      rfl
    refine ⟨?_, ?_, ?_, rfl, rfl, ?_⟩
    · refine hT.restate w.running t State.SLEEPING ht (by rw [hts]; decide) rfl ?_ hT.nodup
        rfl rfl
      intro x hx
      refine Or.inl ⟨hx, fun he => ?_⟩
      exact hT.not_ready_of_state hrun (by decide) (he ▸ hx)
    · intro p ha
      exact ha.restate_as w.running t State.SLEEPING ht (fun _ => Or.inl rfl) rfl
        (fun k hk => isSome_minsert_of_isSome _ _ _ _ hk)
    · exact ⟨{ t with state := State.SLEEPING }, hfr, Or.inl rfl, isSome_minsert_self _ _ _⟩
    · simp only [World.stateOf]
      rw [hfr]
      rfl

theorem spawn_effect {w w1 : World} {r : Int} (M : Nat) (hT : Tidy w)
    (hrun : w.stateOf w.running = some State.RUNNING)
    (h : uthread_spawn M true w = some (r, w1)) :
    Tidy w1 ∧ (∀ p, Asleep p w → Asleep p w1) ∧ w1.running = w.running ∧
      w1.stateOf w1.running = some State.RUNNING := by
  simp only [uthread_spawn] at h
  simp only [Bool.true_eq_false, if_false] at h
  have hnone : hfind w.heap w.next_addr = none := by
    cases hf : hfind w.heap w.next_addr with
    | none => rfl
    | some t =>
      have := hT.fresh _ t hf
      omega
  have hold : ∀ x u, hfind w.heap x = some u → hfind (w.newThread).2.heap x = some u := by
    intro x u hu
    simp only [World.newThread, hfind_append, hu]
  have hnew : hfind (w.newThread).2.heap w.next_addr
      = some { id := (w.threadIdMaker.getNewID).1, state := State.READY, total_run_time := 0 } := by
    simp only [World.newThread, hfind_append, hnone]
    simp
  have hso : ∀ x s, w.stateOf x = some s → (w.newThread).2.stateOf x = some s := by
    intro x s hx
    simp only [World.stateOf] at hx ⊢
    cases hu : hfind w.heap x with
    | none => simp [hu] at hx
    | some u =>
      rw [hold x u hu]
      rw [hu] at hx
      exact hx
  have hTn : Tidy (w.newThread).2 := {
    ready_states := fun x hx => hso x _ (hT.ready_states x hx)
    nodup := hT.nodup
    fresh := by
      intro x u hu
      show x < w.next_addr + 1
      simp only [World.newThread, hfind_append] at hu
      cases hx : hfind w.heap x with
      | none =>
        simp only [hx] at hu
        split at hu
        · omega
        · simp at hu
      | some u1 =>
        have := hT.fresh x u1 hx
        omega
    reap := fun q hq => hso q _ (hT.reap q hq) }
  have hkn : ∀ p, Asleep p w → Asleep p (w.newThread).2 := by
    rintro p ⟨u, hu, h1, h2⟩
    exact ⟨u, hold p u hu, h1, h2⟩
  have hrn : (w.newThread).2.stateOf w.running = some State.RUNNING := hso _ _ hrun
  cases ha : World.addNewThread M (w.newThread).2 (w.newThread).1 with
  | none => simp [ha] at h
  | some ra =>
    obtain ⟨res, w2⟩ := ra
    have hw12 : w1 = w2 := by
      simp only [ha] at h
      split at h
      · simp at h; exact h.2.symm
      · split at h
        · simp at h
        · simp at h; exact h.2.symm
    subst hw12
    simp only [World.addNewThread] at ha
    split at ha
    · simp at ha
      rw [← ha.2]
      exact ⟨hTn, hkn, rfl, hrn⟩
    · cases hf : hfind (w.newThread).2.heap (w.newThread).1 with
      | none => simp [hf] at ha
      | some t =>
        simp only [hf] at ha
        cases hsr : World.setReady { (w.newThread).2 with
            threads := minsert t.id (w.newThread).1 (w.newThread).2.threads }
            (w.newThread).1 with
        | none => simp [hsr] at ha
        | some w3 =>
          simp [hsr] at ha
          obtain ⟨_, rfl⟩ := ha
          have hp : (w.newThread).1 = w.next_addr := rfl
          have hT0 : Tidy { (w.newThread).2 with
              threads := minsert t.id (w.newThread).1 (w.newThread).2.threads } :=
            hTn.retable rfl (fun _ hx => hx) hTn.nodup rfl rfl
          have hnr : w.next_addr ∉ w.ready := by
            intro hin
            have h0 := hT.ready_states _ hin
            simp [World.stateOf, hnone] at h0
          have hrne : w.running ≠ w.next_addr := by
            intro he
            rw [he] at hrun
            simp [World.stateOf, hnone] at hrun
          obtain ⟨h1, h2, h3, h4⟩ := setReady_effect hT0 hsr hnr
            (fun u hu => by
              have hu : hfind (w.newThread).2.heap w.next_addr = some u := hu
              rw [hnew] at hu
              simp at hu
              rw [← hu]
              exact fun hc => State.noConfusion hc)
            (by
              rintro ⟨u, hu, h1, _⟩
              have hu : hfind (w.newThread).2.heap w.next_addr = some u := hu
              rw [hnew] at hu
              simp at hu
              rw [← hu] at h1
              rcases h1 with h1 | h1 <;> cases h1)
          refine ⟨h1, fun p ha => h2 p ((hkn p ha).retable_as rfl (fun _ hk => hk)), h4, ?_⟩
          have h5 : w3.stateOf w.running = some State.RUNNING := by
            rw [h3 w.running hrne]
            exact hrn
          have h6 : w3.running = w.running := h4
          rw [h6]
          exact h5

/-- The part of an event (other than `terminate`) before its call of
`runNextThread` keeps the scheduler tidy and keeps asleep threads asleep; the
caller of a `sleep` is asleep at that point. -/
theorem switchPoint_effect {w v : World} (op : Op) (hop : ∀ j, op ≠ Op.terminate j)
    (hT : Tidy w) (hrun : w.stateOf w.running = some State.RUNNING)
    (h : switchPoint w op = some v) :
    Tidy v ∧ (∀ p, Asleep p w → Asleep p v) ∧ (∀ m, op = Op.sleep m → Asleep w.running v) := by
  have hrr : w.running ∉ w.ready := hT.not_ready_of_state hrun (by decide)
  have hrs : ∀ t, hfind w.heap w.running = some t → t.state ≠ State.TERMINATED := by
    intro t ht
    have : t.state = State.RUNNING := by simpa [World.stateOf, ht] using hrun
    rw [this]
    decide
  have hra : ¬ Asleep w.running w := by
    intro ha
    rcases ha.state_ne hrun with h1 | h1 <;> cases h1
  cases op with
  | spawn => simp [switchPoint] at h
  | resume j => simp [switchPoint] at h
  | terminate j => exact absurd rfl (hop j)
  | timer =>
    simp only [switchPoint, World.timerEntry] at h
    cases hterm : w.terminated with
    | none =>
      simp only [hterm] at h
      obtain ⟨h1, h2, _, _⟩ := setReady_effect hT h hrr hrs hra
      exact ⟨h1, h2, fun m hm => by cases hm⟩
    | some q =>
      simp only [hterm] at h
      cases hd : w.deleteThread q with
      | none => simp [hd] at h
      | some wd =>
        simp only [hd] at h
        obtain ⟨d1, d2, d3, d4⟩ := reap_effect hT hrun hterm hd
        have hrun2 : World.stateOf { wd with terminated := none } wd.running
            = some State.RUNNING := d4
        obtain ⟨h1, h2, _, _⟩ := setReady_effect d1 h
          (d1.not_ready_of_state hrun2 (by decide))
          (fun t ht => by
            have : t.state = State.RUNNING := by simpa [World.stateOf, ht] using hrun2
            rw [this]
            decide)
          (fun ha => by rcases ha.state_ne hrun2 with h1 | h1 <;> cases h1)
        exact ⟨h1, fun p ha => h2 p (d2 p ha), fun m hm => by cases hm⟩
  | block j =>
    simp only [switchPoint] at h
    split at h
    · simp at h
    · cases hq : w.getThreadByID j with
      | none => simp [hq] at h
      | some p =>
        simp only [hq] at h
        cases hf : hfind w.heap p with
        | none => simp [hf] at h
        | some t =>
          simp only [hf] at h
          split at h
          · simp at h
          · rename_i hnt
            cases he : w.blockThreadEntry p with
            | none => simp [he] at h
            | some v1 =>
              simp only [he] at h
              split at h
              · rename_i hvr
                simp at h
                subst h
                obtain ⟨_, e2, e3, _, _, e6⟩ := blockThreadEntry_effect hT he
                  (fun u hu => by
                    rw [hf] at hu
                    simp at hu
                    rw [← hu]
                    exact hnt)
                have hpr : p = w.running := by rw [← hvr, e6]
                exact ⟨e2 (hpr ▸ hrr), e3, fun m hm => by cases hm⟩
              · simp at h
  | sleep n =>
    simp only [switchPoint] at h
    cases hf : hfind w.heap w.running with
    | none => simp [hf] at h
    | some t =>
      simp only [hf] at h
      split at h
      · simp at h
      · cases hse : w.sleepEntry n with
        | none => simp [hse] at h
        | some w2 =>
          simp only [hse] at h
          cases he : w2.blockThreadEntry w2.running with
          | none => simp [he] at h
          | some v1 =>
            simp only [he] at h
            split at h
            · simp at h
              subst h
              obtain ⟨s1, s2, s3, s4, s5, s6⟩ := sleepEntry_effect hT hrun hse
              obtain ⟨_, e2, e3, _, _, _⟩ := blockThreadEntry_effect s1 he
                (fun u hu => by
                  rw [s4] at hu
                  have : u.state = State.SLEEPING := by simpa [World.stateOf, hu] using s6
                  rw [this]
                  decide)
              have hnr : w2.running ∉ w2.ready := by
                rw [s4, s5]
                exact hrr
              exact ⟨e2 hnr, fun p ha => e3 p (s2 p ha), fun _ _ => e3 _ s3⟩
            · simp at h

/-- An event (other than `terminate`) that does not reach a call of
`runNextThread` keeps the scheduler orderly and keeps asleep threads asleep; a
`sleep` among these events is the refused call of the main thread. -/
theorem quiet_effect {w w1 : World} {r : Int} (M : Nat) (op : Op)
    (hop : ∀ j, op ≠ Op.terminate j)
    (hT : Tidy w) (hrun : w.stateOf w.running = some State.RUNNING)
    (hsp : switchPoint w op = none) (h : step M w op = some (r, w1)) :
    Tidy w1 ∧ (∀ p, Asleep p w → Asleep p w1) ∧
      w1.stateOf w1.running = some State.RUNNING ∧ (∀ m, op = Op.sleep m → r = -1) := by
  have hsame : w1 = w → Tidy w1 ∧ (∀ p, Asleep p w → Asleep p w1) ∧
      w1.stateOf w1.running = some State.RUNNING := by
    intro he
    rw [he]
    exact ⟨hT, fun _ ha => ha, hrun⟩
  cases op with
  | terminate j => exact absurd rfl (hop j)
  | spawn =>
    simp only [step] at h
    obtain ⟨h1, h2, _, h4⟩ := spawn_effect M hT hrun h
    exact ⟨h1, h2, h4, fun m hm => by cases hm⟩
  | resume j =>
    simp only [step, uthread_resume] at h
    cases hq : w.getThreadByID j with
    | none =>
      simp [hq] at h
      obtain ⟨a, b, c⟩ := hsame h.2.symm
      exact ⟨a, b, c, fun m hm => by cases hm⟩
    | some p =>
      simp only [hq] at h
      cases hf : hfind w.heap p with
      | none => simp [hf] at h
      | some t =>
        simp only [hf] at h
        split at h
        · simp at h
          obtain ⟨a, b, c⟩ := hsame h.2.symm
          exact ⟨a, b, c, fun m hm => by cases hm⟩
        · cases hu : w.unblockThread p with
          | none => simp [hu] at h
          | some w2 =>
            simp [hu] at h
            obtain ⟨_, rfl⟩ := h
            obtain ⟨h1, h2, _, h4⟩ := unblockThread_effect hT hrun hu
            exact ⟨h1, h2, h4, fun m hm => by cases hm⟩
  | block j =>
    simp only [switchPoint] at hsp
    simp only [step, uthread_block] at h
    split at h
    · simp at h
      obtain ⟨a, b, c⟩ := hsame h.2.symm
      exact ⟨a, b, c, fun m hm => by cases hm⟩
    · rename_i hj
      rw [if_neg hj] at hsp
      cases hq : w.getThreadByID j with
      | none =>
        simp [hq] at h
        obtain ⟨a, b, c⟩ := hsame h.2.symm
        exact ⟨a, b, c, fun m hm => by cases hm⟩
      | some p =>
        simp only [hq] at h hsp
        cases hf : hfind w.heap p with
        | none => simp [hf] at h
        | some t =>
          simp only [hf] at h hsp
          split at h
          · simp at h
            obtain ⟨a, b, c⟩ := hsame h.2.symm
            exact ⟨a, b, c, fun m hm => by cases hm⟩
          · rename_i hnt
            rw [if_neg hnt] at hsp
            rw [blockThread_eq] at h
            cases he : w.blockThreadEntry p with
            | none => simp [he] at h
            | some v =>
              simp only [he] at h hsp
              split at hsp
              · simp at hsp
              · rename_i hr
                rw [if_neg hr] at h
                simp at h
                obtain ⟨_, rfl⟩ := h
                obtain ⟨e1, _, e3, e4, _, e6⟩ := blockThreadEntry_effect hT he
                  (fun u hu => by
                    rw [hf] at hu
                    simp at hu
                    rw [← hu]
                    exact hnt)
                refine ⟨e1, fun q ha => (e3 q ha).retable_as rfl (fun _ hk => hk), ?_,
                  fun m hm => by cases hm⟩
                show v.stateOf v.running = some State.RUNNING
                rw [e4 v.running hr, e6]
                exact hrun
  | sleep n =>
    simp only [switchPoint] at hsp
    simp only [step, uthread_sleep] at h
    cases hf : hfind w.heap w.running with
    | none => simp [hf] at h
    | some t =>
      simp only [hf] at h hsp
      split at h
      · simp at h
        obtain ⟨a, b, c⟩ := hsame h.2.symm
        exact ⟨a, b, c, fun _ _ => h.1.symm⟩
      · rename_i hid
        rw [if_neg hid] at hsp
        rw [sleepCurrentThread_eq] at h
        cases hse : w.sleepEntry n with
        | none => simp [hse] at h
        | some w2 =>
          simp only [hse] at h hsp
          rw [blockThread_eq] at h
          cases he : w2.blockThreadEntry w2.running with
          | none => simp [he] at h
          | some v =>
            simp only [he] at h hsp
            obtain ⟨hq2, _⟩ := Quiet.of_blockThreadEntry he
            rw [if_pos hq2.running_eq] at hsp
            simp at hsp
  | timer =>
    simp only [switchPoint] at hsp
    simp [step, timerHandler_eq, hsp] at h

theorem sleep_result {w w1 : World} {r m : Int} {u : Thread} (M : Nat)
    (hu : hfind w.heap w.running = some u) (hid : u.id ≠ 0)
    (h : step M w (Op.sleep m) = some (r, w1)) : r = 0 := by
  simp only [step, uthread_sleep, hu, if_neg hid] at h
  cases hs : w.sleepCurrentThread m with
  | none => simp [hs] at h
  | some w2 =>
    simp [hs] at h
    exact h.1.symm

/-- One event, other than `terminate` and other than a `sleep` whose wake-up
time is 0, from an orderly state whose wake clock is stuck: the state stays
orderly, the clock stays stuck, the test that starts the wake scan fails,
asleep threads stay asleep and a non-main caller of `sleep` is asleep
afterwards. -/
theorem stuck_step {w w1 : World} {r : Int} (M : Nat) (op : Op)
    (hop : ∀ j, op ≠ Op.terminate j)
    (hz : ∀ m, op = Op.sleep m → wrapInt (w.total_quantum_counter + m) ≠ 0)
    (hT : Tidy w) (hrun : w.stateOf w.running = some State.RUNNING) (hsc : StuckClock w)
    (h : step M w op = some (r, w1)) :
    Tidy w1 ∧ w1.stateOf w1.running = some State.RUNNING ∧ StuckClock w1 ∧
      (∀ p, Asleep p w → Asleep p w1) ∧
      (∀ v, switchPoint w op = some v → v.total_quantum_counter + 1 ≠ v.next_sleep_check) ∧
      (∀ m, op = Op.sleep m → (∃ u, hfind w.heap w.running = some u ∧ u.id ≠ 0) →
        Asleep w.running w1) := by
  cases hsp : switchPoint w op with
  | none =>
    obtain ⟨h1, h2, h3, h4⟩ := quiet_effect M op hop hT hrun hsp h
    refine ⟨h1, h3, hsc.calm_sc (step_calm M op hsp h), h2, (fun v hv => (by cases hv)), ?_⟩
    rintro m hm ⟨u, hu, hid⟩
    subst hm
    have h0 := sleep_result M hu hid h
    have h5 := h4 m rfl
    omega
  | some v =>
    obtain ⟨e1, e2, e3⟩ := switchPoint_effect op hop hT hrun hsp
    have hscv : StuckClock v := by
      rcases switchPoint_tables op hsp with hc | ⟨n, hn, hs⟩
      · exact hsc.calm_sc hc
      · exact hsc.sleepPre_sc hs (hz n hn)
    rw [step_at_switchPoint M w op v hsp] at h
    cases hr : v.runNextThread with
    | none => simp [hr] at h
    | some w2 =>
      simp [hr] at h
      obtain ⟨_, rfl⟩ := h
      obtain ⟨hsc2, hd, rest, th, hready, hh, rfl⟩ := hscv.switch_sc hr
      obtain ⟨s1, s2, s3⟩ := switchTo_effect e1 hd th rest hready hh
      refine ⟨s1, s2, hsc2, fun p ha => s3 p (e2 p ha), ?_, fun m hm _ => s3 _ (e3 m hm)⟩
      intro v1 hv1
      simp at hv1
      subst hv1
      have := hscv.2
      omega

/-- An execution without `terminate` and without a `sleep` whose wake-up time
is 0, from an orderly state whose wake clock is stuck. -/
theorem stuck_trace (M : Nat) (ops : List Op) :
    ∀ (w : World) (ws : List World),
      Tidy w → w.stateOf w.running = some State.RUNNING → StuckClock w →
      trace M ops w = some ws →
      (∀ op ∈ ops, ∀ j, op ≠ Op.terminate j) →
      (∀ e ∈ List.zip (w :: ws) ops, ∀ m, e.2 = Op.sleep m →
        wrapInt (e.1.total_quantum_counter + m) ≠ 0) →
      (∀ e ∈ List.zip (w :: ws) ops, ∀ v, switchPoint e.1 e.2 = some v →
        v.total_quantum_counter + 1 ≠ v.next_sleep_check) ∧
      List.Pairwise (fun a b => ∀ p, Parked p a → Parked p b) (w :: ws) ∧
      (∀ e ∈ List.zip (List.zip (w :: ws) ops) ws, ∀ m, e.1.2 = Op.sleep m →
        (∃ u, hfind e.1.1.heap e.1.1.running = some u ∧ u.id ≠ 0) →
        Parked e.1.1.running e.2) := by
  induction ops with
  | nil =>
    intro w ws _ _ _ h _ _
    simp [trace] at h
    subst h
    simp
  | cons op ops ih =>
    intro w ws hT hrun hsc h hop hz
    obtain ⟨r, w1, ws1, hs, ht, rfl⟩ := trace_cons M op ops w ws h
    obtain ⟨s1, s2, s3, s4, s5, s6⟩ := stuck_step M op (hop op (by simp))
      (fun m hm => hz (w, op) (by simp) m hm) hT hrun hsc hs
    obtain ⟨i1, i2, i3⟩ := ih w1 ws1 s1 s2 s3 ht (fun o ho => hop o (by simp [ho]))
      (fun e he => hz e (by simp [he]))
    have hstep : ∀ p, Parked p w → Parked p w1 := fun p hp => (s4 p hp.1).parked s1 s2
    refine ⟨?_, ?_, ?_⟩
    · intro e he
      simp only [List.zip_cons_cons, List.mem_cons] at he
      rcases he with he | he
      · rw [he]
        exact s5
      · exact i1 e he
    · rw [List.pairwise_cons]
      refine ⟨?_, i2⟩
      intro b hb p hp
      simp only [List.mem_cons] at hb
      rcases hb with hb | hb
      · rw [hb]
        exact hstep p hp
      · exact (List.pairwise_cons.1 i2).1 b hb p (hstep p hp)
    · intro e he
      simp only [List.zip_cons_cons, List.mem_cons] at he
      rcases he with he | he
      · rw [he]
        intro m hm hu
        exact (s6 m hm hu).parked s1 s2
      · exact i3 e he

theorem sleep_switchPoint (w : World) (t : Thread) (n : Int)
    (hX : hfind w.heap w.running = some t) (hmain : t.id ≠ 0) :
    ∃ v, switchPoint w (Op.sleep n) = some v ∧ v.ready = w.ready ∧
      v.quant_len = w.quant_len := by
  have hfr : hfind (hset w.heap w.running { t with state := State.SLEEPING }) w.running
      = some { t with state := State.SLEEPING } := by
    rw [hfind_hset, if_pos rfl, hX]
    rfl
  by_cases hb : (mfind w.blocked t.id).isSome
  · simp [switchPoint, hX, hmain, sleepEntry_eq, World.blockThreadEntry, hfr, hb,
      World.setState]
  · simp [switchPoint, hX, hmain, sleepEntry_eq, World.blockThreadEntry, hfr, hb,
      World.setState]

/-- C22 (counterexample): with main and threads 1, 2, 3, thread 1 calls
`sleep 0` at counter 2 with `next_sleep_check = 0`; the call is accepted and
`next_sleep_check` becomes 2.  The continuation `sleep (-3)` (thread 2, at
counter 3) computes the wake-up time 0 and stores it in `next_sleep_check`,
which reads as "nothing pending"; `sleep 1` (thread 3, at counter 4) then sets
`next_sleep_check` to 5, the switch that follows brings the counter to 5, the
wake scan runs and thread 3, which slept later, is READY in the ready queue. -/
theorem zero_deadline_restarts_waking :
    Orderly (worldAfter [Op.spawn, Op.spawn, Op.spawn, Op.timer]) ∧
    ((worldAfter [Op.spawn, Op.spawn, Op.spawn, Op.timer]).running,
      (worldAfter [Op.spawn, Op.spawn, Op.spawn, Op.timer]).total_quantum_counter,
      (worldAfter [Op.spawn, Op.spawn, Op.spawn, Op.timer]).next_sleep_check) = (1, 2, 0) ∧
    step 100 (worldAfter [Op.spawn, Op.spawn, Op.spawn, Op.timer]) (Op.sleep 0)
      = some (0, worldAfter [Op.spawn, Op.spawn, Op.spawn, Op.timer, Op.sleep 0]) ∧
    (worldAfter [Op.spawn, Op.spawn, Op.spawn, Op.timer, Op.sleep 0]).next_sleep_check = 2 ∧
    trace 100 [Op.sleep (-3), Op.sleep 1]
        (worldAfter [Op.spawn, Op.spawn, Op.spawn, Op.timer, Op.sleep 0])
      = some [worldAfter [Op.spawn, Op.spawn, Op.spawn, Op.timer, Op.sleep 0, Op.sleep (-3)],
          worldAfter [Op.spawn, Op.spawn, Op.spawn, Op.timer, Op.sleep 0, Op.sleep (-3),
            Op.sleep 1]] ∧
    (switchPoint
        (worldAfter [Op.spawn, Op.spawn, Op.spawn, Op.timer, Op.sleep 0, Op.sleep (-3)])
        (Op.sleep 1)).map (fun v => (v.total_quantum_counter + 1, v.next_sleep_check))
      = some (5, 5) ∧
    (worldAfter [Op.spawn, Op.spawn, Op.spawn, Op.timer, Op.sleep 0, Op.sleep (-3),
      Op.sleep 1]).ready = [3] ∧
    (worldAfter [Op.spawn, Op.spawn, Op.spawn, Op.timer, Op.sleep 0, Op.sleep (-3),
      Op.sleep 1]).stateOf 3 = some State.READY :=
  ⟨by decide, by decide, by decide, by decide, by decide, by decide, by decide, by decide⟩

/-- C22 (amended): in an orderly state with a non-empty ready queue, a
non-main running thread calls `sleep n` with `n ≤ 0` at counter `T`, with
`1 ≤ T + n` and `next_sleep_check` 0 or above `T`.  The call is accepted
(result 0), `next_sleep_check` becomes `T + n` and the caller is parked:
asleep with an entry in the sleeping map, not running and not in the ready
queue.  In every continuation made of timer expiries, `block`, `resume`,
`spawn` and `sleep` calls in which no `sleep` computes the wake-up time 0
(which would reset `next_sleep_check` to 0), the test
`total_quantum_counter == next_sleep_check` that starts the wake scan fails at
every switch; a thread parked in some state of the continuation, the first
caller included, is parked in every later state; and every non-main caller of
a later `sleep` is parked once its call returns. -/
theorem nonpositive_sleep_stops_waking (M : Nat) (w : World) (t : Thread) (n : Int)
    (h : Nat) (rest : List Nat)
    (hord : Orderly w)
    (hX : hfind w.heap w.running = some t) (hmain : t.id ≠ 0)
    (hready : w.ready = h :: rest)
    (hn : n ≤ 0) (hT : 1 ≤ w.total_quantum_counter + n)
    (hchk : w.next_sleep_check = 0 ∨ w.total_quantum_counter < w.next_sleep_check)
    (hq : ¬ timerRejects w.quant_len) (hint : w.total_quantum_counter ≤ 2147483647) :
    ∃ w1, step M w (Op.sleep n) = some (0, w1) ∧
      w1.next_sleep_check = w.total_quantum_counter + n ∧
      Parked w.running w1 ∧
      ∀ ops ws, trace M ops w1 = some ws →
        (∀ op ∈ ops, ∀ j, op ≠ Op.terminate j) →
        (∀ e ∈ List.zip (w1 :: ws) ops, ∀ m, e.2 = Op.sleep m →
          wrapInt (e.1.total_quantum_counter + m) ≠ 0) →
        (∀ e ∈ List.zip (w1 :: ws) ops, ∀ v, switchPoint e.1 e.2 = some v →
          v.total_quantum_counter + 1 ≠ v.next_sleep_check) ∧
        List.Pairwise (fun a b => ∀ p, Parked p a → Parked p b) (w1 :: ws) ∧
        (∀ e ∈ List.zip (List.zip (w1 :: ws) ops) ws, ∀ m, e.1.2 = Op.sleep m →
          (∃ u, hfind e.1.1.heap e.1.1.running = some u ∧ u.id ≠ 0) →
          Parked e.1.1.running e.2) := by
  have hT0 := hord.tidy
  have hrun : w.stateOf w.running = some State.RUNNING := hord.1
  obtain ⟨v, hv, hvr, hquant⟩ := sleep_switchPoint w t n hX hmain
  obtain ⟨e1, _, e3⟩ := switchPoint_effect (Op.sleep n) (fun j hj => by cases hj) hT0 hrun hv
  have hpre := SleepPre.of_switchPoint hv
  have hvt : v.total_quantum_counter = w.total_quantum_counter := hpre.total_eq
  have hwrap : wrapInt (w.total_quantum_counter + n) = w.total_quantum_counter + n :=
    wrapInt_of_range (by omega) (by omega)
  have hvc : v.next_sleep_check = w.total_quantum_counter + n := by
    rw [hpre.check_eq, hwrap, if_pos]
    rcases hchk with hc | hc
    · exact Or.inl hc
    · exact Or.inr (by omega)
  have hvready : v.ready = h :: rest := by rw [hvr, hready]
  obtain ⟨th, hth⟩ : ∃ th, hfind v.heap h = some th := by
    have h0 := e1.ready_states h (by simp [hvready])
    cases hf : hfind v.heap h with
    | none => simp [World.stateOf, hf] at h0
    | some th => exact ⟨th, rfl⟩
  have hvq : ¬ timerRejects v.quant_len := by
    rw [hquant]
    exact hq
  have hnext : v.runNextThread = some (v.switchTo h th rest) := by
    rw [runNextThread_eq v h rest th hvready hth hvq, if_neg]
    omega
  obtain ⟨s1, s2, s3⟩ := switchTo_effect e1 h th rest hvready hth
  have hsc : StuckClock (v.switchTo h th rest) := by
    refine ⟨?_, ?_⟩
    · show v.next_sleep_check ≠ 0
      omega
    · show v.next_sleep_check ≤ v.total_quantum_counter + 1
      omega
  refine ⟨v.switchTo h th rest, ?_, hvc, (s3 _ (e3 n rfl)).parked s1 s2, ?_⟩
  · rw [step_at_switchPoint M w (Op.sleep n) v hv, hnext]
    rfl
  · intro ops ws htr hop hz
    exact stuck_trace M ops (v.switchTo h th rest) ws s1 s2 hsc htr hop hz

/-- C22 (witness): thread 1 runs at counter 2 with thread 2 and main ready and
`next_sleep_check = 0`, and calls `sleep (-1)`. -/
theorem nonpositive_sleep_stops_waking_witness :
    Orderly (worldAfter [Op.spawn, Op.spawn, Op.timer]) ∧
    hfind (worldAfter [Op.spawn, Op.spawn, Op.timer]).heap
        (worldAfter [Op.spawn, Op.spawn, Op.timer]).running
      = some { id := 1, state := State.RUNNING, total_run_time := 1 } ∧
    (1 : Int) ≠ 0 ∧
    (worldAfter [Op.spawn, Op.spawn, Op.timer]).ready = [2, 0] ∧
    (-1 : Int) ≤ 0 ∧
    1 ≤ (worldAfter [Op.spawn, Op.spawn, Op.timer]).total_quantum_counter + (-1) ∧
    ((worldAfter [Op.spawn, Op.spawn, Op.timer]).next_sleep_check = 0 ∨
      (worldAfter [Op.spawn, Op.spawn, Op.timer]).total_quantum_counter
        < (worldAfter [Op.spawn, Op.spawn, Op.timer]).next_sleep_check) ∧
    ¬ timerRejects (worldAfter [Op.spawn, Op.spawn, Op.timer]).quant_len ∧
    (worldAfter [Op.spawn, Op.spawn, Op.timer]).total_quantum_counter ≤ 2147483647 ∧
    ∃ w1, step 100 (worldAfter [Op.spawn, Op.spawn, Op.timer]) (Op.sleep (-1)) = some (0, w1) ∧
      w1.next_sleep_check = (worldAfter [Op.spawn, Op.spawn, Op.timer]).total_quantum_counter
        + (-1) ∧
      Parked (worldAfter [Op.spawn, Op.spawn, Op.timer]).running w1 ∧
      ∀ ops ws, trace 100 ops w1 = some ws →
        (∀ op ∈ ops, ∀ j, op ≠ Op.terminate j) →
        (∀ e ∈ List.zip (w1 :: ws) ops, ∀ m, e.2 = Op.sleep m →
          wrapInt (e.1.total_quantum_counter + m) ≠ 0) →
        (∀ e ∈ List.zip (w1 :: ws) ops, ∀ v, switchPoint e.1 e.2 = some v →
          v.total_quantum_counter + 1 ≠ v.next_sleep_check) ∧
        List.Pairwise (fun a b => ∀ p, Parked p a → Parked p b) (w1 :: ws) ∧
        (∀ e ∈ List.zip (List.zip (w1 :: ws) ops) ws, ∀ m, e.1.2 = Op.sleep m →
          (∃ u, hfind e.1.1.heap e.1.1.running = some u ∧ u.id ≠ 0) →
          Parked e.1.1.running e.2) :=
  ⟨by decide, by decide, by decide, by decide, by decide, by decide, by decide,
    by decide, by decide,
    nonpositive_sleep_stops_waking 100 (worldAfter [Op.spawn, Op.spawn, Op.timer])
      { id := 1, state := State.RUNNING, total_run_time := 1 } (-1) 2 [0]
      (by decide) (by decide) (by decide) (by decide) (by decide) (by decide) (by decide)
      (by decide) (by decide)⟩

/-! ### The sleeping map in executions without `terminate` -/

theorem Matched.restate_m {w v : World} (hm : Matched w) (q : Nat) (t r : Thread)
    (ht : hfind w.heap q = some t) (hr : r.id = t.id)
    (hs : (mfind w.sleeping t.id).isSome → r.state = State.SLEEPING ∨ r.state = State.BLOCKED)
    (hheap : v.heap = hset w.heap q r)
    (hsl : v.sleeping = w.sleeping) (hmk : v.threadIdMaker = w.threadIdMaker)
    (hterm : v.terminated = w.terminated) : Matched v := by
  have hid : ∀ x u, hfind v.heap x = some u →
      ∃ u0, hfind w.heap x = some u0 ∧ u.id = u0.id ∧ (x ≠ q → u = u0) ∧ (x = q → u = r) := by
    intro x u hu
    rw [hheap, hfind_hset] at hu
    by_cases hx : x = q
    · rw [if_pos hx, ht] at hu
      simp at hu
      subst hx
      exact ⟨t, ht, by rw [← hu, hr], fun h => absurd rfl h, fun _ => hu.symm⟩
    · rw [if_neg hx] at hu
      exact ⟨u, hu, rfl, fun _ => rfl, fun h => absurd h hx⟩
  exact {
    ids_le := by
      intro p u hu
      obtain ⟨u0, h0, e, _, _⟩ := hid p u hu
      rw [hmk, e]
      exact hm.ids_le p u0 h0
    ids_inj := by
      intro p p2 u u2 hu hu2 he
      obtain ⟨u0, h0, e, _, _⟩ := hid p u hu
      obtain ⟨u3, h3, e3, _, _⟩ := hid p2 u2 hu2
      exact hm.ids_inj p p2 u0 u3 h0 h3 (by rw [← e, ← e3, he])
    no_free := by rw [hmk]; exact hm.no_free
    no_reap := by rw [hterm]; exact hm.no_reap
    entries := by
      intro p u hu hen
      rw [hsl] at hen
      obtain ⟨u0, h0, e, e1, e2⟩ := hid p u hu
      by_cases hp : p = q
      · rw [e2 hp]
        apply hs
        subst hp
        rw [ht] at h0
        simp at h0
        rw [h0, ← e]
        exact hen
      · rw [e1 hp]
        rw [e] at hen
        exact hm.entries p u0 h0 hen
    keys_le := by
      intro e he
      rw [hsl] at he
      rw [hmk]
      exact hm.keys_le e he }

theorem Matched.retable_m {w v : World} (hm : Matched w) (hheap : v.heap = w.heap)
    (hsl : ∀ e ∈ v.sleeping, e ∈ w.sleeping) (hmk : v.threadIdMaker = w.threadIdMaker)
    (hterm : v.terminated = w.terminated) : Matched v where
  ids_le := by
    intro p u hu
    rw [hheap] at hu
    rw [hmk]
    exact hm.ids_le p u hu
  ids_inj := by
    intro p p2 u u2 hu hu2 he
    rw [hheap] at hu hu2
    exact hm.ids_inj p p2 u u2 hu hu2 he
  no_free := by rw [hmk]; exact hm.no_free
  no_reap := by rw [hterm]; exact hm.no_reap
  entries := by
    intro p u hu hen
    rw [hheap] at hu
    apply hm.entries p u hu
    cases hf : mfind v.sleeping u.id with
    | none => simp [hf] at hen
    | some d => exact mfind_isSome_of_mem w.sleeping (u.id, d) (hsl _ (mfind_mem _ _ _ hf))
  keys_le := by
    intro e he
    rw [hmk]
    exact hm.keys_le e (hsl e he)

theorem Matched.no_entry {w : World} (hm : Matched w) {p : Nat} {t : Thread}
    (ht : hfind w.heap p = some t) (hs : t.state ≠ State.SLEEPING ∧ t.state ≠ State.BLOCKED) :
    mfind w.sleeping t.id = none := by
  cases hf : mfind w.sleeping t.id with
  | none => rfl
  | some d =>
    rcases hm.entries p t ht (by simp [hf]) with h | h
    · exact absurd h hs.1
    · exact absurd h hs.2

theorem setReady_matched {w v : World} {q : Nat} (hm : Matched w) (h : w.setReady q = some v)
    (hn : ∀ t, hfind w.heap q = some t → mfind w.sleeping t.id = none) :
    Matched v ∧ v.sleeping = w.sleeping := by
  obtain ⟨t, ht, rfl⟩ := setReady_spec h
  refine ⟨?_, rfl⟩
  refine hm.restate_m q t { t with state := State.READY } ht rfl ?_ rfl rfl rfl rfl
  intro hs
  rw [hn t ht] at hs
  simp at hs

theorem blockThreadEntry_matched {w v : World} {p : Nat} (hm : Matched w)
    (h : w.blockThreadEntry p = some v) : Matched v ∧ v.sleeping = w.sleeping := by
  obtain ⟨t, s, ht, hst, rfl⟩ := blockThreadEntry_spec h
  refine ⟨?_, rfl⟩
  refine hm.restate_m p t { t with state := s } ht rfl ?_ rfl rfl rfl rfl
  intro _
  rcases hst with h1 | ⟨h1, _⟩
  · exact Or.inr h1
  · exact Or.inl h1

theorem unblockThread_matched {w v : World} {q : Nat} (hm : Matched w)
    (h : w.unblockThread q = some v) : Matched v := by
  simp only [World.unblockThread] at h
  cases ht : hfind w.heap q with
  | none => simp [ht] at h
  | some t =>
    simp only [ht] at h
    split at h
    · simp at h
      subst h
      exact hm
    · split at h
      · obtain ⟨t1, ht1, rfl⟩ := setState_spec h
        exact hm.restate_m q t1 { t1 with state := State.SLEEPING } ht1 rfl
          (fun _ => Or.inl rfl) rfl rfl rfl rfl
      · rename_i hns
        have h0 : Matched { w with blocked := merase w.blocked t.id } :=
          hm.retable_m rfl (fun _ he => he) rfl rfl
        refine (setReady_matched h0 h ?_).1
        intro u hu
        have hu : hfind w.heap q = some u := hu
        rw [ht] at hu
        simp at hu
        subst hu
        cases hf : mfind w.sleeping t.id with
        | none => rfl
        | some d => exact absurd (by simp [hf]) hns

theorem sleepEntry_matched {w w2 : World} {n : Int} (hm : Matched w)
    (hrun : w.stateOf w.running = some State.RUNNING) (h : w.sleepEntry n = some w2) :
    Matched w2 ∧ ∃ t, hfind w.heap w.running = some t ∧ mfind w.sleeping t.id = none ∧
      w2.sleeping = minsert t.id (wrapInt (w.total_quantum_counter + n)) w.sleeping := by
  rw [sleepEntry_eq] at h
  cases ht : hfind w.heap w.running with
  | none => simp [ht] at h
  | some t =>
    simp [ht] at h
    subst h
    have hts : t.state = State.RUNNING := by
      simpa [World.stateOf, ht] using hrun
    have hnone : mfind w.sleeping t.id = none :=
      hm.no_entry ht (by rw [hts]; exact ⟨by decide, by decide⟩)
    refine ⟨?_, t, rfl, hnone, rfl⟩
    have hid : ∀ x u, hfind (hset w.heap w.running { t with state := State.SLEEPING }) x = some u →
        ∃ u0, hfind w.heap x = some u0 ∧ u.id = u0.id ∧ (x ≠ w.running → u = u0) ∧
          (x = w.running → u.state = State.SLEEPING) := by
      intro x u hu
      rw [hfind_hset] at hu
      by_cases hx : x = w.running
      · rw [if_pos hx, ht] at hu
        simp at hu
        rw [hx]
        exact ⟨t, ht, by rw [← hu], fun h => absurd rfl h, fun _ => by rw [← hu]⟩
      · rw [if_neg hx] at hu
        exact ⟨u, hu, rfl, fun _ => rfl, fun h => absurd h hx⟩
    exact {
      ids_le := by
        intro p u hu
        obtain ⟨u0, h0, e, _, _⟩ := hid p u hu
        rw [e]
        exact hm.ids_le p u0 h0
      ids_inj := by
        intro p p2 u u2 hu hu2 he
        obtain ⟨u0, h0, e, _, _⟩ := hid p u hu
        obtain ⟨u3, h3, e3, _, _⟩ := hid p2 u2 hu2
        exact hm.ids_inj p p2 u0 u3 h0 h3 (by rw [← e, ← e3, he])
      no_free := hm.no_free
      no_reap := hm.no_reap
      entries := by
        intro p u hu hen
        obtain ⟨u0, h0, e, e1, e2⟩ := hid p u hu
        by_cases hp : p = w.running
        · exact Or.inl (e2 hp)
        · rw [e1 hp]
          apply hm.entries p u0 h0
          have hen : (mfind (minsert t.id (wrapInt (w.total_quantum_counter + n)) w.sleeping) u.id).isSome
            := hen
          rw [mfind_minsert] at hen
          have hne : u.id ≠ t.id := by
            intro hid2
            apply hp
            exact hm.ids_inj p w.running u0 t h0 ht (by rw [← e, hid2])
          rw [if_neg hne, e] at hen
          exact hen
      keys_le := by
        intro e he
        rcases mem_minsert _ _ _ _ he with h1 | h1
        · rw [h1]
          exact hm.ids_le _ t ht
        · exact hm.keys_le e h1 }

theorem spawn_matched {w w1 : World} {r : Int} (M : Nat) (hT : Tidy w) (hm : Matched w)
    (h : uthread_spawn M true w = some (r, w1)) : Matched w1 ∧ w1.sleeping = w.sleeping := by
  simp only [uthread_spawn] at h
  simp only [Bool.true_eq_false, if_false] at h
  have hnone : hfind w.heap w.next_addr = none := by
    cases hf : hfind w.heap w.next_addr with
    | none => rfl
    | some t =>
      have := hT.fresh _ t hf
      omega
  have hmk : w.threadIdMaker.getNewID
      = (w.threadIdMaker.last_id + 1,
          { w.threadIdMaker with last_id := w.threadIdMaker.last_id + 1 }) := by
    simp [Thread_ID_Maker.getNewID, hm.no_free]
  have hcase : ∀ x u, hfind (w.newThread).2.heap x = some u →
      hfind w.heap x = some u ∨
      (x = w.next_addr ∧ u.id = w.threadIdMaker.last_id + 1 ∧ u.state = State.READY) := by
    intro x u hu
    simp only [World.newThread, hfind_append, hmk] at hu
    cases hx : hfind w.heap x with
    | none =>
      simp only [hx] at hu
      split at hu
      · rename_i hxa
        simp at hu
        exact Or.inr ⟨hxa.symm, by rw [← hu], by rw [← hu]⟩
      · simp at hu
    | some u1 =>
      simp only [hx] at hu
      exact Or.inl hu
  have hlast : (w.newThread).2.threadIdMaker.last_id = w.threadIdMaker.last_id + 1 := by
    simp [World.newThread, hmk]
  have hMn : Matched (w.newThread).2 := {
    ids_le := by
      intro p u hu
      rw [hlast]
      rcases hcase p u hu with h1 | ⟨_, h1, _⟩
      · have := hm.ids_le p u h1
        omega
      · omega
    ids_inj := by
      intro p q u u2 hu hu2 he
      rcases hcase p u hu with h1 | ⟨h1, h1i, _⟩ <;>
        rcases hcase q u2 hu2 with h2 | ⟨h2, h2i, _⟩
      · exact hm.ids_inj p q u u2 h1 h2 he
      · have := hm.ids_le p u h1
        omega
      · have := hm.ids_le q u2 h2
        omega
      · rw [h1, h2]
    no_free := by simp [World.newThread, hmk, hm.no_free]
    no_reap := hm.no_reap
    entries := by
      intro p u hu hen
      have hen : (mfind w.sleeping u.id).isSome := hen
      rcases hcase p u hu with h1 | ⟨_, h1, _⟩
      · exact hm.entries p u h1 hen
      · cases hf : mfind w.sleeping u.id with
        | none => simp [hf] at hen
        | some d =>
          have := hm.keys_le (u.id, d) (mfind_mem _ _ _ hf)
          simp only [] at this
          omega
    keys_le := by
      intro e he
      rw [hlast]
      have := hm.keys_le e he
      omega }
  cases ha : World.addNewThread M (w.newThread).2 (w.newThread).1 with
  | none => simp [ha] at h
  | some ra =>
    obtain ⟨res, w2⟩ := ra
    have hw12 : w1 = w2 := by
      simp only [ha] at h
      split at h
      · simp at h; exact h.2.symm
      · split at h
        · simp at h
        · simp at h; exact h.2.symm
    subst hw12
    simp only [World.addNewThread] at ha
    split at ha
    · simp at ha
      rw [← ha.2]
      exact ⟨hMn, rfl⟩
    · cases hf : hfind (w.newThread).2.heap (w.newThread).1 with
      | none => simp [hf] at ha
      | some t =>
        simp only [hf] at ha
        cases hsr : World.setReady { (w.newThread).2 with
            threads := minsert t.id (w.newThread).1 (w.newThread).2.threads }
            (w.newThread).1 with
        | none => simp [hsr] at ha
        | some w3 =>
          simp [hsr] at ha
          obtain ⟨_, rfl⟩ := ha
          have hM0 : Matched { (w.newThread).2 with
              threads := minsert t.id (w.newThread).1 (w.newThread).2.threads } :=
            hMn.retable_m rfl (fun _ he => he) rfl rfl
          obtain ⟨h1, h2⟩ := setReady_matched hM0 hsr (by
            intro u hu
            have hu : hfind (w.newThread).2.heap w.next_addr = some u := hu
            rcases hcase _ u hu with h3 | ⟨_, h3, _⟩
            · rw [hnone] at h3
              simp at h3
            · show mfind w.sleeping u.id = none
              rw [mfind_none_iff]
              intro e he hek
              have := hm.keys_le e he
              omega)
          exact ⟨h1, h2⟩

theorem handleSleepingLoop_effect (l : List (Int × Int)) :
    ∀ (nc : Int) (w : World) (nc1 : Int) (w1 : World),
      World.handleSleepingLoop l nc w = some (nc1, w1) →
      Tidy w → w.stateOf w.running = some State.RUNNING → Matched w →
      Tidy w1 ∧ w1.stateOf w1.running = some State.RUNNING ∧ Matched w1 := by
  induction l with
  | nil =>
    intro nc w nc1 w1 h hT hrun hm
    simp [World.handleSleepingLoop] at h
    rw [← h.2]
    exact ⟨hT, hrun, hm⟩
  | cons e l ih =>
    intro nc w nc1 w1 h hT hrun hm
    obtain ⟨id, dd⟩ := e
    simp only [World.handleSleepingLoop] at h
    have hT1 : Tidy { w with sleeping := merase w.sleeping id } :=
      hT.retable rfl (fun _ hx => hx) hT.nodup rfl rfl
    have hm1 : Matched { w with sleeping := merase w.sleeping id } :=
      hm.retable_m rfl (fun e he => ((mem_merase _ _ _).1 he).1) rfl rfl
    split at h
    · cases hb : mfind w.blocked id with
      | none => simp [hb] at h
      | some p =>
        simp only [hb] at h
        cases hp : hfind w.heap p with
        | none => simp [hp] at h
        | some t =>
          simp only [hp] at h
          split at h
          · rename_i hst
            cases h2 : World.setState { w with sleeping := merase w.sleeping id } p
                State.BLOCKED with
            | none => simp [h2] at h
            | some w2 =>
              simp only [h2] at h
              cases h3 : w2.unblockThread p with
              | none => simp [h3] at h
              | some w3 =>
                simp only [h3] at h
                obtain ⟨t1, ht1, hw2⟩ := setState_spec h2
                have ht1 : hfind w.heap p = some t1 := ht1
                rw [hp] at ht1
                simp at ht1
                subst ht1
                have eheap : w2.heap = hset w.heap p { t with state := State.BLOCKED } := by
                  rw [hw2]
                have eready : w2.ready = w.ready := by rw [hw2]
                have erun : w2.running = w.running := by rw [hw2]
                have hsp : w.stateOf p = some State.SLEEPING := by
                  simp [World.stateOf, hp, hst]
                have hpr : w.running ≠ p := by
                  intro he
                  rw [he, hsp] at hrun
                  simp at hrun
                have hT2 : Tidy w2 := by
                  refine hT1.restate p t State.BLOCKED hp (by rw [hst]; decide) eheap ?_
                    (by rw [eready]; exact hT.nodup) (by rw [hw2]) (by rw [hw2])
                  intro x hx
                  rw [eready] at hx
                  refine Or.inl ⟨hx, fun he => ?_⟩
                  exact hT.not_ready_of_state hsp (by decide) (he ▸ hx)
                have hrun2 : w2.stateOf w2.running = some State.RUNNING := by
                  rw [erun, stateOf_restate p _ w.running eheap hpr]
                  exact hrun
                have hm2 : Matched w2 :=
                  hm1.restate_m p t { t with state := State.BLOCKED } hp rfl
                    (fun _ => Or.inr rfl) eheap (by rw [hw2]) (by rw [hw2]) (by rw [hw2])
                obtain ⟨u1, _, _, u4⟩ := unblockThread_effect hT2 hrun2 h3
                exact ih nc w3 nc1 w1 h u1 u4 (unblockThread_matched hm2 h3)
          · exact ih nc _ nc1 w1 h hT1 hrun hm1
    · exact ih _ w nc1 w1 h hT hrun hm

/-- A switch keeps the scheduler orderly and the sleeping map matched, whether
or not the wake scan runs. -/
theorem switch_matched {v w1 : World} (hT : Tidy v) (hm : Matched v)
    (hr : v.runNextThread = some w1) :
    Tidy w1 ∧ w1.stateOf w1.running = some State.RUNNING ∧ Matched w1 := by
  obtain ⟨hd, rest, th, woken, hready, hh, _, _, hne, heq, _⟩ := runNextThread_woke v w1 hr
  obtain ⟨s1, s2, _⟩ := switchTo_effect hT hd th rest hready hh
  have hths : th.state = State.READY := by
    have := hT.ready_states hd (by simp [hready])
    simpa [World.stateOf, hh] using this
  have hms : Matched (v.switchTo hd th rest) := by
    refine hm.restate_m hd th
      { th with state := State.RUNNING, total_run_time := th.total_run_time + 1 } hh rfl
      ?_ rfl rfl rfl rfl
    intro hs
    rw [hm.no_entry hh (by rw [hths]; exact ⟨by decide, by decide⟩)] at hs
    simp at hs
  by_cases hc : v.total_quantum_counter + 1 = v.next_sleep_check
  · obtain ⟨nc1, w2, hl, rfl⟩ := handleSleeping_loop _ _ (heq hc)
    obtain ⟨a, b, c⟩ := handleSleepingLoop_effect _ _ _ _ _ hl s1 s2 hms
    exact ⟨⟨a.ready_states, a.nodup, a.fresh, a.reap⟩, b,
      ⟨c.ids_le, c.ids_inj, c.no_free, c.no_reap, c.entries, c.keys_le⟩⟩
  · rw [hne hc]
    exact ⟨s1, s2, hms⟩

/-- The part of an event (other than `terminate`) before its call of
`runNextThread` keeps the sleeping map matched; it leaves the map as it was,
except that a `sleep` inserts the caller's deadline under a key that was not
there. -/
theorem switchPoint_matched {w v : World} (op : Op) (hop : ∀ j, op ≠ Op.terminate j)
    (hrun : w.stateOf w.running = some State.RUNNING) (hm : Matched w)
    (h : switchPoint w op = some v) :
    Matched v ∧ ((∀ m, op ≠ Op.sleep m) → v.sleeping = w.sleeping) ∧
      (∀ m, op = Op.sleep m → ∃ t, hfind w.heap w.running = some t ∧
        mfind w.sleeping t.id = none ∧
        v.sleeping = minsert t.id (wrapInt (w.total_quantum_counter + m)) w.sleeping) := by
  cases op with
  | spawn => simp [switchPoint] at h
  | resume j => simp [switchPoint] at h
  | terminate j => exact absurd rfl (hop j)
  | timer =>
    simp only [switchPoint, World.timerEntry, hm.no_reap] at h
    obtain ⟨h1, h2⟩ := setReady_matched hm h (by
      intro t ht
      have : t.state = State.RUNNING := by simpa [World.stateOf, ht] using hrun
      exact hm.no_entry ht (by rw [this]; exact ⟨by decide, by decide⟩))
    exact ⟨h1, fun _ => h2, fun m hmm => by cases hmm⟩
  | block j =>
    simp only [switchPoint] at h
    split at h
    · simp at h
    · cases hq : w.getThreadByID j with
      | none => simp [hq] at h
      | some p =>
        simp only [hq] at h
        cases hf : hfind w.heap p with
        | none => simp [hf] at h
        | some t =>
          simp only [hf] at h
          split at h
          · simp at h
          · cases he : w.blockThreadEntry p with
            | none => simp [he] at h
            | some v1 =>
              simp only [he] at h
              split at h
              · simp at h
                subst h
                obtain ⟨h1, h2⟩ := blockThreadEntry_matched hm he
                exact ⟨h1, fun _ => h2, fun m hmm => by cases hmm⟩
              · simp at h
  | sleep n =>
    simp only [switchPoint] at h
    cases hf : hfind w.heap w.running with
    | none => simp [hf] at h
    | some t =>
      simp only [hf] at h
      split at h
      · simp at h
      · cases hse : w.sleepEntry n with
        | none => simp [hse] at h
        | some w2 =>
          simp only [hse] at h
          cases he : w2.blockThreadEntry w2.running with
          | none => simp [he] at h
          | some v1 =>
            simp only [he] at h
            split at h
            · simp at h
              subst h
              obtain ⟨s1, t1, s2, s3, s4⟩ := sleepEntry_matched hm hrun hse
              obtain ⟨h1, h2⟩ := blockThreadEntry_matched s1 he
              refine ⟨h1, fun hx => absurd rfl (hx n), ?_⟩
              intro m hmm
              cases hmm
              exact ⟨t1, hf.symm.trans s2, s3, by rw [h2, s4]⟩
            · simp at h

/-- An event (other than `terminate`) that does not reach a call of
`runNextThread` keeps the sleeping map matched and leaves it as it was. -/
theorem quiet_matched {w w1 : World} {r : Int} (M : Nat) (op : Op)
    (hop : ∀ j, op ≠ Op.terminate j) (hT : Tidy w) (hm : Matched w)
    (hsp : switchPoint w op = none) (h : step M w op = some (r, w1)) :
    Matched w1 ∧ w1.sleeping = w.sleeping := by
  have hsame : w1 = w → Matched w1 ∧ w1.sleeping = w.sleeping := by
    intro he
    rw [he]
    exact ⟨hm, rfl⟩
  cases op with
  | terminate j => exact absurd rfl (hop j)
  | spawn =>
    simp only [step] at h
    exact spawn_matched M hT hm h
  | resume j =>
    simp only [step, uthread_resume] at h
    cases hq : w.getThreadByID j with
    | none =>
      simp [hq] at h
      exact hsame h.2.symm
    | some p =>
      simp only [hq] at h
      cases hf : hfind w.heap p with
      | none => simp [hf] at h
      | some t =>
        simp only [hf] at h
        split at h
        · simp at h
          exact hsame h.2.symm
        · cases hu : w.unblockThread p with
          | none => simp [hu] at h
          | some w2 =>
            simp [hu] at h
            obtain ⟨_, rfl⟩ := h
            exact ⟨unblockThread_matched hm hu, unblockThread_sleeping hu⟩
  | block j =>
    simp only [switchPoint] at hsp
    simp only [step, uthread_block] at h
    split at h
    · simp at h
      exact hsame h.2.symm
    · rename_i hj
      rw [if_neg hj] at hsp
      cases hq : w.getThreadByID j with
      | none =>
        simp [hq] at h
        exact hsame h.2.symm
      | some p =>
        simp only [hq] at h hsp
        cases hf : hfind w.heap p with
        | none => simp [hf] at h
        | some t =>
          simp only [hf] at h hsp
          split at h
          · simp at h
            exact hsame h.2.symm
          · rename_i hnt
            rw [if_neg hnt] at hsp
            rw [blockThread_eq] at h
            cases he : w.blockThreadEntry p with
            | none => simp [he] at h
            | some v =>
              simp only [he] at h hsp
              split at hsp
              · simp at hsp
              · rename_i hr
                rw [if_neg hr] at h
                simp at h
                obtain ⟨_, rfl⟩ := h
                obtain ⟨h1, h2⟩ := blockThreadEntry_matched hm he
                exact ⟨h1.retable_m rfl (fun _ hx => hx) rfl rfl, h2⟩
  | sleep n =>
    simp only [switchPoint] at hsp
    simp only [step, uthread_sleep] at h
    cases hf : hfind w.heap w.running with
    | none => simp [hf] at h
    | some t =>
      simp only [hf] at h hsp
      split at h
      · simp at h
        exact hsame h.2.symm
      · rename_i hid
        rw [if_neg hid] at hsp
        rw [sleepCurrentThread_eq] at h
        cases hse : w.sleepEntry n with
        | none => simp [hse] at h
        | some w2 =>
          simp only [hse] at h hsp
          rw [blockThread_eq] at h
          cases he : w2.blockThreadEntry w2.running with
          | none => simp [he] at h
          | some v =>
            simp only [he] at h hsp
            obtain ⟨hq2, _⟩ := Quiet.of_blockThreadEntry he
            rw [if_pos hq2.running_eq] at hsp
            simp at hsp
  | timer =>
    simp only [switchPoint] at hsp
    simp [step, timerHandler_eq, hsp] at h

/-! ### The exact wake clock -/

theorem handleSleepingLoop_attained (l : List (Int × Int)) :
    ∀ (nc : Int) (w : World) (nc1 : Int) (w1 : World),
      World.handleSleepingLoop l nc w = some (nc1, w1) →
      nc1 = nc ∨ ∃ e ∈ l, e.2 ≠ w.next_sleep_check ∧ e.2 = nc1 := by
  induction l with
  | nil =>
    intro nc w nc1 w1 h
    simp [World.handleSleepingLoop] at h
    exact Or.inl h.1.symm
  | cons e l ih =>
    intro nc w nc1 w1 h
    obtain ⟨id, dd⟩ := e
    by_cases hd : dd = w.next_sleep_check
    · obtain ⟨w3, _, _, _, h3, _, _, _, hwoke, _, _⟩ :=
        handleSleepingLoop_due id dd l nc w (nc1, w1) hd h
      rcases ih nc w3 nc1 w1 h3 with h1 | ⟨e, he, h1, h2⟩
      · exact Or.inl h1
      · refine Or.inr ⟨e, by simp [he], ?_, h2⟩
        rw [← hwoke.check_eq]
        exact h1
    · rw [handleSleepingLoop_skip id dd l nc w hd] at h
      rcases ih _ w nc1 w1 h with h1 | ⟨e, he, h1, h2⟩
      · by_cases hc : nc = 0 ∨ dd < nc
        · rw [if_pos hc] at h1
          exact Or.inr ⟨(id, dd), by simp, hd, h1.symm⟩
        · rw [if_neg hc] at h1
          exact Or.inl h1
      · exact Or.inr ⟨e, by simp [he], h1, h2⟩

theorem eq_of_key_eq {β : Type} (m : List (Int × β)) (hn : (m.map Prod.fst).Nodup)
    (a b : Int × β) (ha : a ∈ m) (hb : b ∈ m) (hk : a.1 = b.1) : a = b := by
  have h1 := mfind_of_mem_nodup m a hn ha
  have h2 := mfind_of_mem_nodup m b hn hb
  rw [hk, h2] at h1
  simp at h1
  exact Prod.ext hk h1.symm

theorem ClockExact.switch_ce {v w1 : World} (hx : ClockExact v)
    (h0 : 0 ≤ v.total_quantum_counter) (hn : (v.sleeping.map Prod.fst).Nodup)
    (hr : v.runNextThread = some w1) : ClockExact w1 := by
  obtain ⟨hd, rest, th, woken, _, _, _, _, hne, heq, _⟩ := runNextThread_woke v w1 hr
  by_cases hc : v.total_quantum_counter + 1 = v.next_sleep_check
  · obtain ⟨nc1, w2, hl, rfl⟩ := handleSleeping_loop _ _ (heq hc)
    have hcm := handleSleepingLoop_calm _ _ _ _ _ hl
    have htot : w2.total_quantum_counter = v.total_quantum_counter + 1 := hcm.total_eq
    obtain ⟨c1, c2, c3⟩ := handleSleepingLoop_clock _ _ _ _ _ hl
    have hatt := handleSleepingLoop_attained _ _ _ _ _ hl
    have hsnsc : (v.switchTo hd th rest).next_sleep_check = v.next_sleep_check := rfl
    have hssl : (v.switchTo hd th rest).sleeping = v.sleeping := rfl
    rw [hsnsc, hssl] at c1 c2 c3 hatt
    have hmin : ∀ e ∈ v.sleeping, v.next_sleep_check ≤ e.2 := by
      rcases hx with ⟨_, h2⟩ | ⟨_, _, h2⟩
      · rw [h2]; simp
      · exact h2
    obtain ⟨d1, d2, _⟩ := c3 (by omega) hmin (Or.inl rfl)
    have hsub : ∀ e ∈ w2.sleeping, e ∈ v.sleeping := hcm.sleeping_sub
    by_cases hz : nc1 = 0
    · refine Or.inl ⟨hz, ?_⟩
      apply List.eq_nil_iff_forall_not_mem.2
      intro e he
      exact (d2 e (hsub e he) (c1 e he (hsub e he))).1 hz
    · refine Or.inr ⟨?_, ?_, fun e he => ?_⟩
      · show w2.total_quantum_counter < nc1
        rcases d1 with d1 | d1
        · exact absurd d1 hz
        · omega
      · rcases hatt with h1 | ⟨e, he, h1, h2⟩
        · exact absurd h1 hz
        · refine ⟨e, ?_, h2⟩
          have hk : mfind w2.sleeping e.1 = mfind v.sleeping e.1 := by
            apply c2
            intro e2 he2 hk2
            rw [eq_of_key_eq v.sleeping hn e2 e he2 he hk2]
            exact h1
          rw [mfind_of_mem_nodup v.sleeping e hn he] at hk
          exact mfind_mem _ _ _ hk
      · exact (d2 e (hsub e he) (c1 e he (hsub e he))).2
  · rw [hne hc]
    rcases hx with ⟨h1, h2⟩ | ⟨h1, h2, h3⟩
    · exact Or.inl ⟨h1, h2⟩
    · refine Or.inr ⟨?_, h2, h3⟩
      show v.total_quantum_counter + 1 < v.next_sleep_check
      omega

theorem ClockLeast.switch_cl {v w1 : World} (hx : ClockLeast v)
    (h0 : 0 ≤ v.total_quantum_counter) (hn : (v.sleeping.map Prod.fst).Nodup)
    (hr : v.runNextThread = some w1) : ClockLeast w1 := by
  by_cases hc : v.total_quantum_counter + 1 = v.next_sleep_check
  · have hxe : ClockExact v := by
      rcases hx with ⟨h1, _⟩ | ⟨_, h2, h3⟩
      · omega
      · exact Or.inr ⟨by omega, h2, h3⟩
    have htot := (Switched.of_runNextThread hr).total_eq
    rcases hxe.switch_ce h0 hn hr with h | ⟨h1, h2, h3⟩
    · exact Or.inl h
    · exact Or.inr ⟨by omega, h2, h3⟩
  · obtain ⟨hd, rest, th, woken, _, _, _, _, hne, _, _⟩ := runNextThread_woke v w1 hr
    rw [hne hc]
    exact hx

theorem ClockLeast.sleepPre_cl {n : Int} {w v : World} {k : Int} (hx : ClockLeast w)
    (hn : wrapInt (w.total_quantum_counter + n) ≠ 0)
    (hs : SleepPre n w v) (hk : mfind w.sleeping k = none)
    (hsl : v.sleeping = minsert k (wrapInt (w.total_quantum_counter + n)) w.sleeping) :
    ClockLeast v := by
  have hins : v.sleeping = mplace k (wrapInt (w.total_quantum_counter + n)) w.sleeping := by
    rw [hsl]
    simp [minsert, hk]
  have hmem : ∀ e, e ∈ v.sleeping ↔ e = (k, wrapInt (w.total_quantum_counter + n)) ∨ e ∈ w.sleeping := by
    intro e
    rw [hins]
    exact mem_mplace _ _ _ _
  have hold : ∀ e ∈ w.sleeping, w.next_sleep_check ≠ 0 ∧ w.next_sleep_check ≤ e.2 := by
    intro e he
    rcases hx with ⟨_, h2⟩ | ⟨h1, _, h3⟩
    · rw [h2] at he
      simp at he
    · exact ⟨h1, h3 e he⟩
  unfold ClockLeast
  rw [hs.check_eq]
  refine Or.inr ?_
  by_cases hc : w.next_sleep_check = 0 ∨ wrapInt (w.total_quantum_counter + n) < w.next_sleep_check
  · rw [if_pos hc]
    refine ⟨hn, ⟨_, (hmem _).2 (Or.inl rfl), rfl⟩, ?_⟩
    intro e he
    rcases (hmem e).1 he with h1 | h1
    · rw [h1]
    · obtain ⟨b1, b2⟩ := hold e h1
      rcases hc with hc | hc
      · exact absurd hc b1
      · omega
  · rw [if_neg hc]
    rcases hx with ⟨h1, _⟩ | ⟨h1, ⟨e0, he0, h2⟩, h3⟩
    · exact absurd (Or.inl h1) hc
    · refine ⟨h1, ⟨e0, (hmem e0).2 (Or.inr he0), h2⟩, ?_⟩
      intro e he
      rcases (hmem e).1 he with h4 | h4
      · rw [h4]
        have : ¬ wrapInt (w.total_quantum_counter + n) < w.next_sleep_check := fun h => hc (Or.inr h)
        simp only []
        omega
      · exact h3 e h4

theorem switch_keys_nodup {v w1 : World} (hn : (v.sleeping.map Prod.fst).Nodup)
    (hr : v.runNextThread = some w1) : (w1.sleeping.map Prod.fst).Nodup := by
  obtain ⟨hd, rest, th, woken, _, _, _, _, hne, heq, _⟩ := runNextThread_woke v w1 hr
  by_cases hc : v.total_quantum_counter + 1 = v.next_sleep_check
  · obtain ⟨nc1, w2, hl, rfl⟩ := handleSleeping_loop _ _ (heq hc)
    exact (handleSleepingLoop_calm _ _ _ _ _ hl).keys_nodup hn
  · rw [hne hc]
    exact hn

theorem Settled.at_init (q : Int) : Settled (initWorld q) where
  tidy := {
    ready_states := by simp [initWorld]
    nodup := by simp [initWorld]
    fresh := by
      intro x t ht
      by_cases hx : x = 0
      · rw [hx]
        simp [initWorld]
      · have h2 : ¬ 0 = x := fun e => hx e.symm
        simp [initWorld, hfind, h2] at ht
    reap := by simp [initWorld] }
  runs := by simp [initWorld, World.stateOf, hfind]
  matched := {
    ids_le := by
      intro p t ht
      by_cases hp : 0 = p
      · simp [initWorld, hfind, hp] at ht
        rw [← ht]
        simp [initWorld]
      · simp [initWorld, hfind, hp] at ht
    ids_inj := by
      intro p q2 t u ht hu _
      by_cases hp : 0 = p
      · by_cases hq : 0 = q2
        · rw [← hp, ← hq]
        · simp [initWorld, hfind, hq] at hu
      · simp [initWorld, hfind, hp] at ht
    no_free := by simp [initWorld]
    no_reap := by simp [initWorld]
    entries := by
      intro p t _ hs
      simp [initWorld, mfind] at hs
    keys_le := by simp [initWorld] }
  keys := by simp [initWorld]
  nonneg := by simp [initWorld]
  least := Or.inl ⟨by simp [initWorld], by simp [initWorld]⟩

theorem Settled.step_st {w w1 : World} {r : Int} (M : Nat) (op : Op) (hs : Settled w)
    (hop : ∀ j, op ≠ Op.terminate j)
    (hpos : ∀ m, op = Op.sleep m → wrapInt (w.total_quantum_counter + m) ≠ 0)
    (h : step M w op = some (r, w1)) : Settled w1 := by
  cases hsp : switchPoint w op with
  | none =>
    obtain ⟨q1, _, q3, _⟩ := quiet_effect M op hop hs.tidy hs.runs hsp h
    obtain ⟨m1, m2⟩ := quiet_matched M op hop hs.tidy hs.matched hsp h
    have hc := step_calm M op hsp h
    refine ⟨q1, q3, m1, hc.keys_nodup hs.keys, by rw [hc.total_eq]; exact hs.nonneg, ?_⟩
    unfold ClockLeast
    rw [hc.check_eq, m2]
    exact hs.least
  | some v =>
    obtain ⟨e1, _, _⟩ := switchPoint_effect op hop hs.tidy hs.runs hsp
    obtain ⟨m1, m2, m3⟩ := switchPoint_matched op hop hs.runs hs.matched hsp
    have hv : (v.sleeping.map Prod.fst).Nodup ∧ 0 ≤ v.total_quantum_counter ∧ ClockLeast v := by
      rcases switchPoint_tables op hsp with hc | ⟨n, hn, hpre⟩
      · refine ⟨hc.keys_nodup hs.keys, by rw [hc.total_eq]; exact hs.nonneg, ?_⟩
        have hns : ∀ m, op ≠ Op.sleep m := by
          intro m hm
          rw [hm] at hsp
          obtain ⟨t, _, hk, hsl⟩ := m3 m hm
          have h1 : (t.id, wrapInt (w.total_quantum_counter + m)) ∈ v.sleeping := by
            rw [hsl]
            simp [minsert, hk]
            exact (mem_mplace _ _ _ _).2 (Or.inl rfl)
          have h2 := hc.sleeping_sub _ h1
          have h3 := mfind_isSome_of_mem w.sleeping _ h2
          simp only [] at h3
          rw [hk] at h3
          simp at h3
        unfold ClockLeast
        rw [hc.check_eq, m2 hns]
        exact hs.least
      · obtain ⟨t, _, hk, hsl⟩ := m3 n hn
        refine ⟨?_, by rw [hpre.total_eq]; exact hs.nonneg,
          hs.least.sleepPre_cl (hpos n hn) hpre hk hsl⟩
        rw [hsl]
        exact nodup_keys_minsert _ _ _ hs.keys
    rw [step_at_switchPoint M w op v hsp] at h
    cases hr : v.runNextThread with
    | none => simp [hr] at h
    | some w2 =>
      simp [hr] at h
      obtain ⟨_, rfl⟩ := h
      obtain ⟨s1, s2, s3⟩ := switch_matched e1 m1 hr
      exact ⟨s1, s2, s3, switch_keys_nodup hv.1 hr,
        by rw [(Switched.of_runNextThread hr).total_eq]; omega,
        hv.2.2.switch_cl hv.2.1 hv.1 hr⟩

/-! ### The ready queue at a switch -/

theorem Thinned.thin_stay (q : Nat) (w : World) : Thinned q w w :=
  ⟨rfl, List.Sublist.refl _, fun _ _ _ h => h⟩

theorem Thinned.thin_seq {q : Nat} {a b c : World} (h1 : Thinned q a b) (h2 : Thinned q b c) :
    Thinned q a c where
  running_eq := by rw [h2.running_eq, h1.running_eq]
  ready_sub := h2.ready_sub.trans h1.ready_sub
  states := fun x hx s hs => h1.states x hx s (h2.states x hx s hs)

theorem Thinned.thin_setState {w v : World} {q : Nat} {s : State}
    (h : w.setState q s = some v) : Thinned q w v := by
  obtain ⟨t, _, rfl⟩ := setState_spec h
  exact ⟨rfl, List.Sublist.refl _, fun x hx s hs => by
    rw [stateOf_restate q _ x rfl hx] at hs
    exact hs⟩

theorem Thinned.thin_blockThreadEntry {w v : World} {p : Nat}
    (h : w.blockThreadEntry p = some v) : Thinned p w v := by
  simp only [World.blockThreadEntry] at h
  cases ht : hfind w.heap p with
  | none => simp [ht] at h
  | some t =>
    simp only [ht] at h
    cases h1 : (if t.state ≠ State.SLEEPING ∨ (mfind w.blocked t.id).isSome
           then w.setState p State.BLOCKED else some w) with
    | none => simp [h1] at h
    | some w1 =>
      simp only [h1, Option.some.injEq] at h
      subst h
      split at h1
      · have := Thinned.thin_setState h1
        exact ⟨this.running_eq, this.ready_sub, this.states⟩
      · simp only [Option.some.injEq] at h1
        subst h1
        exact ⟨rfl, List.Sublist.refl _, fun _ _ _ hs => hs⟩

theorem Thinned.thin_removeThread {w v : World} {p : Nat} (q : Nat)
    (h : w.removeThread p = some v) : Thinned q w v := by
  cases ht : hfind w.heap p with
  | none => simp [World.removeThread, ht] at h
  | some t =>
    simp [World.removeThread, ht] at h
    subst h
    refine ⟨rfl, ?_, fun _ _ _ hs => hs⟩
    show List.Sublist (lremove w.ready p) w.ready
    rw [lremove_eq_filter]
    exact List.filter_sublist _

theorem Thinned.thin_deleteThread {w v : World} {p : Nat} (q : Nat)
    (h : w.deleteThread p = some v) : Thinned q w v := by
  cases ht : hfind w.heap p with
  | none => simp [World.deleteThread, ht] at h
  | some t =>
    simp [World.deleteThread, ht] at h
    subst h
    refine ⟨rfl, List.Sublist.refl _, fun x _ s hs => ?_⟩
    simp only [World.stateOf, hfind_hdel] at hs
    by_cases hx : x = p
    · simp [hx] at hs
    · simpa [World.stateOf, hx] using hs

theorem Thinned.thin_removeID {w v : World} {p : Nat} (q : Nat)
    (h : w.removeID p = some v) : Thinned q w v := by
  cases ht : hfind w.heap p with
  | none => simp [World.removeID, ht] at h
  | some t =>
    simp [World.removeID, ht] at h
    subst h
    exact ⟨rfl, List.Sublist.refl _, fun _ _ _ hs => hs⟩

theorem Thinned.thin_reap {w v : World} (q : Nat)
    (h : w.reapBeforeTerminate = some v) : Thinned q w v := by
  simp only [World.reapBeforeTerminate] at h
  split at h
  · simp at h
    subst h
    exact Thinned.thin_stay q w
  · split at h
    · rename_i x _ _
      cases h1 : w.removeThread x with
      | none => simp [h1] at h
      | some w1 =>
        simp only [h1] at h
        exact (Thinned.thin_removeThread q h1).thin_seq (Thinned.thin_deleteThread q h)
    · simp at h
      subst h
      exact Thinned.thin_stay q w

theorem Thinned.thin_sleepEntry {w v : World} {n : Int} (h : w.sleepEntry n = some v) :
    Thinned w.running w v := by
  rw [sleepEntry_eq] at h
  cases ht : hfind w.heap w.running with
  | none => simp [ht] at h
  | some t =>
    simp [ht] at h
    subst h
    exact ⟨rfl, List.Sublist.refl _, fun x hx s hs => by
      rw [stateOf_restate w.running _ x rfl hx] at hs
      exact hs⟩

theorem Thinned.thin_terminateEntry {w v : World} {p : Nat} (h : w.terminateEntry p = some v) :
    Thinned w.running w v := by
  simp only [World.terminateEntry] at h
  split at h
  · split at h
    · cases h0 : w.reapBeforeTerminate with
      | none => simp [h0] at h
      | some w1 =>
        simp only [h0] at h
        cases h1 : World.setState { w1 with terminated := some w1.running } w1.running
            State.TERMINATED with
        | none => simp [h1] at h
        | some w2 =>
          simp only [h1] at h
          cases h2 : w2.removeThread p with
          | none => simp [h2] at h
          | some w3 =>
            simp only [h2] at h
            have t0 := Thinned.thin_reap w.running h0
            have ha : Thinned w.running w1 { w1 with terminated := some w1.running } :=
              ⟨rfl, List.Sublist.refl _, fun _ _ _ hs => hs⟩
            have t1 : Thinned w.running { w1 with terminated := some w1.running } w2 := by
              have := Thinned.thin_setState h1
              exact ⟨this.running_eq, this.ready_sub, fun x hx =>
                this.states x (by rw [t0.running_eq]; exact hx)⟩
            exact (((t0.thin_seq ha).thin_seq t1).thin_seq (Thinned.thin_removeThread _ h2)).thin_seq
              (Thinned.thin_removeID _ h)
    · simp at h
  · simp at h

/-- The state in which an event other than a timer expiry calls
`runNextThread`: the ready queue only lost threads and only the caller changed
its state. -/
theorem switchPoint_thinned {w v : World} (op : Op) (hop : op ≠ Op.timer)
    (h : switchPoint w op = some v) : Thinned w.running w v := by
  cases op with
  | spawn => simp [switchPoint] at h
  | resume j => simp [switchPoint] at h
  | timer => exact absurd rfl hop
  | sleep n =>
    simp only [switchPoint] at h
    cases hf : hfind w.heap w.running with
    | none => simp [hf] at h
    | some t =>
      simp only [hf] at h
      split at h
      · simp at h
      · cases hse : w.sleepEntry n with
        | none => simp [hse] at h
        | some w2 =>
          simp only [hse] at h
          cases he : w2.blockThreadEntry w2.running with
          | none => simp [he] at h
          | some v1 =>
            simp only [he] at h
            split at h
            · simp at h
              subst h
              have t1 := Thinned.thin_sleepEntry hse
              have t2 := Thinned.thin_blockThreadEntry he
              rw [t1.running_eq] at t2
              exact t1.thin_seq t2
            · simp at h
  | terminate j =>
    simp only [switchPoint] at h
    split at h
    · simp at h
    · cases hq : w.getThreadByID j with
      | none => simp [hq] at h
      | some p =>
        simp only [hq] at h
        exact Thinned.thin_terminateEntry h
  | block j =>
    simp only [switchPoint] at h
    split at h
    · simp at h
    · cases hq : w.getThreadByID j with
      | none => simp [hq] at h
      | some p =>
        simp only [hq] at h
        cases hf : hfind w.heap p with
        | none => simp [hf] at h
        | some t =>
          simp only [hf] at h
          split at h
          · simp at h
          · cases he : w.blockThreadEntry p with
            | none => simp [he] at h
            | some v1 =>
              simp only [he] at h
              split at h
              · rename_i hrp
                simp at h
                subst h
                have t2 := Thinned.thin_blockThreadEntry he
                have hp : p = w.running := by rw [← hrp, t2.running_eq]
                rw [hp] at t2
                exact t2
              · simp at h

/-- The state in which the timer handler calls `runNextThread`: the ready queue
is the old one followed by the preempted thread, and only that thread changed
its state. -/
theorem timerEntry_queue {w v : World} (h : w.timerEntry = some v) :
    v.running = w.running ∧ v.ready = w.ready ++ [w.running] ∧
      ∀ x, x ≠ w.running → ∀ s, v.stateOf x = some s → w.stateOf x = some s := by
  simp only [World.timerEntry] at h
  have key : ∀ w1, Thinned w.running w w1 → w1.ready = w.ready → w1.setReady w1.running = some v →
      v.running = w.running ∧ v.ready = w.ready ++ [w.running] ∧
        ∀ x, x ≠ w.running → ∀ s, v.stateOf x = some s → w.stateOf x = some s := by
    intro w1 t1 hr1 hs
    simp only [World.setReady] at hs
    cases h2 : w1.setState w1.running State.READY with
    | none => simp [h2] at hs
    | some w2 =>
      simp [h2] at hs
      subst hs
      have t2 := Thinned.thin_setState h2
      rw [t1.running_eq] at t2
      obtain ⟨_, _, _, e4, e5, _⟩ := setState_frame h2
      refine ⟨by show w2.running = _; rw [e4, t1.running_eq], ?_, ?_⟩
      · show w2.ready ++ [w1.running] = _
        rw [e5, hr1, t1.running_eq]
      · exact fun x hx s hs => (t1.thin_seq t2).states x hx s hs
  cases ht : w.terminated with
  | none =>
    simp only [ht] at h
    exact key w (Thinned.thin_stay _ w) rfl h
  | some x =>
    simp only [ht] at h
    cases hd : w.deleteThread x with
    | none => simp [hd] at h
    | some w1 =>
      simp only [hd] at h
      have t1 := Thinned.thin_deleteThread w.running hd
      have hr : w1.ready = w.ready := by
        cases hx : hfind w.heap x with
        | none => simp [World.deleteThread, hx] at hd
        | some tx =>
          simp [World.deleteThread, hx] at hd
          subst hd
          rfl
      exact key { w1 with terminated := none } ⟨t1.running_eq, t1.ready_sub, t1.states⟩ hr h

/-- An event that raises the counter and leaves in the ready queue a thread
`p` that was not there before has appended `p` to the queue, among the
threads woken at this quantum start. -/
theorem step_appended {w w1 : World} {r : Int} (M : Nat) (op : Op) (p : Nat)
    (h : step M w op = some (r, w1))
    (htot : w1.total_quantum_counter ≠ w.total_quantum_counter)
    (hnr : p ∉ w.ready) (hrun : w.running ≠ p ∨ op ≠ Op.timer) (hin : p ∈ w1.ready) :
    AppendedAt p w w1 := by
  cases hsp : switchPoint w op with
  | none => exact absurd (step_calm M op hsp h).total_eq htot
  | some v =>
    rw [step_at_switchPoint M w op v hsp] at h
    cases hr : v.runNextThread with
    | none => simp [hr] at h
    | some w2 =>
      simp [hr] at h
      obtain ⟨_, rfl⟩ := h
      obtain ⟨hd, rest, th, woken, hready, hh, hw, _, _, _, _⟩ := runNextThread_woke v w2 hr
      have hq : v.running = w.running ∧ List.Sublist v.ready (w.ready ++ [w.running]) ∧
          (p ∉ v.ready) ∧
          ∀ x, x ≠ w.running → ∀ s, v.stateOf x = some s → w.stateOf x = some s := by
        by_cases hop : op = Op.timer
        · rw [hop] at hsp
          obtain ⟨a, b, c⟩ := timerEntry_queue hsp
          refine ⟨a, by rw [b], ?_, c⟩
          rw [b]
          rcases hrun with hrun | hrun
          · simp only [List.mem_append, List.mem_singleton, not_or]
            exact ⟨hnr, fun e => hrun e.symm⟩
          · exact absurd hop hrun
        · have t := switchPoint_thinned op hop hsp
          exact ⟨t.running_eq, t.ready_sub.trans (List.sublist_append_left _ _),
            fun hm => hnr (t.ready_sub.subset hm), t.states⟩
      obtain ⟨q1, q2, q3, q4⟩ := hq
      have hrd : w2.ready = rest ++ woken := by
        simpa [World.switchTo] using hw.ready_eq
      have hrest : List.Sublist rest v.ready := by
        rw [hready]
        exact List.sublist_cons_self _ _
      have hpr : p ∉ rest := fun hm => q3 (hrest.subset hm)
      refine ⟨rest, woken, hrd, hrest.trans q2, hpr, ?_, ?_⟩
      · rw [hrd] at hin
        rcases List.mem_append.1 hin with hm | hm
        · exact absurd hm hpr
        · exact hm
      · intro x hx
        obtain ⟨t, ht, hs, ht1⟩ := hw.heap_woken x hx
        have hxh : x ≠ hd := by
          intro e
          rw [e] at ht
          simp [World.switchTo, hfind_hset, hh] at ht
          rw [← ht] at hs
          simp at hs
        refine ⟨by simpa [World.stateOf] using congrArg (Option.map Thread.state) ht1, ?_⟩
        by_cases hxr : x = w.running
        · exact Or.inl hxr
        · right
          simp only [World.switchTo, hfind_hset, hxh, if_false] at ht
          exact q4 x hxr State.SLEEPING (by simp [World.stateOf, ht, hs])

/-- Two consecutive states of an execution are joined by one of its events. -/
theorem trace_pair_step (M : Nat) (ops : List Op) :
    ∀ (w : World) (ws : List World), trace M ops w = some ws →
      ∀ a b, [a, b] <:+: (w :: ws) → ∃ op r, step M a op = some (r, b) := by
  induction ops with
  | nil =>
    intro w ws h a b hab
    simp [trace] at h
    subst h
    have := hab.length_le
    simp at this
  | cons op ops ih =>
    intro w ws h a b hab
    obtain ⟨r, w1, ws1, hs, ht, rfl⟩ := trace_cons M op ops w ws h
    rcases pair_infix_cons a b w (w1 :: ws1) hab with ⟨ha, l1, hl1⟩ | hab2
    · simp at hl1
      rw [ha, ← hl1.1]
      exact ⟨op, r, hs⟩
    · exact ih w1 ws1 ht a b hab2

/-- The wake-up time of a `sleep m` called at counter `T ≥ 0` with `m ≥ 1` and
`T + m` within the range of `int` lies above `T`. -/
theorem wake_up_time_above {T m : Int} (h0 : 0 ≤ T) (h1 : 1 ≤ m)
    (h2 : T + m ≤ 2147483647) : T < wrapInt (T + m) := by
  rw [wrapInt_of_range (by omega) h2]
  omega

/-- The wake-up time of a `sleep m` with `m ≥ 1`, called at a counter `T ≥ 0`,
both within the range of `int`, is not 0. -/
theorem wake_up_time_ne_zero {T m : Int} (h0 : 0 ≤ T) (h1 : 1 ≤ m)
    (h2 : m ≤ 2147483647) (h3 : T ≤ 2147483647) : wrapInt (T + m) ≠ 0 := by
  unfold wrapInt
  omega

/-- C21 (amended): take an execution from `init` through spawn, block, resume,
terminate, timer expiries and `sleep` calls with positive arguments (argument
and counter being values of type `int`).  If no `terminate` is among the
events, then in every state `next_sleep_check` is the minimum deadline stored
in the sleeping map (it is not 0, some entry has it as its deadline and no
entry has a smaller one), or it is 0 and the sleeping map is empty.  With
`terminate` among the events that fails; if no `sleep` overflows (each wake-up
time is at most the largest `int`) the bound remains: the counter is not
negative and either `next_sleep_check` is 0 and the sleeping map is empty, or
`next_sleep_check` lies above the counter and at or below every deadline
stored in the sleeping map. -/
theorem next_check_least_deadline (M : Nat) (q : Int) (w0 : World) (ops : List Op)
    (ws : List World)
    (hinit : uthread_init q = some (0, some w0))
    (hpos : ∀ e ∈ List.zip (w0 :: ws) ops, SleepPositive e.1 e.2)
    (htr : trace M ops w0 = some ws) :
    ∀ w ∈ w0 :: ws,
      ((∀ op ∈ ops, ∀ j, op ≠ Op.terminate j) →
        (w.next_sleep_check = 0 ∧ w.sleeping = []) ∨
        (w.next_sleep_check ≠ 0 ∧
          (∃ e ∈ w.sleeping, e.2 = w.next_sleep_check) ∧
          ∀ e ∈ w.sleeping, w.next_sleep_check ≤ e.2)) ∧
      ((∀ e ∈ List.zip (w0 :: ws) ops, SleepFits e.1 e.2) →
        0 ≤ w.total_quantum_counter ∧
        ((w.next_sleep_check = 0 ∧ w.sleeping = []) ∨
         (w.total_quantum_counter < w.next_sleep_check ∧
           ∀ e ∈ w.sleeping, w.next_sleep_check ≤ e.2))) := by
  have hw0 : w0 = initWorld q := (uthread_init_some hinit).2.2
  subst hw0
  have hk0 : ClockSound (initWorld q) := by
    simp [ClockSound, initWorld]
  intro w hw
  refine ⟨fun hnt => ?_, fun hfit => ?_⟩
  · have hst := trace_keeps Settled
      (fun a op => (∀ j, op ≠ Op.terminate j) ∧ SleepPositive a op) M
      (fun a op r b ha hg hs => ha.step_st M op hg.1
        (fun m hm => by
          have h2 := hg.2
          rw [hm] at h2
          exact wake_up_time_ne_zero ha.nonneg h2.1 h2.2.1 h2.2.2) hs)
      ops (initWorld q) ws (Settled.at_init q)
      (fun e he => ⟨hnt e.2 (List.of_mem_zip (show (e.1, e.2) ∈ _ from he)).2, hpos e he⟩)
      htr w hw
    exact hst.least
  · exact trace_keeps ClockSound SleepFits M
      (fun a op r b ha hg hs => ha.step_cs M op
        (fun m hm => by
          rw [hm] at hg
          exact wake_up_time_above ha.1 hg.1 hg.2) hs)
      ops (initWorld q) ws hk0 hfit htr w hw

/-- C21 (witness): two spawns, a timer expiry and `sleep 5` by thread 1 at
counter 2; in the last state the sleeping map holds the deadline 7 and
`next_sleep_check` is 7. -/
theorem next_check_least_deadline_witness :
    uthread_init 1 = some (0, some (initWorld 1)) ∧
    trace 100 [Op.spawn, Op.spawn, Op.timer, Op.sleep 5] (initWorld 1)
      = some (tracedFrom [Op.spawn, Op.spawn, Op.timer, Op.sleep 5] (initWorld 1)) ∧
    (∀ e ∈ List.zip
        (initWorld 1 :: tracedFrom [Op.spawn, Op.spawn, Op.timer, Op.sleep 5] (initWorld 1))
        [Op.spawn, Op.spawn, Op.timer, Op.sleep 5], SleepPositive e.1 e.2) ∧
    (worldAfter [Op.spawn, Op.spawn, Op.timer, Op.sleep 5]).sleeping = [(1, 7)] ∧
    (worldAfter [Op.spawn, Op.spawn, Op.timer, Op.sleep 5]).next_sleep_check = 7 ∧
    worldAfter [Op.spawn, Op.spawn, Op.timer, Op.sleep 5]
      ∈ initWorld 1 :: tracedFrom [Op.spawn, Op.spawn, Op.timer, Op.sleep 5] (initWorld 1) ∧
    ∀ w ∈ initWorld 1 :: tracedFrom [Op.spawn, Op.spawn, Op.timer, Op.sleep 5] (initWorld 1),
      ((∀ op ∈ [Op.spawn, Op.spawn, Op.timer, Op.sleep 5], ∀ j, op ≠ Op.terminate j) →
        (w.next_sleep_check = 0 ∧ w.sleeping = []) ∨
        (w.next_sleep_check ≠ 0 ∧
          (∃ e ∈ w.sleeping, e.2 = w.next_sleep_check) ∧
          ∀ e ∈ w.sleeping, w.next_sleep_check ≤ e.2)) ∧
      ((∀ e ∈ List.zip
          (initWorld 1 :: tracedFrom [Op.spawn, Op.spawn, Op.timer, Op.sleep 5] (initWorld 1))
          [Op.spawn, Op.spawn, Op.timer, Op.sleep 5], SleepFits e.1 e.2) →
        0 ≤ w.total_quantum_counter ∧
        ((w.next_sleep_check = 0 ∧ w.sleeping = []) ∨
         (w.total_quantum_counter < w.next_sleep_check ∧
           ∀ e ∈ w.sleeping, w.next_sleep_check ≤ e.2))) :=
  ⟨by decide, by decide, by decide, by decide, by decide, by decide,
    next_check_least_deadline 100 1 (initWorld 1)
      [Op.spawn, Op.spawn, Op.timer, Op.sleep 5]
      (tracedFrom [Op.spawn, Op.spawn, Op.timer, Op.sleep 5] (initWorld 1))
      (by decide) (by decide) (by decide)⟩

end UThread
